import Mathlib

/-!
Routines of `fixest`: recovery of the fixed-effect coefficients and helpers

A shallow embedding of `cpp_get_fe_2`, `cpp_get_fe_gnl`, `cpp_partialDerivative_other`,
`cpp_lag_obs`, `cpp_update_dum`, `cpp_pgcd` and `cpp_unclassFactor` (file
`src/misc_funs.cpp`) and of `cpppar_matprod` (file `src/parallel_funs.cpp`), and the
properties of these routines.

Conventions of the embedding.

* Doubles are rationals (`ℚ`) and their arithmetic is exact, except in two sections.
  The recoverers in double precision (`cpp_get_fe_2_rnd`, `cpp_get_fe_gnl_rnd`) round
  the result of every arithmetic operation (`roundDouble`).  The solver on the values
  of a double (`cpp_partialDerivative_other_ext`) has the special values `+inf`, `-inf`
  and NaN, which a division by a zero weight sum produces.
* C++ `int` indices and counters are natural numbers.  The comparisons of
  `cpp_get_fe_gnl` against `Q-1` and `Q-2` are made in `ℤ`, as in the source.  The
  times of `cpp_lag_obs` are integers, and their differences are wrapped to the 32 bits
  of an `int` (`int32`).
* Arrays allocated by the routine are functions `Nat → α`; a write is `setAt`.
  Arrays received as arguments are lists.
* An array filled up to a counter (`cluster_pending_j` with `n_pending_j`, `id2do`
  with `nb2do`) is the list of its filled entries.
* A read or write outside an array has no result: the embedding returns `none` there.
  Through `operator[]` and through the matrix accessor `m(i, j)` such an access is
  undefined behaviour in the source; through the vector accessor `v(i)`, which checks
  the index, it raises `index_out_of_bounds` (the prologue of `cpp_get_fe_gnl` on raw
  arguments tells the two apart).  `none` is also returned when the fuel given to a
  `while` loop runs out.
* The properties of `cpp_get_fe_gnl` and of `cpp_get_fe_2` that hold at a point of
  their run are stated on the log of the program points reached (`gnl_run_log`,
  `fe2_run_log`), which makes the same steps as the routine and ends in the same state.
-/

namespace Fixest

/-- Write `v` at index `i` of an array represented as a function. -/
def setAt {α : Type} (f : Nat → α) (i : Nat) (v : α) : Nat → α :=
  fun k => if k = i then v else f k

/-! ## The Bipartite Recoverer `cpp_get_fe_2` -/

/-- Arguments of `cpp_get_fe_2`; `n_i` and `n_j` are the two entries of `clusterSize`. -/
structure Fe2Input where
  n_i : Nat
  n_j : Nat
  i_sorted_index_j : List Nat
  i_sorted_sumFE : List ℚ
  j_sorted_index_i : List Nat
  j_sorted_sumFE : List ℚ
  cumtable_i : List Nat
  cumtable_j : List Nat

/-- Local variables of `cpp_get_fe_2`. -/
structure Fe2State where
  isRef_i : Nat → Bool
  isRef_j : Nat → Bool
  cluster_coef_i : Nat → ℚ
  cluster_coef_j : Nat → ℚ
  to_visit_i : Nat → Bool
  to_visit_j : Nat → Bool
  cluster_pending_i : List Nat
  cluster_pending_j : List Nat
  n_done : Nat
  j_start : Nat

/-- State before the `while` loop (source lines 285-294). -/
def fe2_init : Fe2State where
  isRef_i := fun _ => false
  isRef_j := fun _ => false
  cluster_coef_i := fun _ => 0
  cluster_coef_j := fun _ => 0
  to_visit_i := fun _ => true
  to_visit_j := fun _ => true
  cluster_pending_i := []
  cluster_pending_j := []
  n_done := 0
  j_start := 0

/-- First position of the bucket of category `k`: `k == 0 ? 0 : cumtable[k-1]`. -/
def bucketStart (cumtable : List Nat) (k : Nat) : Option Nat :=
  if k = 0 then some 0 else cumtable[k - 1]?

/-- The loop `for(u = k == 0 ? 0 : cumtable[k-1] ; u < cumtable[k] ; u++)` with body `f`. -/
def forBucket {σ : Type} (cumtable : List Nat) (k : Nat) (f : σ → Nat → Option σ) (s : σ) :
    Option σ :=
  match bucketStart cumtable k, cumtable[k]? with
  | some lo, some hi => (List.range' lo (hi - lo)).foldlM f s
  | _, _ => none

/-- Body of the inner loop of lines 324-334, at position `u` of the bucket of `j`. -/
def visit_i (inp : Fe2Input) (j : Nat) (s : Fe2State) (u : Nat) : Option Fe2State :=
  match inp.j_sorted_index_i[u]? with
  | none => none
  | some i =>
    if i < inp.n_i then
      if s.to_visit_i i then
        match inp.j_sorted_sumFE[u]? with
        | none => none
        | some v =>
          some { s with
            cluster_coef_i := setAt s.cluster_coef_i i (v - s.cluster_coef_j j)
            to_visit_i := setAt s.to_visit_i i false
            n_done := s.n_done + 1
            cluster_pending_i := s.cluster_pending_i ++ [i] }
      else some s
    else none

/-- Body of the inner loop of lines 340-350, at position `u` of the bucket of `i`. -/
def visit_j (inp : Fe2Input) (i : Nat) (s : Fe2State) (u : Nat) : Option Fe2State :=
  match inp.i_sorted_index_j[u]? with
  | none => none
  | some j =>
    if j < inp.n_j then
      if s.to_visit_j j then
        match inp.i_sorted_sumFE[u]? with
        | none => none
        | some v =>
          some { s with
            cluster_coef_j := setAt s.cluster_coef_j j (v - s.cluster_coef_i i)
            to_visit_j := setAt s.to_visit_j j false
            n_done := s.n_done + 1
            cluster_pending_j := s.cluster_pending_j ++ [j] }
      else some s
    else none

/-- Lines 321-335: from the pending categories of dimension 2 to dimension 1. -/
def propagate_j_to_i (inp : Fe2Input) (s : Fe2State) : Option Fe2State :=
  s.cluster_pending_j.foldlM (fun t j => forBucket inp.cumtable_j j (visit_i inp j) t)
    { s with cluster_pending_i := [] }

/-- Lines 337-351: from the pending categories of dimension 1 to dimension 2. -/
def propagate_i_to_j (inp : Fe2Input) (s : Fe2State) : Option Fe2State :=
  s.cluster_pending_i.foldlM (fun t i => forBucket inp.cumtable_i i (visit_j inp i) t)
    { s with cluster_pending_j := [] }

/-- Lines 297-307: the scan `for(j=j_start ; to_visit_j[j] == false ; j++)` and the
setting of the reference.  The scan leaves the array when no category at or after
`j_start` is left to visit. -/
def set_reference (inp : Fe2Input) (s : Fe2State) : Option Fe2State :=
  match (List.range' s.j_start (inp.n_j - s.j_start)).find? (fun j => s.to_visit_j j) with
  | none => none
  | some j =>
    some { s with
      j_start := j + 1
      isRef_j := setAt s.isRef_j j true
      to_visit_j := setAt s.to_visit_j j false
      n_done := s.n_done + 1
      cluster_coef_j := setAt s.cluster_coef_j j 0
      cluster_pending_j := [j] }

/-- One pass of the `while` loop (lines 297-351). -/
def fe2_pass (inp : Fe2Input) (s : Fe2State) : Option Fe2State :=
  (if s.cluster_pending_j.length = 0 then set_reference inp s else some s).bind fun s1 =>
    (propagate_j_to_i inp s1).bind fun s2 => propagate_i_to_j inp s2

/-- The loop `while(n_done < nb_coef)`, with fuel. -/
def fe2_loop (inp : Fe2Input) : Nat → Fe2State → Option Fe2State
  | 0, s => if s.n_done < inp.n_i + inp.n_j then none else some s
  | fuel + 1, s =>
    if s.n_done < inp.n_i + inp.n_j then (fe2_pass inp s).bind (fe2_loop inp fuel)
    else some s

/-- The flag of a `vector<bool>` stored in a numeric matrix. -/
def boolToRat (b : Bool) : ℚ := if b then 1 else 0

/-- Lines 355-369: the result matrix, as the list of its rows. -/
def fe2_table (inp : Fe2Input) (s : Fe2State) : List (List ℚ) :=
  (List.range inp.n_i).map (fun i => [1, ((i + 1 : Nat) : ℚ), s.cluster_coef_i i,
    boolToRat (s.isRef_i i)]) ++
  (List.range inp.n_j).map (fun j => [2, ((j + 1 : Nat) : ℚ), s.cluster_coef_j j,
    boolToRat (s.isRef_j j)])

/-- The routine `cpp_get_fe_2`; `fuel` bounds the number of passes of its loop. -/
def cpp_get_fe_2 (fuel : Nat) (inp : Fe2Input) : Option (List (List ℚ)) :=
  (fe2_loop inp fuel fe2_init).map (fe2_table inp)

/-- The input of the scenario of the specification: the observations
`(0,0,5)`, `(0,1,7)`, `(1,0,8)` with two categories in each dimension. -/
def fe2_example : Fe2Input where
  n_i := 2
  n_j := 2
  i_sorted_index_j := [0, 1, 0]
  i_sorted_sumFE := [5, 7, 8]
  j_sorted_index_i := [0, 1, 0]
  j_sorted_sumFE := [5, 8, 7]
  cumtable_i := [2, 3]
  cumtable_j := [2, 3]



/-! ## The General Recoverer `cpp_get_fe_gnl` -/

/-- Arguments of `cpp_get_fe_gnl`.  The matrices `dumMat` and `obsCluster` (`N` rows,
`Q` columns) are given by rows. -/
structure GnlInput where
  Q : Nat
  N : Nat
  sumFE : List ℚ
  dumMat : List (List Nat)
  cluster_sizes : List Nat
  obsCluster : List (List Nat)

/-- Entry `(i, q)` of a matrix given by rows. -/
def matGet (m : List (List Nat)) (i q : Nat) : Option Nat :=
  match m[i]? with
  | none => none
  | some row => row[q]?

/-- Write `v` at entry `(i, q)` of a matrix represented as a function. -/
def setAt2 {α : Type} (f : Nat → Nat → α) (i q : Nat) (v : α) : Nat → Nat → α :=
  fun a b => if a = i ∧ b = q then v else f a b

/-- The cap `iterMax` of the main loop (line 389). -/
def iterMax : Nat := 10000

/-- The cap `iterMax_loop` of the propagation loop (line 390). -/
def iterMax_loop : Nat := 10000

/-- Position of `pindex_cluster[q]` inside `index_cluster` (lines 406-416); since
`index_cluster[i] = i`, the value `pindex_cluster[q][k]` is `pindex_cluster sizes q + k`. -/
def pindex_cluster (sizes : List Nat) (q : Nat) : Nat := (sizes.take q).sum

/-- The arrays `start_cluster` and `end_cluster`. -/
structure GnlIndex where
  start_cluster : Nat → Nat
  end_cluster : Nat → Nat

/-- Lines 430-433: body of the loop that counts the observations of each category of
dimension `q`. -/
def table_step (inp : GnlInput) (q : Nat) (t : Nat → Nat) (i : Nat) : Option (Nat → Nat) :=
  match matGet inp.dumMat i q with
  | none => none
  | some k => if k < inp.cluster_sizes.getD q 0 then some (setAt t k (t k + 1)) else none

/-- Lines 429-433: `tableCluster` of dimension `q`, the number of observations per category. -/
def tableCluster (inp : GnlInput) (q : Nat) : Option (Nat → Nat) :=
  (List.range inp.N).foldlM (table_step inp q) (fun _ => 0)

/-- Lines 436-447: body of the loop over the categories `k` of dimension `q`. -/
def index_step (inp : GnlInput) (q : Nat) (table : Nat → Nat) (ix : GnlIndex) (k : Nat) :
    GnlIndex :=
  let index := pindex_cluster inp.cluster_sizes q + k
  if k = 0 then
    { start_cluster := setAt ix.start_cluster index 0
      end_cluster := setAt ix.end_cluster index (table k) }
  else
    { start_cluster := setAt ix.start_cluster index (ix.end_cluster (index - 1))
      end_cluster := setAt ix.end_cluster index (ix.end_cluster (index - 1) + table k) }

/-- Lines 426-448: body of the loop over the dimensions `q`. -/
def index_dim (inp : GnlInput) (ix : GnlIndex) (q : Nat) : Option GnlIndex :=
  match tableCluster inp q with
  | none => none
  | some table =>
    some ((List.range (inp.cluster_sizes.getD q 0)).foldl (index_step inp q table) ix)

/-- Lines 421-448: construction of `start_cluster` and `end_cluster`. -/
def gnl_index (inp : GnlInput) : Option GnlIndex :=
  if inp.cluster_sizes.length < inp.Q then none
  else
    (List.range inp.Q).foldlM (index_dim inp)
      { start_cluster := fun _ => 0, end_cluster := fun _ => 0 }

/-- Local variables of the main loop of `cpp_get_fe_gnl`. -/
structure GnlState where
  nb_ref : Nat → Nat
  cluster_values : Nat → ℚ
  mat_done : Nat → Nat → Nat
  rowsums : Nat → Nat
  id2do : List Nat
  id2do_next : List Nat

/-- State before the main loop (lines 395-461). -/
def gnl_init (inp : GnlInput) : GnlState where
  nb_ref := fun _ => 0
  cluster_values := fun _ => 0
  mat_done := fun _ _ => 0
  rowsums := fun _ => 0
  id2do := List.range inp.N
  id2do_next := List.range inp.N

/-- Lines 488-507: the scan of the worklist that selects `qui_max`. -/
def find_qui_max (Q : Nat) (rowsums : Nat → Nat) : List Nat → Nat → Nat → Nat
  | [], qui_max, _ => qui_max
  | obs :: rest, qui_max, rs_max =>
    if ((rowsums obs : Nat) : ℤ) = (Q : ℤ) - 2 then obs
    else if rowsums obs < Q ∧ rowsums obs > rs_max then
      find_qui_max Q rowsums rest obs (rowsums obs)
    else if qui_max = 0 ∧ rowsums obs = 0 then find_qui_max Q rowsums rest obs rs_max
    else find_qui_max Q rowsums rest qui_max rs_max

/-- Body of the loops of lines 534-538 and 605-609: position `i` of column `q` of
`obsCluster`. -/
def mark_done (inp : GnlInput) (q : Nat) (s : GnlState) (i : Nat) : Option GnlState :=
  match matGet inp.obsCluster i q with
  | none => none
  | some obs =>
    if obs < inp.N then
      some { s with
        mat_done := setAt2 s.mat_done obs q 1
        rowsums := setAt s.rowsums obs (s.rowsums obs + 1) }
    else none

/-- The loop `for(int i=start_cluster[index] ; i<end_cluster[index] ; i++)` over the
observations of the category of dimension `q` stored at `index`. -/
def mark_cluster (inp : GnlInput) (ix : GnlIndex) (q index : Nat) (s : GnlState) :
    Option GnlState :=
  (List.range' (ix.start_cluster index) (ix.end_cluster index - ix.start_cluster index)).foldlM
    (mark_done inp q) s

/-- Lines 518-543: body of the loop over `q` that sets the references; the second
component of the state is the flag `first`. -/
def set_ref_step (inp : GnlInput) (ix : GnlIndex) (qui_max : Nat) (sf : GnlState × Bool)
    (q : Nat) : Option (GnlState × Bool) :=
  if qui_max < inp.N then
    if sf.1.mat_done qui_max q = 0 then
      if sf.2 then some (sf.1, false)
      else
        match matGet inp.dumMat qui_max q with
        | none => none
        | some id_cluster =>
          if id_cluster < inp.cluster_sizes.getD q 0 then
            let index := pindex_cluster inp.cluster_sizes q + id_cluster
            match mark_cluster inp ix q index
                { sf.1 with cluster_values := setAt sf.1.cluster_values index 0 } with
            | none => none
            | some s1 => some ({ s1 with nb_ref := setAt s1.nb_ref q (s1.nb_ref q + 1) }, false)
          else none
    else some sf
  else none

/-- Lines 517-543: setting the references on the observation `qui_max`. -/
def set_references (inp : GnlInput) (ix : GnlIndex) (qui_max : Nat) (s : GnlState) :
    Option GnlState :=
  ((List.range inp.Q).foldlM (set_ref_step inp ix qui_max) (s, true)).map Prod.fst

/-- Lines 595-599: body of the loop over `l` that adds the stored value of the category
of dimension `l` of `obs`. -/
def other_value_step (inp : GnlInput) (cluster_values : Nat → ℚ) (obs : Nat) (acc : ℚ)
    (l : Nat) : Option ℚ :=
  match matGet inp.dumMat obs l with
  | none => none
  | some k =>
    if k < inp.cluster_sizes.getD l 0 then
      some (acc + cluster_values (pindex_cluster inp.cluster_sizes l + k))
    else none

/-- Lines 592-599: the sum of the stored values of the `Q` categories of `obs`. -/
def other_value (inp : GnlInput) (cluster_values : Nat → ℚ) (obs : Nat) : Option ℚ :=
  (List.range inp.Q).foldlM (other_value_step inp cluster_values obs) 0

/-- Lines 571-611: body of the scan of the worklist, for the observation `obs`. -/
def scan_obs (inp : GnlInput) (ix : GnlIndex) (s : GnlState) (obs : Nat) : Option GnlState :=
  if ((s.rowsums obs : Nat) : ℤ) < (inp.Q : ℤ) - 1 then
    some { s with id2do_next := s.id2do_next ++ [obs] }
  else if ((s.rowsums obs : Nat) : ℤ) = (inp.Q : ℤ) - 1 then
    match (List.range inp.Q).find? (fun q => s.mat_done obs q == 0) with
    | none => none
    | some q =>
      match matGet inp.dumMat obs q with
      | none => none
      | some k =>
        if k < inp.cluster_sizes.getD q 0 then
          let index_select := pindex_cluster inp.cluster_sizes q + k
          match other_value inp s.cluster_values obs, inp.sumFE[obs]? with
          | some other, some sfe =>
            mark_cluster inp ix q index_select
              { s with cluster_values := setAt s.cluster_values index_select (sfe - other) }
          | _, _ => none
        else none
  else some s

/-- Lines 549-615: the propagation loop.  The first argument counts the iterations left
before the cap `iterMax_loop`; the flag tells whether `iter_loop` is `1` in the
iteration that starts. -/
def propagation_loop (inp : GnlInput) (ix : GnlIndex) : Nat → Bool → GnlState → Option GnlState
  | 0, _, s => some s
  | n + 1, first_scan, s =>
    match (if first_scan then s.id2do else s.id2do_next).foldlM (scan_obs inp ix)
        { s with id2do := (if first_scan then s.id2do else s.id2do_next), id2do_next := [] } with
    | none => none
    | some s2 =>
      if s2.id2do_next.length = s2.id2do.length then some s2
      else propagation_loop inp ix n false s2

/-- Lines 482-615: one pass of the main loop; the flag tells whether `iter` is `1`. -/
def gnl_pass (inp : GnlInput) (ix : GnlIndex) (first_pass : Bool) (s : GnlState) :
    Option GnlState :=
  (set_references inp ix (if first_pass then 0 else find_qui_max inp.Q s.rowsums s.id2do 0 0)
    s).bind (propagation_loop inp ix iterMax_loop true)

/-- Lines 474-629: the main loop.  The first argument counts the passes left before the
cap `iterMax`. -/
def gnl_loop (inp : GnlInput) (ix : GnlIndex) : Nat → Bool → GnlState → Option GnlState
  | 0, _, s => some s
  | n + 1, first_pass, s =>
    match gnl_pass inp ix first_pass s with
    | none => none
    | some s1 => if s1.id2do_next.length = 0 then some s1 else gnl_loop inp ix n false s1

/-- Result of `cpp_get_fe_gnl`: the `Q` coefficient vectors and the vector `nb_ref`. -/
structure GnlOutput where
  coef : List (List ℚ)
  nb_ref : List Nat
deriving DecidableEq

/-- Lines 636-650: final formatting. -/
def gnl_result (inp : GnlInput) (s : GnlState) : GnlOutput where
  coef := (List.range inp.Q).map (fun q =>
    (List.range (inp.cluster_sizes.getD q 0)).map (fun k =>
      s.cluster_values (pindex_cluster inp.cluster_sizes q + k)))
  nb_ref := (List.range inp.Q).map s.nb_ref

/-- The final state of the main loop of `cpp_get_fe_gnl`. -/
def gnl_run (inp : GnlInput) : Option GnlState :=
  match gnl_index inp with
  | none => none
  | some ix => gnl_loop inp ix iterMax true (gnl_init inp)

/-- The routine `cpp_get_fe_gnl`. -/
def cpp_get_fe_gnl (inp : GnlInput) : Option GnlOutput :=
  (gnl_run inp).map (gnl_result inp)

/-- The scenario of the specification for `Q = 2`. -/
def gnl_example : GnlInput where
  Q := 2
  N := 3
  sumFE := [5, 7, 8]
  dumMat := [[0, 0], [0, 1], [1, 0]]
  cluster_sizes := [2, 2]
  obsCluster := [[0, 0], [1, 2], [2, 1]]

/-- Four observations on three dimensions with two categories each: one connected
component, in which the coefficients are determined once two references are set. -/
def gnl_three_way : GnlInput where
  Q := 3
  N := 4
  sumFE := [0, 2, 2, 2]
  dumMat := [[0, 0, 0], [0, 1, 1], [1, 0, 1], [1, 1, 0]]
  cluster_sizes := [2, 2, 2]
  obsCluster := [[0, 0, 0], [1, 2, 3], [2, 1, 1], [3, 3, 2]]

/-! ### The prologue of `cpp_get_fe_gnl` on unvalidated arguments

The membership matrix is an `IntegerMatrix`: its entries are C++ `int`s, which the
routine uses as indices without a test of its own.  The first use of every entry is
`tableCluster(k) += 1` (line 432), through the accessor `operator()` of the vector class
`IntegerVector`, which checks the index against the length of the vector and throws
`index_out_of_bounds`; the accessor `operator[]` and the matrix accessor
`dumMat(i, q)` do not check. -/

/-- How a run leaves the routine without a result: by the exception
`index_out_of_bounds` of a checked vector accessor, with the index and the length of
the vector, or by an access outside an array through an accessor that does not
check (undefined behaviour). -/
inductive GnlStop where
  | index_out_of_bounds (index : Int) (extent : Nat)
  | undefined
deriving DecidableEq

/-- Arguments of `cpp_get_fe_gnl` as received: the entries of `dumMat` are C++ `int`s
of any sign. -/
structure GnlRaw where
  Q : Nat
  N : Nat
  sumFE : List ℚ
  dumMat : List (List Int)
  cluster_sizes : List Nat
  obsCluster : List (List Nat)

/-- The arguments with the entries of `dumMat` read as natural numbers. -/
def GnlRaw.toInput (r : GnlRaw) : GnlInput where
  Q := r.Q
  N := r.N
  sumFE := r.sumFE
  dumMat := r.dumMat.map (fun row => row.map Int.toNat)
  cluster_sizes := r.cluster_sizes
  obsCluster := r.obsCluster

/-- Entry `(i, q)` of the raw membership matrix (accessor without check). -/
def matGetRaw (m : List (List Int)) (i q : Nat) : Option Int :=
  match m[i]? with
  | none => none
  | some row => row[q]?

/-- Lines 429-433 on raw arguments: `k = dumMat(i, q); tableCluster(k) += 1`, where
`tableCluster` has length `cluster_sizes(q)` and is accessed with check. -/
def table_step_raw (r : GnlRaw) (q : Nat) (t : Nat → Nat) (i : Nat) :
    Except GnlStop (Nat → Nat) :=
  match matGetRaw r.dumMat i q with
  | none => Except.error GnlStop.undefined
  | some k =>
    if 0 ≤ k ∧ k < ((r.cluster_sizes.getD q 0 : Nat) : Int) then
      Except.ok (setAt t k.toNat (t k.toNat + 1))
    else Except.error (GnlStop.index_out_of_bounds k (r.cluster_sizes.getD q 0))

/-- Lines 429-433 on raw arguments: `tableCluster` of dimension `q`. -/
def tableCluster_raw (r : GnlRaw) (q : Nat) : Except GnlStop (Nat → Nat) :=
  (List.range r.N).foldlM (table_step_raw r q) (fun _ => 0)

/-- Lines 426-448 on raw arguments: body of the loop over the dimensions `q`. -/
def index_dim_raw (r : GnlRaw) (ix : GnlIndex) (q : Nat) : Except GnlStop GnlIndex :=
  match tableCluster_raw r q with
  | Except.error e => Except.error e
  | Except.ok table =>
    Except.ok ((List.range (r.cluster_sizes.getD q 0)).foldl (index_step r.toInput q table) ix)

/-- Lines 395-448 on raw arguments: construction of `start_cluster` and `end_cluster`.
The loop of lines 398-401 reads `cluster_sizes(q)` with check for every `q < Q`. -/
def gnl_index_raw (r : GnlRaw) : Except GnlStop GnlIndex :=
  if r.cluster_sizes.length < r.Q then
    Except.error (GnlStop.index_out_of_bounds r.cluster_sizes.length r.cluster_sizes.length)
  else
    (List.range r.Q).foldlM (index_dim_raw r)
      { start_cluster := fun _ => 0, end_cluster := fun _ => 0 }

/-- The routine `cpp_get_fe_gnl` on raw arguments: the prologue, then the main loop and
the final formatting of the embedding above, which are reached when the prologue ends
without exception. -/
def cpp_get_fe_gnl_raw (r : GnlRaw) : Except GnlStop GnlOutput :=
  match gnl_index_raw r with
  | Except.error e => Except.error e
  | Except.ok ix =>
    match gnl_loop r.toInput ix iterMax true (gnl_init r.toInput) with
    | none => Except.error GnlStop.undefined
    | some s => Except.ok (gnl_result r.toInput s)

/-! ## The fixed-point solver `cpp_partialDerivative_other`

Doubles are rationals.  A division by a zero weight sum has no rational value (it is
infinite or not a number in the source): the slot of `clusterDeriv` that receives it
holds `none`, and this embedding has no result (`none`) when such a value is added to
`S`; the runs in which that happens are those of the embedding on the values of a
double (`pd_run_ext`, in a later section), which has the same result as this one
whenever this one has a result.  As elsewhere, `none` is also the outcome of an access
outside an array. -/

/-- Arguments of `cpp_partialDerivative_other`; the matrix `dumMat` (`N` rows, `Q`
columns) is given by rows. -/
structure PdInput where
  iterMax : Nat
  Q : Nat
  N : Nat
  epsDeriv : ℚ
  ll_d2 : List ℚ
  dx_dother : List ℚ
  init : List ℚ
  dumMat : List (List Nat)
  nbCluster : List Nat

/-- The arrays `start` and `end` and the counter `sum_cases` (lines 76-91). -/
structure PdIndex where
  start : Nat → Nat
  end_ : Nat → Nat
  sum_cases : Nat

/-- Lines 81-91: body of the loop over `q`. -/
def pd_index_step (inp : PdInput) (x : PdIndex) (q : Nat) : Option PdIndex :=
  match inp.nbCluster[q]? with
  | none => none
  | some n =>
    if q = 0 then
      some { start := setAt x.start q 0, end_ := setAt x.end_ q n,
             sum_cases := x.sum_cases + n }
    else
      match inp.nbCluster[q - 1]? with
      | none => none
      | some m =>
        some { start := setAt x.start q (x.start (q - 1) + m),
               end_ := setAt x.end_ q (x.end_ (q - 1) + n),
               sum_cases := x.sum_cases + n }

/-- Lines 76-91: the bounds of the blocks of the stacked vectors. -/
def pd_index (inp : PdInput) : Option PdIndex :=
  (List.range inp.Q).foldlM (pd_index_step inp)
    { start := fun _ => 0, end_ := fun _ => 0, sum_cases := 0 }

/-- Lines 99-100: `index = start[q] + dumMat(i, q); sum_lld2[index] += ll_d2(i)`. -/
def pd_weight_step (inp : PdInput) (x : PdIndex) (i : Nat) (w : Nat → ℚ) (q : Nat) :
    Option (Nat → ℚ) :=
  match matGet inp.dumMat i q, inp.ll_d2[i]? with
  | some k, some l =>
    if x.start q + k < x.sum_cases then
      some (setAt w (x.start q + k) (w (x.start q + k) + l))
    else none
  | _, _ => none

/-- Lines 98-101: the loop over `q` for the observation `i`. -/
def pd_weight_row (inp : PdInput) (x : PdIndex) (w : Nat → ℚ) (i : Nat) : Option (Nat → ℚ) :=
  (List.range inp.Q).foldlM (pd_weight_step inp x i) w

/-- Lines 94-102: the vector `sum_lld2` of the weight sums of the categories. -/
def pd_weights (inp : PdInput) (x : PdIndex) : Option (Nat → ℚ) :=
  (List.range inp.N).foldlM (pd_weight_row inp x) (fun _ => 0)

/-- Line 107: `S[i] = init(i)`. -/
def pd_init_step (inp : PdInput) (S : Nat → ℚ) (i : Nat) : Option (Nat → ℚ) :=
  match inp.init[i]? with
  | none => none
  | some v => some (setAt S i v)

/-- Lines 105-108: the initial value of the result `S`. -/
def pd_init (inp : PdInput) : Option (Nat → ℚ) :=
  (List.range inp.N).foldlM (pd_init_step inp) (fun _ => 0)

/-- Local variables of the `while` loop of `cpp_partialDerivative_other`.  A slot of
`clusterDeriv` holds `none` when its value is not a rational number. -/
structure PdState where
  clusterDeriv : Nat → Option ℚ
  S : Nat → ℚ
  ok : Bool
  iter : Nat

/-- Line 121: `clusterDeriv(c) = 0`. -/
def pd_zero_step (x : PdIndex) (cd : Nat → Option ℚ) (c : Nat) : Option (Nat → Option ℚ) :=
  if c < x.sum_cases then some (setAt cd c (some 0)) else none

/-- Lines 125-126: `index = start[q] + dumMat(i, q);
clusterDeriv(index) += dx_dother(i) + S(i)*ll_d2(i)`. -/
def pd_accum_step (inp : PdInput) (x : PdIndex) (q : Nat) (S : Nat → ℚ)
    (cd : Nat → Option ℚ) (i : Nat) : Option (Nat → Option ℚ) :=
  match matGet inp.dumMat i q, inp.dx_dother[i]?, inp.ll_d2[i]? with
  | some k, some d, some l =>
    if x.start q + k < x.sum_cases then
      some (setAt cd (x.start q + k) ((cd (x.start q + k)).map (fun v => v + (d + S i * l))))
    else none
  | _, _, _ => none

/-- Lines 131-135: `new_value = -clusterDeriv(c)/sum_lld2[c]; clusterDeriv(c) =
new_value; if(fabs(new_value) > epsDeriv) ok = true`.  With a zero weight sum the new
value is not a number when `clusterDeriv(c)` is zero, and the test fails; it is
infinite otherwise, and the test succeeds.  The slot read was set to zero in the same
block and has received rational values only. -/
def pd_update_step (inp : PdInput) (x : PdIndex) (w : Nat → ℚ)
    (co : (Nat → Option ℚ) × Bool) (c : Nat) : Option ((Nat → Option ℚ) × Bool) :=
  if c < x.sum_cases then
    match co.1 c with
    | none => none
    | some v =>
      if w c = 0 then some (setAt co.1 c none, co.2 || decide (v ≠ 0))
      else some (setAt co.1 c (some (-v / w c)), co.2 || decide (inp.epsDeriv < |(-v / w c)|))
  else none

/-- Lines 140-141: `index = start[q] + dumMat(i, q); S[i] += clusterDeriv(index)`. -/
def pd_add_step (inp : PdInput) (x : PdIndex) (q : Nat) (cd : Nat → Option ℚ)
    (S : Nat → ℚ) (i : Nat) : Option (Nat → ℚ) :=
  match matGet inp.dumMat i q with
  | none => none
  | some k =>
    if x.start q + k < x.sum_cases then
      match cd (x.start q + k) with
      | none => none
      | some u => some (setAt S i (S i + u))
    else none

/-- Lines 116-144: the update of dimension `q` inside a sweep. -/
def pd_block (inp : PdInput) (x : PdIndex) (w : Nat → ℚ) (st : PdState) (q : Nat) :
    Option PdState :=
  ((List.range' (x.start q) (x.end_ q - x.start q)).foldlM (pd_zero_step x)
      st.clusterDeriv).bind fun cd1 =>
    ((List.range inp.N).foldlM (pd_accum_step inp x q st.S) cd1).bind fun cd2 =>
      ((List.range' (x.start q) (x.end_ q - x.start q)).foldlM (pd_update_step inp x w)
          (cd2, st.ok)).bind fun co =>
        ((List.range inp.N).foldlM (pd_add_step inp x q co.1) st.S).map fun S2 =>
          { clusterDeriv := co.1, S := S2, ok := co.2, iter := st.iter }

/-- Lines 113-144: one sweep, the body of the `while` loop. -/
def pd_sweep (inp : PdInput) (x : PdIndex) (w : Nat → ℚ) (st : PdState) : Option PdState :=
  (List.range inp.Q).foldlM (pd_block inp x w) { st with iter := st.iter + 1, ok := false }

/-- The loop `while( ok & (iter<iterMax) )`, with fuel. -/
def pd_loop (inp : PdInput) (x : PdIndex) (w : Nat → ℚ) : Nat → PdState → Option PdState
  | 0, st => if st.ok && decide (st.iter < inp.iterMax) then none else some st
  | fuel + 1, st =>
    if st.ok && decide (st.iter < inp.iterMax) then
      (pd_sweep inp x w st).bind (pd_loop inp x w fuel)
    else some st

/-- Lines 93-111: the state before the `while` loop. -/
def pd_start (S : Nat → ℚ) : PdState where
  clusterDeriv := fun _ => some 0
  S := S
  ok := true
  iter := 0

/-- The state of `cpp_partialDerivative_other` at the end of its `while` loop; the loop
makes at most `iterMax` sweeps, the fuel given to it. -/
def pd_run (inp : PdInput) : Option PdState :=
  (pd_index inp).bind fun x =>
    (pd_weights inp x).bind fun w =>
      (pd_init inp).bind fun S => pd_loop inp x w inp.iterMax (pd_start S)

/-- The routine `cpp_partialDerivative_other`: the vector `S` of length `N`. -/
def cpp_partialDerivative_other (inp : PdInput) : Option (List ℚ) :=
  (pd_run inp).map fun st => (List.range inp.N).map st.S

/-- A small input of the solver: three observations, two dimensions with two
categories each. -/
def pd_example : PdInput where
  iterMax := 10
  Q := 2
  N := 3
  epsDeriv := 1 / 100
  ll_d2 := [-1, -2, -1]
  dx_dother := [1, 0, 2]
  init := [0, 0, 0]
  dumMat := [[0, 0], [0, 1], [1, 0]]
  nbCluster := [2, 2]

/-! ## The matrix product `cpppar_matprod` (file `src/parallel_funs.cpp`) -/

/-- A numeric matrix: its dimensions and its entries stored by columns. -/
structure NumMat where
  nrow : Nat
  ncol : Nat
  data : List ℚ
deriving DecidableEq

/-- Entry `m(i, j)`: the accessor reads position `i + nrow * j` of the storage, without
check of `i` and `j` against the dimensions. -/
def NumMat.get (m : NumMat) (i j : Nat) : Option ℚ := m.data[i + m.nrow * j]?

/-- Line 402: `value += x(i, l) * y(l, k)`. -/
def matprod_inner (x y : NumMat) (i k : Nat) (value : ℚ) (l : Nat) : Option ℚ :=
  match x.get i l, y.get l k with
  | some a, some b => some (value + a * b)
  | _, _ => none

/-- Lines 399-405: body of the loop over `k`; `xy` is the storage of the result, by
columns, with `N = x.nrow()` rows. -/
def matprod_cell (x y : NumMat) (i : Nat) (xy : Nat → ℚ) (k : Nat) : Option (Nat → ℚ) :=
  ((List.range x.ncol).foldlM (matprod_inner x y i k) 0).map
    fun value => setAt xy (i + x.nrow * k) value

/-- Lines 398-406: body of the loop over `i`: `for(int k=0 ; k<K ; ++k)` with
`K = x.ncol()`. -/
def matprod_row (x y : NumMat) (xy : Nat → ℚ) (i : Nat) : Option (Nat → ℚ) :=
  (List.range x.ncol).foldlM (matprod_cell x y i) xy

/-- The routine `cpppar_matprod`.  The iterations of the parallel loop over `i` read
the arguments only and write different entries of `xy`: the result is the one of the
sequential loop, whatever `nthreads`.  The result `xy` is allocated with
`N = x.nrow()` rows and `K = x.ncol()` columns (line 394). -/
def cpppar_matprod (x y : NumMat) (_nthreads : Nat) : Option NumMat :=
  ((List.range x.nrow).foldlM (matprod_row x y) (fun _ => 0)).map fun xy =>
    { nrow := x.nrow, ncol := x.ncol, data := (List.range (x.nrow * x.ncol)).map xy }

/-! ## Lags and leads `cpp_lag_obs` (file `src/misc_funs.cpp`)

The vectors `id` and `time` are lists of integers, read with `operator[]`, which does
not check the index: a read outside a vector gives `none`.  The result `res` is a
function to `Option Int`, `none` being `NA_INTEGER`.  The inner and the outer loops
take a fuel, which bounds the number of their iterations.  The variable `diff_time` is
a 32-bit `int`: the difference of two times is wrapped to 32 bits (`int32`). -/

/-- The value stored in an `int` variable for the integer `z`: its wrap to 32 bits in
two's complement (what the compiled subtraction yields when it overflows). -/
def int32 (z : Int) : Int := (z + 2147483648) % 4294967296 - 2147483648

/-- Lines 923-943: the loop `while(j < nobs)` of the lags, with
`diff_time = time[j] - time_current` (line 924).  The result is the value of `i` when
the loop is left and the vector `res`. -/
def lag_inner (id time : List Int) (nlag id_current time_current : Int) (obs : Int) :
    Nat → Nat → Nat → (Nat → Option Int) → Option (Nat × (Nat → Option Int))
  | 0, i, j, res => if j < id.length then none else some (i, res)
  | fuel + 1, i, j, res =>
    if j < id.length then
      match time[j]?, id[j]? with
      | some tj, some idj =>
        if idj ≠ id_current then some (j - 1, res)
        else if int32 (tj - time_current) > nlag then some (i, res)
        else if int32 (tj - time_current) = 0 then
          lag_inner id time nlag id_current time_current obs fuel (i + 1) (j + 1) res
        else if int32 (tj - time_current) < nlag then
          lag_inner id time nlag id_current time_current obs fuel i (j + 1) res
        else if int32 (tj - time_current) = nlag then
          lag_inner id time nlag id_current time_current obs fuel i (j + 1)
            (setAt res j (some obs))
        else lag_inner id time nlag id_current time_current obs fuel i (j + 1) res
      | _, _ => none
    else some (i, res)

/-- Lines 917-945: the loop `while(i < nobs)` of the lags. -/
def lag_outer (id time : List Int) (nlag : Int) :
    Nat → Nat → (Nat → Option Int) → Option (Nat → Option Int)
  | 0, i, res => if i < id.length then none else some res
  | fuel + 1, i, res =>
    if i < id.length then
      match id[i]?, time[i]? with
      | some id_current, some time_current =>
        match lag_inner id time nlag id_current time_current ((i : Int) + 1) id.length i (i + 1)
            res with
        | none => none
        | some (i2, res2) => lag_outer id time nlag fuel (i2 + 1) res2
      | _, _ => none
    else some res

/-- Read of a vector at an index held by an `int` variable. -/
def readAt (v : List Int) (i : Int) : Option Int :=
  if 0 ≤ i then v[i.toNat]? else none

/-- Lines 960-980: the loop `while(j >= 0)` of the leads; the indices `i` and `j` are
`int`s that go down to `-1`. -/
def lead_inner (id time : List Int) (nlead id_current time_current : Int) (obs : Int) :
    Nat → Int → Int → (Nat → Option Int) → Option (Int × (Nat → Option Int))
  | 0, i, j, res => if 0 ≤ j then none else some (i, res)
  | fuel + 1, i, j, res =>
    if 0 ≤ j then
      match readAt time j, readAt id j with
      | some tj, some idj =>
        if idj ≠ id_current then some (j + 1, res)
        else if int32 (time_current - tj) > nlead then some (i, res)
        else if int32 (time_current - tj) = 0 then
          lead_inner id time nlead id_current time_current obs fuel (i - 1) (j - 1) res
        else if int32 (time_current - tj) < nlead then
          lead_inner id time nlead id_current time_current obs fuel i (j - 1) res
        else if int32 (time_current - tj) = nlead then
          lead_inner id time nlead id_current time_current obs fuel i (j - 1)
            (setAt res j.toNat (some obs))
        else lead_inner id time nlead id_current time_current obs fuel i (j - 1) res
      | _, _ => none
    else some (i, res)

/-- Lines 954-982: the loop `while(i >= 0)` of the leads. -/
def lead_outer (id time : List Int) (nlead : Int) :
    Nat → Int → (Nat → Option Int) → Option (Nat → Option Int)
  | 0, i, res => if 0 ≤ i then none else some res
  | fuel + 1, i, res =>
    if 0 ≤ i then
      match readAt id i, readAt time i with
      | some id_current, some time_current =>
        match lead_inner id time nlead id_current time_current (i + 1) id.length i (i - 1)
            res with
        | none => none
        | some (i2, res2) => lead_outer id time nlead fuel (i2 - 1) res2
      | _, _ => none
    else some res

/-- The routine `cpp_lag_obs`: the list of the `nobs` entries of `res`.  The lags start
at `i = 0` (line 916) and the leads at `i = nobs` (line 953). -/
def cpp_lag_obs (id time : List Int) (nlag : Int) : Option (List (Option Int)) :=
  if nlag > 0 then
    (lag_outer id time nlag id.length 0 (fun _ => none)).map
      fun res => (List.range id.length).map res
  else if nlag < 0 then
    (lead_outer id time (int32 (-nlag)) (id.length + 1) (id.length : Int) (fun _ => none)).map
      fun res => (List.range id.length).map res
  else some ((List.range id.length).map fun (i : Nat) => some ((i : Int) + 1))

/-! ## Renumbering of a factor `cpp_update_dum` (file `src/misc_funs.cpp`)

The vectors `update_value` and `adjust`, of length `k_max`, are read and written with
`operator[]` at `k = dum[i] - 1`: an access outside them gives `none`. -/

/-- Lines 708-717: the loop that marks the values of `dum` that occur; it is left as
soon as `total == k_max`. -/
def update_mark (k_max : Nat) : List Int → (Nat → Nat) → Nat → Option ((Nat → Nat) × Nat)
  | [], update_value, total => some (update_value, total)
  | d :: rest, update_value, total =>
    if 1 ≤ d ∧ d ≤ (k_max : Int) then
      if update_value (d - 1).toNat = 0 then
        if total + 1 = k_max then some (setAt update_value (d - 1).toNat 1, total + 1)
        else update_mark k_max rest (setAt update_value (d - 1).toNat 1) (total + 1)
      else update_mark k_max rest update_value total
    else none

/-- Lines 727-732: body of the loop that counts, for every `k`, the values below or
equal to `k + 1` that do not occur. -/
def update_adjust_step (update_value : Nat → Nat) (aa : (Nat → Nat) × Nat) (k : Nat) :
    (Nat → Nat) × Nat :=
  if update_value k = 0 then (setAt aa.1 k (aa.2 + 1), aa.2 + 1)
  else (setAt aa.1 k aa.2, aa.2)

/-- Lines 724-732: the vector `adjust`. -/
def update_adjust (k_max : Nat) (update_value : Nat → Nat) : Nat → Nat :=
  ((List.range k_max).foldl (update_adjust_step update_value) (fun _ => 0, 0)).1

/-- Lines 735-738: `k = dum[i] - 1; dum_new[i] = dum[i] - adjust[k]`. -/
def update_renumber (k_max : Nat) (adjust : Nat → Nat) (d : Int) : Option Int :=
  if 1 ≤ d ∧ d ≤ (k_max : Int) then some (d - (adjust (d - 1).toNat : Int)) else none

/-- Result of `cpp_update_dum`: the list with the entries `dum_new` and `keep`. -/
structure UpdateDum where
  dum_new : List Int
  keep : List Nat
deriving DecidableEq

/-- The routine `cpp_update_dum`. -/
def cpp_update_dum (dum : List Int) (k_max : Nat) : Option UpdateDum :=
  match update_mark k_max dum (fun _ => 0) 0 with
  | none => none
  | some (update_value, total) =>
    if total = k_max then
      some { dum_new := dum, keep := (List.range k_max).map update_value }
    else
      (dum.mapM (update_renumber k_max (update_adjust k_max update_value))).map fun dum_new =>
        { dum_new := dum_new, keep := (List.range k_max).map update_value }

/-! ## The common divisor `cpp_pgcd`

The integers of the vector are unbounded integers; the remainder `%` of the source
truncates towards zero (`Int.tmod`).  The only arithmetic on the candidate is a decrement
of a value greater than one, which cannot overflow. -/

/-- Lines 880-884: body of the loop computing the minimum,
`if(pgcd > x[i]) pgcd = x[i]`. -/
def pgcd_min_step (pgcd v : Int) : Int := if pgcd > v then v else pgcd

/-- Lines 889-895: the `for` loop of the search reaches an element with
`x[i] % pgcd != 0` (and breaks there). -/
def pgcd_fails (x : List Int) (pgcd : Int) : Bool :=
  x.any fun v => decide (v.tmod pgcd ≠ 0)

/-- Lines 887-896: the loop `while(!ok && pgcd > 1)`, with fuel; a failed candidate is
decremented and `ok` stays false, otherwise `ok` is true. -/
def pgcd_search (x : List Int) : Nat → Bool → Int → Option Int
  | 0, ok, pgcd => if !ok && decide (pgcd > 1) then none else some pgcd
  | fuel + 1, ok, pgcd =>
    if !ok && decide (pgcd > 1) then
      if pgcd_fails x pgcd then pgcd_search x fuel false (pgcd - 1)
      else pgcd_search x fuel true pgcd
    else some pgcd

/-- The routine `cpp_pgcd`.  The read `x[0]` of an empty vector is outside the array
(`none`).  The loop decrements its candidate at every failed round, so the minimum of
the vector is enough fuel. -/
def cpp_pgcd (x : List Int) : Option Int :=
  match x with
  | [] => none
  | [a] => some a
  | a :: rest =>
    pgcd_search x (rest.foldl pgcd_min_step a).toNat false (rest.foldl pgcd_min_step a)

/-! ## The dense rank `cpp_unclassFactor`

The doubles of the vector are rationals. -/

/-- Lines 230-233: body of the loop, `if(x(i-1) != x(i)) k++; res[i] = k`; the state is
the array `res` and the counter `k`. -/
def unclass_step (x : List ℚ) (rk : (Nat → Nat) × Nat) (i : Nat) :
    Option ((Nat → Nat) × Nat) :=
  match x[i - 1]?, x[i]? with
  | some a, some b =>
    if a ≠ b then some (setAt rk.1 i (rk.2 + 1), rk.2 + 1) else some (setAt rk.1 i rk.2, rk.2)
  | _, _ => none

/-- The routine `cpp_unclassFactor`.  The write `res[0] = 1` is outside the array when
the vector is empty (`none`). -/
def cpp_unclassFactor (x : List ℚ) : Option (List Nat) :=
  if x.length = 0 then none
  else
    ((List.range' 1 (x.length - 1)).foldlM (unclass_step x) (setAt (fun _ => 0) 0 1, 1)).map
      fun rk => (List.range x.length).map rk.1

/-! ## The main loop of `cpp_get_fe_gnl` with its program points

The same loop, recording the program points that control reaches in a log: each entry
holds the values of the local variables at that point.  The steps are those of the
functions above; only the log is added. -/

/-- A program point of the main loop of `cpp_get_fe_gnl`, with the values of the local
variables when control reaches it. -/
inductive GnlEvent where
  /-- Line 516, in every outer pass: the observation `qui_max` has been selected and
  the loop that sets the references is about to start; the state is the one at the
  start of the pass. -/
  | pass (first_pass : Bool) (qui_max : Nat) (s : GnlState)
  /-- Line 519: top of the body of the loop that sets the references, at dimension
  `q`, with the flag `first`. -/
  | ref (qui_max q : Nat) (first : Bool) (s : GnlState)
  /-- Line 573: start of a scan of the worklist, after `nb2do_next = 0`. -/
  | scan (s : GnlState)
  /-- Line 575: top of the body of the scan, at the observation `obs` of the
  worklist. -/
  | obs (obs : Nat) (s : GnlState)

/-- The values of the local variables at a program point. -/
def GnlEvent.state : GnlEvent → GnlState
  | GnlEvent.pass _ _ s => s
  | GnlEvent.ref _ _ _ s => s
  | GnlEvent.scan s => s
  | GnlEvent.obs _ s => s

/-- The step `f` with its program point `ev` added to the log. -/
def logged {σ α : Type} (f : σ → α → Option σ) (ev : σ → α → GnlEvent)
    (ls : List GnlEvent × σ) (a : α) : Option (List GnlEvent × σ) :=
  (f ls.2 a).map fun t => (ls.1 ++ [ev ls.2 a], t)

/-- The loop `set_references` (lines 517-543) with its log. -/
def set_references_log (inp : GnlInput) (ix : GnlIndex) (qui_max : Nat)
    (ls : List GnlEvent × GnlState) : Option (List GnlEvent × GnlState) :=
  ((List.range inp.Q).foldlM
    (logged (set_ref_step inp ix qui_max) (fun sf q => GnlEvent.ref qui_max q sf.2 sf.1))
    (ls.1, (ls.2, true))).map fun r => (r.1, r.2.1)

/-- The loop `propagation_loop` (lines 549-615) with its log. -/
def propagation_loop_log (inp : GnlInput) (ix : GnlIndex) :
    Nat → Bool → List GnlEvent × GnlState → Option (List GnlEvent × GnlState)
  | 0, _, ls => some ls
  | n + 1, first_scan, ls =>
    match (if first_scan then ls.2.id2do else ls.2.id2do_next).foldlM
        (logged (scan_obs inp ix) (fun s obs => GnlEvent.obs obs s))
        (ls.1 ++ [GnlEvent.scan { ls.2 with
            id2do := (if first_scan then ls.2.id2do else ls.2.id2do_next),
            id2do_next := [] }],
          { ls.2 with
            id2do := (if first_scan then ls.2.id2do else ls.2.id2do_next),
            id2do_next := [] }) with
    | none => none
    | some ls2 =>
      if ls2.2.id2do_next.length = ls2.2.id2do.length then some ls2
      else propagation_loop_log inp ix n false ls2

/-- One outer pass `gnl_pass` with its log. -/
def gnl_pass_log (inp : GnlInput) (ix : GnlIndex) (first_pass : Bool)
    (ls : List GnlEvent × GnlState) : Option (List GnlEvent × GnlState) :=
  (set_references_log inp ix
    (if first_pass then 0 else find_qui_max inp.Q ls.2.rowsums ls.2.id2do 0 0)
    (ls.1 ++ [GnlEvent.pass first_pass
      (if first_pass then 0 else find_qui_max inp.Q ls.2.rowsums ls.2.id2do 0 0) ls.2],
      ls.2)).bind
    (propagation_loop_log inp ix iterMax_loop true)

/-- The outer loop `gnl_loop` with its log. -/
def gnl_loop_log (inp : GnlInput) (ix : GnlIndex) :
    Nat → Bool → List GnlEvent × GnlState → Option (List GnlEvent × GnlState)
  | 0, _, ls => some ls
  | n + 1, first_pass, ls =>
    match gnl_pass_log inp ix first_pass ls with
    | none => none
    | some ls1 =>
      if ls1.2.id2do_next.length = 0 then some ls1 else gnl_loop_log inp ix n false ls1

/-- The run `gnl_run` with its log, started with an empty log. -/
def gnl_run_log (inp : GnlInput) : Option (List GnlEvent × GnlState) :=
  match gnl_index inp with
  | none => none
  | some ix => gnl_loop_log inp ix iterMax true ([], gnl_init inp)

/-! ## The two recoverers in double precision

The routines `cpp_get_fe_2` and `cpp_get_fe_gnl` compute on doubles: the result of every
subtraction and of every addition is rounded to a double.  The definitions of this
section are the ones above with a rounding function `rnd` applied to the result of
each arithmetic operation of the source (lines 327, 343, 598 and 602); with the
identity for `rnd` they are the definitions above.  The rounding of the source is
`roundDouble`: to the nearest number with a significand of 53 binary digits, the one
with an even significand when two are as near.  The range of the exponent of a double
is not represented. -/

/-- The power of two `2^e` for an integer exponent. -/
def pow2 (e : Int) : ℚ :=
  if 0 ≤ e then ((2 ^ e.toNat : Nat) : ℚ) else 1 / ((2 ^ (-e).toNat : Nat) : ℚ)

/-- The number of binary digits of `n`, found by at most `fuel` halvings. -/
def bitLength : Nat → Nat → Nat
  | 0, _ => 0
  | fuel + 1, n => if n = 0 then 0 else bitLength fuel (n / 2) + 1

/-- The integer nearest to `x`, the even one of the two when `x` is half-way. -/
def roundEven (x : ℚ) : Int :=
  if x - ⌊x⌋ < 1 / 2 then ⌊x⌋
  else if 1 / 2 < x - ⌊x⌋ then ⌊x⌋ + 1
  else if ⌊x⌋ % 2 = 0 then ⌊x⌋ else ⌊x⌋ + 1

/-- The binary exponent `e` of a non-zero `x`: `2^e ≤ |x| < 2^(e+1)`. -/
def binExp (x : ℚ) : Int :=
  if |x| < pow2 ((bitLength x.num.natAbs x.num.natAbs : Int) - (bitLength x.den x.den : Int))
  then (bitLength x.num.natAbs x.num.natAbs : Int) - (bitLength x.den x.den : Int) - 1
  else (bitLength x.num.natAbs x.num.natAbs : Int) - (bitLength x.den x.den : Int)

/-- The double nearest to `x` (round to nearest, ties to even): `x` is scaled to a
significand between `2^52` and `2^53`, which is rounded to an integer. -/
def roundDouble (x : ℚ) : ℚ :=
  if x = 0 then 0 else (roundEven (x / pow2 (binExp x - 52)) : ℚ) * pow2 (binExp x - 52)

/-- Body of the inner loop of lines 324-334 with the subtraction of line 327 rounded. -/
def visit_i_rnd (rnd : ℚ → ℚ) (inp : Fe2Input) (j : Nat) (s : Fe2State) (u : Nat) :
    Option Fe2State :=
  match inp.j_sorted_index_i[u]? with
  | none => none
  | some i =>
    if i < inp.n_i then
      if s.to_visit_i i then
        match inp.j_sorted_sumFE[u]? with
        | none => none
        | some v =>
          some { s with
            cluster_coef_i := setAt s.cluster_coef_i i (rnd (v - s.cluster_coef_j j))
            to_visit_i := setAt s.to_visit_i i false
            n_done := s.n_done + 1
            cluster_pending_i := s.cluster_pending_i ++ [i] }
      else some s
    else none

/-- Body of the inner loop of lines 340-350 with the subtraction of line 343 rounded. -/
def visit_j_rnd (rnd : ℚ → ℚ) (inp : Fe2Input) (i : Nat) (s : Fe2State) (u : Nat) :
    Option Fe2State :=
  match inp.i_sorted_index_j[u]? with
  | none => none
  | some j =>
    if j < inp.n_j then
      if s.to_visit_j j then
        match inp.i_sorted_sumFE[u]? with
        | none => none
        | some v =>
          some { s with
            cluster_coef_j := setAt s.cluster_coef_j j (rnd (v - s.cluster_coef_i i))
            to_visit_j := setAt s.to_visit_j j false
            n_done := s.n_done + 1
            cluster_pending_j := s.cluster_pending_j ++ [j] }
      else some s
    else none

/-- Lines 321-335 in double precision. -/
def propagate_j_to_i_rnd (rnd : ℚ → ℚ) (inp : Fe2Input) (s : Fe2State) : Option Fe2State :=
  s.cluster_pending_j.foldlM (fun t j => forBucket inp.cumtable_j j (visit_i_rnd rnd inp j) t)
    { s with cluster_pending_i := [] }

/-- Lines 337-351 in double precision. -/
def propagate_i_to_j_rnd (rnd : ℚ → ℚ) (inp : Fe2Input) (s : Fe2State) : Option Fe2State :=
  s.cluster_pending_i.foldlM (fun t i => forBucket inp.cumtable_i i (visit_j_rnd rnd inp i) t)
    { s with cluster_pending_j := [] }

/-- One pass of the `while` loop (lines 297-351) in double precision. -/
def fe2_pass_rnd (rnd : ℚ → ℚ) (inp : Fe2Input) (s : Fe2State) : Option Fe2State :=
  (if s.cluster_pending_j.length = 0 then set_reference inp s else some s).bind fun s1 =>
    (propagate_j_to_i_rnd rnd inp s1).bind fun s2 => propagate_i_to_j_rnd rnd inp s2

/-- The loop `while(n_done < nb_coef)` in double precision, with fuel. -/
def fe2_loop_rnd (rnd : ℚ → ℚ) (inp : Fe2Input) : Nat → Fe2State → Option Fe2State
  | 0, s => if s.n_done < inp.n_i + inp.n_j then none else some s
  | fuel + 1, s =>
    if s.n_done < inp.n_i + inp.n_j then
      (fe2_pass_rnd rnd inp s).bind (fe2_loop_rnd rnd inp fuel)
    else some s

/-- The routine `cpp_get_fe_2` in double precision. -/
def cpp_get_fe_2_rnd (rnd : ℚ → ℚ) (fuel : Nat) (inp : Fe2Input) : Option (List (List ℚ)) :=
  (fe2_loop_rnd rnd inp fuel fe2_init).map (fe2_table inp)

/-- Lines 595-599 with the addition `other_value += cluster_values(index)` of line 598
rounded. -/
def other_value_step_rnd (rnd : ℚ → ℚ) (inp : GnlInput) (cluster_values : Nat → ℚ)
    (obs : Nat) (acc : ℚ) (l : Nat) : Option ℚ :=
  match matGet inp.dumMat obs l with
  | none => none
  | some k =>
    if k < inp.cluster_sizes.getD l 0 then
      some (rnd (acc + cluster_values (pindex_cluster inp.cluster_sizes l + k)))
    else none

/-- Lines 592-599 in double precision. -/
def other_value_rnd (rnd : ℚ → ℚ) (inp : GnlInput) (cluster_values : Nat → ℚ) (obs : Nat) :
    Option ℚ :=
  (List.range inp.Q).foldlM (other_value_step_rnd rnd inp cluster_values obs) 0

/-- Lines 571-611 with the subtraction `sumFE(obs) - other_value` of line 602 rounded. -/
def scan_obs_rnd (rnd : ℚ → ℚ) (inp : GnlInput) (ix : GnlIndex) (s : GnlState) (obs : Nat) :
    Option GnlState :=
  if ((s.rowsums obs : Nat) : ℤ) < (inp.Q : ℤ) - 1 then
    some { s with id2do_next := s.id2do_next ++ [obs] }
  else if ((s.rowsums obs : Nat) : ℤ) = (inp.Q : ℤ) - 1 then
    match (List.range inp.Q).find? (fun q => s.mat_done obs q == 0) with
    | none => none
    | some q =>
      match matGet inp.dumMat obs q with
      | none => none
      | some k =>
        if k < inp.cluster_sizes.getD q 0 then
          let index_select := pindex_cluster inp.cluster_sizes q + k
          match other_value_rnd rnd inp s.cluster_values obs, inp.sumFE[obs]? with
          | some other, some sfe =>
            mark_cluster inp ix q index_select
              { s with
                cluster_values := setAt s.cluster_values index_select (rnd (sfe - other)) }
          | _, _ => none
        else none
  else some s

/-- Lines 549-615 in double precision. -/
def propagation_loop_rnd (rnd : ℚ → ℚ) (inp : GnlInput) (ix : GnlIndex) :
    Nat → Bool → GnlState → Option GnlState
  | 0, _, s => some s
  | n + 1, first_scan, s =>
    match (if first_scan then s.id2do else s.id2do_next).foldlM (scan_obs_rnd rnd inp ix)
        { s with id2do := (if first_scan then s.id2do else s.id2do_next), id2do_next := [] } with
    | none => none
    | some s2 =>
      if s2.id2do_next.length = s2.id2do.length then some s2
      else propagation_loop_rnd rnd inp ix n false s2

/-- Lines 482-615 in double precision. -/
def gnl_pass_rnd (rnd : ℚ → ℚ) (inp : GnlInput) (ix : GnlIndex) (first_pass : Bool)
    (s : GnlState) : Option GnlState :=
  (set_references inp ix (if first_pass then 0 else find_qui_max inp.Q s.rowsums s.id2do 0 0)
    s).bind (propagation_loop_rnd rnd inp ix iterMax_loop true)

/-- Lines 474-629 in double precision. -/
def gnl_loop_rnd (rnd : ℚ → ℚ) (inp : GnlInput) (ix : GnlIndex) :
    Nat → Bool → GnlState → Option GnlState
  | 0, _, s => some s
  | n + 1, first_pass, s =>
    match gnl_pass_rnd rnd inp ix first_pass s with
    | none => none
    | some s1 =>
      if s1.id2do_next.length = 0 then some s1 else gnl_loop_rnd rnd inp ix n false s1

/-- The routine `cpp_get_fe_gnl` in double precision. -/
def cpp_get_fe_gnl_rnd (rnd : ℚ → ℚ) (inp : GnlInput) : Option GnlOutput :=
  match gnl_index inp with
  | none => none
  | some ix => (gnl_loop_rnd rnd inp ix iterMax true (gnl_init inp)).map (gnl_result inp)

/-- The layout of `fe2_example` with the values `1/4`, `-7/8 + 2^-53` and `1/4`, which
are doubles. -/
def fe2_tie : Fe2Input where
  n_i := 2
  n_j := 2
  i_sorted_index_j := [0, 1, 0]
  i_sorted_sumFE := [1 / 4, -7881299347898367 / 9007199254740992, 1 / 4]
  j_sorted_index_i := [0, 1, 0]
  j_sorted_sumFE := [1 / 4, 1 / 4, -7881299347898367 / 9007199254740992]
  cumtable_i := [2, 3]
  cumtable_j := [2, 3]

/-- The layout of `gnl_example` with the values `1/4`, `-7/8 + 2^-53` and `1/4`. -/
def gnl_tie : GnlInput where
  Q := 2
  N := 3
  sumFE := [1 / 4, -7881299347898367 / 9007199254740992, 1 / 4]
  dumMat := [[0, 0], [0, 1], [1, 0]]
  cluster_sizes := [2, 2]
  obsCluster := [[0, 0], [1, 2], [2, 1]]

/-! ## The fixed-point solver with the special values of a double

The model `pd_run` above has no result once a division by a zero weight sum is added to
`S`, whereas the source goes on with an infinite value or with a value that is not a
number.  The definitions of this section make the same steps on the values of a
double: the numbers, on which the arithmetic is exact, and the three special values
`+inf`, `-inf` and NaN, with the rules of IEEE 754 for them.  The arrays `start`, `end`
and `sum_lld2` and the initial value of `S` hold numbers and are the ones computed
above (`pd_index`, `pd_weights`, `pd_init`).  A zero of `sum_lld2` is the positive
zero: the array is filled with `+0`, and a sum of doubles is `-0` only when both terms
are `-0`. -/

/-- A value of a double: a number or one of the special values. -/
inductive Ext where
  | fin (x : ℚ)
  | pinf
  | ninf
  | nan
deriving DecidableEq

/-- The sum of two doubles: NaN for `+inf` and `-inf`. -/
def Ext.add : Ext → Ext → Ext
  | Ext.fin x, Ext.fin y => Ext.fin (x + y)
  | Ext.nan, _ => Ext.nan
  | _, Ext.nan => Ext.nan
  | Ext.pinf, Ext.ninf => Ext.nan
  | Ext.ninf, Ext.pinf => Ext.nan
  | Ext.pinf, _ => Ext.pinf
  | _, Ext.pinf => Ext.pinf
  | Ext.ninf, _ => Ext.ninf
  | _, Ext.ninf => Ext.ninf

/-- The opposite of a double. -/
def Ext.neg : Ext → Ext
  | Ext.fin x => Ext.fin (-x)
  | Ext.pinf => Ext.ninf
  | Ext.ninf => Ext.pinf
  | Ext.nan => Ext.nan

/-- The product of a double by the number `l`: NaN for an infinite value and zero. -/
def Ext.mul (a : Ext) (l : ℚ) : Ext :=
  match a with
  | Ext.fin x => Ext.fin (x * l)
  | Ext.nan => Ext.nan
  | Ext.pinf => if l = 0 then Ext.nan else if 0 < l then Ext.pinf else Ext.ninf
  | Ext.ninf => if l = 0 then Ext.nan else if 0 < l then Ext.ninf else Ext.pinf

/-- The quotient of a double by the number `w`, a zero `w` being the positive zero:
a number divided by zero is NaN when it is zero and infinite with its sign
otherwise. -/
def Ext.div (a : Ext) (w : ℚ) : Ext :=
  match a with
  | Ext.fin x =>
    if w = 0 then (if x = 0 then Ext.nan else if 0 < x then Ext.pinf else Ext.ninf)
    else Ext.fin (x / w)
  | Ext.nan => Ext.nan
  | Ext.pinf => if 0 ≤ w then Ext.pinf else Ext.ninf
  | Ext.ninf => if 0 ≤ w then Ext.ninf else Ext.pinf

/-- The test `fabs(a) > eps`: true for an infinite value, false for NaN. -/
def Ext.exceeds (eps : ℚ) : Ext → Bool
  | Ext.fin x => decide (eps < |x|)
  | Ext.pinf => true
  | Ext.ninf => true
  | Ext.nan => false

/-- Local variables of the `while` loop of `cpp_partialDerivative_other`, on the values
of a double. -/
structure PdStateExt where
  clusterDeriv : Nat → Ext
  S : Nat → Ext
  ok : Bool
  iter : Nat

/-- Line 121: `clusterDeriv(c) = 0`. -/
def pd_zero_step_ext (x : PdIndex) (cd : Nat → Ext) (c : Nat) : Option (Nat → Ext) :=
  if c < x.sum_cases then some (setAt cd c (Ext.fin 0)) else none

/-- Lines 125-126: `index = start[q] + dumMat(i, q);
clusterDeriv(index) += dx_dother(i) + S(i)*ll_d2(i)`. -/
def pd_accum_step_ext (inp : PdInput) (x : PdIndex) (q : Nat) (S : Nat → Ext)
    (cd : Nat → Ext) (i : Nat) : Option (Nat → Ext) :=
  match matGet inp.dumMat i q, inp.dx_dother[i]?, inp.ll_d2[i]? with
  | some k, some d, some l =>
    if x.start q + k < x.sum_cases then
      some (setAt cd (x.start q + k)
        ((cd (x.start q + k)).add ((Ext.fin d).add ((S i).mul l))))
    else none
  | _, _, _ => none

/-- Lines 131-135: `new_value = -clusterDeriv(c)/sum_lld2[c]; clusterDeriv(c) =
new_value; if(fabs(new_value) > epsDeriv) ok = true`. -/
def pd_update_step_ext (inp : PdInput) (x : PdIndex) (w : Nat → ℚ)
    (co : (Nat → Ext) × Bool) (c : Nat) : Option ((Nat → Ext) × Bool) :=
  if c < x.sum_cases then
    some (setAt co.1 c ((co.1 c).neg.div (w c)),
      co.2 || ((co.1 c).neg.div (w c)).exceeds inp.epsDeriv)
  else none

/-- Lines 140-141: `index = start[q] + dumMat(i, q); S[i] += clusterDeriv(index)`. -/
def pd_add_step_ext (inp : PdInput) (x : PdIndex) (q : Nat) (cd : Nat → Ext)
    (S : Nat → Ext) (i : Nat) : Option (Nat → Ext) :=
  match matGet inp.dumMat i q with
  | none => none
  | some k =>
    if x.start q + k < x.sum_cases then some (setAt S i ((S i).add (cd (x.start q + k))))
    else none

/-- Lines 116-144: the update of dimension `q` inside a sweep. -/
def pd_block_ext (inp : PdInput) (x : PdIndex) (w : Nat → ℚ) (st : PdStateExt) (q : Nat) :
    Option PdStateExt :=
  ((List.range' (x.start q) (x.end_ q - x.start q)).foldlM (pd_zero_step_ext x)
      st.clusterDeriv).bind fun cd1 =>
    ((List.range inp.N).foldlM (pd_accum_step_ext inp x q st.S) cd1).bind fun cd2 =>
      ((List.range' (x.start q) (x.end_ q - x.start q)).foldlM (pd_update_step_ext inp x w)
          (cd2, st.ok)).bind fun co =>
        ((List.range inp.N).foldlM (pd_add_step_ext inp x q co.1) st.S).map fun S2 =>
          { clusterDeriv := co.1, S := S2, ok := co.2, iter := st.iter }

/-- Lines 113-144: one sweep, the body of the `while` loop. -/
def pd_sweep_ext (inp : PdInput) (x : PdIndex) (w : Nat → ℚ) (st : PdStateExt) :
    Option PdStateExt :=
  (List.range inp.Q).foldlM (pd_block_ext inp x w) { st with iter := st.iter + 1, ok := false }

/-- The loop `while( ok & (iter<iterMax) )`, with fuel. -/
def pd_loop_ext (inp : PdInput) (x : PdIndex) (w : Nat → ℚ) :
    Nat → PdStateExt → Option PdStateExt
  | 0, st => if st.ok && decide (st.iter < inp.iterMax) then none else some st
  | fuel + 1, st =>
    if st.ok && decide (st.iter < inp.iterMax) then
      (pd_sweep_ext inp x w st).bind (pd_loop_ext inp x w fuel)
    else some st

/-- Lines 93-111: the state before the `while` loop. -/
def pd_start_ext (S : Nat → ℚ) : PdStateExt where
  clusterDeriv := fun _ => Ext.fin 0
  S := fun i => Ext.fin (S i)
  ok := true
  iter := 0

/-- The state of `cpp_partialDerivative_other` at the end of its `while` loop; the loop
makes at most `iterMax` sweeps, the fuel given to it. -/
def pd_run_ext (inp : PdInput) : Option PdStateExt :=
  (pd_index inp).bind fun x =>
    (pd_weights inp x).bind fun w =>
      (pd_init inp).bind fun S => pd_loop_ext inp x w inp.iterMax (pd_start_ext S)

/-- The routine `cpp_partialDerivative_other` on the values of a double: the vector `S`
of length `N`. -/
def cpp_partialDerivative_other_ext (inp : PdInput) : Option (List Ext) :=
  (pd_run_ext inp).map fun st => (List.range inp.N).map st.S

/-- One dimension with a category whose weight sum `1 - 1` is zero and a category of
weight sum `2`. -/
def pd_zero_weight : PdInput where
  iterMax := 10
  Q := 1
  N := 3
  epsDeriv := 1 / 100
  ll_d2 := [1, -1, 2]
  dx_dother := [0, 0, 1]
  init := [0, 0, 0]
  dumMat := [[0], [0], [1]]
  nbCluster := [2]

/-- Two dimensions: the category of the first one has the weight sum `1 - 1`, the two
categories of the second one have the weight sums `1` and `-1`. -/
def pd_cross : PdInput where
  iterMax := 10
  Q := 2
  N := 2
  epsDeriv := 1 / 100
  ll_d2 := [1, -1]
  dx_dother := [1, 0]
  init := [0, 0]
  dumMat := [[0, 0], [0, 1]]
  nbCluster := [1, 2]

/-! ## The loop of `cpp_get_fe_2` with its program points

The same loop, recording the program points that control reaches in a log: each entry
holds the values of the local variables at that point.  The steps are those of the
functions of the Bipartite Recoverer above; only the log is added. -/

/-- A program point of the `while` loop of `cpp_get_fe_2`, with the values of the local
variables when control reaches it. -/
inductive Fe2Event where
  /-- Line 299: the scan for the next reference is about to start. -/
  | ref (s : Fe2State)
  /-- Line 325: top of the body of the inner loop of lines 324-334, at position `u` of
  the bucket of the category `j` of dimension 2. -/
  | visit_i (j u : Nat) (s : Fe2State)
  /-- Line 341: top of the body of the inner loop of lines 340-350, at position `u` of
  the bucket of the category `i` of dimension 1. -/
  | visit_j (i u : Nat) (s : Fe2State)

/-- The step `f` with its program point `ev` added to the log. -/
def fe2_logged {σ α : Type} (f : σ → α → Option σ) (ev : σ → α → Fe2Event)
    (ls : List Fe2Event × σ) (a : α) : Option (List Fe2Event × σ) :=
  (f ls.2 a).map fun t => (ls.1 ++ [ev ls.2 a], t)

/-- The setting of the reference (lines 297-307) with its log. -/
def set_reference_log (inp : Fe2Input) (ls : List Fe2Event × Fe2State) :
    Option (List Fe2Event × Fe2State) :=
  (set_reference inp ls.2).map fun t => (ls.1 ++ [Fe2Event.ref ls.2], t)

/-- The loop `propagate_j_to_i` (lines 321-335) with its log. -/
def propagate_j_to_i_log (inp : Fe2Input) (ls : List Fe2Event × Fe2State) :
    Option (List Fe2Event × Fe2State) :=
  ls.2.cluster_pending_j.foldlM
    (fun t j => forBucket inp.cumtable_j j
      (fe2_logged (visit_i inp j) (fun s u => Fe2Event.visit_i j u s)) t)
    (ls.1, { ls.2 with cluster_pending_i := [] })

/-- The loop `propagate_i_to_j` (lines 337-351) with its log. -/
def propagate_i_to_j_log (inp : Fe2Input) (ls : List Fe2Event × Fe2State) :
    Option (List Fe2Event × Fe2State) :=
  ls.2.cluster_pending_i.foldlM
    (fun t i => forBucket inp.cumtable_i i
      (fe2_logged (visit_j inp i) (fun s u => Fe2Event.visit_j i u s)) t)
    (ls.1, { ls.2 with cluster_pending_j := [] })

/-- One pass `fe2_pass` of the `while` loop with its log. -/
def fe2_pass_log (inp : Fe2Input) (ls : List Fe2Event × Fe2State) :
    Option (List Fe2Event × Fe2State) :=
  (if ls.2.cluster_pending_j.length = 0 then set_reference_log inp ls else some ls).bind
    fun l1 => (propagate_j_to_i_log inp l1).bind fun l2 => propagate_i_to_j_log inp l2

/-- The loop `fe2_loop` with its log. -/
def fe2_loop_log (inp : Fe2Input) :
    Nat → List Fe2Event × Fe2State → Option (List Fe2Event × Fe2State)
  | 0, ls => if ls.2.n_done < inp.n_i + inp.n_j then none else some ls
  | fuel + 1, ls =>
    if ls.2.n_done < inp.n_i + inp.n_j then
      (fe2_pass_log inp ls).bind (fe2_loop_log inp fuel)
    else some ls

/-- The log and the final state of the `while` loop of `cpp_get_fe_2`. -/
def fe2_run_log (fuel : Nat) (inp : Fe2Input) : Option (List Fe2Event × Fe2State) :=
  fe2_loop_log inp fuel ([], fe2_init)

/-! ## Specification side of the Bipartite Recoverer -/

/-- First position of the bucket of category `k`, read with a default. -/
def bucketLo (cumtable : List Nat) (k : Nat) : Nat :=
  if k = 0 then 0 else cumtable.getD (k - 1) 0

/-- End of the bucket of category `k`, read with a default. -/
def bucketHi (cumtable : List Nat) (k : Nat) : Nat := cumtable.getD k 0

/-- The cumulative table `cum` has one entry per category, every category has at least
one observation, and the buckets lie inside the arrays `ind` and `val`. -/
def BucketsOk (n : Nat) (cum ind : List Nat) (val : List ℚ) : Prop :=
  cum.length = n ∧ ∀ k < n, bucketLo cum k < bucketHi cum k ∧
    bucketHi cum k ≤ ind.length ∧ bucketHi cum k ≤ val.length

instance (n : Nat) (cum ind : List Nat) (val : List ℚ) : Decidable (BucketsOk n cum ind val) := by
  unfold BucketsOk; infer_instance

/-- Every observation of the view `(cum, ind, val)` has its other category in range
and occurs with the same value in the other view `(cum2, ind2, val2)`. -/
def ViewIncluded (n n2 : Nat) (cum ind : List Nat) (val : List ℚ) (cum2 ind2 : List Nat)
    (val2 : List ℚ) : Prop :=
  ∀ k < n, ∀ u < bucketHi cum k, bucketLo cum k ≤ u →
    ind.getD u 0 < n2 ∧
    ∃ w < bucketHi cum2 (ind.getD u 0), bucketLo cum2 (ind.getD u 0) ≤ w ∧
      ind2.getD w 0 = k ∧ val2.getD w 0 = val.getD u 0

instance (n n2 : Nat) (cum ind : List Nat) (val : List ℚ) (cum2 ind2 : List Nat)
    (val2 : List ℚ) : Decidable (ViewIncluded n n2 cum ind val cum2 ind2 val2) := by
  unfold ViewIncluded; infer_instance

/-- Valid input of `cpp_get_fe_2`: the cumulative tables have one entry per category,
every category has at least one observation, the buckets lie inside the arrays, the
indices are in range, and the two views hold the same observations. -/
structure Fe2Valid (inp : Fe2Input) : Prop where
  buckets_i : BucketsOk inp.n_i inp.cumtable_i inp.i_sorted_index_j inp.i_sorted_sumFE
  buckets_j : BucketsOk inp.n_j inp.cumtable_j inp.j_sorted_index_i inp.j_sorted_sumFE
  view_i : ViewIncluded inp.n_i inp.n_j inp.cumtable_i inp.i_sorted_index_j inp.i_sorted_sumFE
    inp.cumtable_j inp.j_sorted_index_i inp.j_sorted_sumFE
  view_j : ViewIncluded inp.n_j inp.n_i inp.cumtable_j inp.j_sorted_index_i inp.j_sorted_sumFE
    inp.cumtable_i inp.i_sorted_index_j inp.i_sorted_sumFE

instance (inp : Fe2Input) : Decidable (Fe2Valid inp) :=
  decidable_of_iff
    (BucketsOk inp.n_i inp.cumtable_i inp.i_sorted_index_j inp.i_sorted_sumFE ∧
      BucketsOk inp.n_j inp.cumtable_j inp.j_sorted_index_i inp.j_sorted_sumFE ∧
      ViewIncluded inp.n_i inp.n_j inp.cumtable_i inp.i_sorted_index_j inp.i_sorted_sumFE
        inp.cumtable_j inp.j_sorted_index_i inp.j_sorted_sumFE ∧
      ViewIncluded inp.n_j inp.n_i inp.cumtable_j inp.j_sorted_index_i inp.j_sorted_sumFE
        inp.cumtable_i inp.i_sorted_index_j inp.i_sorted_sumFE)
    ⟨fun h => ⟨h.1, h.2.1, h.2.2.1, h.2.2.2⟩,
     fun h => ⟨h.buckets_i, h.buckets_j, h.view_i, h.view_j⟩⟩

/-- The cumulative table `cum` has one entry per category and the buckets lie inside
the arrays `ind` and `val`; a category may have no observation. -/
def BucketsIn (n : Nat) (cum ind : List Nat) (val : List ℚ) : Prop :=
  cum.length = n ∧ ∀ k < n, bucketHi cum k ≤ ind.length ∧ bucketHi cum k ≤ val.length

instance (n : Nat) (cum ind : List Nat) (val : List ℚ) : Decidable (BucketsIn n cum ind val) := by
  unfold BucketsIn; infer_instance

/-- Input of `cpp_get_fe_2` in which every category of dimension 1 has at least one
observation and the two views hold the same observations; a category of dimension 2
may have no observation. -/
structure Fe2Views (inp : Fe2Input) : Prop where
  buckets_i : BucketsOk inp.n_i inp.cumtable_i inp.i_sorted_index_j inp.i_sorted_sumFE
  buckets_j : BucketsIn inp.n_j inp.cumtable_j inp.j_sorted_index_i inp.j_sorted_sumFE
  view_i : ViewIncluded inp.n_i inp.n_j inp.cumtable_i inp.i_sorted_index_j inp.i_sorted_sumFE
    inp.cumtable_j inp.j_sorted_index_i inp.j_sorted_sumFE
  view_j : ViewIncluded inp.n_j inp.n_i inp.cumtable_j inp.j_sorted_index_i inp.j_sorted_sumFE
    inp.cumtable_i inp.i_sorted_index_j inp.i_sorted_sumFE

instance (inp : Fe2Input) : Decidable (Fe2Views inp) :=
  decidable_of_iff
    (BucketsOk inp.n_i inp.cumtable_i inp.i_sorted_index_j inp.i_sorted_sumFE ∧
      BucketsIn inp.n_j inp.cumtable_j inp.j_sorted_index_i inp.j_sorted_sumFE ∧
      ViewIncluded inp.n_i inp.n_j inp.cumtable_i inp.i_sorted_index_j inp.i_sorted_sumFE
        inp.cumtable_j inp.j_sorted_index_i inp.j_sorted_sumFE ∧
      ViewIncluded inp.n_j inp.n_i inp.cumtable_j inp.j_sorted_index_i inp.j_sorted_sumFE
        inp.cumtable_i inp.i_sorted_index_j inp.i_sorted_sumFE)
    ⟨fun h => ⟨h.1, h.2.1, h.2.2.1, h.2.2.2⟩,
     fun h => ⟨h.buckets_i, h.buckets_j, h.view_i, h.view_j⟩⟩

/-- The values `sumFE` are the sums `a i + b j` of the coefficients of the two
categories of the observation (stated on the view sorted by dimension 2; by
`Fe2Valid` the other view holds the same observations). -/
def Fe2Consistent (inp : Fe2Input) (a b : Nat → ℚ) : Prop :=
  ∀ j < inp.n_j, ∀ u < bucketHi inp.cumtable_j j, bucketLo inp.cumtable_j j ≤ u →
    inp.j_sorted_sumFE.getD u 0 = a (inp.j_sorted_index_i.getD u 0) + b j

instance (inp : Fe2Input) (a b : Nat → ℚ) : Decidable (Fe2Consistent inp a b) := by
  unfold Fe2Consistent; infer_instance

/-- There is an observation of the categories `i` (dimension 1) and `j` (dimension 2)
with value `v`. -/
def Fe2Obs (inp : Fe2Input) (i j : Nat) (v : ℚ) : Prop :=
  i < inp.n_i ∧ j < inp.n_j ∧
  ∃ u, bucketLo inp.cumtable_j j ≤ u ∧ u < bucketHi inp.cumtable_j j ∧
    inp.j_sorted_index_i.getD u 0 = i ∧ inp.j_sorted_sumFE.getD u 0 = v

/-- A category of one of the two dimensions. -/
inductive Fe2Cat where
  | dim1 (i : Nat)
  | dim2 (j : Nat)
deriving DecidableEq

/-- Two categories are adjacent when an observation has both. -/
def Fe2Adj (inp : Fe2Input) (x y : Fe2Cat) : Prop :=
  ∃ i j v, Fe2Obs inp i j v ∧
    ((x = Fe2Cat.dim1 i ∧ y = Fe2Cat.dim2 j) ∨ (x = Fe2Cat.dim2 j ∧ y = Fe2Cat.dim1 i))

/-- Two categories are connected: they belong to the same connected component. -/
def Fe2Conn (inp : Fe2Input) : Fe2Cat → Fe2Cat → Prop := Relation.ReflTransGen (Fe2Adj inp)

/-- The category belongs to the input. -/
def Fe2Cat.inRange (inp : Fe2Input) : Fe2Cat → Prop
  | Fe2Cat.dim1 i => i < inp.n_i
  | Fe2Cat.dim2 j => j < inp.n_j

/-- Category `r` of dimension 2 is the lowest-indexed category of dimension 2 of its
connected component. -/
def Fe2Lowest (inp : Fe2Input) (r : Nat) : Prop :=
  r < inp.n_j ∧ ∀ j < r, ¬ Fe2Conn inp (Fe2Cat.dim2 j) (Fe2Cat.dim2 r)

/-- The coefficient stored in a row of the result matrix. -/
def fe2_coef (res : List (List ℚ)) (row : Nat) : ℚ := (res.getD row []).getD 2 0

/-- The is-reference flag stored in a row of the result matrix. -/
def fe2_flag (res : List (List ℚ)) (row : Nat) : ℚ := (res.getD row []).getD 3 0

/-! ## Definitions used by the statements and by the proofs -/

/-- Number of indices below `n` at which the flag is `false`. -/
def visitedCount : Nat → (Nat → Bool) → Nat
  | 0, _ => 0
  | n + 1, f => visitedCount n f + (if f n then 0 else 1)

/-- The invariant of `cpp_get_fe_2`, for values `sumFE` built from the coefficients
`a` and `b`. -/
structure Fe2Inv (inp : Fe2Input) (a b : Nat → ℚ) (s : Fe2State) : Prop where
  count : s.n_done = visitedCount inp.n_i s.to_visit_i + visitedCount inp.n_j s.to_visit_j
  ref : ∀ r, s.isRef_j r = true →
    Fe2Lowest inp r ∧ s.to_visit_j r = false ∧ s.cluster_coef_j r = 0
  val_i : Fe2Consistent inp a b → ∀ i < inp.n_i, s.to_visit_i i = false →
    ∃ r, s.isRef_j r = true ∧ Fe2Conn inp (Fe2Cat.dim1 i) (Fe2Cat.dim2 r) ∧
      s.cluster_coef_i i = a i + b r
  val_j : Fe2Consistent inp a b → ∀ j < inp.n_j, s.to_visit_j j = false →
    ∃ r, s.isRef_j r = true ∧ Fe2Conn inp (Fe2Cat.dim2 j) (Fe2Cat.dim2 r) ∧
      s.cluster_coef_j j = b j - b r
  pend_i : ∀ i ∈ s.cluster_pending_i, i < inp.n_i ∧ s.to_visit_i i = false
  pend_j : ∀ j ∈ s.cluster_pending_j, j < inp.n_j ∧ s.to_visit_j j = false
  noref_i : ∀ i, s.isRef_i i = false
  start : ∀ j < s.j_start, s.to_visit_j j = false
  closed_i : ∀ i < inp.n_i, s.to_visit_i i = false →
    i ∈ s.cluster_pending_i ∨ ∀ j v, Fe2Obs inp i j v → s.to_visit_j j = false
  closed_j : ∀ j < inp.n_j, s.to_visit_j j = false →
    j ∈ s.cluster_pending_j ∨ ∀ i v, Fe2Obs inp i j v → s.to_visit_i i = false
  conn_i : ∀ i < inp.n_i, s.to_visit_i i = false →
    ∃ r, s.isRef_j r = true ∧ Fe2Conn inp (Fe2Cat.dim1 i) (Fe2Cat.dim2 r)
  conn_j : ∀ j < inp.n_j, s.to_visit_j j = false →
    ∃ r, s.isRef_j r = true ∧ Fe2Conn inp (Fe2Cat.dim2 j) (Fe2Cat.dim2 r)

/-- The invariant at the top of the `while` loop: the observations of every visited
category of dimension 1 have been followed. -/
def Fe2Top (inp : Fe2Input) (a b : Nat → ℚ) (s : Fe2State) : Prop :=
  Fe2Inv inp a b s ∧
  ∀ i < inp.n_i, s.to_visit_i i = false → ∀ j v, Fe2Obs inp i j v → s.to_visit_j j = false

/-- The invariant between the two propagation loops: the observations of every
visited category of dimension 2 have been followed. -/
def Fe2Mid (inp : Fe2Input) (a b : Nat → ℚ) (s : Fe2State) : Prop :=
  Fe2Inv inp a b s ∧
  ∀ j < inp.n_j, s.to_visit_j j = false → ∀ i v, Fe2Obs inp i j v → s.to_visit_i i = false

/-- The category is in range and has been visited. -/
def Fe2Visited (inp : Fe2Input) (s : Fe2State) : Fe2Cat → Prop
  | Fe2Cat.dim1 i => i < inp.n_i ∧ s.to_visit_i i = false
  | Fe2Cat.dim2 j => j < inp.n_j ∧ s.to_visit_j j = false

/-- Termination measure of the `while` loop of `cpp_get_fe_2`. -/
def fe2_measure (inp : Fe2Input) (s : Fe2State) : Nat :=
  2 * (inp.n_i + inp.n_j - s.n_done) + (if s.cluster_pending_j.length = 0 then 0 else 1)

/-- The categories of the input of `cpp_get_fe_2`. -/
def Fe2Node (inp : Fe2Input) : Type := { x : Fe2Cat // x.inRange inp }

/-- Connection, as an equivalence relation on the categories of the input: its classes
are the connected components of the bipartite category graph. -/
def fe2Setoid (inp : Fe2Input) : Setoid (Fe2Node inp) where
  r x y := Fe2Conn inp x.1 y.1
  iseqv := ⟨fun _ => Relation.ReflTransGen.refl,
    fun h => Relation.ReflTransGen.symmetric
      (fun _ _ ⟨i, j, v, ho, hh⟩ => ⟨i, j, v, ho, hh.symm.imp And.symm And.symm⟩) h,
    fun h h2 => Relation.ReflTransGen.trans h h2⟩

/-- Coefficients of dimension 1 behind the values of `fe2_example`. -/
def fe2_example_a : Nat → ℚ := fun i => if i = 0 then 5 else 8

/-- Coefficients of dimension 2 behind the values of `fe2_example`. -/
def fe2_example_b : Nat → ℚ := fun j => if j = 0 then 0 else 2

/-- Entry `dumMat(i, q)`, read with a default. -/
def GnlInput.dum (inp : GnlInput) (i q : Nat) : Nat := (inp.dumMat.getD i []).getD q 0

/-- Entry `obsCluster(i, q)`, read with a default. -/
def GnlInput.obs (inp : GnlInput) (i q : Nat) : Nat := (inp.obsCluster.getD i []).getD q 0

/-- Entry `cluster_sizes(q)`, read with a default. -/
def GnlInput.size (inp : GnlInput) (q : Nat) : Nat := inp.cluster_sizes.getD q 0

/-- Entry `sumFE(i)`, read with a default. -/
def GnlInput.sfe (inp : GnlInput) (i : Nat) : ℚ := inp.sumFE.getD i 0

/-- Column `q` of `obsCluster`. -/
def GnlInput.col (inp : GnlInput) (q : Nat) : List Nat :=
  (List.range inp.N).map (fun i => inp.obs i q)

/-- The arrays have the declared shapes. -/
def GnlShape (inp : GnlInput) : Prop :=
  inp.sumFE.length = inp.N ∧ inp.cluster_sizes.length = inp.Q ∧
  inp.dumMat.length = inp.N ∧ inp.obsCluster.length = inp.N ∧
  ∀ i < inp.N, (inp.dumMat.getD i []).length = inp.Q ∧ (inp.obsCluster.getD i []).length = inp.Q

instance (inp : GnlInput) : Decidable (GnlShape inp) := by
  unfold GnlShape; infer_instance

/-- Column `q` of `obsCluster` lists all the observations, grouped by their category of
dimension `q` in ascending category order. -/
def GnlOrdered (inp : GnlInput) (q : Nat) : Prop :=
  List.Perm (inp.col q) (List.range inp.N) ∧
  List.Pairwise (fun x y => inp.dum x q ≤ inp.dum y q) (inp.col q)

instance (inp : GnlInput) (q : Nat) : Decidable (GnlOrdered inp q) := by
  unfold GnlOrdered; infer_instance

/-- Valid input of `cpp_get_fe_gnl`: at least one observation, arrays of the declared
shapes, category indices in range, and every column of `obsCluster` listing the
observations grouped by category in ascending category order. -/
structure GnlValid (inp : GnlInput) : Prop where
  npos : 1 ≤ inp.N
  shape : GnlShape inp
  range : ∀ i < inp.N, ∀ q < inp.Q, inp.dum i q < inp.size q
  ordered : ∀ q < inp.Q, GnlOrdered inp q

instance (inp : GnlInput) : Decidable (GnlValid inp) :=
  decidable_of_iff
    (1 ≤ inp.N ∧ GnlShape inp ∧ (∀ i < inp.N, ∀ q < inp.Q, inp.dum i q < inp.size q) ∧
      ∀ q < inp.Q, GnlOrdered inp q)
    ⟨fun h => ⟨h.1, h.2.1, h.2.2.1, h.2.2.2⟩, fun h => ⟨h.npos, h.shape, h.range, h.ordered⟩⟩

/-- The sum over the `Q` dimensions of the values `c q (dumMat(o, q))`. -/
def GnlInput.rowSum (inp : GnlInput) (c : Nat → Nat → ℚ) (o : Nat) : ℚ :=
  ((List.range inp.Q).map (fun q => c q (inp.dum o q))).sum

/-- The values `sumFE` are the sums over the dimensions of the coefficients `c` of
the categories of the observation. -/
def GnlConsistent (inp : GnlInput) (c : Nat → Nat → ℚ) : Prop :=
  ∀ o < inp.N, inp.sfe o = inp.rowSum c o

instance (inp : GnlInput) (c : Nat → Nat → ℚ) : Decidable (GnlConsistent inp c) := by
  unfold GnlConsistent; infer_instance

/-- Two categories `(dimension, index)` are adjacent when an observation has both. -/
def GnlAdj (inp : GnlInput) (x y : Nat × Nat) : Prop :=
  ∃ o < inp.N, x.1 < inp.Q ∧ y.1 < inp.Q ∧ inp.dum o x.1 = x.2 ∧ inp.dum o y.1 = y.2

/-- Two categories are connected: they belong to the same connected component of the
category hypergraph. -/
def GnlConn (inp : GnlInput) : Nat × Nat → Nat × Nat → Prop :=
  Relation.ReflTransGen (GnlAdj inp)

/-- The categories of the input of `cpp_get_fe_gnl`. -/
def GnlNode (inp : GnlInput) : Type := (q : Fin inp.Q) × Fin (inp.size q)

/-- The pair `(dimension, index)` of a category. -/
def GnlNode.pair {inp : GnlInput} (x : GnlNode inp) : Nat × Nat := (x.1.1, x.2.1)

/-- Connection, as an equivalence relation on the categories of the input: its classes
are the connected components of the category hypergraph. -/
def gnlSetoid (inp : GnlInput) : Setoid (GnlNode inp) where
  r x y := GnlConn inp x.pair y.pair
  iseqv := ⟨fun _ => Relation.ReflTransGen.refl,
    fun h => Relation.ReflTransGen.symmetric
      (fun _ _ ⟨o, ho, h1, h2, h3, h4⟩ => ⟨o, ho, h2, h1, h4, h3⟩) h,
    fun h h2 => Relation.ReflTransGen.trans h h2⟩

/-- The coefficient of category `k` of dimension `q` in the result. -/
def gnl_coef (out : GnlOutput) (q k : Nat) : ℚ := (out.coef.getD q []).getD k 0

/-- The reference count of dimension `q` in the result. -/
def gnl_nb_ref (out : GnlOutput) (q : Nat) : Nat := out.nb_ref.getD q 0

/-- Number of observations whose category of dimension `q` is below `k`. -/
def cntLt (inp : GnlInput) (q k : Nat) : Nat :=
  (List.range inp.N).countP (fun i => decide (inp.dum i q < k))

/-- Number of observations whose category of dimension `q` is `k`. -/
def cntEq (inp : GnlInput) (q k : Nat) : Nat :=
  (List.range inp.N).countP (fun i => decide (inp.dum i q = k))

/-- The arrays `start_cluster` and `end_cluster` bound the bucket of every category. -/
def GnlIndexOk (inp : GnlInput) (ix : GnlIndex) : Prop :=
  ∀ q < inp.Q, ∀ k < inp.size q,
    ix.start_cluster (pindex_cluster inp.cluster_sizes q + k) = cntLt inp q k ∧
    ix.end_cluster (pindex_cluster inp.cluster_sizes q + k) = cntLt inp q k + cntEq inp q k

/-- Coefficients behind the values of `gnl_example` and of `gnl_three_way`. -/
def gnl_example_coef : Nat → Nat → ℚ := fun q k =>
  if q = 0 then (if k = 0 then 5 else 8) else (if k = 0 then 0 else 2)

/-- Coefficients behind the values of `gnl_three_way`: `0` for the first category and `1`
for the second category of every dimension. -/
def gnl_three_way_coef : Nat → Nat → ℚ := fun _ k => if k = 0 then 0 else 1

/-- The observations stored in the bucket of category `k` of dimension `q`. -/
def bucketObs (inp : GnlInput) (q k : Nat) : List Nat :=
  (List.range' (cntLt inp q k) (cntEq inp q k)).map (fun i => inp.obs i q)

/-- The invariant of the main loop of `cpp_get_fe_gnl`: the done markers are flags,
equal for the observations of one category; `rowsums` counts them; a category that is
not done holds the value `0`, as does a category without observation; a category that is
done holds its coefficient in `c` and satisfies `V`. -/
structure GnlInv (inp : GnlInput) (c : Nat → Nat → ℚ) (V : Nat × Nat → Prop) (s : GnlState) :
    Prop where
  bit : ∀ o < inp.N, ∀ q < inp.Q, s.mat_done o q = 0 ∨ s.mat_done o q = 1
  uniform : ∀ o < inp.N, ∀ o2 < inp.N, ∀ q < inp.Q, inp.dum o q = inp.dum o2 q →
    s.mat_done o q = s.mat_done o2 q
  rows : ∀ o < inp.N, s.rowsums o = ((List.range inp.Q).map (s.mat_done o)).sum
  zero : ∀ o < inp.N, ∀ q < inp.Q, s.mat_done o q = 0 →
    s.cluster_values (pindex_cluster inp.cluster_sizes q + inp.dum o q) = 0
  val : GnlConsistent inp c → ∀ o < inp.N, ∀ q < inp.Q, s.mat_done o q = 1 →
    s.cluster_values (pindex_cluster inp.cluster_sizes q + inp.dum o q) = c q (inp.dum o q)
  good : ∀ o < inp.N, ∀ q < inp.Q, s.mat_done o q = 1 → V (q, inp.dum o q)
  untouched : ∀ idx, (∀ o < inp.N, ∀ q < inp.Q,
    idx ≠ pindex_cluster inp.cluster_sizes q + inp.dum o q) → s.cluster_values idx = 0

/-- Every observation that is not fully resolved belongs to the worklist `W`. -/
def GnlCover (inp : GnlInput) (s : GnlState) (W : List Nat) : Prop :=
  ∀ o < inp.N, s.rowsums o < inp.Q → o ∈ W

/-- The state `t` comes after the state `s`: done markers stay and `rowsums` grows. -/
def GnlGrow (s t : GnlState) : Prop :=
  (∀ o, s.rowsums o ≤ t.rowsums o) ∧ (∀ o q, s.mat_done o q = 1 → t.mat_done o q = 1) ∧
  t.nb_ref = s.nb_ref

/-- The state at the end of the propagation loop: the worklist `id2do_next` holds
exactly the observations that are not fully resolved, none of them can be resolved by
propagation, and `id2do` is the same list unless the worklist is empty. -/
def GnlFix (inp : GnlInput) (t : GnlState) : Prop :=
  GnlCover inp t t.id2do_next ∧
  (∀ o ∈ t.id2do_next, o < inp.N ∧ t.rowsums o + 1 < inp.Q) ∧
  (t.id2do_next ≠ [] → t.id2do = t.id2do_next)

/-- The categories connected to a reference of the list `R` (categories of the second
dimension). -/
def RefV (inp : GnlInput) (R : List Nat) : Nat × Nat → Prop :=
  fun x => ∃ r ∈ R, GnlConn inp x (1, r)

/-- The category is the one of an observation in a dimension in which it is done. -/
def GnlVisited (inp : GnlInput) (s : GnlState) (x : Nat × Nat) : Prop :=
  ∃ o < inp.N, ∃ q < inp.Q, x = (q, inp.dum o q) ∧ s.mat_done o q = 1

/-- The invariant of the main loop with two dimensions, at the end of a pass: `R` is the
list of the categories of the second dimension set as references so far. -/
structure Gnl2Inv (inp : GnlInput) (c0 c : Nat → Nat → ℚ) (R : List Nat) (s : GnlState) :
    Prop where
  inv : GnlInv inp c (RefV inp R) s
  fix : GnlFix inp s
  cons : GnlConsistent inp c0 → GnlConsistent inp c
  nodup : R.Nodup
  cnt1 : s.nb_ref 1 = R.length
  cnt0 : s.nb_ref 0 = 0
  vis : ∀ r ∈ R, ∃ o < inp.N, inp.dum o 1 = r ∧ s.mat_done o 1 = 1
  sep : ∀ r ∈ R, ∀ r2 ∈ R, GnlConn inp (1, r) (1, r2) → r = r2
  czero : ∀ r ∈ R, c 1 r = 0

instance (inp : GnlInput) : Finite (GnlNode inp) := by
  unfold GnlNode; infer_instance

/-- Two observations with two categories in the first dimension and a single category
in the second one. -/
def gnl_single : GnlInput where
  Q := 2
  N := 2
  sumFE := [3, 4]
  dumMat := [[0, 0], [1, 0]]
  cluster_sizes := [2, 1]
  obsCluster := [[0, 0], [1, 1]]

/-- Coefficients behind the values of `gnl_single`. -/
def gnl_single_coef : Nat → Nat → ℚ := fun q k => if q = 0 then (if k = 0 then 3 else 4) else 0

/-- Three observations `(0,0)`, `(0,1)`, `(1,2)` on two categories of dimension 1 and
three of dimension 2: the first pass of `cpp_get_fe_2` leaves category `1` of
dimension 2 pending although nothing is left to reach from it. -/
def fe2_chain : Fe2Input where
  n_i := 2
  n_j := 3
  i_sorted_index_j := [0, 1, 2]
  i_sorted_sumFE := [1, 4, 2]
  j_sorted_index_i := [0, 0, 1]
  j_sorted_sumFE := [1, 4, 2]
  cumtable_i := [2, 3]
  cumtable_j := [1, 2, 3]

/-- The states at the top of the `while` loop of `cpp_get_fe_2`: the initial state, and
the state after a pass made from such a state in which the loop condition holds. -/
inductive Fe2Reach (inp : Fe2Input) : Fe2State → Prop
  | init : Fe2Reach inp fe2_init
  | pass (s t : Fe2State) : Fe2Reach inp s → s.n_done < inp.n_i + inp.n_j →
      fe2_pass inp s = some t → Fe2Reach inp t

/-- One when the pending list of dimension 2 is not empty (`n_pending_j != 0`), zero
otherwise. -/
def fe2_stale (s : Fe2State) : Nat := if s.cluster_pending_j.length = 0 then 0 else 1

/-- The dimension stored in a row of the result matrix (column 0). -/
def fe2_dim (res : List (List ℚ)) (row : Nat) : ℚ := (res.getD row []).getD 0 0

/-- The local index stored in a row of the result matrix (column 1). -/
def fe2_index (res : List (List ℚ)) (row : Nat) : ℚ := (res.getD row []).getD 1 0

/-- Coefficients that do not reproduce the values `sumFE` of the input. -/
def gnl_off (inp : GnlInput) : Nat → Nat → ℚ :=
  fun q _ => if q = 0 then inp.sfe 0 + 1 else 0

/-- The raw arguments have the declared shapes: one declared size per dimension and a
membership matrix of `N` rows and `Q` columns. -/
def GnlRawShape (r : GnlRaw) : Prop :=
  r.cluster_sizes.length = r.Q ∧ r.dumMat.length = r.N ∧
  ∀ i < r.N, (r.dumMat.getD i []).length = r.Q

instance (r : GnlRaw) : Decidable (GnlRawShape r) := by
  unfold GnlRawShape; infer_instance

/-- The exception is `index_out_of_bounds` for an index that is negative or not
smaller than the length of the vector. -/
def GnlStop.outside : GnlStop → Prop
  | GnlStop.index_out_of_bounds k n => k < 0 ∨ (n : Int) ≤ k
  | GnlStop.undefined => False

/-- Raw arguments with the entry `dumMat(1, 0) = 2` not smaller than the declared
number `cluster_sizes(0) = 2` of categories, and a negative entry `dumMat(1, 1)`. -/
def gnl_malformed : GnlRaw where
  Q := 2
  N := 2
  sumFE := [1, 2]
  dumMat := [[0, 0], [2, -1]]
  cluster_sizes := [2, 1]
  obsCluster := [[0, 0], [1, 1]]

/-- Every entry of the raw membership matrix is a category of its dimension. -/
def GnlRawRange (r : GnlRaw) : Prop :=
  ∀ i < r.N, ∀ q < r.Q, ∀ k, matGetRaw r.dumMat i q = some k →
    0 ≤ k ∧ k < ((r.cluster_sizes.getD q 0 : Nat) : Int)

/-- Entry `dumMat(i, q)` of the solver, read with a default. -/
def PdInput.dum (inp : PdInput) (i q : Nat) : Nat := (inp.dumMat.getD i []).getD q 0

/-- Entry `nbCluster(q)`, read with a default. -/
def PdInput.size (inp : PdInput) (q : Nat) : Nat := inp.nbCluster.getD q 0

/-- Entry `ll_d2(i)`, read with a default. -/
def PdInput.ll (inp : PdInput) (i : Nat) : ℚ := inp.ll_d2.getD i 0

/-- Entry `dx_dother(i)`, read with a default. -/
def PdInput.dx (inp : PdInput) (i : Nat) : ℚ := inp.dx_dother.getD i 0

/-- The arrays of the solver have the declared shapes. -/
def PdShape (inp : PdInput) : Prop :=
  inp.ll_d2.length = inp.N ∧ inp.dx_dother.length = inp.N ∧ inp.init.length = inp.N ∧
  inp.nbCluster.length = inp.Q ∧ inp.dumMat.length = inp.N ∧
  ∀ i < inp.N, (inp.dumMat.getD i []).length = inp.Q

instance (inp : PdInput) : Decidable (PdShape inp) := by
  unfold PdShape; infer_instance

/-- Valid input of `cpp_partialDerivative_other`: arrays of the declared shapes and
category indices in range. -/
structure PdValid (inp : PdInput) : Prop where
  shape : PdShape inp
  range : ∀ i < inp.N, ∀ q < inp.Q, inp.dum i q < inp.size q

instance (inp : PdInput) : Decidable (PdValid inp) :=
  decidable_of_iff (PdShape inp ∧ ∀ i < inp.N, ∀ q < inp.Q, inp.dum i q < inp.size q)
    ⟨fun h => ⟨h.1, h.2⟩, fun h => ⟨h.shape, h.range⟩⟩

/-- The observations below `n` of category `c` of dimension `q`. -/
def PdInput.obsBelow (inp : PdInput) (q c n : Nat) : List Nat :=
  (List.range n).filter (fun i => decide (inp.dum i q = c))

/-- The observations of category `c` of dimension `q`. -/
def PdInput.obsOf (inp : PdInput) (q c : Nat) : List Nat := inp.obsBelow q c inp.N

/-- The sum of `f` over the observations of category `c` of dimension `q`. -/
def PdInput.catSum (inp : PdInput) (q c : Nat) (f : Nat → ℚ) : ℚ :=
  ((inp.obsOf q c).map f).sum

/-- The weight sum of category `c` of dimension `q`: the sum of `ll_d2` over its
observations. -/
def PdInput.weight (inp : PdInput) (q c : Nat) : ℚ := inp.catSum q c inp.ll

/-- The block residual of category `c` of dimension `q` at the running value `S`: the
sum over its observations of `dx_dother(i) + S(i) * ll_d2(i)`. -/
def PdInput.residual (inp : PdInput) (S : Nat → ℚ) (q c : Nat) : ℚ :=
  inp.catSum q c (fun i => inp.dx i + S i * inp.ll i)

/-- Every category of dimension `q` that has an observation has a non-zero weight
sum. -/
def PdRegular (inp : PdInput) (q : Nat) : Prop :=
  ∀ c < inp.size q, inp.obsOf q c ≠ [] → inp.weight q c ≠ 0

instance (inp : PdInput) (q : Nat) : Decidable (PdRegular inp q) := by
  unfold PdRegular; infer_instance

/-- The arrays `start` and `end` bound the blocks of the stacked vectors, whose length
is `sum_cases`. -/
def PdIndexOk (inp : PdInput) (x : PdIndex) : Prop :=
  (∀ q < inp.Q, x.start q = pindex_cluster inp.nbCluster q ∧
    x.end_ q = pindex_cluster inp.nbCluster q + inp.size q) ∧
  x.sum_cases = pindex_cluster inp.nbCluster inp.Q

/-- The sum of `f` over the observations below `n` of a category. -/
def PdInput.sumBelow (inp : PdInput) (q c : Nat) (f : Nat → ℚ) (n : Nat) : ℚ :=
  ((inp.obsBelow q c n).map f).sum

/-- The update of category `c` of dimension `q` at the running value `S`: minus the
block residual divided by the weight sum. -/
def PdInput.update (inp : PdInput) (S : Nat → ℚ) (q c : Nat) : ℚ :=
  -(inp.residual S q c) / inp.weight q c

/-- The update of category `c` of dimension `q` at the running value `S` is a number
of absolute value greater than `epsDeriv`. -/
def PdInput.exceeds (inp : PdInput) (S : Nat → ℚ) (q c : Nat) : Bool :=
  decide (inp.weight q c ≠ 0 ∧ inp.epsDeriv < |inp.update S q c|)

/-- A position of the stacked vectors outside the block of dimension `q`. -/
def PdOutside (inp : PdInput) (x : PdIndex) (q k : Nat) : Prop :=
  ∀ c < inp.size q, k ≠ x.start q + c

/-- The slot `k` of `clusterDeriv` holds a number of absolute value greater than
`epsDeriv`. -/
def pd_slot_exceeds (inp : PdInput) (cd : Nat → Option ℚ) (k : Nat) : Bool :=
  match cd k with
  | some v => decide (inp.epsDeriv < |v|)
  | none => false

/-- Some per-category update held by `clusterDeriv`, over all the categories of the `Q`
dimensions, has an absolute value greater than `epsDeriv`.  At the end of a sweep
`clusterDeriv` holds the updates computed during that sweep (line 132). -/
def PdExceeds (inp : PdInput) (x : PdIndex) (st : PdState) : Prop :=
  ∃ q < inp.Q, ∃ c < inp.size q, pd_slot_exceeds inp st.clusterDeriv (x.start q + c) = true

instance (inp : PdInput) (x : PdIndex) (st : PdState) : Decidable (PdExceeds inp x st) := by
  unfold PdExceeds; infer_instance

/-- The state after `k` sweeps made from the initial value `S`, whatever the stopping
rule. -/
def pd_after (inp : PdInput) (x : PdIndex) (w : Nat → ℚ) (S : Nat → ℚ) : Nat → Option PdState
  | 0 => some (pd_start S)
  | k + 1 => (pd_after inp x w S k).bind (pd_sweep inp x w)

/-- The entry `(i, k)` of the matrix product as the claim words it: the sum over
`l < K` of `x(i, l) * y(l, k)`, where `K` is the number of columns of `x`. -/
def matprod_entry (x y : NumMat) (i k : Nat) : ℚ :=
  ((List.range x.ncol).map
    (fun l => x.data.getD (i + x.nrow * l) 0 * y.data.getD (l + y.nrow * k) 0)).sum

/-- The matrix product `x %*% y` as the claim words it: for `x` with `N` rows and `y`
with `M` columns, the matrix with `N` rows and `M` columns of the entries
`matprod_entry`. -/
def matprod (x y : NumMat) : NumMat where
  nrow := x.nrow
  ncol := y.ncol
  data := (List.range (x.nrow * y.ncol)).map
    (fun p => matprod_entry x y (p % x.nrow) (p / x.nrow))

/-- The panel of `cpp_lag_obs`: `time` has one entry per observation, the observations
of each id are contiguous, and their times are strictly increasing. -/
def PanelOk (id time : List Int) : Prop :=
  time.length = id.length ∧
  (∀ c < id.length, ∀ b < c, ∀ a < b, id.getD a 0 = id.getD c 0 → id.getD b 0 = id.getD a 0) ∧
  (∀ b < id.length, ∀ a < b, id.getD a 0 = id.getD b 0 → time.getD a 0 < time.getD b 0)

instance (id time : List Int) : Decidable (PanelOk id time) := by
  unfold PanelOk; infer_instance

/-- The observation `i` is the lag of the observation `j`: same id, and the time of
`j` is the time of `i` plus `nlag`. -/
def LagMatch (id time : List Int) (nlag : Int) (i j : Nat) : Prop :=
  i < id.length ∧ j < id.length ∧ id.getD i 0 = id.getD j 0 ∧
  time.getD j 0 - time.getD i 0 = nlag

instance (id time : List Int) (nlag : Int) (i j : Nat) : Decidable (LagMatch id time nlag i j) := by
  unfold LagMatch; infer_instance

/-- The invariant of the loops of the lags: `res` records exactly the pairs `(i', j')`
of an observation and its lag with `i' < i`, or `i' = i` and `j' < j`. -/
def LagInv (id time : List Int) (nlag : Int) (i j : Nat) (res : Nat → Option Int) : Prop :=
  (∀ i2 j2, LagMatch id time nlag i2 j2 → (i2 < i ∨ (i2 = i ∧ j2 < j)) →
    res j2 = some ((i2 : Int) + 1)) ∧
  (∀ j2 v, res j2 = some v →
    ∃ i2 : Nat, v = (i2 : Int) + 1 ∧ LagMatch id time nlag i2 j2 ∧
      (i2 < i ∨ (i2 = i ∧ j2 < j)))

/-- The times of the observations of an id span less than `2^31`: every difference
`time[j] - time[i]` between two observations of the same id fits a 32-bit `int`. -/
def LagSpanOk (id time : List Int) : Prop :=
  ∀ j < id.length, ∀ i < j, id.getD i 0 = id.getD j 0 →
    time.getD j 0 - time.getD i 0 < 2147483648

instance (id time : List Int) : Decidable (LagSpanOk id time) := by
  unfold LagSpanOk; infer_instance

/-- A panel of three observations of id `1` whose times span more than `2^31`, and one
observation of id `2`. -/
def lag_wide_id : List Int := [1, 1, 1, 2]

/-- The times of the panel `lag_wide_id`. -/
def lag_wide_time : List Int := [-2147483647, 2147483646, 2147483647, 0]

/-- A panel of five observations: three of id `1` at times `1, 2, 4` and two of id `2`
at times `1, 2`. -/
def lag_example_id : List Int := [1, 1, 1, 2, 2]

/-- The times of the panel `lag_example_id`. -/
def lag_example_time : List Int := [1, 2, 4, 1, 2]

/-- The number of distinct values occurring in `dum` that are not greater than `d`. -/
def distinctUpTo (dum : List Int) (d : Int) : Nat :=
  (dum.dedup.filter (fun v => decide (v ≤ d))).length

/-- One when the value `k + 1` occurs in `dum`, zero otherwise. -/
def occurs (dum : List Int) (k : Nat) : Nat := if ((k : Int) + 1) ∈ dum then 1 else 0

/-- The number of values among `1, ..., d` that occur in `dum`. -/
def occursBelow (dum : List Int) (d : Nat) : Nat := ((List.range d).map (occurs dum)).sum

/-- The invariant of the marking loop: the marks are those of the values seen so far,
and `total` counts them. -/
def MarkInv (k_max : Nat) (pre : List Int) (update_value : Nat → Nat) (total : Nat) : Prop :=
  (∀ k < k_max, update_value k = occurs pre k) ∧
  total = ((List.range k_max).map update_value).sum

/-- The new number of the value `d`: the number of values among `1, ..., d` that occur
in `dum`. -/
def rankIn (dum : List Int) (d : Int) : Int := ((occursBelow dum d.toNat : Nat) : Int)

/-- The input `pd_example` started from a stationary value: `dx_dother(i) +
init(i) * ll_d2(i)` is zero at every observation. -/
def pd_stationary : PdInput := { pd_example with init := [1, 0, 2] }

/-- Entry `init(i)`, read with a default. -/
def PdInput.start (inp : PdInput) (i : Nat) : ℚ := inp.init.getD i 0

/-- The integer `d` divides every element of `x`. -/
def CommonDivisor (x : List Int) (d : Int) : Prop := ∀ v ∈ x, d ∣ v

instance (x : List Int) (d : Int) : Decidable (CommonDivisor x d) := by
  unfold CommonDivisor; infer_instance

/-- The number of positions `j < i` at which the vector changes value between `j` and
`j + 1`. -/
def jumps (x : List ℚ) (i : Nat) : Nat :=
  (List.range i).countP fun j => decide (x.getD j 0 ≠ x.getD (j + 1) 0)

/-- The frontier of dimension 1 holds distinct categories in range that are visited. -/
def PendOk_i (inp : Fe2Input) (s : Fe2State) : Prop :=
  s.cluster_pending_i.Nodup ∧
  ∀ i ∈ s.cluster_pending_i, i < inp.n_i ∧ s.to_visit_i i = false

/-- The frontier of dimension 2 holds distinct categories in range that are visited. -/
def PendOk_j (inp : Fe2Input) (s : Fe2State) : Prop :=
  s.cluster_pending_j.Nodup ∧
  ∀ j ∈ s.cluster_pending_j, j < inp.n_j ∧ s.to_visit_j j = false

/-- An input of `cpp_get_fe_2` with a category of dimension 2 that has no
observation: two observations `(0,0)` and `(1,2)`. -/
def fe2_gap : Fe2Input where
  n_i := 2
  n_j := 3
  i_sorted_index_j := [0, 2]
  i_sorted_sumFE := [3, 5]
  j_sorted_index_i := [0, 1]
  j_sorted_sumFE := [3, 5]
  cumtable_i := [1, 2]
  cumtable_j := [1, 1, 2]

/-- The coefficient written by the step that starts at a program point: the dimension,
the category and the value.  The loop that sets the references writes `0` to the
category of `qui_max` in dimension `q` when the marker of `qui_max` is zero there and
the flag `first` is down (lines 519-531); the scan writes to the category of the first
dimension in which the marker of the observation is zero, when its rowsum is `Q - 1`
(lines 581-602).  No other step writes a coefficient. -/
def GnlEvent.write (inp : GnlInput) : GnlEvent → Option (Nat × Nat × ℚ)
  | GnlEvent.ref qm q first s =>
    if s.mat_done qm q = 0 ∧ first = false then some (q, inp.dum qm q, 0) else none
  | GnlEvent.obs o s =>
    if s.rowsums o + 1 = inp.Q then
      ((List.range inp.Q).find? (fun q => s.mat_done o q == 0)).map fun q =>
        (q, inp.dum o q, inp.sfe o - ((List.range inp.Q).map fun l =>
          s.cluster_values (pindex_cluster inp.cluster_sizes l + inp.dum o l)).sum)
    else none
  | GnlEvent.pass _ _ _ => none
  | GnlEvent.scan _ => none

/-- The coefficients written by the steps of a log, in order. -/
def gnl_writes (inp : GnlInput) (L : List GnlEvent) : List (Nat × Nat × ℚ) :=
  L.filterMap (GnlEvent.write inp)

/-- The categories `(dimension, index)` resolved by the steps of a log, as reference or
by propagation, in order. -/
def gnl_resolved (inp : GnlInput) (L : List GnlEvent) : List (Nat × Nat) :=
  (gnl_writes inp L).map fun w => (w.1, w.2.1)

/-- The state `t` is the state `s` after the value `v` has been written to category `k`
of dimension `q` and its observations have been marked. -/
def GnlMarked (inp : GnlInput) (s t : GnlState) (q k : Nat) (v : ℚ) : Prop :=
  (∀ o q2, t.mat_done o q2 =
    if q2 = q ∧ o < inp.N ∧ inp.dum o q = k then 1 else s.mat_done o q2) ∧
  (∀ o, t.rowsums o = s.rowsums o + if o < inp.N ∧ inp.dum o q = k then 1 else 0) ∧
  t.cluster_values = setAt s.cluster_values (pindex_cluster inp.cluster_sizes q + k) v ∧
  t.id2do = s.id2do ∧ t.id2do_next = s.id2do_next

/-- The invariant of the main loop of `cpp_get_fe_gnl`, between two steps, for the log
`L` of the steps made and the state `s`: the bookkeeping of the markers and of the
rowsums; a marker is set exactly when the category has been resolved by a step of the
log; no category has been resolved twice; every resolved category holds the value
written when it was resolved; the worklists hold observations. -/
structure GnlLogInv (inp : GnlInput) (L : List GnlEvent) (s : GnlState) : Prop where
  inv : GnlInv inp (gnl_off inp) (fun _ => True) s
  res : ∀ o < inp.N, ∀ q < inp.Q,
    (s.mat_done o q = 1 ↔ (q, inp.dum o q) ∈ gnl_resolved inp L)
  nodup : (gnl_resolved inp L).Nodup
  vals : ∀ w ∈ gnl_writes inp L,
    s.cluster_values (pindex_cluster inp.cluster_sizes w.1 + w.2.1) = w.2.2
  touched : ∀ w ∈ gnl_writes inp L, w.1 < inp.Q ∧ ∃ o < inp.N, inp.dum o w.1 = w.2.1
  todo : ∀ o ∈ s.id2do, o < inp.N
  next : ∀ o ∈ s.id2do_next, o < inp.N

/-- The start of an outer pass that no cap has cut short: the worklist is not empty,
holds the observations that are not fully resolved, all of them with at least two
unresolved dimensions; in the first pass nothing is resolved in observation `0`, in
the later passes observation `0` is fully resolved. -/
def GnlPassStart (inp : GnlInput) (first : Bool) (s : GnlState) : Prop :=
  GnlFix inp s ∧ s.id2do_next ≠ [] ∧ s.id2do_next.length ≤ iterMax_loop ∧
  (first = true → 0 ∈ s.id2do_next ∧ s.rowsums 0 = 0) ∧
  (first = false → s.rowsums 0 = inp.Q)

/-- What holds when control reaches a program point, for the log `pre` of the steps
made before: the invariant of the log, and the ranges of the variables of the point.
At the start of a pass, `qui_max` is the observation selected by lines 482-508, and
with at most 10000 observations and at least two dimensions the pass starts as
described by `GnlPassStart`. -/
def GnlEventOk (inp : GnlInput) (pre : List GnlEvent) : GnlEvent → Prop
  | GnlEvent.pass first qm s =>
    GnlLogInv inp pre s ∧
    qm = (if first then 0 else find_qui_max inp.Q s.rowsums s.id2do 0 0) ∧ qm < inp.N ∧
    (inp.N ≤ 10000 → 2 ≤ inp.Q → GnlPassStart inp first s)
  | GnlEvent.ref qm q _ s => GnlLogInv inp pre s ∧ qm < inp.N ∧ q < inp.Q
  | GnlEvent.scan s => GnlLogInv inp pre s
  | GnlEvent.obs o s => GnlLogInv inp pre s ∧ o < inp.N

/-- Every program point of the log is reached in a state that satisfies `GnlEventOk`
for the steps made before it. -/
def GnlLogOk (inp : GnlInput) (L : List GnlEvent) : Prop :=
  ∀ pre e post, L = pre ++ e :: post → GnlEventOk inp pre e

/-- The number of dimensions below `k` in which the marker `f` is zero. -/
def zerosBelow (f : Nat → Nat) (k : Nat) : Nat :=
  (List.range k).countP fun q => decide (f q = 0)

/-- The observation `r` is the first of the list `W`, in scan order, that attains the
largest value of `rs` over `W`. -/
def FirstMax (rs : Nat → Nat) (W : List Nat) (r : Nat) : Prop :=
  ∃ a b, W = a ++ r :: b ∧ (∀ o ∈ a, rs o < rs r) ∧ (∀ o ∈ b, rs o ≤ rs r)

/-- The observations selected by the passes on a log. -/
def gnl_selected : List GnlEvent → List (Bool × Nat)
  | [] => []
  | GnlEvent.pass first qm _ :: rest => (first, qm) :: gnl_selected rest
  | _ :: rest => gnl_selected rest

/-- The observations that a log processes while their rowsum is `Q - 1`. -/
def gnl_active (inp : GnlInput) : List GnlEvent → List Nat
  | [] => []
  | GnlEvent.obs o s :: rest =>
    if s.rowsums o + 1 = inp.Q then o :: gnl_active inp rest else gnl_active inp rest
  | _ :: rest => gnl_active inp rest

/-- Two observations on three dimensions that share no category: the main loop makes
two passes. -/
def gnl_two_blocks : GnlInput where
  Q := 3
  N := 2
  sumFE := [3, 6]
  dumMat := [[0, 0, 0], [1, 1, 1]]
  cluster_sizes := [2, 2, 2]
  obsCluster := [[0, 0, 0], [1, 1, 1]]

/-- Coefficients of dimension 1 behind the values of `fe2_tie` and `gnl_tie`. -/
def fe2_tie_a : Nat → ℚ := fun _ => 0

/-- Coefficients of dimension 2 behind the values of `fe2_tie` and `gnl_tie`. -/
def fe2_tie_b : Nat → ℚ := fun j =>
  if j = 0 then 1 / 4 else -7881299347898367 / 9007199254740992

/-- Coefficients behind the values of `gnl_tie`. -/
def gnl_tie_coef : Nat → Nat → ℚ := fun q k => if q = 0 then fe2_tie_a k else fe2_tie_b k

/-- The value is a number. -/
def Ext.isFin : Ext → Bool
  | Ext.fin _ => true
  | _ => false

/-- The number held by a value that is a number. -/
def Ext.toRat : Ext → ℚ
  | Ext.fin x => x
  | _ => 0

/-- The value is a number of absolute value not greater than `eps`. -/
def Ext.within (eps : ℚ) : Ext → Bool
  | Ext.fin x => decide (|x| ≤ eps)
  | _ => false

/-- The term `dx_dother(i) + S(i) * ll_d2(i)` of observation `i`. -/
def PdInput.termExt (inp : PdInput) (S : Nat → Ext) (i : Nat) : Ext :=
  (Ext.fin (inp.dx i)).add ((S i).mul (inp.ll i))

/-- The sum of the terms `dx_dother(i) + S(i) * ll_d2(i)` over the observations below
`n` of category `c` of dimension `q`, added from zero in the order of the
observations. -/
def PdInput.residualBelow (inp : PdInput) (S : Nat → Ext) (q c n : Nat) : Ext :=
  ((inp.obsBelow q c n).map (inp.termExt S)).foldl Ext.add (Ext.fin 0)

/-- The block residual of category `c` of dimension `q` at the running value `S`, on
the values of a double. -/
def PdInput.residualExt (inp : PdInput) (S : Nat → Ext) (q c : Nat) : Ext :=
  inp.residualBelow S q c inp.N

/-- The update of category `c` of dimension `q` at the running value `S`: minus the
block residual divided by the weight sum. -/
def PdInput.updateExt (inp : PdInput) (S : Nat → Ext) (q c : Nat) : Ext :=
  (inp.residualExt S q c).neg.div (inp.weight q c)

/-- Some per-category update held by `clusterDeriv`, over all the categories of the `Q`
dimensions, passes the test `fabs(new_value) > epsDeriv`.  At the end of a sweep
`clusterDeriv` holds the updates computed during that sweep (line 132). -/
def PdExceedsExt (inp : PdInput) (x : PdIndex) (st : PdStateExt) : Prop :=
  ∃ q < inp.Q, ∃ c < inp.size q,
    (st.clusterDeriv (x.start q + c)).exceeds inp.epsDeriv = true

instance (inp : PdInput) (x : PdIndex) (st : PdStateExt) :
    Decidable (PdExceedsExt inp x st) := by
  unfold PdExceedsExt; infer_instance

/-- The state after `k` sweeps made from the initial value `S`, whatever the stopping
rule. -/
def pd_after_ext (inp : PdInput) (x : PdIndex) (w : Nat → ℚ) (S : Nat → ℚ) :
    Nat → Option PdStateExt
  | 0 => some (pd_start_ext S)
  | k + 1 => (pd_after_ext inp x w S k).bind (pd_sweep_ext inp x w)

/-- The slot of `clusterDeriv` on doubles holds the number of the slot on numbers, or a
special value when that slot holds no number. -/
def PdSlotRel (a : Option ℚ) (b : Ext) : Prop :=
  match a with
  | some v => b = Ext.fin v
  | none => b.isFin = false

/-- A state of the solver on doubles that holds the values of a state on numbers. -/
def PdStateRel (st : PdState) (sx : PdStateExt) : Prop :=
  (∀ k, PdSlotRel (st.clusterDeriv k) (sx.clusterDeriv k)) ∧
  (∀ i, sx.S i = Ext.fin (st.S i)) ∧ sx.ok = st.ok ∧ sx.iter = st.iter

/-- The assignment of a coefficient made by the step that starts at a program point:
the category and the value of the right-hand side of lines 305, 327 and 343, read in the
state at that point; `none` when the step assigns nothing. -/
def Fe2Event.write (inp : Fe2Input) : Fe2Event → Option (Fe2Cat × ℚ)
  | Fe2Event.ref s =>
    ((List.range' s.j_start (inp.n_j - s.j_start)).find? (fun j => s.to_visit_j j)).map
      fun j => (Fe2Cat.dim2 j, 0)
  | Fe2Event.visit_i j u s =>
    match inp.j_sorted_index_i[u]?, inp.j_sorted_sumFE[u]? with
    | some i, some v =>
      if i < inp.n_i ∧ s.to_visit_i i = true then
        some (Fe2Cat.dim1 i, v - s.cluster_coef_j j)
      else none
    | _, _ => none
  | Fe2Event.visit_j i u s =>
    match inp.i_sorted_index_j[u]?, inp.i_sorted_sumFE[u]? with
    | some j, some v =>
      if j < inp.n_j ∧ s.to_visit_j j = true then
        some (Fe2Cat.dim2 j, v - s.cluster_coef_i i)
      else none
    | _, _ => none

/-- The assignments of coefficients made along a log, in order. -/
def fe2_writes (inp : Fe2Input) (L : List Fe2Event) : List (Fe2Cat × ℚ) :=
  L.filterMap (Fe2Event.write inp)

/-- The categories assigned along a log, in order. -/
def fe2_resolved (inp : Fe2Input) (L : List Fe2Event) : List Fe2Cat :=
  (fe2_writes inp L).map Prod.fst

/-- The flag `to_visit` of a category. -/
def fe2_todo (s : Fe2State) : Fe2Cat → Bool
  | Fe2Cat.dim1 i => s.to_visit_i i
  | Fe2Cat.dim2 j => s.to_visit_j j

/-- The coefficient stored for a category. -/
def fe2_value (s : Fe2State) : Fe2Cat → ℚ
  | Fe2Cat.dim1 i => s.cluster_coef_i i
  | Fe2Cat.dim2 j => s.cluster_coef_j j

/-- The invariant that ties the state to the log: the categories no longer to visit are
the ones assigned in the log, each of them once; the stored coefficient of an assigned
category is the value assigned; `n_done` counts the assignments. -/
structure Fe2LogInv (inp : Fe2Input) (L : List Fe2Event) (s : Fe2State) : Prop where
  res : ∀ c, c.inRange inp → (fe2_todo s c = false ↔ c ∈ fe2_resolved inp L)
  range : ∀ c ∈ fe2_resolved inp L, c.inRange inp
  nodup : (fe2_resolved inp L).Nodup
  vals : ∀ w ∈ fe2_writes inp L, fe2_value s w.1 = w.2
  count : s.n_done = (fe2_writes inp L).length

/-! ## Theorems -/

theorem foldlM_option_inv_aux {σ α : Type} (f : σ → α → Option σ) (P : List α → σ → Prop)
    (l0 : List α)
    (hstep : ∀ pre x suf t, l0 = pre ++ x :: suf → P pre t →
      ∃ t', f t x = some t' ∧ P (pre ++ [x]) t') :
    ∀ (l pre : List α) (s : σ), l0 = pre ++ l → P pre s →
      ∃ s', l.foldlM f s = some s' ∧ P l0 s' := by
  intro l
  induction l with
  | nil =>
    intro pre s h0 h
    refine ⟨s, by simp, ?_⟩
    simpa [h0] using h
  | cons x xs ih =>
    intro pre s h0 h
    obtain ⟨t, ht, hP⟩ := hstep pre x xs s h0 h
    obtain ⟨s', hs', hP'⟩ := ih (pre ++ [x]) t (by simp [h0]) hP
    exact ⟨s', by simp [List.foldlM_cons, ht, hs'], hP'⟩

/-- Invariant rule for a loop over a list whose body may fail: `P pre t` relates the
state `t` to the part `pre` of the list already processed. -/
theorem foldlM_option_inv {σ α : Type} (f : σ → α → Option σ) (P : List α → σ → Prop)
    (l : List α) (s : σ) (h0 : P [] s)
    (hstep : ∀ pre x suf t, l = pre ++ x :: suf → P pre t →
      ∃ t', f t x = some t' ∧ P (pre ++ [x]) t') :
    ∃ s', l.foldlM f s = some s' ∧ P l s' :=
  foldlM_option_inv_aux f P l hstep l [] s (by simp) h0

theorem getElem?_eq_some_getD {α : Type} (l : List α) (n : Nat) (d : α) (h : n < l.length) :
    l[n]? = some (l.getD n d) := by
  simp [List.getD_eq_getElem?_getD, List.getElem?_eq_getElem h]

@[simp] theorem setAt_same {α : Type} (f : Nat → α) (i : Nat) (v : α) : setAt f i v i = v := by
  simp [setAt]

theorem setAt_ne {α : Type} (f : Nat → α) (i k : Nat) (v : α) (h : k ≠ i) :
    setAt f i v k = f k := by
  simp [setAt, h]

theorem visitedCount_le (n : Nat) (f : Nat → Bool) : visitedCount n f ≤ n := by
  induction n with
  | zero => simp [visitedCount]
  | succ n ih => simp only [visitedCount]; split <;> omega

theorem visitedCount_setAt_ge (n : Nat) (f : Nat → Bool) (k : Nat) (h : n ≤ k) :
    visitedCount n (setAt f k false) = visitedCount n f := by
  induction n with
  | zero => simp [visitedCount]
  | succ n ih =>
    simp only [visitedCount]
    rw [ih (by omega), setAt_ne _ _ _ _ (by omega)]

theorem visitedCount_setAt (n : Nat) (f : Nat → Bool) (k : Nat) (h : k < n) (hk : f k = true) :
    visitedCount n (setAt f k false) = visitedCount n f + 1 := by
  induction n with
  | zero => omega
  | succ n ih =>
    simp only [visitedCount]
    by_cases hkn : k = n
    · subst hkn
      rw [visitedCount_setAt_ge _ _ _ (le_refl _)]
      simp [hk]
    · rw [ih (by omega), setAt_ne _ _ _ _ (Ne.symm hkn)]
      omega

theorem visitedCount_eq (n : Nat) (f : Nat → Bool) (h : visitedCount n f = n) :
    ∀ k < n, f k = false := by
  induction n with
  | zero => intro k hk; omega
  | succ n ih =>
    simp only [visitedCount] at h
    have hle := visitedCount_le n f
    intro k hk
    by_cases hfn : f n = true
    · simp [hfn] at h; omega
    · simp [hfn] at h
      by_cases hkn : k = n
      · subst hkn; simpa using hfn
      · exact ih h k (by omega)

theorem visitedCount_lt (n : Nat) (f : Nat → Bool) (h : visitedCount n f < n) :
    ∃ k < n, f k = true := by
  induction n with
  | zero => omega
  | succ n ih =>
    simp only [visitedCount] at h
    by_cases hfn : f n = true
    · exact ⟨n, by omega, hfn⟩
    · simp [hfn] at h
      obtain ⟨k, hk, hf⟩ := ih h
      exact ⟨k, by omega, hf⟩

theorem bucketStart_eq (cum : List Nat) (k : Nat) (h : k < cum.length) :
    bucketStart cum k = some (bucketLo cum k) := by
  unfold bucketStart bucketLo
  by_cases hk : k = 0
  · simp [hk]
  · simp only [hk, if_false]
    exact getElem?_eq_some_getD _ _ _ (by omega)

theorem forBucket_eq {σ : Type} (cum : List Nat) (k : Nat) (h : k < cum.length)
    (f : σ → Nat → Option σ) (s : σ) :
    forBucket cum k f s =
      (List.range' (bucketLo cum k) (bucketHi cum k - bucketLo cum k)).foldlM f s := by
  unfold forBucket
  rw [bucketStart_eq cum k h, getElem?_eq_some_getD cum k 0 h]
  rfl

theorem mem_bucket_iff (cum : List Nat) (k u : Nat) :
    u ∈ List.range' (bucketLo cum k) (bucketHi cum k - bucketLo cum k) ↔
      bucketLo cum k ≤ u ∧ u < bucketHi cum k := by
  rw [List.mem_range'_1]
  omega

/-- A valid input has the two views of the same observations, with every category of
dimension 1 holding an observation. -/
theorem Fe2Valid.views {inp : Fe2Input} (hv : Fe2Valid inp) : Fe2Views inp :=
  ⟨hv.buckets_i, ⟨hv.buckets_j.1, fun k hk => (hv.buckets_j.2 k hk).2⟩, hv.view_i, hv.view_j⟩

/-- An observation read in the view sorted by dimension 2. -/
theorem Fe2Views.obs_j {inp : Fe2Input} (hv : Fe2Views inp) {j u : Nat} (hj : j < inp.n_j)
    (hlo : bucketLo inp.cumtable_j j ≤ u) (hhi : u < bucketHi inp.cumtable_j j) :
    inp.j_sorted_index_i[u]? = some (inp.j_sorted_index_i.getD u 0) ∧
    inp.j_sorted_sumFE[u]? = some (inp.j_sorted_sumFE.getD u 0) ∧
    Fe2Obs inp (inp.j_sorted_index_i.getD u 0) j (inp.j_sorted_sumFE.getD u 0) := by
  have hb := hv.buckets_j.2 j hj
  have hw := hv.view_j j hj u hhi hlo
  exact ⟨getElem?_eq_some_getD _ _ _ (by omega), getElem?_eq_some_getD _ _ _ (by omega),
    hw.1, hj, u, hlo, hhi, rfl, rfl⟩

/-- An observation read in the view sorted by dimension 1. -/
theorem Fe2Views.obs_i {inp : Fe2Input} (hv : Fe2Views inp) {i u : Nat} (hi : i < inp.n_i)
    (hlo : bucketLo inp.cumtable_i i ≤ u) (hhi : u < bucketHi inp.cumtable_i i) :
    inp.i_sorted_index_j[u]? = some (inp.i_sorted_index_j.getD u 0) ∧
    inp.i_sorted_sumFE[u]? = some (inp.i_sorted_sumFE.getD u 0) ∧
    Fe2Obs inp i (inp.i_sorted_index_j.getD u 0) (inp.i_sorted_sumFE.getD u 0) := by
  have hb := hv.buckets_i.2 i hi
  obtain ⟨hr, w, hwhi, hwlo, hwi, hwv⟩ := hv.view_i i hi u hhi hlo
  exact ⟨getElem?_eq_some_getD _ _ _ (by omega), getElem?_eq_some_getD _ _ _ (by omega),
    hi, hr, w, hwlo, hwhi, hwi, hwv⟩

/-- Every observation occurs in the view sorted by dimension 1. -/
theorem Fe2Views.obs_in_view_i {inp : Fe2Input} (hv : Fe2Views inp) {i j : Nat} {v : ℚ}
    (h : Fe2Obs inp i j v) :
    ∃ u, bucketLo inp.cumtable_i i ≤ u ∧ u < bucketHi inp.cumtable_i i ∧
      inp.i_sorted_index_j.getD u 0 = j := by
  obtain ⟨_, hj, u, hlo, hhi, hui, _⟩ := h
  obtain ⟨_, w, hwhi, hwlo, hwj, _⟩ := hv.view_j j hj u hhi hlo
  rw [hui] at hwhi hwlo
  exact ⟨w, hwlo, hwhi, hwj⟩

/-- Every category of dimension 1 has an observation. -/
theorem Fe2Views.exists_obs_i {inp : Fe2Input} (hv : Fe2Views inp) {i : Nat} (hi : i < inp.n_i) :
    ∃ j v, Fe2Obs inp i j v := by
  have hb := hv.buckets_i.2 i hi
  exact ⟨_, _, (hv.obs_i hi (le_refl _) hb.1).2.2⟩

theorem Fe2Consistent.obs {inp : Fe2Input} {a b : Nat → ℚ} (hc : Fe2Consistent inp a b)
    {i j : Nat} {v : ℚ} (h : Fe2Obs inp i j v) : v = a i + b j := by
  obtain ⟨_, hj, u, hlo, hhi, hui, huv⟩ := h
  rw [← huv, ← hui]
  exact hc j hj u hhi hlo

theorem Fe2Adj.adj_symm {inp : Fe2Input} {x y : Fe2Cat} (h : Fe2Adj inp x y) : Fe2Adj inp y x := by
  obtain ⟨i, j, v, ho, h | h⟩ := h
  · exact ⟨i, j, v, ho, Or.inr ⟨h.2, h.1⟩⟩
  · exact ⟨i, j, v, ho, Or.inl ⟨h.2, h.1⟩⟩

theorem Fe2Conn.conn_symm {inp : Fe2Input} {x y : Fe2Cat} (h : Fe2Conn inp x y) : Fe2Conn inp y x := by
  induction h with
  | refl => exact Relation.ReflTransGen.refl
  | tail _ hbc ih => exact Relation.ReflTransGen.head hbc.adj_symm ih

theorem Fe2Conn.trans {inp : Fe2Input} {x y z : Fe2Cat} (h : Fe2Conn inp x y)
    (h2 : Fe2Conn inp y z) : Fe2Conn inp x z :=
  Relation.ReflTransGen.trans h h2

theorem Fe2Obs.conn {inp : Fe2Input} {i j : Nat} {v : ℚ} (h : Fe2Obs inp i j v) :
    Fe2Conn inp (Fe2Cat.dim1 i) (Fe2Cat.dim2 j) :=
  Relation.ReflTransGen.single ⟨i, j, v, h, Or.inl ⟨rfl, rfl⟩⟩

/-- A set of categories closed under adjacency is closed under connection. -/
theorem Fe2Conn.closed {inp : Fe2Input} (V : Fe2Cat → Prop)
    (hV : ∀ x y, V x → Fe2Adj inp x y → V y) {x y : Fe2Cat} (h : Fe2Conn inp x y) (hx : V x) :
    V y := by
  induction h with
  | refl => exact hx
  | tail _ hbc ih => exact hV _ _ ih hbc

/-- The lowest category of dimension 2 of a component is unique. -/
theorem Fe2Lowest.unique {inp : Fe2Input} {r r2 : Nat} (h : Fe2Lowest inp r)
    (h2 : Fe2Lowest inp r2) (hc : Fe2Conn inp (Fe2Cat.dim2 r) (Fe2Cat.dim2 r2)) : r = r2 := by
  rcases Nat.lt_trichotomy r r2 with hlt | heq | hgt
  · exact absurd hc (h2.2 r hlt)
  · exact heq
  · exact absurd hc.conn_symm (h.2 r2 hgt)

/-- Effect of one step of the inner loop from dimension 2 to dimension 1. -/
theorem visit_i_spec {inp : Fe2Input} {a b : Nat → ℚ} (hv : Fe2Views inp)
    (s : Fe2State) (hinv : Fe2Inv inp a b s) (j u : Nat)
    (hj : j < inp.n_j) (hjv : s.to_visit_j j = false)
    (hlo : bucketLo inp.cumtable_j j ≤ u) (hhi : u < bucketHi inp.cumtable_j j) :
    ∃ t, visit_i inp j s u = some t ∧ Fe2Inv inp a b t ∧
      t.cluster_pending_j = s.cluster_pending_j ∧ t.to_visit_j = s.to_visit_j ∧
      (∀ i, s.to_visit_i i = false → t.to_visit_i i = false) ∧
      t.to_visit_i (inp.j_sorted_index_i.getD u 0) = false ∧ s.n_done ≤ t.n_done := by
  obtain ⟨hr1, hr2, hobs⟩ := hv.obs_j hj hlo hhi
  have hi := hobs.1
  unfold visit_i
  rw [hr1, hr2]
  simp only [hi, if_true]
  by_cases hvis : s.to_visit_i (inp.j_sorted_index_i.getD u 0) = true
  · simp only [hvis, if_true]
    refine ⟨_, rfl, ?_, rfl, rfl, ?_, by simp, by simp⟩
    · constructor
      · simp only
        rw [visitedCount_setAt _ _ _ hi hvis, hinv.count]
        omega
      · exact hinv.ref
      · intro hc i' hi' hv'
        obtain ⟨r, hr, hconn, hval⟩ := hinv.val_j hc j hj hjv
        by_cases hii : i' = inp.j_sorted_index_i.getD u 0
        · subst hii
          refine ⟨r, hr, hobs.conn.trans hconn, ?_⟩
          simp only [setAt_same]
          rw [hval, hc.obs hobs]
          ring
        · simp only [setAt_ne _ _ _ _ hii] at hv' ⊢
          exact hinv.val_i hc i' hi' hv'
      · exact hinv.val_j
      · intro i' hi'
        simp only [List.mem_append, List.mem_singleton] at hi'
        rcases hi' with h | h
        · have := hinv.pend_i i' h
          refine ⟨this.1, ?_⟩
          simp only [setAt]
          split <;> simp [this.2]
        · subst h
          exact ⟨hi, by simp⟩
      · exact hinv.pend_j
      · exact hinv.noref_i
      · exact hinv.start
      · intro i' hi' hv'
        by_cases hii : i' = inp.j_sorted_index_i.getD u 0
        · left; simp [hii]
        · simp only [setAt_ne _ _ _ _ hii] at hv'
          rcases hinv.closed_i i' hi' hv' with h | h
          · left; simp [h]
          · right; exact h
      · intro j' hj' hv'
        rcases hinv.closed_j j' hj' hv' with h | h
        · left; exact h
        · right
          intro i' v' ho
          have := h i' v' ho
          simp only [setAt]
          split <;> simp [this]
      · intro i' hi' hv'
        by_cases hii : i' = inp.j_sorted_index_i.getD u 0
        · subst hii
          obtain ⟨r, hr, hconn⟩ := hinv.conn_j j hj hjv
          exact ⟨r, hr, hobs.conn.trans hconn⟩
        · simp only [setAt_ne _ _ _ _ hii] at hv'
          exact hinv.conn_i i' hi' hv'
      · exact hinv.conn_j
    · intro i' h
      simp only [setAt]
      split <;> simp [h]
  · simp only [hvis]
    refine ⟨s, rfl, hinv, rfl, rfl, fun _ h => h, by simpa using hvis, le_refl _⟩

/-- Effect of one step of the inner loop from dimension 1 to dimension 2. -/
theorem visit_j_spec {inp : Fe2Input} {a b : Nat → ℚ} (hv : Fe2Views inp)
    (s : Fe2State) (hinv : Fe2Inv inp a b s) (i u : Nat)
    (hi : i < inp.n_i) (hiv : s.to_visit_i i = false)
    (hlo : bucketLo inp.cumtable_i i ≤ u) (hhi : u < bucketHi inp.cumtable_i i) :
    ∃ t, visit_j inp i s u = some t ∧ Fe2Inv inp a b t ∧
      t.cluster_pending_i = s.cluster_pending_i ∧ t.to_visit_i = s.to_visit_i ∧
      (∀ j, s.to_visit_j j = false → t.to_visit_j j = false) ∧
      t.to_visit_j (inp.i_sorted_index_j.getD u 0) = false ∧
      s.n_done + t.cluster_pending_j.length = t.n_done + s.cluster_pending_j.length ∧
      s.cluster_pending_j.length ≤ t.cluster_pending_j.length := by
  obtain ⟨hr1, hr2, hobs⟩ := hv.obs_i hi hlo hhi
  have hj := hobs.2.1
  unfold visit_j
  rw [hr1, hr2]
  simp only [hj, if_true]
  by_cases hvis : s.to_visit_j (inp.i_sorted_index_j.getD u 0) = true
  · simp only [hvis, if_true]
    refine ⟨_, rfl, ?_, rfl, rfl, ?_, by simp, by simp; omega, by simp⟩
    · constructor
      · simp only
        rw [visitedCount_setAt _ _ _ hj hvis, hinv.count]
        omega
      · intro r' hr'
        obtain ⟨h1, h2, h3⟩ := hinv.ref r' hr'
        have hne : r' ≠ inp.i_sorted_index_j.getD u 0 := by
          intro h; rw [h] at h2; rw [h2] at hvis; exact absurd hvis (by simp)
        refine ⟨h1, ?_, ?_⟩
        · simp only [setAt_ne _ _ _ _ hne]; exact h2
        · simp only [setAt_ne _ _ _ _ hne]; exact h3
      · exact hinv.val_i
      · intro hc j' hj' hv'
        obtain ⟨r, hr, hconn, hval⟩ := hinv.val_i hc i hi hiv
        by_cases hjj : j' = inp.i_sorted_index_j.getD u 0
        · subst hjj
          refine ⟨r, hr, hobs.conn.conn_symm.trans hconn, ?_⟩
          simp only [setAt_same]
          rw [hval, hc.obs hobs]
          ring
        · simp only [setAt_ne _ _ _ _ hjj] at hv' ⊢
          exact hinv.val_j hc j' hj' hv'
      · exact hinv.pend_i
      · intro j' hj'
        simp only [List.mem_append, List.mem_singleton] at hj'
        rcases hj' with h | h
        · have := hinv.pend_j j' h
          refine ⟨this.1, ?_⟩
          simp only [setAt]
          split <;> simp [this.2]
        · subst h
          exact ⟨hj, by simp⟩
      · exact hinv.noref_i
      · intro j' hj'
        have := hinv.start j' hj'
        simp only [setAt]
        split <;> simp [this]
      · intro i' hi' hv'
        rcases hinv.closed_i i' hi' hv' with h | h
        · left; exact h
        · right
          intro j' v' ho
          have := h j' v' ho
          simp only [setAt]
          split <;> simp [this]
      · intro j' hj' hv'
        by_cases hjj : j' = inp.i_sorted_index_j.getD u 0
        · left; simp [hjj]
        · simp only [setAt_ne _ _ _ _ hjj] at hv'
          rcases hinv.closed_j j' hj' hv' with h | h
          · left; simp [h]
          · right; exact h
      · exact hinv.conn_i
      · intro j' hj' hv'
        by_cases hjj : j' = inp.i_sorted_index_j.getD u 0
        · subst hjj
          obtain ⟨r, hr, hconn⟩ := hinv.conn_i i hi hiv
          exact ⟨r, hr, hobs.conn.conn_symm.trans hconn⟩
        · simp only [setAt_ne _ _ _ _ hjj] at hv'
          exact hinv.conn_j j' hj' hv'
    · intro j' h
      simp only [setAt]
      split <;> simp [h]
  · simp only [hvis]
    refine ⟨s, rfl, hinv, rfl, rfl, fun _ h => h, by simpa using hvis, rfl, le_refl _⟩

/-- The bucket loop of a visited category `j` of dimension 2 visits all its
observations. -/
theorem bucket_j_spec {inp : Fe2Input} {a b : Nat → ℚ} (hv : Fe2Views inp)
    (s : Fe2State) (hinv : Fe2Inv inp a b s) (j : Nat)
    (hj : j < inp.n_j) (hjv : s.to_visit_j j = false) :
    ∃ t, forBucket inp.cumtable_j j (visit_i inp j) s = some t ∧ Fe2Inv inp a b t ∧
      t.cluster_pending_j = s.cluster_pending_j ∧ t.to_visit_j = s.to_visit_j ∧
      (∀ i, s.to_visit_i i = false → t.to_visit_i i = false) ∧
      (∀ i v, Fe2Obs inp i j v → t.to_visit_i i = false) ∧ s.n_done ≤ t.n_done := by
  rw [forBucket_eq _ _ (by rw [hv.buckets_j.1]; exact hj)]
  obtain ⟨t, ht, hP⟩ := foldlM_option_inv (visit_i inp j)
    (fun pre t => Fe2Inv inp a b t ∧ t.cluster_pending_j = s.cluster_pending_j ∧
      t.to_visit_j = s.to_visit_j ∧ (∀ i, s.to_visit_i i = false → t.to_visit_i i = false) ∧
      (∀ u ∈ pre, t.to_visit_i (inp.j_sorted_index_i.getD u 0) = false) ∧ s.n_done ≤ t.n_done)
    (List.range' (bucketLo inp.cumtable_j j) (bucketHi inp.cumtable_j j - bucketLo inp.cumtable_j j))
    s ⟨hinv, rfl, rfl, fun _ h => h, by simp, le_refl _⟩
    (by
      intro pre x suf t hl ⟨h1, h2, h3, h4, h5, h6⟩
      have hx : x ∈ List.range' (bucketLo inp.cumtable_j j)
          (bucketHi inp.cumtable_j j - bucketLo inp.cumtable_j j) := by rw [hl]; simp
      rw [mem_bucket_iff] at hx
      obtain ⟨t', ht', g1, g2, g3, g4, g5, g6⟩ :=
        visit_i_spec hv t h1 j x hj (by rw [h3]; exact hjv) hx.1 hx.2
      refine ⟨t', ht', g1, g2.trans h2, g3.trans h3, fun i h => g4 i (h4 i h), ?_, by omega⟩
      intro u hu
      simp only [List.mem_append, List.mem_singleton] at hu
      rcases hu with h | h
      · exact g4 _ (h5 u h)
      · subst h; exact g5)
  obtain ⟨h1, h2, h3, h4, h5, h6⟩ := hP
  refine ⟨t, ht, h1, h2, h3, h4, ?_, h6⟩
  intro i v ho
  obtain ⟨_, _, u, hlo, hhi, hui, _⟩ := ho
  rw [← hui]
  exact h5 u ((mem_bucket_iff _ _ _).2 ⟨hlo, hhi⟩)

/-- The bucket loop of a visited category `i` of dimension 1 visits all its
observations. -/
theorem bucket_i_spec {inp : Fe2Input} {a b : Nat → ℚ} (hv : Fe2Views inp)
    (s : Fe2State) (hinv : Fe2Inv inp a b s) (i : Nat)
    (hi : i < inp.n_i) (hiv : s.to_visit_i i = false) :
    ∃ t, forBucket inp.cumtable_i i (visit_j inp i) s = some t ∧ Fe2Inv inp a b t ∧
      t.cluster_pending_i = s.cluster_pending_i ∧ t.to_visit_i = s.to_visit_i ∧
      (∀ j, s.to_visit_j j = false → t.to_visit_j j = false) ∧
      (∀ j v, Fe2Obs inp i j v → t.to_visit_j j = false) ∧
      s.n_done + t.cluster_pending_j.length = t.n_done + s.cluster_pending_j.length ∧
      s.cluster_pending_j.length ≤ t.cluster_pending_j.length := by
  rw [forBucket_eq _ _ (by rw [hv.buckets_i.1]; exact hi)]
  obtain ⟨t, ht, hP⟩ := foldlM_option_inv (visit_j inp i)
    (fun pre t => Fe2Inv inp a b t ∧ t.cluster_pending_i = s.cluster_pending_i ∧
      t.to_visit_i = s.to_visit_i ∧ (∀ j, s.to_visit_j j = false → t.to_visit_j j = false) ∧
      (∀ u ∈ pre, t.to_visit_j (inp.i_sorted_index_j.getD u 0) = false) ∧
      s.n_done + t.cluster_pending_j.length = t.n_done + s.cluster_pending_j.length ∧
      s.cluster_pending_j.length ≤ t.cluster_pending_j.length)
    (List.range' (bucketLo inp.cumtable_i i) (bucketHi inp.cumtable_i i - bucketLo inp.cumtable_i i))
    s ⟨hinv, rfl, rfl, fun _ h => h, by simp, rfl, le_refl _⟩
    (by
      intro pre x suf t hl ⟨h1, h2, h3, h4, h5, h6, h7⟩
      have hx : x ∈ List.range' (bucketLo inp.cumtable_i i)
          (bucketHi inp.cumtable_i i - bucketLo inp.cumtable_i i) := by rw [hl]; simp
      rw [mem_bucket_iff] at hx
      obtain ⟨t', ht', g1, g2, g3, g4, g5, g6, g7⟩ :=
        visit_j_spec hv t h1 i x hi (by rw [h3]; exact hiv) hx.1 hx.2
      refine ⟨t', ht', g1, g2.trans h2, g3.trans h3, fun j h => g4 j (h4 j h), ?_, by omega,
        by omega⟩
      intro u hu
      simp only [List.mem_append, List.mem_singleton] at hu
      rcases hu with h | h
      · exact g4 _ (h5 u h)
      · subst h; exact g5)
  obtain ⟨h1, h2, h3, h4, h5, h6, h7⟩ := hP
  refine ⟨t, ht, h1, h2, h3, h4, ?_, h6, h7⟩
  intro j v ho
  obtain ⟨u, hlo, hhi, huj⟩ := hv.obs_in_view_i ho
  rw [← huj]
  exact h5 u ((mem_bucket_iff _ _ _).2 ⟨hlo, hhi⟩)

theorem find_range'_some (p : Nat → Bool) (n lo r : Nat)
    (h : (List.range' lo n).find? p = some r) :
    lo ≤ r ∧ r < lo + n ∧ p r = true ∧ ∀ k, lo ≤ k → k < r → p k = false := by
  induction n generalizing lo with
  | zero => simp at h
  | succ n ih =>
    rw [List.range'_succ, List.find?_cons] at h
    by_cases hp : p lo = true
    · simp only [hp] at h
      injection h with h
      subst h
      exact ⟨le_refl _, by omega, hp, fun k h1 h2 => by omega⟩
    · have hp' : p lo = false := by simpa using hp
      simp only [hp'] at h
      obtain ⟨h1, h2, h3, h4⟩ := ih (lo + 1) h
      refine ⟨by omega, by omega, h3, ?_⟩
      intro k hk1 hk2
      by_cases hkl : k = lo
      · rw [hkl]; exact hp'
      · exact h4 k (by omega) hk2

theorem find_range'_none (p : Nat → Bool) (n lo : Nat)
    (h : (List.range' lo n).find? p = none) : ∀ k, lo ≤ k → k < lo + n → p k = false := by
  intro k hk1 hk2
  rw [List.find?_eq_none] at h
  have := h k (by rw [List.mem_range'_1]; omega)
  simpa using this

theorem propagate_j_to_i_spec {inp : Fe2Input} {a b : Nat → ℚ} (hv : Fe2Views inp)
    (s : Fe2State) (htop : Fe2Top inp a b s) :
    ∃ t, propagate_j_to_i inp s = some t ∧ Fe2Mid inp a b t ∧ s.n_done ≤ t.n_done := by
  obtain ⟨hinv, hcl⟩ := htop
  have hinv0 : Fe2Inv inp a b { s with cluster_pending_i := [] } :=
    { count := hinv.count, ref := hinv.ref, val_i := hinv.val_i, val_j := hinv.val_j,
      pend_i := by intro i hi; simp at hi
      pend_j := hinv.pend_j, noref_i := hinv.noref_i, start := hinv.start,
      closed_i := fun i hi h => Or.inr (hcl i hi h), closed_j := hinv.closed_j,
      conn_i := hinv.conn_i, conn_j := hinv.conn_j }
  unfold propagate_j_to_i
  obtain ⟨t, ht, hP⟩ := foldlM_option_inv
    (fun t j => forBucket inp.cumtable_j j (visit_i inp j) t)
    (fun pre t => Fe2Inv inp a b t ∧ t.cluster_pending_j = s.cluster_pending_j ∧
      (∀ j ∈ pre, ∀ i v, Fe2Obs inp i j v → t.to_visit_i i = false) ∧ s.n_done ≤ t.n_done)
    s.cluster_pending_j { s with cluster_pending_i := [] }
    ⟨hinv0, rfl, by simp, le_refl _⟩
    (by
      intro pre x suf t hl ⟨h1, h2, h3, h4⟩
      have hx : x ∈ t.cluster_pending_j := by rw [h2, hl]; simp
      obtain ⟨hxn, hxv⟩ := h1.pend_j x hx
      obtain ⟨t', ht', g1, g2, _, g4, g5, g6⟩ := bucket_j_spec hv t h1 x hxn hxv
      refine ⟨t', ht', g1, g2.trans h2, ?_, by omega⟩
      intro j hj i v ho
      simp only [List.mem_append, List.mem_singleton] at hj
      rcases hj with h | h
      · exact g4 _ (h3 j h i v ho)
      · subst h; exact g5 i v ho)
  obtain ⟨h1, h2, h3, h4⟩ := hP
  refine ⟨t, ht, ⟨h1, ?_⟩, h4⟩
  intro j hj hjv i v ho
  rcases h1.closed_j j hj hjv with h | h
  · rw [h2] at h; exact h3 j h i v ho
  · exact h i v ho

theorem propagate_i_to_j_spec {inp : Fe2Input} {a b : Nat → ℚ} (hv : Fe2Views inp)
    (s : Fe2State) (hmid : Fe2Mid inp a b s) :
    ∃ t, propagate_i_to_j inp s = some t ∧ Fe2Top inp a b t ∧
      s.n_done + t.cluster_pending_j.length = t.n_done := by
  obtain ⟨hinv, hcl⟩ := hmid
  have hinv0 : Fe2Inv inp a b { s with cluster_pending_j := [] } :=
    { count := hinv.count, ref := hinv.ref, val_i := hinv.val_i, val_j := hinv.val_j,
      pend_i := hinv.pend_i
      pend_j := by intro j hj; simp at hj
      noref_i := hinv.noref_i, start := hinv.start,
      closed_i := hinv.closed_i, closed_j := fun j hj h => Or.inr (hcl j hj h),
      conn_i := hinv.conn_i, conn_j := hinv.conn_j }
  unfold propagate_i_to_j
  obtain ⟨t, ht, hP⟩ := foldlM_option_inv
    (fun t i => forBucket inp.cumtable_i i (visit_j inp i) t)
    (fun pre t => Fe2Inv inp a b t ∧ t.cluster_pending_i = s.cluster_pending_i ∧
      (∀ i ∈ pre, ∀ j v, Fe2Obs inp i j v → t.to_visit_j j = false) ∧
      s.n_done + t.cluster_pending_j.length = t.n_done)
    s.cluster_pending_i { s with cluster_pending_j := [] }
    ⟨hinv0, rfl, by simp, by simp⟩
    (by
      intro pre x suf t hl ⟨h1, h2, h3, h4⟩
      have hx : x ∈ t.cluster_pending_i := by rw [h2, hl]; simp
      obtain ⟨hxn, hxv⟩ := h1.pend_i x hx
      obtain ⟨t', ht', g1, g2, _, g4, g5, g6, g7⟩ := bucket_i_spec hv t h1 x hxn hxv
      refine ⟨t', ht', g1, g2.trans h2, ?_, by omega⟩
      intro i hi j v ho
      simp only [List.mem_append, List.mem_singleton] at hi
      rcases hi with h | h
      · exact g4 _ (h3 i h j v ho)
      · subst h; exact g5 j v ho)
  obtain ⟨h1, h2, h3, h4⟩ := hP
  refine ⟨t, ht, ⟨h1, ?_⟩, h4⟩
  intro i hi hiv j v ho
  rcases h1.closed_i i hi hiv with h | h
  · rw [h2] at h; exact h3 i h j v ho
  · exact h j v ho

/-- When the frontier of dimension 2 is empty, the visited categories are closed
under connection. -/
theorem Fe2Top.closed_conn {inp : Fe2Input} {a b : Nat → ℚ} {s : Fe2State}
    (htop : Fe2Top inp a b s) (hp : s.cluster_pending_j = []) {x y : Fe2Cat}
    (hxy : Fe2Conn inp x y) (hx : Fe2Visited inp s x) : Fe2Visited inp s y := by
  refine Fe2Conn.closed (Fe2Visited inp s) ?_ hxy hx
  intro x y hx hadj
  obtain ⟨i, j, v, ho, h | h⟩ := hadj
  · obtain ⟨rfl, rfl⟩ := h
    exact ⟨ho.2.1, htop.2 i hx.1 hx.2 j v ho⟩
  · obtain ⟨rfl, rfl⟩ := h
    refine ⟨ho.1, ?_⟩
    rcases htop.1.closed_j j hx.1 hx.2 with h | h
    · rw [hp] at h; simp at h
    · exact h i v ho

theorem set_reference_spec {inp : Fe2Input} {a b : Nat → ℚ} (hv : Fe2Views inp)
    (s : Fe2State) (htop : Fe2Top inp a b s) (hp : s.cluster_pending_j = [])
    (hn : s.n_done < inp.n_i + inp.n_j) :
    ∃ t, set_reference inp s = some t ∧ Fe2Top inp a b t ∧ t.n_done = s.n_done + 1 := by
  have hinv := htop.1
  -- an unvisited category of dimension 2 exists
  have hex : ∃ j < inp.n_j, s.to_visit_j j = true := by
    by_contra hno
    have hall : ∀ j < inp.n_j, s.to_visit_j j = false := by
      intro j hj
      by_contra h
      exact hno ⟨j, hj, by simpa using h⟩
    have hcnt := hinv.count
    have hlej := visitedCount_le inp.n_j s.to_visit_j
    have hi : visitedCount inp.n_i s.to_visit_i < inp.n_i := by
      by_contra h
      have := visitedCount_le inp.n_i s.to_visit_i
      have hj : visitedCount inp.n_j s.to_visit_j < inp.n_j := by omega
      obtain ⟨j, hj1, hj2⟩ := visitedCount_lt _ _ hj
      rw [hall j hj1] at hj2
      exact absurd hj2 (by simp)
    obtain ⟨i, hi1, hi2⟩ := visitedCount_lt _ _ hi
    obtain ⟨j, v, ho⟩ := hv.exists_obs_i hi1
    rcases hinv.closed_j j ho.2.1 (hall j ho.2.1) with h | h
    · rw [hp] at h; simp at h
    · rw [h i v ho] at hi2; exact absurd hi2 (by simp)
  obtain ⟨j0, hj0, hj0v⟩ := hex
  unfold set_reference
  cases hfind : (List.range' s.j_start (inp.n_j - s.j_start)).find? (fun j => s.to_visit_j j) with
  | none =>
    exfalso
    have hst : s.j_start ≤ j0 := by
      by_contra h
      have := hinv.start j0 (by omega)
      rw [this] at hj0v; exact absurd hj0v (by simp)
    have := find_range'_none _ _ _ hfind j0 hst (by omega)
    simp only at this
    rw [this] at hj0v; exact absurd hj0v (by simp)
  | some r =>
    obtain ⟨h1, h2, h3, h4⟩ := find_range'_some _ _ _ _ hfind
    have hr : r < inp.n_j := by omega
    have hbelow : ∀ k < r, s.to_visit_j k = false := by
      intro k hk
      by_cases hks : k < s.j_start
      · exact hinv.start k hks
      · exact h4 k (by omega) hk
    have hlow : Fe2Lowest inp r := by
      refine ⟨hr, ?_⟩
      intro k hk hconn
      have := htop.closed_conn hp hconn (show Fe2Visited inp s (Fe2Cat.dim2 k) from
        ⟨by omega, hbelow k hk⟩)
      rw [this.2] at h3; exact absurd h3 (by simp)
    refine ⟨_, rfl, ⟨?_, ?_⟩, rfl⟩
    · constructor
      · simp only
        rw [visitedCount_setAt _ _ _ hr h3, hinv.count]
        omega
      · intro r' hr'
        by_cases hrr : r' = r
        · subst hrr
          exact ⟨hlow, by simp, by simp⟩
        · simp only [setAt_ne _ _ _ _ hrr] at hr' ⊢
          exact hinv.ref r' hr'
      · intro hc i hi hiv
        obtain ⟨r', g1, g2, g3⟩ := hinv.val_i hc i hi hiv
        refine ⟨r', ?_, g2, g3⟩
        simp only [setAt]
        split <;> simp [g1]
      · intro hc j hj hjv
        by_cases hjr : j = r
        · subst hjr
          exact ⟨j, by simp, Relation.ReflTransGen.refl, by simp⟩
        · simp only [setAt_ne _ _ _ _ hjr] at hjv ⊢
          obtain ⟨r', g1, g2, g3⟩ := hinv.val_j hc j hj hjv
          refine ⟨r', ?_, g2, g3⟩
          simp only [setAt]
          split <;> simp [g1]
      · exact hinv.pend_i
      · intro j hj
        simp only [List.mem_singleton] at hj
        subst hj
        exact ⟨hr, by simp⟩
      · exact hinv.noref_i
      · intro k hk
        simp only at hk
        by_cases hkr : k = r
        · subst hkr; simp
        · simp only [setAt_ne _ _ _ _ hkr]
          exact hbelow k (by omega)
      · intro i hi hiv
        right
        intro j v ho
        have := htop.2 i hi hiv j v ho
        simp only [setAt]
        split <;> simp [this]
      · intro j hj hjv
        by_cases hjr : j = r
        · left; simp [hjr]
        · right
          simp only [setAt_ne _ _ _ _ hjr] at hjv
          rcases hinv.closed_j j hj hjv with h | h
          · rw [hp] at h; simp at h
          · exact h
      · intro i hi hiv
        obtain ⟨r', g1, g2⟩ := hinv.conn_i i hi hiv
        refine ⟨r', ?_, g2⟩
        simp only [setAt]
        split <;> simp [g1]
      · intro j hj hjv
        by_cases hjr : j = r
        · subst hjr
          exact ⟨j, by simp, Relation.ReflTransGen.refl⟩
        · simp only [setAt_ne _ _ _ _ hjr] at hjv
          obtain ⟨r', g1, g2⟩ := hinv.conn_j j hj hjv
          refine ⟨r', ?_, g2⟩
          simp only [setAt]
          split <;> simp [g1]
    · intro i hi hiv j v ho
      have := htop.2 i hi hiv j v ho
      simp only [setAt]
      split <;> simp [this]

theorem Fe2Inv.n_done_le {inp : Fe2Input} {a b : Nat → ℚ} {s : Fe2State}
    (h : Fe2Inv inp a b s) : s.n_done ≤ inp.n_i + inp.n_j := by
  have h1 := visitedCount_le inp.n_i s.to_visit_i
  have h2 := visitedCount_le inp.n_j s.to_visit_j
  have := h.count
  omega

theorem fe2_pass_spec {inp : Fe2Input} {a b : Nat → ℚ} (hv : Fe2Views inp)
    (s : Fe2State) (htop : Fe2Top inp a b s) (hn : s.n_done < inp.n_i + inp.n_j) :
    ∃ t, fe2_pass inp s = some t ∧ Fe2Top inp a b t ∧ fe2_measure inp t < fe2_measure inp s := by
  unfold fe2_pass
  by_cases hp : s.cluster_pending_j.length = 0
  · have hp' : s.cluster_pending_j = [] := List.length_eq_zero.mp hp
    obtain ⟨s1, hs1, htop1, hn1⟩ := set_reference_spec hv s htop hp' hn
    obtain ⟨s2, hs2, hmid2, hn2⟩ := propagate_j_to_i_spec hv s1 htop1
    obtain ⟨t, ht, htop3, hn3⟩ := propagate_i_to_j_spec hv s2 hmid2
    refine ⟨t, by simp [hp, hs1, hs2, ht], htop3, ?_⟩
    have := htop3.1.n_done_le
    unfold fe2_measure
    simp only [hp, if_true]
    split <;> omega
  · obtain ⟨s2, hs2, hmid2, hn2⟩ := propagate_j_to_i_spec hv s htop
    obtain ⟨t, ht, htop3, hn3⟩ := propagate_i_to_j_spec hv s2 hmid2
    refine ⟨t, by simp [hp, hs2, ht], htop3, ?_⟩
    have := htop3.1.n_done_le
    unfold fe2_measure
    simp only [hp, if_false]
    split <;> omega

theorem fe2_loop_spec {inp : Fe2Input} {a b : Nat → ℚ} (hv : Fe2Views inp) :
    ∀ (fuel : Nat) (s : Fe2State), Fe2Top inp a b s → fe2_measure inp s ≤ fuel →
      ∃ t, fe2_loop inp fuel s = some t ∧ Fe2Top inp a b t ∧ inp.n_i + inp.n_j ≤ t.n_done := by
  intro fuel
  induction fuel with
  | zero =>
    intro s htop hm
    have : ¬ s.n_done < inp.n_i + inp.n_j := by
      unfold fe2_measure at hm
      omega
    exact ⟨s, by simp [fe2_loop, this], htop, by omega⟩
  | succ fuel ih =>
    intro s htop hm
    by_cases hn : s.n_done < inp.n_i + inp.n_j
    · obtain ⟨t, ht, htop', hlt⟩ := fe2_pass_spec hv s htop hn
      obtain ⟨t', ht', h1, h2⟩ := ih t htop' (by omega)
      exact ⟨t', by simp [fe2_loop, hn, ht, ht'], h1, h2⟩
    · exact ⟨s, by simp [fe2_loop, hn], htop, by omega⟩

theorem visitedCount_true (n : Nat) : visitedCount n (fun _ => true) = 0 := by
  induction n with
  | zero => rfl
  | succ n ih => simp [visitedCount, ih]

theorem fe2_init_top (inp : Fe2Input) (a b : Nat → ℚ) : Fe2Top inp a b fe2_init := by
  refine ⟨?_, ?_⟩
  · constructor <;> simp [fe2_init, visitedCount_true]
  · intro i _ h
    simp [fe2_init] at h

/-- The loop of `cpp_get_fe_2` ends on every valid input, in a state that satisfies
the invariant and in which every category has been visited. -/
theorem fe2_run {inp : Fe2Input} (a b : Nat → ℚ) (hv : Fe2Views inp) (fuel : Nat)
    (hf : 2 * (inp.n_i + inp.n_j) ≤ fuel) :
    ∃ t, fe2_loop inp fuel fe2_init = some t ∧ Fe2Top inp a b t ∧
      t.n_done = inp.n_i + inp.n_j ∧ (∀ i < inp.n_i, t.to_visit_i i = false) ∧
      (∀ j < inp.n_j, t.to_visit_j j = false) := by
  obtain ⟨t, ht, htop, hn⟩ := fe2_loop_spec hv fuel fe2_init (fe2_init_top inp a b)
    (by simp [fe2_measure, fe2_init]; omega)
  have hle := htop.1.n_done_le
  have hcnt := htop.1.count
  have h1 := visitedCount_le inp.n_i t.to_visit_i
  have h2 := visitedCount_le inp.n_j t.to_visit_j
  exact ⟨t, ht, htop, by omega, visitedCount_eq _ _ (by omega), visitedCount_eq _ _ (by omega)⟩

theorem fe2_table_row_i (inp : Fe2Input) (s : Fe2State) (i : Nat) (hi : i < inp.n_i) :
    (fe2_table inp s).getD i [] =
      [1, ((i + 1 : Nat) : ℚ), s.cluster_coef_i i, boolToRat (s.isRef_i i)] := by
  unfold fe2_table
  rw [List.getD_eq_getElem?_getD, List.getElem?_append_left (by simpa using hi)]
  simp [List.getElem?_map, List.getElem?_range hi]

theorem fe2_table_row_j (inp : Fe2Input) (s : Fe2State) (j : Nat) (hj : j < inp.n_j) :
    (fe2_table inp s).getD (inp.n_i + j) [] =
      [2, ((j + 1 : Nat) : ℚ), s.cluster_coef_j j, boolToRat (s.isRef_j j)] := by
  unfold fe2_table
  rw [List.getD_eq_getElem?_getD, List.getElem?_append_right (by simp)]
  simp [List.getElem?_map, List.getElem?_range hj]

theorem fe2_coef_i (inp : Fe2Input) (s : Fe2State) (i : Nat) (hi : i < inp.n_i) :
    fe2_coef (fe2_table inp s) i = s.cluster_coef_i i := by
  unfold fe2_coef; rw [fe2_table_row_i inp s i hi]; rfl

theorem fe2_coef_j (inp : Fe2Input) (s : Fe2State) (j : Nat) (hj : j < inp.n_j) :
    fe2_coef (fe2_table inp s) (inp.n_i + j) = s.cluster_coef_j j := by
  unfold fe2_coef; rw [fe2_table_row_j inp s j hj]; rfl

theorem fe2_flag_i (inp : Fe2Input) (s : Fe2State) (i : Nat) (hi : i < inp.n_i) :
    fe2_flag (fe2_table inp s) i = boolToRat (s.isRef_i i) := by
  unfold fe2_flag; rw [fe2_table_row_i inp s i hi]; rfl

theorem fe2_flag_j (inp : Fe2Input) (s : Fe2State) (j : Nat) (hj : j < inp.n_j) :
    fe2_flag (fe2_table inp s) (inp.n_i + j) = boolToRat (s.isRef_j j) := by
  unfold fe2_flag; rw [fe2_table_row_j inp s j hj]; rfl

/-- In a final state the flagged categories are the lowest categories of dimension 2
of the components. -/
theorem Fe2Inv.isRef_iff_lowest {inp : Fe2Input} {a b : Nat → ℚ} {s : Fe2State}
    (hinv : Fe2Inv inp a b s) (hall : ∀ j < inp.n_j, s.to_visit_j j = false) (r : Nat) :
    s.isRef_j r = true ↔ Fe2Lowest inp r := by
  constructor
  · intro h; exact (hinv.ref r h).1
  · intro h
    obtain ⟨r', g1, g2⟩ := hinv.conn_j r h.1 (hall r h.1)
    have := Fe2Lowest.unique h (hinv.ref r' g1).1 g2
    rw [this]; exact g1

/-- The number of classes of an equivalence relation is the number of flagged indices,
when the flagged indices pick exactly one element in every class. -/
theorem card_quotient_eq_countP {α : Type} (S : Setoid α) (n : Nat) (p : Nat → Bool)
    (f : ∀ j, j < n → α)
    (hinj : ∀ j k (hj : j < n) (hk : k < n), p j = true → p k = true →
      S.r (f j hj) (f k hk) → j = k)
    (hsurj : ∀ x : α, ∃ j, ∃ hj : j < n, p j = true ∧ S.r x (f j hj)) :
    Nat.card (Quotient S) = (List.range n).countP p := by
  have hcount : (List.range n).countP p =
      ((Finset.range n).filter (fun j => p j = true)).card := by
    rw [List.countP_eq_length_filter]
    simp only [Finset.card_def, Finset.filter_val, Finset.range_val, Multiset.range,
      Multiset.filter_coe, Multiset.coe_card]
    congr 1
    apply List.filter_congr
    intro x _
    simp
  rw [hcount, ← Nat.card_eq_finsetCard]
  symm
  have hmem : ∀ j : ((Finset.range n).filter (fun j => p j = true)), j.1 < n := fun j =>
    Finset.mem_range.mp (Finset.mem_filter.mp j.2).1
  refine Nat.card_congr (Equiv.ofBijective
    (fun j : ((Finset.range n).filter (fun j => p j = true)) =>
      (Quotient.mk S (f j.1 (hmem j)))) ⟨?_, ?_⟩)
  · intro x y hxy
    have hx := Finset.mem_filter.mp x.2
    have hy := Finset.mem_filter.mp y.2
    apply Subtype.ext
    exact hinj x.1 y.1 (hmem x) (hmem y) hx.2 hy.2 (Quotient.exact hxy)
  · intro q
    induction q using Quotient.inductionOn with
    | _ x =>
      obtain ⟨j, hj, hp, hr⟩ := hsurj x
      refine ⟨⟨j, Finset.mem_filter.mpr ⟨Finset.mem_range.mpr hj, hp⟩⟩, ?_⟩
      exact Quotient.sound (S.symm hr)

theorem cpp_get_fe_2_eq {inp : Fe2Input} {fuel : Nat} {t : Fe2State}
    (h : fe2_loop inp fuel fe2_init = some t) :
    cpp_get_fe_2 fuel inp = some (fe2_table inp t) := by
  simp [cpp_get_fe_2, h]

/-- Every category is connected to the lowest category of dimension 2 of its component,
and its coefficient is shifted by the coefficient of that category. -/
theorem fe2_final_values {inp : Fe2Input} {a b : Nat → ℚ} {t : Fe2State}
    (hc : Fe2Consistent inp a b) (hinv : Fe2Inv inp a b t)
    (hi : ∀ i < inp.n_i, t.to_visit_i i = false) (hj : ∀ j < inp.n_j, t.to_visit_j j = false) :
    (∀ i < inp.n_i, ∃ r, Fe2Lowest inp r ∧ Fe2Conn inp (Fe2Cat.dim1 i) (Fe2Cat.dim2 r) ∧
      t.cluster_coef_i i = a i + b r) ∧
    (∀ j < inp.n_j, ∃ r, Fe2Lowest inp r ∧ Fe2Conn inp (Fe2Cat.dim2 j) (Fe2Cat.dim2 r) ∧
      t.cluster_coef_j j = b j - b r) := by
  constructor
  · intro i hi'
    obtain ⟨r, h1, h2, h3⟩ := hinv.val_i hc i hi' (hi i hi')
    exact ⟨r, (hinv.ref r h1).1, h2, h3⟩
  · intro j hj'
    obtain ⟨r, h1, h2, h3⟩ := hinv.val_j hc j hj' (hj j hj')
    exact ⟨r, (hinv.ref r h1).1, h2, h3⟩

theorem fe2_example_valid : Fe2Valid fe2_example := by decide!

theorem fe2_example_consistent :
    Fe2Consistent fe2_example fe2_example_a fe2_example_b := by decide!

/-- C1 (two-way round trip).  On every valid input whose values are `a i + b j`, the
routine returns, and the returned coefficient of a category `i` of dimension 1 is
`a i + b r` and the one of a category `j` of dimension 2 is `b j - b r`, where `r` is the
lowest-indexed category of dimension 2 of the connected component of the category (such
an `r` exists for every category).  Hence differences of coefficients of one dimension
inside a component are preserved, and `(a, b)` is returned exactly when `b r = 0` for
the lowest category `r` of every component. -/
theorem fe2_round_trip (inp : Fe2Input) (a b : Nat → ℚ) (hv : Fe2Valid inp)
    (hc : Fe2Consistent inp a b) (fuel : Nat) (hf : 2 * (inp.n_i + inp.n_j) ≤ fuel) :
    ∃ res, cpp_get_fe_2 fuel inp = some res ∧
      (∀ i < inp.n_i, ∃ r, Fe2Lowest inp r ∧ Fe2Conn inp (Fe2Cat.dim1 i) (Fe2Cat.dim2 r)) ∧
      (∀ j < inp.n_j, ∃ r, Fe2Lowest inp r ∧ Fe2Conn inp (Fe2Cat.dim2 j) (Fe2Cat.dim2 r)) ∧
      (∀ i r, i < inp.n_i → Fe2Lowest inp r → Fe2Conn inp (Fe2Cat.dim1 i) (Fe2Cat.dim2 r) →
        fe2_coef res i = a i + b r) ∧
      (∀ j r, j < inp.n_j → Fe2Lowest inp r → Fe2Conn inp (Fe2Cat.dim2 j) (Fe2Cat.dim2 r) →
        fe2_coef res (inp.n_i + j) = b j - b r) ∧
      (∀ i k, i < inp.n_i → k < inp.n_i → Fe2Conn inp (Fe2Cat.dim1 i) (Fe2Cat.dim1 k) →
        fe2_coef res i - fe2_coef res k = a i - a k) ∧
      (∀ j k, j < inp.n_j → k < inp.n_j → Fe2Conn inp (Fe2Cat.dim2 j) (Fe2Cat.dim2 k) →
        fe2_coef res (inp.n_i + j) - fe2_coef res (inp.n_i + k) = b j - b k) ∧
      ((∀ r, Fe2Lowest inp r → b r = 0) →
        (∀ i < inp.n_i, fe2_coef res i = a i) ∧
        (∀ j < inp.n_j, fe2_coef res (inp.n_i + j) = b j)) := by
  obtain ⟨t, ht, htop, _, hi, hj⟩ := fe2_run a b hv.views fuel hf
  obtain ⟨hvi, hvj⟩ := fe2_final_values hc htop.1 hi hj
  have hI : ∀ i r, i < inp.n_i → Fe2Lowest inp r →
      Fe2Conn inp (Fe2Cat.dim1 i) (Fe2Cat.dim2 r) →
      fe2_coef (fe2_table inp t) i = a i + b r := by
    intro i r hi' hr hconn
    obtain ⟨r', g1, g2, g3⟩ := hvi i hi'
    rw [fe2_coef_i inp t i hi', g3, Fe2Lowest.unique hr g1 (hconn.conn_symm.trans g2)]
  have hJ : ∀ j r, j < inp.n_j → Fe2Lowest inp r →
      Fe2Conn inp (Fe2Cat.dim2 j) (Fe2Cat.dim2 r) →
      fe2_coef (fe2_table inp t) (inp.n_i + j) = b j - b r := by
    intro j r hj' hr hconn
    obtain ⟨r', g1, g2, g3⟩ := hvj j hj'
    rw [fe2_coef_j inp t j hj', g3, Fe2Lowest.unique hr g1 (hconn.conn_symm.trans g2)]
  refine ⟨fe2_table inp t, cpp_get_fe_2_eq ht, ?_, ?_, hI, hJ, ?_, ?_, ?_⟩
  · intro i hi'
    obtain ⟨r, g1, g2, _⟩ := hvi i hi'
    exact ⟨r, g1, g2⟩
  · intro j hj'
    obtain ⟨r, g1, g2, _⟩ := hvj j hj'
    exact ⟨r, g1, g2⟩
  · intro i k hi' hk hconn
    obtain ⟨r, g1, g2, _⟩ := hvi k hk
    rw [hI i r hi' g1 (hconn.trans g2), hI k r hk g1 g2]
    ring
  · intro j k hj' hk hconn
    obtain ⟨r, g1, g2, _⟩ := hvj k hk
    rw [hJ j r hj' g1 (hconn.trans g2), hJ k r hk g1 g2]
    ring
  · intro hz
    constructor
    · intro i hi'
      obtain ⟨r, g1, g2, _⟩ := hvi i hi'
      rw [hI i r hi' g1 g2, hz r g1]
      ring
    · intro j hj'
      obtain ⟨r, g1, g2, _⟩ := hvj j hj'
      rw [hJ j r hj' g1 g2, hz r g1]
      ring

/-- The round trip on the scenario of the specification. -/
theorem fe2_round_trip_witness :
    Fe2Valid fe2_example ∧ Fe2Consistent fe2_example fe2_example_a fe2_example_b ∧
    ∃ res, cpp_get_fe_2 8 fe2_example = some res ∧
      (∀ i r, i < fe2_example.n_i → Fe2Lowest fe2_example r →
        Fe2Conn fe2_example (Fe2Cat.dim1 i) (Fe2Cat.dim2 r) →
        fe2_coef res i = fe2_example_a i + fe2_example_b r) :=
  ⟨fe2_example_valid, fe2_example_consistent,
    (fe2_round_trip fe2_example fe2_example_a fe2_example_b fe2_example_valid
      fe2_example_consistent 8 (by decide)).imp (fun _ h => ⟨h.1, h.2.2.2.1⟩)⟩

/-- C2 (amended: reconstruction of `sumFE` by the Bipartite Recoverer over exact
arithmetic).  Over exact arithmetic, on every valid input whose values are `a i + b j`,
the returned coefficients of the two categories of every observation, read in either
view, add up to the value of the observation.  On the scenario of the specification
the result is `5`, `8` for dimension 1 and `0`, `2` for dimension 2, category `0` of
dimension 2 being the only reference. -/
theorem fe2_sumFE_reconstruction :
    (∀ (inp : Fe2Input) (a b : Nat → ℚ), Fe2Valid inp → Fe2Consistent inp a b →
      ∀ fuel, 2 * (inp.n_i + inp.n_j) ≤ fuel →
      ∃ res, cpp_get_fe_2 fuel inp = some res ∧
        (∀ j < inp.n_j, ∀ u, bucketLo inp.cumtable_j j ≤ u → u < bucketHi inp.cumtable_j j →
          fe2_coef res (inp.j_sorted_index_i.getD u 0) + fe2_coef res (inp.n_i + j) =
            inp.j_sorted_sumFE.getD u 0) ∧
        (∀ i < inp.n_i, ∀ u, bucketLo inp.cumtable_i i ≤ u → u < bucketHi inp.cumtable_i i →
          fe2_coef res i + fe2_coef res (inp.n_i + inp.i_sorted_index_j.getD u 0) =
            inp.i_sorted_sumFE.getD u 0)) ∧
    cpp_get_fe_2 8 fe2_example =
      some [[1, 1, 5, 0], [1, 2, 8, 0], [2, 1, 0, 1], [2, 2, 2, 0]] := by
  refine ⟨?_, by decide!⟩
  intro inp a b hv hc fuel hf
  obtain ⟨t, ht, htop, _, hi, hj⟩ := fe2_run a b hv.views fuel hf
  obtain ⟨hvi, hvj⟩ := fe2_final_values hc htop.1 hi hj
  have key : ∀ i j v, Fe2Obs inp i j v →
      fe2_coef (fe2_table inp t) i + fe2_coef (fe2_table inp t) (inp.n_i + j) = v := by
    intro i j v ho
    obtain ⟨r, g1, g2, g3⟩ := hvi i ho.1
    obtain ⟨r', k1, k2, k3⟩ := hvj j ho.2.1
    have : r = r' := Fe2Lowest.unique g1 k1 (g2.conn_symm.trans (ho.conn.trans k2))
    rw [fe2_coef_i inp t i ho.1, fe2_coef_j inp t j ho.2.1, g3, k3, hc.obs ho, this]
    ring
  refine ⟨fe2_table inp t, cpp_get_fe_2_eq ht, ?_, ?_⟩
  · intro j hj' u hlo hhi
    exact key _ _ _ (hv.views.obs_j hj' hlo hhi).2.2
  · intro i hi' u hlo hhi
    exact key _ _ _ (hv.views.obs_i hi' hlo hhi).2.2

/-- The reconstruction of `sumFE` over exact arithmetic on the scenario of the
specification. -/
theorem fe2_sumFE_reconstruction_witness :
    Fe2Valid fe2_example ∧ Fe2Consistent fe2_example fe2_example_a fe2_example_b ∧
    ∃ res, cpp_get_fe_2 8 fe2_example = some res ∧
      (∀ j < fe2_example.n_j, ∀ u, bucketLo fe2_example.cumtable_j j ≤ u →
        u < bucketHi fe2_example.cumtable_j j →
        fe2_coef res (fe2_example.j_sorted_index_i.getD u 0) +
          fe2_coef res (fe2_example.n_i + j) = fe2_example.j_sorted_sumFE.getD u 0) :=
  ⟨fe2_example_valid, fe2_example_consistent,
    (fe2_sumFE_reconstruction.1 fe2_example fe2_example_a fe2_example_b fe2_example_valid
      fe2_example_consistent 8 (by decide)).imp (fun _ h => ⟨h.1, h.2.1⟩)⟩

theorem fe2_table_countP (inp : Fe2Input) (t : Fe2State) (h : ∀ i, t.isRef_i i = false) :
    (fe2_table inp t).countP (fun row => decide (row.getD 3 0 = 1)) =
      (List.range inp.n_j).countP t.isRef_j := by
  unfold fe2_table
  rw [List.countP_append, List.countP_map, List.countP_map]
  have h1 : List.countP ((fun row : List ℚ => decide (row.getD 3 0 = 1)) ∘
      fun i => [1, ((i + 1 : Nat) : ℚ), t.cluster_coef_i i, boolToRat (t.isRef_i i)])
      (List.range inp.n_i) = 0 := by
    rw [List.countP_eq_zero]
    intro i _
    simp [h i, boolToRat]
  rw [h1, Nat.zero_add]
  apply List.countP_congr
  intro j _
  cases hj : t.isRef_j j <;> simp [hj, boolToRat]

/-- C6 (one reference per connected component in the Bipartite Recoverer).  On every
valid input the routine returns; the number of rows flagged is-reference is the number
of connected components of the category graph; a category of dimension 2 is flagged
exactly when it is the lowest-indexed category of dimension 2 of its component, every
category is connected to such a flagged category, a flagged category has coefficient
`0`, and no category of dimension 1 is flagged. -/
theorem fe2_one_reference_per_component (inp : Fe2Input) (hv : Fe2Valid inp) (fuel : Nat)
    (hf : 2 * (inp.n_i + inp.n_j) ≤ fuel) :
    ∃ res, cpp_get_fe_2 fuel inp = some res ∧
      res.countP (fun row => decide (row.getD 3 0 = 1)) = Nat.card (Quotient (fe2Setoid inp)) ∧
      (∀ j < inp.n_j, fe2_flag res (inp.n_i + j) = 1 ↔ Fe2Lowest inp j) ∧
      (∀ x : Fe2Node inp, ∃ r, Fe2Lowest inp r ∧ fe2_flag res (inp.n_i + r) = 1 ∧
        Fe2Conn inp x.1 (Fe2Cat.dim2 r)) ∧
      (∀ j < inp.n_j, fe2_flag res (inp.n_i + j) = 1 → fe2_coef res (inp.n_i + j) = 0) ∧
      (∀ i < inp.n_i, fe2_flag res i = 0) := by
  obtain ⟨t, ht, htop, _, hi, hj⟩ := fe2_run (fun _ => 0) (fun _ => 0) hv.views fuel hf
  have hinv := htop.1
  have hflag : ∀ j < inp.n_j, (fe2_flag (fe2_table inp t) (inp.n_i + j) = 1 ↔
      t.isRef_j j = true) := by
    intro j hj'
    rw [fe2_flag_j inp t j hj']
    cases h : t.isRef_j j <;> simp [boolToRat]
  have hnode : ∀ x : Fe2Node inp, ∃ r, t.isRef_j r = true ∧ Fe2Conn inp x.1 (Fe2Cat.dim2 r) := by
    rintro ⟨x, hx⟩
    cases x with
    | dim1 i => exact hinv.conn_i i hx (hi i hx)
    | dim2 j => exact hinv.conn_j j hx (hj j hx)
  refine ⟨fe2_table inp t, cpp_get_fe_2_eq ht, ?_, ?_, ?_, ?_, ?_⟩
  · rw [fe2_table_countP inp t hinv.noref_i]
    symm
    apply card_quotient_eq_countP (fe2Setoid inp) inp.n_j t.isRef_j
      (fun j h => ⟨Fe2Cat.dim2 j, h⟩)
    · intro j k hj' hk pj pk hr
      exact Fe2Lowest.unique (hinv.ref j pj).1 (hinv.ref k pk).1 hr
    · intro x
      obtain ⟨r, h1, h2⟩ := hnode x
      exact ⟨r, (hinv.ref r h1).1.1, h1, h2⟩
  · intro j hj'
    rw [hflag j hj']
    exact hinv.isRef_iff_lowest hj j
  · intro x
    obtain ⟨r, h1, h2⟩ := hnode x
    have hr := (hinv.ref r h1).1
    exact ⟨r, hr, (hflag r hr.1).2 h1, h2⟩
  · intro j hj' hfl
    rw [fe2_coef_j inp t j hj']
    exact (hinv.ref j ((hflag j hj').1 hfl)).2.2
  · intro i hi'
    rw [fe2_flag_i inp t i hi', hinv.noref_i i]
    rfl

/-- One reference per component on the scenario of the specification. -/
theorem fe2_one_reference_per_component_witness :
    Fe2Valid fe2_example ∧
    ∃ res, cpp_get_fe_2 8 fe2_example = some res ∧
      res.countP (fun row => decide (row.getD 3 0 = 1)) =
        Nat.card (Quotient (fe2Setoid fe2_example)) :=
  ⟨fe2_example_valid,
    (fe2_one_reference_per_component fe2_example fe2_example_valid 8 (by decide)).imp
      (fun _ h => ⟨h.1, h.2.1⟩)⟩

theorem gnl_example_valid : GnlValid gnl_example := by decide!

theorem gnl_example_consistent : GnlConsistent gnl_example gnl_example_coef := by decide!

theorem gnl_three_way_valid : GnlValid gnl_three_way := by decide!

theorem gnl_three_way_consistent : GnlConsistent gnl_three_way gnl_three_way_coef := by decide!

theorem matGet_eq (m : List (List Nat)) (i q : Nat) (hi : i < m.length)
    (hq : q < (m.getD i []).length) : matGet m i q = some ((m.getD i []).getD q 0) := by
  unfold matGet
  rw [getElem?_eq_some_getD m i [] hi]
  exact getElem?_eq_some_getD _ _ _ hq

theorem GnlValid.matGet_dum {inp : GnlInput} (hv : GnlValid inp) {i q : Nat} (hi : i < inp.N)
    (hq : q < inp.Q) : matGet inp.dumMat i q = some (inp.dum i q) := by
  obtain ⟨_, _, h3, _, h5⟩ := hv.shape
  exact matGet_eq _ _ _ (by omega) (by rw [(h5 i hi).1]; exact hq)

theorem GnlValid.matGet_obs {inp : GnlInput} (hv : GnlValid inp) {i q : Nat} (hi : i < inp.N)
    (hq : q < inp.Q) : matGet inp.obsCluster i q = some (inp.obs i q) := by
  obtain ⟨_, _, _, h4, h5⟩ := hv.shape
  exact matGet_eq _ _ _ (by omega) (by rw [(h5 i hi).2]; exact hq)

theorem GnlValid.sumFE_get {inp : GnlInput} (hv : GnlValid inp) {i : Nat} (hi : i < inp.N) :
    inp.sumFE[i]? = some (inp.sfe i) :=
  getElem?_eq_some_getD _ _ _ (by rw [hv.shape.1]; exact hi)

theorem foldl_range_inv {σ : Type} (f : σ → Nat → σ) (P : Nat → σ → Prop) (n : Nat) (s : σ)
    (h0 : P 0 s) (hstep : ∀ k t, k < n → P k t → P (k + 1) (f t k)) :
    P n ((List.range n).foldl f s) := by
  induction n with
  | zero => simpa using h0
  | succ n ih =>
    rw [List.range_succ, List.foldl_append]
    simp only [List.foldl_cons, List.foldl_nil]
    exact hstep n _ (by omega) (ih (fun k t hk hp => hstep k t (by omega) hp))

theorem foldlM_range_inv {σ : Type} (f : σ → Nat → Option σ) (P : Nat → σ → Prop) (n : Nat)
    (s : σ) (h0 : P 0 s)
    (hstep : ∀ k t, k < n → P k t → ∃ t', f t k = some t' ∧ P (k + 1) t') :
    ∃ s', (List.range n).foldlM f s = some s' ∧ P n s' := by
  induction n with
  | zero => exact ⟨s, by simp, h0⟩
  | succ n ih =>
    obtain ⟨t, ht, hP⟩ := ih (fun k t hk hp => hstep k t (by omega) hp)
    obtain ⟨t', ht', hP'⟩ := hstep n t (by omega) hP
    refine ⟨t', ?_, hP'⟩
    rw [List.range_succ, List.foldlM_append, ht]
    simp [ht']

theorem cntLt_zero (inp : GnlInput) (q : Nat) : cntLt inp q 0 = 0 := by
  simp [cntLt]

theorem cntLt_succ (inp : GnlInput) (q k : Nat) :
    cntLt inp q (k + 1) = cntLt inp q k + cntEq inp q k := by
  unfold cntLt cntEq
  induction List.range inp.N with
  | nil => simp
  | cons x xs ih =>
    simp only [List.countP_cons, ih]
    by_cases h1 : inp.dum x q < k
    · have h2 : inp.dum x q < k + 1 := by omega
      have h3 : inp.dum x q ≠ k := by omega
      simp [h1, h2, h3]; omega
    · by_cases h3 : inp.dum x q = k
      · have h2 : inp.dum x q < k + 1 := by omega
        simp [h1, h2, h3]; omega
      · have h2 : ¬ inp.dum x q < k + 1 := by omega
        simp [h1, h2, h3]

theorem cntLt_mono (inp : GnlInput) (q : Nat) {k k2 : Nat} (h : k ≤ k2) :
    cntLt inp q k ≤ cntLt inp q k2 := by
  induction h with
  | refl => exact le_refl _
  | step _ ih => rw [cntLt_succ]; omega

theorem cntLt_le (inp : GnlInput) (q k : Nat) : cntLt inp q k ≤ inp.N := by
  unfold cntLt
  have : List.countP (fun i => decide (inp.dum i q < k)) (List.range inp.N) ≤
      (List.range inp.N).length := List.countP_le_length _
  simpa using this

theorem tableCluster_eq {inp : GnlInput} (hv : GnlValid inp) {q : Nat} (hq : q < inp.Q) :
    tableCluster inp q = some (fun k => cntEq inp q k) := by
  unfold tableCluster
  obtain ⟨t, ht, hP⟩ := foldlM_option_inv (table_step inp q)
    (fun pre t => t = fun k => pre.countP (fun i => decide (inp.dum i q = k)))
    (List.range inp.N) (fun _ => 0) (by simp)
    (by
      intro pre x suf t hl hP
      have hx : x < inp.N := by
        have : x ∈ List.range inp.N := by rw [hl]; simp
        simpa using this
      have hr := hv.range x hx q hq
      unfold GnlInput.size at hr
      unfold table_step
      simp only [hv.matGet_dum hx hq, hr, if_true]
      refine ⟨_, rfl, ?_⟩
      funext k
      subst hP
      simp only [setAt, List.countP_append, List.countP_cons, List.countP_nil]
      by_cases hk : k = inp.dum x q
      · subst hk; simp
      · have : ¬ inp.dum x q = k := fun h => hk h.symm
        simp [hk, this])
  rw [ht, hP]
  rfl

theorem pindex_cluster_succ (sizes : List Nat) (q : Nat) (hq : q < sizes.length) :
    pindex_cluster sizes (q + 1) = pindex_cluster sizes q + sizes.getD q 0 := by
  unfold pindex_cluster
  rw [List.take_succ, List.sum_append, getElem?_eq_some_getD sizes q 0 hq]
  simp

theorem pindex_cluster_mono (sizes : List Nat) {q q2 : Nat} (h : q ≤ q2) :
    pindex_cluster sizes q ≤ pindex_cluster sizes q2 := by
  unfold pindex_cluster
  have : List.take q sizes = List.take q (List.take q2 sizes) := by
    rw [List.take_take, Nat.min_eq_left h]
  rw [this]
  have h2 := List.take_append_drop q (List.take q2 sizes)
  conv_rhs => rw [← h2]
  rw [List.sum_append]
  omega

/-- Two categories in range are stored at different positions of the stacked arrays. -/
theorem pindex_cluster_inj {inp : GnlInput} (hv : GnlValid inp) {q k q2 k2 : Nat}
    (hq : q < inp.Q) (hk : k < inp.size q) (hq2 : q2 < inp.Q) (hk2 : k2 < inp.size q2)
    (h : pindex_cluster inp.cluster_sizes q + k = pindex_cluster inp.cluster_sizes q2 + k2) :
    q = q2 ∧ k = k2 := by
  have hlen := hv.shape.2.1
  unfold GnlInput.size at hk hk2
  have key : ∀ a b ka, a < b → a < inp.Q → ka < inp.cluster_sizes.getD a 0 →
      pindex_cluster inp.cluster_sizes a + ka < pindex_cluster inp.cluster_sizes b := by
    intro a b ka hab ha hka
    have h1 := pindex_cluster_succ inp.cluster_sizes a (by omega)
    have h2 := pindex_cluster_mono inp.cluster_sizes (show a + 1 ≤ b by omega)
    omega
  rcases Nat.lt_trichotomy q q2 with hlt | heq | hgt
  · have := key q q2 k hlt hq hk; omega
  · subst heq; exact ⟨rfl, by omega⟩
  · have := key q2 q k2 hgt hq2 hk2; omega

theorem index_inner (inp : GnlInput) (q : Nat) (ix0 : GnlIndex) (n : Nat) :
    (∀ k < n,
      ((List.range n).foldl (index_step inp q (fun k => cntEq inp q k)) ix0).start_cluster
          (pindex_cluster inp.cluster_sizes q + k) = cntLt inp q k ∧
      ((List.range n).foldl (index_step inp q (fun k => cntEq inp q k)) ix0).end_cluster
          (pindex_cluster inp.cluster_sizes q + k) = cntLt inp q k + cntEq inp q k) ∧
    (∀ idx < pindex_cluster inp.cluster_sizes q,
      ((List.range n).foldl (index_step inp q (fun k => cntEq inp q k)) ix0).start_cluster idx =
          ix0.start_cluster idx ∧
      ((List.range n).foldl (index_step inp q (fun k => cntEq inp q k)) ix0).end_cluster idx =
          ix0.end_cluster idx) := by
  refine foldl_range_inv (index_step inp q (fun k => cntEq inp q k))
    (fun m ix => (∀ k < m,
        ix.start_cluster (pindex_cluster inp.cluster_sizes q + k) = cntLt inp q k ∧
        ix.end_cluster (pindex_cluster inp.cluster_sizes q + k) = cntLt inp q k + cntEq inp q k) ∧
      (∀ idx < pindex_cluster inp.cluster_sizes q,
        ix.start_cluster idx = ix0.start_cluster idx ∧ ix.end_cluster idx = ix0.end_cluster idx))
    n ix0 ⟨by intro k hk; omega, fun _ _ => ⟨rfl, rfl⟩⟩ ?_
  intro k t _ ⟨h1, h2⟩
  constructor
  · intro k' hk'
    by_cases hkk : k' = k
    · subst hkk
      unfold index_step
      by_cases hz : k' = 0
      · subst hz
        simp [cntLt_zero]
      · simp only [hz, if_false, setAt_same]
        have := h1 (k' - 1) (by omega)
        have e : pindex_cluster inp.cluster_sizes q + k' - 1 =
            pindex_cluster inp.cluster_sizes q + (k' - 1) := by omega
        rw [e, this.2]
        have := cntLt_succ inp q (k' - 1)
        have e2 : k' - 1 + 1 = k' := by omega
        rw [e2] at this
        omega
    · have hlt : k' < k := by omega
      have hne : pindex_cluster inp.cluster_sizes q + k' ≠
          pindex_cluster inp.cluster_sizes q + k := by omega
      unfold index_step
      split <;> simp only [setAt_ne _ _ _ _ hne] <;> exact h1 k' hlt
  · intro idx hidx
    have hne : idx ≠ pindex_cluster inp.cluster_sizes q + k := by omega
    unfold index_step
    split <;> simp only [setAt_ne _ _ _ _ hne] <;> exact h2 idx hidx

/-- On a valid input the construction of `start_cluster` and `end_cluster` succeeds and
the two arrays bound the buckets of the categories. -/
theorem gnl_index_ok {inp : GnlInput} (hv : GnlValid inp) :
    ∃ ix, gnl_index inp = some ix ∧ GnlIndexOk inp ix := by
  unfold gnl_index
  have hlen := hv.shape.2.1
  simp only [show ¬ inp.cluster_sizes.length < inp.Q by omega, if_false]
  obtain ⟨ix, hix, hP⟩ := foldlM_range_inv (index_dim inp)
    (fun m ix => ∀ q < m, ∀ k < inp.size q,
      ix.start_cluster (pindex_cluster inp.cluster_sizes q + k) = cntLt inp q k ∧
      ix.end_cluster (pindex_cluster inp.cluster_sizes q + k) = cntLt inp q k + cntEq inp q k)
    inp.Q { start_cluster := fun _ => 0, end_cluster := fun _ => 0 }
    (by intro q hq; omega)
    (by
      intro q t hq hP
      unfold index_dim
      simp only [tableCluster_eq hv hq]
      refine ⟨_, rfl, ?_⟩
      obtain ⟨g1, g2⟩ := index_inner inp q t (inp.cluster_sizes.getD q 0)
      intro q' hq' k hk
      by_cases hqq : q' = q
      · subst hqq
        exact g1 k hk
      · have hlt : q' < q := by omega
        have h1 := pindex_cluster_succ inp.cluster_sizes q' (by omega)
        have h2 := pindex_cluster_mono inp.cluster_sizes (show q' + 1 ≤ q by omega)
        unfold GnlInput.size at hk
        have := g2 (pindex_cluster inp.cluster_sizes q' + k) (by omega)
        rw [this.1, this.2]
        exact hP q' hlt k hk)
  exact ⟨ix, hix, hP⟩

theorem sorted_filter_split {α : Type} (f : α → Nat) (k : Nat) (l : List α)
    (h : l.Pairwise (fun x y => f x ≤ f y)) :
    l.filter (fun x => decide (f x < k)) ++ l.filter (fun x => !decide (f x < k)) = l := by
  induction l with
  | nil => rfl
  | cons x xs ih =>
    rw [List.pairwise_cons] at h
    by_cases hx : f x < k
    · simp only [List.filter_cons, hx, decide_True, Bool.not_true, if_true]
      simp only [Bool.false_eq_true, if_false, List.cons_append]
      rw [ih h.2]
    · have h1 : xs.filter (fun x => decide (f x < k)) = [] := by
        rw [List.filter_eq_nil_iff]
        intro y hy
        have := h.1 y hy
        simp only [decide_eq_true_eq]
        omega
      have h2 : xs.filter (fun x => !decide (f x < k)) = xs := by
        rw [List.filter_eq_self]
        intro y hy
        have := h.1 y hy
        simp only [Bool.not_eq_true', decide_eq_false_iff_not]
        omega
      simp only [List.filter_cons, hx, decide_False, Bool.not_false, if_true, h1, h2]
      simp

/-- In a list sorted by key, the elements with key `k` are at the positions that follow
the elements with a smaller key. -/
theorem sorted_bucket {α : Type} (f : α → Nat) (k : Nat) (l : List α)
    (h : l.Pairwise (fun x y => f x ≤ f y)) :
    (l.drop (l.countP (fun x => decide (f x < k)))).take (l.countP (fun x => decide (f x = k))) =
      l.filter (fun x => decide (f x = k)) := by
  have h1 := sorted_filter_split f k l h
  have hdrop : l.drop (l.countP (fun x => decide (f x < k))) =
      l.filter (fun x => !decide (f x < k)) := by
    conv_lhs => rw [← h1]
    exact List.drop_left' (by rw [List.countP_eq_length_filter, h1])
  have hB : (l.filter (fun x => !decide (f x < k))).Pairwise (fun x y => f x ≤ f y) :=
    h.sublist (List.filter_sublist _)
  have h2 := sorted_filter_split f (k + 1) _ hB
  have hf : (l.filter (fun x => !decide (f x < k))).filter (fun x => decide (f x < k + 1)) =
      l.filter (fun x => decide (f x = k)) := by
    rw [List.filter_filter]
    apply List.filter_congr
    intro x _
    by_cases hx : f x = k
    · simp [hx]
    · by_cases hx2 : f x < k
      · simp [hx, hx2]
      · have : ¬ f x < k + 1 := by omega
        simp [hx, hx2, this]
  rw [hdrop]
  conv_lhs => rw [← h2]
  rw [hf]
  exact List.take_left' (by rw [List.countP_eq_length_filter])

theorem take_drop_range (a n N : Nat) (h : a + n ≤ N) :
    List.take n (List.drop a (List.range N)) = List.range' a n := by
  have e : List.range N =
      List.range' 0 a ++ (List.range' a n ++ List.range' (a + n) (N - a - n)) := by
    rw [List.range_eq_range']
    have h1 := List.range'_append_1 a n (N - a - n)
    have h2 := List.range'_append_1 0 a (N - a - n + n)
    simp only [Nat.zero_add] at h2
    rw [h1, h2]
    congr 1
    omega
  rw [e, List.drop_left' (by simp), List.take_left' (by simp)]

theorem countP_col {inp : GnlInput} (hv : GnlValid inp) {q : Nat} (hq : q < inp.Q)
    (p : Nat → Bool) : (inp.col q).countP p = (List.range inp.N).countP p :=
  (hv.ordered q hq).1.countP_eq p

theorem bucketObs_eq {inp : GnlInput} (hv : GnlValid inp) {q : Nat} (hq : q < inp.Q) (k : Nat) :
    bucketObs inp q k = (inp.col q).filter (fun o => decide (inp.dum o q = k)) := by
  have h := sorted_bucket (fun o => inp.dum o q) k (inp.col q) (hv.ordered q hq).2
  rw [countP_col hv hq, countP_col hv hq] at h
  rw [← h]
  unfold bucketObs GnlInput.col
  have hle : cntLt inp q k + cntEq inp q k ≤ inp.N := by
    rw [← cntLt_succ]; exact cntLt_le _ _ _
  change _ = List.take (cntEq inp q k) (List.drop (cntLt inp q k) _)
  rw [← List.map_drop, ← List.map_take]
  rw [take_drop_range _ _ _ hle]

theorem mem_bucketObs {inp : GnlInput} (hv : GnlValid inp) {q : Nat} (hq : q < inp.Q)
    (k o : Nat) : o ∈ bucketObs inp q k ↔ o < inp.N ∧ inp.dum o q = k := by
  rw [bucketObs_eq hv hq, List.mem_filter, (hv.ordered q hq).1.mem_iff]
  simp

theorem nodup_bucketObs {inp : GnlInput} (hv : GnlValid inp) {q : Nat} (hq : q < inp.Q)
    (k : Nat) : (bucketObs inp q k).Nodup := by
  rw [bucketObs_eq hv hq]
  apply List.Nodup.filter
  exact (hv.ordered q hq).1.nodup_iff.mpr (List.nodup_range inp.N)

/-- Effect of the loop that marks the observations of category `k` of dimension `q`. -/
theorem mark_cluster_spec {inp : GnlInput} (hv : GnlValid inp) {ix : GnlIndex}
    (hix : GnlIndexOk inp ix) {q k : Nat} (hq : q < inp.Q) (hk : k < inp.size q)
    (s : GnlState) :
    ∃ t, mark_cluster inp ix q (pindex_cluster inp.cluster_sizes q + k) s = some t ∧
      (∀ o q', t.mat_done o q' =
        if q' = q ∧ o < inp.N ∧ inp.dum o q = k then 1 else s.mat_done o q') ∧
      (∀ o, t.rowsums o = s.rowsums o + if o < inp.N ∧ inp.dum o q = k then 1 else 0) ∧
      t.cluster_values = s.cluster_values ∧ t.nb_ref = s.nb_ref ∧ t.id2do = s.id2do ∧
      t.id2do_next = s.id2do_next := by
  unfold mark_cluster
  obtain ⟨h1, h2⟩ := hix q hq k hk
  rw [h1, h2, Nat.add_sub_cancel_left]
  have hnd := nodup_bucketObs hv hq k
  have hle : cntLt inp q k + cntEq inp q k ≤ inp.N := by
    rw [← cntLt_succ]; exact cntLt_le _ _ _
  obtain ⟨t, ht, hP⟩ := foldlM_option_inv (mark_done inp q)
    (fun pre t =>
      (∀ o q', t.mat_done o q' =
        if q' = q ∧ o ∈ pre.map (fun i => inp.obs i q) then 1 else s.mat_done o q') ∧
      (∀ o, t.rowsums o = s.rowsums o + if o ∈ pre.map (fun i => inp.obs i q) then 1 else 0) ∧
      t.cluster_values = s.cluster_values ∧ t.nb_ref = s.nb_ref ∧ t.id2do = s.id2do ∧
      t.id2do_next = s.id2do_next)
    (List.range' (cntLt inp q k) (cntEq inp q k)) s
    ⟨by simp, by simp, rfl, rfl, rfl, rfl⟩
    (by
      intro pre x suf t hl ⟨g1, g2, g3, g4, g5, g6⟩
      have hx : x ∈ List.range' (cntLt inp q k) (cntEq inp q k) := by rw [hl]; simp
      rw [List.mem_range'_1] at hx
      have hxN : x < inp.N := by omega
      have hmem : inp.obs x q ∈ bucketObs inp q k := by
        unfold bucketObs; rw [hl]; simp
      have hoN := ((mem_bucketObs hv hq k _).1 hmem).1
      have hnot : inp.obs x q ∉ pre.map (fun i => inp.obs i q) := by
        unfold bucketObs at hnd
        rw [hl, List.map_append, List.map_cons] at hnd
        have := (List.nodup_append.1 hnd).2.2
        intro hin
        exact this hin (List.mem_cons_self _ _)
      unfold mark_done
      simp only [hv.matGet_obs hxN hq, hoN, if_true]
      refine ⟨_, rfl, ?_, ?_, g3, g4, g5, g6⟩
      · intro o q'
        show setAt2 t.mat_done (inp.obs x q) q 1 o q' = _
        unfold setAt2
        rw [g1 o q']
        by_cases ho : o = inp.obs x q
        · by_cases hq' : q' = q
          · simp [ho, hq']
          · simp [ho, hq']
        · simp [ho]
      · intro o
        show setAt t.rowsums (inp.obs x q) (t.rowsums (inp.obs x q) + 1) o = _
        by_cases ho : o = inp.obs x q
        · subst ho
          rw [setAt_same, g2]
          simp [hnot]
        · rw [setAt_ne _ _ _ _ ho, g2]
          simp [ho])
  obtain ⟨g1, g2, g3, g4, g5, g6⟩ := hP
  refine ⟨t, ht, ?_, ?_, g3, g4, g5, g6⟩
  · intro o q'
    rw [g1 o q']
    have := mem_bucketObs hv hq k o
    unfold bucketObs at this
    simp only [this]
  · intro o
    rw [g2 o]
    have := mem_bucketObs hv hq k o
    unfold bucketObs at this
    simp only [this]

theorem sum_map_setAt {M : Type} [AddCommMonoid M] (f : Nat → M) (n q : Nat) (v : M)
    (hq : q < n) :
    ((List.range n).map (setAt f q v)).sum + f q = ((List.range n).map f).sum + v := by
  induction n with
  | zero => omega
  | succ n ih =>
    rw [List.range_succ, List.map_append, List.map_append, List.sum_append, List.sum_append]
    simp only [List.map_cons, List.map_nil, List.sum_cons, List.sum_nil, add_zero]
    by_cases hqn : q = n
    · subst hqn
      have : (List.range q).map (setAt f q v) = (List.range q).map f := by
        apply List.map_congr_left
        intro a ha
        rw [List.mem_range] at ha
        exact setAt_ne _ _ _ _ (by omega)
      rw [this, setAt_same]
      exact add_right_comm _ _ _
    · have hne : n ≠ q := fun h => hqn h.symm
      rw [setAt_ne _ _ _ _ hne]
      have := ih (by omega)
      calc (List.map (setAt f q v) (List.range n)).sum + f n + f q
          = ((List.map (setAt f q v) (List.range n)).sum + f q) + f n := add_right_comm _ _ _
        _ = ((List.map f (List.range n)).sum + v) + f n := by rw [this]
        _ = (List.map f (List.range n)).sum + f n + v := add_right_comm _ _ _

theorem sum_bits_le (f : Nat → Nat) (n : Nat) (h : ∀ q < n, f q = 0 ∨ f q = 1) :
    ((List.range n).map f).sum ≤ n := by
  induction n with
  | zero => simp
  | succ n ih =>
    rw [List.range_succ, List.map_append, List.sum_append]
    simp only [List.map_cons, List.map_nil, List.sum_cons, List.sum_nil, add_zero]
    have := ih (fun q hq => h q (by omega))
    rcases h n (by omega) with h1 | h1 <;> omega

theorem sum_bits_eq (f : Nat → Nat) (n : Nat) (h : ∀ q < n, f q = 0 ∨ f q = 1)
    (hs : ((List.range n).map f).sum = n) : ∀ q < n, f q = 1 := by
  induction n with
  | zero => intro q hq; omega
  | succ n ih =>
    rw [List.range_succ, List.map_append, List.sum_append] at hs
    simp only [List.map_cons, List.map_nil, List.sum_cons, List.sum_nil, add_zero] at hs
    have hle := sum_bits_le f n (fun q hq => h q (by omega))
    have hn : f n = 1 := by rcases h n (by omega) with h1 | h1 <;> omega
    intro q hq
    by_cases hqn : q = n
    · subst hqn; exact hn
    · exact ih (fun q hq => h q (by omega)) (by omega) q (by omega)

theorem sum_bits_ones (f : Nat → Nat) (n : Nat) (h : ∀ q < n, f q = 1) :
    ((List.range n).map f).sum = n := by
  induction n with
  | zero => simp
  | succ n ih =>
    rw [List.range_succ, List.map_append, List.sum_append]
    simp only [List.map_cons, List.map_nil, List.sum_cons, List.sum_nil, add_zero]
    rw [ih (fun q hq => h q (by omega)), h n (by omega)]

/-- When all entries but one of a row of flags are set, the others are set. -/
theorem sum_bits_pred (f : Nat → Nat) (n q0 : Nat) (h : ∀ q < n, f q = 0 ∨ f q = 1)
    (hq0 : q0 < n) (hz : f q0 = 0) (hs : ((List.range n).map f).sum + 1 = n) :
    ∀ q < n, q ≠ q0 → f q = 1 := by
  have h1 := sum_map_setAt f n q0 1 hq0
  rw [hz] at h1
  have hb : ∀ q < n, setAt f q0 1 q = 0 ∨ setAt f q0 1 q = 1 := by
    intro q hq
    by_cases hqq : q = q0
    · subst hqq; right; simp
    · rw [setAt_ne _ _ _ _ hqq]; exact h q hq
  have := sum_bits_eq _ n hb (by omega)
  intro q hq hne
  have h2 := this q hq
  rwa [setAt_ne _ _ _ _ hne] at h2

theorem find_range_some (p : Nat → Bool) (n r : Nat) (h : (List.range n).find? p = some r) :
    r < n ∧ p r = true ∧ ∀ k < r, p k = false := by
  rw [List.range_eq_range'] at h
  obtain ⟨_, h2, h3, h4⟩ := find_range'_some p n 0 r h
  exact ⟨by omega, h3, fun k hk => h4 k (by omega) hk⟩

theorem find_range_none (p : Nat → Bool) (n : Nat) (h : (List.range n).find? p = none) :
    ∀ k < n, p k = false := by
  rw [List.range_eq_range'] at h
  intro k hk
  exact find_range'_none p n 0 h k (by omega) (by omega)

/-- The sum computed by `other_value`. -/
theorem other_value_eq {inp : GnlInput} (hv : GnlValid inp) (cv : Nat → ℚ) {o : Nat}
    (ho : o < inp.N) :
    other_value inp cv o = some (((List.range inp.Q).map
      (fun l => cv (pindex_cluster inp.cluster_sizes l + inp.dum o l))).sum) := by
  unfold other_value
  obtain ⟨t, ht, hP⟩ := foldlM_range_inv (other_value_step inp cv o)
    (fun m acc => acc = ((List.range m).map
      (fun l => cv (pindex_cluster inp.cluster_sizes l + inp.dum o l))).sum)
    inp.Q 0 (by simp)
    (by
      intro k t hk hP
      have hr := hv.range o ho k hk
      unfold GnlInput.size at hr
      unfold other_value_step
      simp only [hv.matGet_dum ho hk, hr, if_true]
      refine ⟨_, rfl, ?_⟩
      rw [List.range_succ, List.map_append, List.sum_append, hP]
      simp)
  rw [ht, hP]

theorem GnlInv.rows_le {inp : GnlInput} {c : Nat → Nat → ℚ} {V : Nat × Nat → Prop}
    {s : GnlState} (h : GnlInv inp c V s) {o : Nat} (ho : o < inp.N) :
    s.rowsums o ≤ inp.Q := by
  rw [h.rows o ho]
  exact sum_bits_le _ _ (h.bit o ho)

theorem GnlInv.done_of_full {inp : GnlInput} {c : Nat → Nat → ℚ} {V : Nat × Nat → Prop}
    {s : GnlState} (h : GnlInv inp c V s) {o : Nat} (ho : o < inp.N)
    (hf : s.rowsums o = inp.Q) : ∀ q < inp.Q, s.mat_done o q = 1 :=
  sum_bits_eq _ _ (h.bit o ho) (by rw [← h.rows o ho]; exact hf)

/-- Marking an undone category keeps the bookkeeping part of the invariant. -/
theorem GnlInv.mark {inp : GnlInput} {c : Nat → Nat → ℚ} {V : Nat × Nat → Prop}
    (hv : GnlValid inp) {s t : GnlState} (h : GnlInv inp c V s) {o q : Nat} (ho : o < inp.N)
    (hq : q < inp.Q) (hz : s.mat_done o q = 0)
    (hmd : ∀ o2 q2, t.mat_done o2 q2 =
      if q2 = q ∧ o2 < inp.N ∧ inp.dum o2 q = inp.dum o q then 1 else s.mat_done o2 q2)
    (hrs : ∀ o2, t.rowsums o2 =
      s.rowsums o2 + if o2 < inp.N ∧ inp.dum o2 q = inp.dum o q then 1 else 0)
    (hcv : ∀ idx, idx ≠ pindex_cluster inp.cluster_sizes q + inp.dum o q →
      t.cluster_values idx = s.cluster_values idx)
    (hnew : GnlConsistent inp c →
      t.cluster_values (pindex_cluster inp.cluster_sizes q + inp.dum o q) = c q (inp.dum o q))
    (hV : V (q, inp.dum o q)) : GnlInv inp c V t := by
  have hidx : ∀ o2 < inp.N, ∀ q2 < inp.Q, ¬ (q2 = q ∧ inp.dum o2 q = inp.dum o q) →
      pindex_cluster inp.cluster_sizes q2 + inp.dum o2 q2 ≠
        pindex_cluster inp.cluster_sizes q + inp.dum o q := by
    intro o2 ho2 q2 hq2 hne heq
    obtain ⟨e1, e2⟩ := pindex_cluster_inj hv hq2 (hv.range o2 ho2 q2 hq2) hq
      (hv.range o ho q hq) heq
    subst e1
    exact hne ⟨rfl, e2⟩
  constructor
  · intro o2 ho2 q2 hq2
    rw [hmd]
    split
    · right; rfl
    · exact h.bit o2 ho2 q2 hq2
  · intro o2 ho2 o3 ho3 q2 hq2 hd
    rw [hmd, hmd]
    by_cases hqq : q2 = q
    · subst hqq
      simp only [ho2, ho3, true_and, hd]
      split
      · rfl
      · rw [h.uniform o2 ho2 o3 ho3 q2 hq2 hd]
    · simp only [hqq, false_and, if_false]
      exact h.uniform o2 ho2 o3 ho3 q2 hq2 hd
  · intro o2 ho2
    rw [hrs, h.rows o2 ho2]
    by_cases hd : inp.dum o2 q = inp.dum o q
    · have hz2 : s.mat_done o2 q = 0 := by
        rw [h.uniform o2 ho2 o ho q hq hd]; exact hz
      have e : (List.range inp.Q).map (t.mat_done o2) =
          (List.range inp.Q).map (setAt (s.mat_done o2) q 1) := by
        apply List.map_congr_left
        intro q2 _
        rw [hmd]
        by_cases hqq : q2 = q
        · subst hqq; simp [ho2, hd]
        · rw [setAt_ne _ _ _ _ hqq]; simp [hqq]
      have := sum_map_setAt (s.mat_done o2) inp.Q q 1 hq
      rw [hz2] at this
      simp only [ho2, hd, and_self, if_true, e]
      omega
    · have e : (List.range inp.Q).map (t.mat_done o2) =
          (List.range inp.Q).map (s.mat_done o2) := by
        apply List.map_congr_left
        intro q2 _
        rw [hmd]
        simp [hd]
      simp [hd, e]
  · intro o2 ho2 q2 hq2 hz2
    rw [hmd] at hz2
    by_cases hc : q2 = q ∧ inp.dum o2 q = inp.dum o q
    · simp [hc.1, hc.2, ho2] at hz2
    · have : ¬ (q2 = q ∧ o2 < inp.N ∧ inp.dum o2 q = inp.dum o q) := fun hh => hc ⟨hh.1, hh.2.2⟩
      simp only [this, if_false] at hz2
      rw [hcv _ (hidx o2 ho2 q2 hq2 hc)]
      exact h.zero o2 ho2 q2 hq2 hz2
  · intro hcons o2 ho2 q2 hq2 h1
    rw [hmd] at h1
    by_cases hc : q2 = q ∧ inp.dum o2 q = inp.dum o q
    · obtain ⟨e1, e2⟩ := hc
      subst e1
      rw [e2]
      exact hnew hcons
    · have : ¬ (q2 = q ∧ o2 < inp.N ∧ inp.dum o2 q = inp.dum o q) := fun hh => hc ⟨hh.1, hh.2.2⟩
      simp only [this, if_false] at h1
      rw [hcv _ (hidx o2 ho2 q2 hq2 hc)]
      exact h.val hcons o2 ho2 q2 hq2 h1
  · intro o2 ho2 q2 hq2 h1
    rw [hmd] at h1
    by_cases hc : q2 = q ∧ inp.dum o2 q = inp.dum o q
    · obtain ⟨e1, e2⟩ := hc
      subst e1
      rw [e2]
      exact hV
    · have : ¬ (q2 = q ∧ o2 < inp.N ∧ inp.dum o2 q = inp.dum o q) := fun hh => hc ⟨hh.1, hh.2.2⟩
      simp only [this, if_false] at h1
      exact h.good o2 ho2 q2 hq2 h1
  · intro idx hidx2
    rw [hcv idx (hidx2 o ho q hq)]
    exact h.untouched idx hidx2

/-- Effect of the body of the scan of the worklist on the observation `o`: either `o` is
kept for the next scan and nothing changes, or `o` is fully resolved afterwards. -/
theorem scan_obs_spec {inp : GnlInput} {c : Nat → Nat → ℚ} {V : Nat × Nat → Prop}
    (hv : GnlValid inp) {ix : GnlIndex} (hix : GnlIndexOk inp ix) (hQ : 2 ≤ inp.Q)
    (hV : ∀ x y, V x → GnlAdj inp x y → V y) (s : GnlState) (h : GnlInv inp c V s)
    (o : Nat) (ho : o < inp.N) :
    ∃ t, scan_obs inp ix s o = some t ∧ GnlInv inp c V t ∧ t.id2do = s.id2do ∧
      t.nb_ref = s.nb_ref ∧ (∀ o2, s.rowsums o2 ≤ t.rowsums o2) ∧
      (∀ o2 q2, s.mat_done o2 q2 = 1 → t.mat_done o2 q2 = 1) ∧
      ((s.rowsums o + 1 < inp.Q ∧ t.id2do_next = s.id2do_next ++ [o] ∧
          t.rowsums = s.rowsums ∧ t.mat_done = s.mat_done ∧
          t.cluster_values = s.cluster_values) ∨
        (inp.Q ≤ s.rowsums o + 1 ∧ t.id2do_next = s.id2do_next ∧ t.rowsums o = inp.Q)) := by
  have hle := h.rows_le ho
  unfold scan_obs
  by_cases c1 : ((s.rowsums o : Nat) : ℤ) < (inp.Q : ℤ) - 1
  · simp only [c1, if_true]
    exact ⟨_, rfl, ⟨h.bit, h.uniform, h.rows, h.zero, h.val, h.good, h.untouched⟩, rfl, rfl,
      fun _ => le_refl _, fun _ _ hh => hh, Or.inl ⟨by omega, rfl, rfl, rfl, rfl⟩⟩
  · simp only [c1, if_false]
    by_cases c2 : ((s.rowsums o : Nat) : ℤ) = (inp.Q : ℤ) - 1
    · simp only [c2, if_true]
      have hrs : s.rowsums o + 1 = inp.Q := by omega
      have hsum : ((List.range inp.Q).map (s.mat_done o)).sum + 1 = inp.Q := by
        rw [← h.rows o ho]; exact hrs
      cases hfind : (List.range inp.Q).find? (fun q => s.mat_done o q == 0) with
      | none =>
        exfalso
        have hall : ∀ q < inp.Q, s.mat_done o q = 1 := by
          intro q hq
          have := find_range_none _ _ hfind q hq
          rcases h.bit o ho q hq with h0 | h1
          · simp [h0] at this
          · exact h1
        have := sum_bits_ones _ _ hall
        omega
      | some q0 =>
        obtain ⟨hq0, hp, _⟩ := find_range_some _ _ _ hfind
        have hz : s.mat_done o q0 = 0 := by simpa using hp
        have hones := sum_bits_pred _ _ q0 (h.bit o ho) hq0 hz hsum
        have hr := hv.range o ho q0 hq0
        have hr' : inp.dum o q0 < inp.cluster_sizes.getD q0 0 := hr
        simp only [hv.matGet_dum ho hq0, hr', if_true, other_value_eq hv _ ho,
          hv.sumFE_get ho]
        obtain ⟨t, ht, g1, g2, g3, g4, g5, g6⟩ := mark_cluster_spec hv hix hq0 hr
          { s with cluster_values := (setAt s.cluster_values
              (pindex_cluster inp.cluster_sizes q0 + inp.dum o q0)
              (inp.sfe o - ((List.range inp.Q).map
                (fun l => s.cluster_values
                  (pindex_cluster inp.cluster_sizes l + inp.dum o l))).sum)) }
        refine ⟨t, ht, ?_, g5, g4, ?_, ?_, Or.inr ⟨by omega, g6, ?_⟩⟩
        · refine h.mark hv ho hq0 hz g1 g2 ?_ ?_ ?_
          · intro idx hidx
            rw [g3]
            exact setAt_ne _ _ _ _ hidx
          · intro hcons
            rw [g3]
            simp only [setAt_same]
            have e : (List.range inp.Q).map (fun l => s.cluster_values
                (pindex_cluster inp.cluster_sizes l + inp.dum o l)) =
                (List.range inp.Q).map (setAt (fun l => c l (inp.dum o l)) q0 0) := by
              apply List.map_congr_left
              intro l hl
              rw [List.mem_range] at hl
              by_cases hlq : l = q0
              · subst hlq
                rw [setAt_same]
                exact h.zero o ho l hl hz
              · rw [setAt_ne _ _ _ _ hlq]
                exact h.val hcons o ho l hl (hones l hl hlq)
            have hs := sum_map_setAt (fun l => c l (inp.dum o l)) inp.Q q0 0 hq0
            have hc := hcons o ho
            unfold GnlInput.rowSum at hc
            rw [e, hc]
            linarith
          · obtain ⟨q1, hq1, hne⟩ : ∃ q1 < inp.Q, q1 ≠ q0 := by
              by_cases h0 : q0 = 0
              · exact ⟨1, by omega, by omega⟩
              · exact ⟨0, by omega, fun hh => h0 hh.symm⟩
            have hg := h.good o ho q1 hq1 (hones q1 hq1 hne)
            exact hV _ _ hg ⟨o, ho, hq1, hq0, rfl, rfl⟩
        · intro o2
          rw [g2]
          exact Nat.le_add_right _ _
        · intro o2 q2 h1
          rw [g1]
          split
          · rfl
          · exact h1
        · rw [g2]
          simp only [ho, true_and, if_true]
          exact hrs
    · simp only [c2, if_false]
      exact ⟨s, rfl, h, rfl, rfl, fun _ => le_refl _, fun _ _ hh => hh,
        Or.inr ⟨by omega, rfl, by omega⟩⟩

theorem GnlGrow.grow_refl (s : GnlState) : GnlGrow s s :=
  ⟨fun _ => le_refl _, fun _ _ h => h, rfl⟩

theorem GnlGrow.grow_trans {s t u : GnlState} (h1 : GnlGrow s t) (h2 : GnlGrow t u) : GnlGrow s u :=
  ⟨fun o => le_trans (h1.1 o) (h2.1 o), fun o q h => h2.2.1 o q (h1.2.1 o q h),
    h2.2.2.trans h1.2.2⟩

/-- Effect of one scan of the worklist `W`. -/
theorem scan_spec {inp : GnlInput} {c : Nat → Nat → ℚ} {V : Nat × Nat → Prop}
    (hv : GnlValid inp) {ix : GnlIndex} (hix : GnlIndexOk inp ix) (hQ : 2 ≤ inp.Q)
    (hV : ∀ x y, V x → GnlAdj inp x y → V y) (s : GnlState) (h : GnlInv inp c V s)
    (W : List Nat) (hW : ∀ o ∈ W, o < inp.N) :
    ∃ t, W.foldlM (scan_obs inp ix) { s with id2do := W, id2do_next := [] } = some t ∧
      GnlInv inp c V t ∧ t.id2do = W ∧ GnlGrow s t ∧ t.id2do_next.Sublist W ∧
      (∀ o ∈ t.id2do_next, s.rowsums o + 1 < inp.Q) ∧
      (∀ o ∈ W, o ∈ t.id2do_next ∨ t.rowsums o = inp.Q) ∧
      (t.id2do_next.length = W.length →
        t.rowsums = s.rowsums ∧ t.mat_done = s.mat_done ∧
        t.cluster_values = s.cluster_values) := by
  obtain ⟨t, ht, hP⟩ := foldlM_option_inv (scan_obs inp ix)
    (fun pre t => GnlInv inp c V t ∧ t.id2do = W ∧ GnlGrow s t ∧ t.id2do_next.Sublist pre ∧
      (∀ o ∈ t.id2do_next, s.rowsums o + 1 < inp.Q) ∧
      (∀ o ∈ pre, o ∈ t.id2do_next ∨ t.rowsums o = inp.Q) ∧
      (t.id2do_next.length = pre.length →
        t.rowsums = s.rowsums ∧ t.mat_done = s.mat_done ∧
        t.cluster_values = s.cluster_values))
    W { s with id2do := W, id2do_next := [] }
    ⟨⟨h.bit, h.uniform, h.rows, h.zero, h.val, h.good, h.untouched⟩, rfl, GnlGrow.grow_refl s,
      List.Sublist.refl _, by simp, by simp, fun _ => ⟨rfl, rfl, rfl⟩⟩
    (by
      intro pre x suf u hl ⟨g1, g2, g3, g4, g5, g6, g7⟩
      have hx : x < inp.N := hW x (by rw [hl]; simp)
      obtain ⟨t, ht, k1, k2, k3, k4, k5, k6⟩ := scan_obs_spec hv hix hQ hV u g1 x hx
      have hgrow : GnlGrow s t := g3.grow_trans ⟨k4, k5, k3⟩
      refine ⟨t, ht, k1, k2.trans g2, hgrow, ?_, ?_, ?_, ?_⟩
      · rcases k6 with ⟨_, e, _⟩ | ⟨_, e, _⟩
        · rw [e]; exact List.Sublist.append g4 (List.Sublist.refl _)
        · rw [e]; exact g4.trans (List.sublist_append_left _ _)
      · intro o hmem
        rcases k6 with ⟨hlt, e, _⟩ | ⟨_, e, _⟩
        · rw [e, List.mem_append, List.mem_singleton] at hmem
          rcases hmem with hm | hm
          · exact g5 o hm
          · subst hm
            have := g3.1 o
            omega
        · rw [e] at hmem; exact g5 o hmem
      · intro o hmem
        rw [List.mem_append, List.mem_singleton] at hmem
        rcases hmem with hm | hm
        · rcases g6 o hm with hh | hh
          · left
            rcases k6 with ⟨_, e, _⟩ | ⟨_, e, _⟩
            · rw [e]; simp [hh]
            · rw [e]; exact hh
          · right
            have ho : o < inp.N := hW o (by rw [hl]; simp [hm])
            have := k1.rows_le ho
            have := k4 o
            omega
        · subst hm
          rcases k6 with ⟨_, e, _⟩ | ⟨_, _, e⟩
          · left; rw [e]; simp
          · right; exact e
      · intro hlen
        rcases k6 with ⟨_, e, e1, e2, e3⟩ | ⟨_, e, _⟩
        · rw [e] at hlen
          simp only [List.length_append, List.length_singleton, add_left_inj] at hlen
          obtain ⟨f1, f2, f3⟩ := g7 hlen
          exact ⟨e1.trans f1, e2.trans f2, e3.trans f3⟩
        · rw [e] at hlen
          have := g4.length_le
          simp only [List.length_append, List.length_singleton] at hlen
          omega)
  exact ⟨t, ht, hP⟩

theorem GnlCover.after_scan {inp : GnlInput} {s t : GnlState} {W : List Nat}
    (hc : GnlCover inp s W) (hg : GnlGrow s t)
    (hW : ∀ o ∈ W, o ∈ t.id2do_next ∨ t.rowsums o = inp.Q) :
    GnlCover inp t t.id2do_next := by
  intro o ho hlt
  have := hg.1 o
  rcases hW o (hc o ho (by omega)) with h | h
  · exact h
  · omega

/-- The propagation loop after its first iteration: when the worklist is not longer
than the number of iterations left, the loop ends in a state described by `GnlFix`. -/
theorem propagation_loop_next {inp : GnlInput} {c : Nat → Nat → ℚ} {V : Nat × Nat → Prop}
    (hv : GnlValid inp) {ix : GnlIndex} (hix : GnlIndexOk inp ix) (hQ : 2 ≤ inp.Q)
    (hV : ∀ x y, V x → GnlAdj inp x y → V y) (n : Nat) :
    ∀ (s : GnlState), GnlInv inp c V s → (∀ o ∈ s.id2do_next, o < inp.N) →
      GnlCover inp s s.id2do_next → s.id2do_next.length ≤ n →
      ∃ t, propagation_loop inp ix n false s = some t ∧ GnlInv inp c V t ∧ GnlGrow s t ∧
        GnlFix inp t ∧ t.id2do_next.Sublist s.id2do_next := by
  induction n with
  | zero =>
    intro s h hW hc hlen
    have hnil : s.id2do_next = [] := List.length_eq_zero.mp (by omega)
    refine ⟨s, rfl, h, GnlGrow.grow_refl s, ⟨hc, ?_, ?_⟩, List.Sublist.refl _⟩
    · intro o ho; rw [hnil] at ho; simp at ho
    · intro hne; exact absurd hnil hne
  | succ n ih =>
    intro s h hW hc hlen
    obtain ⟨s2, hs2, k1, k2, k3, k4, k5, k6, k7⟩ :=
      scan_spec hv hix hQ hV s h s.id2do_next hW
    unfold propagation_loop
    simp only [Bool.false_eq_true, if_false, hs2]
    by_cases heq : s2.id2do_next.length = s2.id2do.length
    · simp only [heq, if_true]
      rw [k2] at heq
      have hl := k4.eq_of_length heq
      obtain ⟨e1, _, _⟩ := k7 heq
      refine ⟨s2, rfl, k1, k3, ⟨GnlCover.after_scan hc k3 k6, ?_, ?_⟩, k4⟩
      · intro o ho
        rw [e1]
        exact ⟨hW o (k4.subset ho), k5 o ho⟩
      · intro _; rw [k2, hl]
    · simp only [heq, if_false]
      rw [k2] at heq
      have hlt : s2.id2do_next.length < s.id2do_next.length :=
        lt_of_le_of_ne k4.length_le heq
      obtain ⟨t, ht, g1, g2, g3, g4⟩ := ih s2 k1 (fun o ho => hW o (k4.subset ho))
        (GnlCover.after_scan hc k3 k6) (by omega)
      exact ⟨t, ht, g1, k3.grow_trans g2, g3, g4.trans k4⟩

/-- The propagation loop from its first iteration, which scans `id2do`.  The loop ends
in a state described by `GnlFix` when the worklist is not longer than the cap, and also
when no observation of the worklist is kept by the first scan. -/
theorem propagation_loop_first {inp : GnlInput} {c : Nat → Nat → ℚ} {V : Nat × Nat → Prop}
    (hv : GnlValid inp) {ix : GnlIndex} (hix : GnlIndexOk inp ix) (hQ : 2 ≤ inp.Q)
    (hV : ∀ x y, V x → GnlAdj inp x y → V y) (n : Nat) (s : GnlState)
    (h : GnlInv inp c V s) (hW : ∀ o ∈ s.id2do, o < inp.N) (hc : GnlCover inp s s.id2do)
    (hlen : s.id2do.length ≤ n + 1 ∨ ∀ o ∈ s.id2do, inp.Q ≤ s.rowsums o + 1) :
    ∃ t, propagation_loop inp ix (n + 1) true s = some t ∧ GnlInv inp c V t ∧ GnlGrow s t ∧
      GnlFix inp t ∧ t.id2do_next.Sublist s.id2do ∧
      (∀ o ∈ s.id2do, inp.Q ≤ s.rowsums o + 1 → t.rowsums o = inp.Q) := by
  obtain ⟨s2, hs2, k1, k2, k3, k4, k5, k6, k7⟩ := scan_spec hv hix hQ hV s h s.id2do hW
  have hres : ∀ o ∈ s.id2do, inp.Q ≤ s.rowsums o + 1 → s2.rowsums o = inp.Q := by
    intro o ho hge
    rcases k6 o ho with hh | hh
    · have := k5 o hh; omega
    · exact hh
  unfold propagation_loop
  simp only [if_true, hs2]
  by_cases heq : s2.id2do_next.length = s2.id2do.length
  · simp only [heq, if_true]
    rw [k2] at heq
    have hl := k4.eq_of_length heq
    obtain ⟨e1, _, _⟩ := k7 heq
    refine ⟨s2, rfl, k1, k3, ⟨GnlCover.after_scan hc k3 k6, ?_, ?_⟩, k4, hres⟩
    · intro o ho
      rw [e1]
      exact ⟨hW o (k4.subset ho), k5 o ho⟩
    · intro _; rw [k2, hl]
  · simp only [heq, if_false]
    rw [k2] at heq
    have hlt : s2.id2do_next.length < s.id2do.length := lt_of_le_of_ne k4.length_le heq
    have hn : s2.id2do_next.length ≤ n := by
      rcases hlen with hl | hl
      · omega
      · have : s2.id2do_next = [] := by
          apply List.eq_nil_iff_forall_not_mem.mpr
          intro o ho
          have h1 := k5 o ho
          have h2 := hl o (k4.subset ho)
          omega
        rw [this]; simp
    obtain ⟨t, ht, g1, g2, g3, g4⟩ := propagation_loop_next hv hix hQ hV n s2 k1
      (fun o ho => hW o (k4.subset ho)) (GnlCover.after_scan hc k3 k6) hn
    refine ⟨t, ht, g1, k3.grow_trans g2, g3, g4.trans k4, ?_⟩
    intro o ho hge
    have h1 := hres o ho hge
    have h2 := g2.1 o
    have h3 := g1.rows_le (hW o ho)
    omega

theorem sum_bits_zero (f : Nat → Nat) (n : Nat) (hs : ((List.range n).map f).sum = 0) :
    ∀ q < n, f q = 0 := by
  intro q hq
  rw [List.sum_eq_zero_iff] at hs
  exact hs (f q) (List.mem_map.mpr ⟨q, List.mem_range.mpr hq, rfl⟩)

theorem GnlInv.undone_of_zero {inp : GnlInput} {c : Nat → Nat → ℚ} {V : Nat × Nat → Prop}
    {s : GnlState} (h : GnlInv inp c V s) {o : Nat} (ho : o < inp.N)
    (hz : s.rowsums o = 0) : ∀ q < inp.Q, s.mat_done o q = 0 :=
  sum_bits_zero _ _ (by rw [← h.rows o ho]; exact hz)

/-- The invariant does not depend on `nb_ref` nor on the worklists. -/
theorem GnlInv.congr {inp : GnlInput} {c : Nat → Nat → ℚ} {V : Nat × Nat → Prop}
    {s t : GnlState} (h : GnlInv inp c V s) (h1 : t.mat_done = s.mat_done)
    (h2 : t.rowsums = s.rowsums) (h3 : t.cluster_values = s.cluster_values) :
    GnlInv inp c V t := by
  constructor
  · rw [h1]; exact h.bit
  · rw [h1]; exact h.uniform
  · rw [h1, h2]; exact h.rows
  · rw [h1, h3]; exact h.zero
  · rw [h1, h3]; exact h.val
  · rw [h1]; exact h.good
  · rw [h3]; exact h.untouched

/-- Setting the references on an observation `qm` none of whose categories is resolved:
the category of `qm` is set as reference in every dimension but the first one. -/
theorem set_references_spec {inp : GnlInput} {c : Nat → Nat → ℚ} {V : Nat × Nat → Prop}
    (hv : GnlValid inp) {ix : GnlIndex} (hix : GnlIndexOk inp ix) (s : GnlState)
    (h : GnlInv inp c V s) (qm : Nat) (hqm : qm < inp.N) (hz : s.rowsums qm = 0)
    (hc0 : GnlConsistent inp c → ∀ q, 1 ≤ q → q < inp.Q → c q (inp.dum qm q) = 0)
    (hV0 : ∀ q, 1 ≤ q → q < inp.Q → V (q, inp.dum qm q)) :
    ∃ t, set_references inp ix qm s = some t ∧ GnlInv inp c V t ∧ t.id2do = s.id2do ∧
      t.id2do_next = s.id2do_next ∧ (∀ o, s.rowsums o ≤ t.rowsums o) ∧
      (∀ o q, s.mat_done o q = 1 → t.mat_done o q = 1) ∧
      (∀ q, t.nb_ref q = s.nb_ref q + if 1 ≤ q ∧ q < inp.Q then 1 else 0) ∧
      (∀ o q, t.mat_done o q =
        if 1 ≤ q ∧ q < inp.Q ∧ o < inp.N ∧ inp.dum o q = inp.dum qm q then 1
        else s.mat_done o q) := by
  have hzero := h.undone_of_zero hqm hz
  unfold set_references
  obtain ⟨tf, htf, hP⟩ := foldlM_range_inv (set_ref_step inp ix qm)
    (fun m tf => GnlInv inp c V tf.1 ∧ (tf.2 = true ↔ m = 0) ∧ tf.1.id2do = s.id2do ∧
      tf.1.id2do_next = s.id2do_next ∧ (∀ o, s.rowsums o ≤ tf.1.rowsums o) ∧
      (∀ q, tf.1.nb_ref q = s.nb_ref q + if 1 ≤ q ∧ q < m then 1 else 0) ∧
      (∀ o q, tf.1.mat_done o q =
        if 1 ≤ q ∧ q < m ∧ o < inp.N ∧ inp.dum o q = inp.dum qm q then 1
        else s.mat_done o q))
    inp.Q (s, true)
    ⟨h, by simp, rfl, rfl, fun _ => le_refl _, by simp, by simp⟩
    (by
      rintro m ⟨t, f⟩ hm ⟨g1, g2, g3, g4, g5, g6, g7⟩
      simp only at g1 g2 g3 g4 g5 g6 g7
      have hmz : t.mat_done qm m = 0 := by
        rw [g7]
        simp only [lt_irrefl, false_and, and_false, if_false]
        exact hzero m hm
      unfold set_ref_step
      simp only [hqm, if_true, hmz]
      by_cases hf : f = true
      · have hm0 : m = 0 := g2.1 hf
        subst hm0
        simp only [hf, if_true]
        refine ⟨_, rfl, g1, by simp, g3, g4, g5, ?_, ?_⟩
        · intro q
          show t.nb_ref q = _
          rw [g6, if_neg (by omega), if_neg (by omega)]
        · intro o q
          show t.mat_done o q = _
          rw [g7, if_neg (by omega), if_neg (by omega)]
      · have hm1 : 1 ≤ m := by
          rcases Nat.eq_zero_or_pos m with h0 | h0
          · exact absurd (g2.2 h0) hf
          · exact h0
        have hr := hv.range qm hqm m hm
        have hr' : inp.dum qm m < inp.cluster_sizes.getD m 0 := hr
        simp only [hf, Bool.false_eq_true, if_false, hv.matGet_dum hqm hm, hr', if_true]
        obtain ⟨t1, ht1, k1, k2, k3, k4, k5, k6⟩ := mark_cluster_spec hv hix hm hr
          { t with cluster_values := (setAt t.cluster_values
              (pindex_cluster inp.cluster_sizes m + inp.dum qm m) 0) }
        simp only [ht1]
        have hinv1 : GnlInv inp c V t1 := by
          refine g1.mark hv hqm hm hmz k1 k2 ?_ ?_ (hV0 m hm1 hm)
          · intro idx hidx
            rw [k3]
            exact setAt_ne _ _ _ _ hidx
          · intro hcons
            rw [k3]
            simp only [setAt_same]
            exact (hc0 hcons m hm1 hm).symm
        refine ⟨_, rfl, hinv1.congr rfl rfl rfl, by simp, k5.trans g3, k6.trans g4,
          ?_, ?_, ?_⟩
        · intro o
          simp only
          rw [k2]
          exact le_trans (g5 o) (Nat.le_add_right _ _)
        · intro q
          show setAt t1.nb_ref m (t1.nb_ref m + 1) q = _
          by_cases hq : q = m
          · subst hq
            rw [setAt_same, k4]
            show t.nb_ref q + 1 = _
            rw [g6, if_neg (by omega), if_pos (by omega)]
          · rw [setAt_ne _ _ _ _ hq, k4]
            show t.nb_ref q = _
            rw [g6]
            by_cases h1 : 1 ≤ q ∧ q < m
            · rw [if_pos h1, if_pos (by omega)]
            · rw [if_neg h1, if_neg (by omega)]
        · intro o q
          show t1.mat_done o q = _
          rw [k1]
          by_cases hq : q = m
          · subst hq
            by_cases hd : o < inp.N ∧ inp.dum o q = inp.dum qm q
            · rw [if_pos ⟨rfl, hd⟩, if_pos ⟨hm1, by omega, hd⟩]
            · rw [if_neg (fun hh => hd hh.2), if_neg (fun hh => hd hh.2.2)]
              show t.mat_done o q = _
              rw [g7, if_neg (by omega)]
          · rw [if_neg (fun hh => hq hh.1)]
            show t.mat_done o q = _
            rw [g7]
            by_cases h3 : 1 ≤ q ∧ q < m ∧ o < inp.N ∧ inp.dum o q = inp.dum qm q
            · rw [if_pos h3, if_pos ⟨h3.1, by omega, h3.2.2⟩]
            · rw [if_neg h3, if_neg (fun hh => h3 ⟨hh.1, by omega, hh.2.2⟩)])
  obtain ⟨g1, g2, g3, g4, g5, g6, g7⟩ := hP
  refine ⟨tf.1, by simp [htf], g1, g3, g4, g5, ?_, g6, g7⟩
  intro o q h1
  rw [g7]
  split
  · rfl
  · exact h1

theorem GnlAdj.adj_symm2 {inp : GnlInput} {x y : Nat × Nat} (h : GnlAdj inp x y) :
    GnlAdj inp y x := by
  obtain ⟨o, ho, h1, h2, h3, h4⟩ := h
  exact ⟨o, ho, h2, h1, h4, h3⟩

theorem GnlConn.conn_symm2 {inp : GnlInput} {x y : Nat × Nat} (h : GnlConn inp x y) :
    GnlConn inp y x := by
  induction h with
  | refl => exact Relation.ReflTransGen.refl
  | tail _ hbc ih => exact Relation.ReflTransGen.head hbc.adj_symm2 ih

theorem GnlConn.conn_trans2 {inp : GnlInput} {x y z : Nat × Nat} (h : GnlConn inp x y)
    (h2 : GnlConn inp y z) : GnlConn inp x z :=
  Relation.ReflTransGen.trans h h2

/-- A set of categories closed under adjacency is closed under connection. -/
theorem GnlConn.closed2 {inp : GnlInput} (P : Nat × Nat → Prop)
    (hP : ∀ x y, P x → GnlAdj inp x y → P y) {x y : Nat × Nat} (h : GnlConn inp x y)
    (hx : P x) : P y := by
  induction h with
  | refl => exact hx
  | tail _ hbc ih => exact hP _ _ ih hbc

theorem RefV.closed_adj {inp : GnlInput} {R : List Nat} :
    ∀ x y, RefV inp R x → GnlAdj inp x y → RefV inp R y := by
  rintro x y ⟨r, hr, hc⟩ hadj
  exact ⟨r, hr, Relation.ReflTransGen.head hadj.adj_symm2 hc⟩

theorem rowsums_pos {inp : GnlInput} {c : Nat → Nat → ℚ} {V : Nat × Nat → Prop}
    {s : GnlState} (h : GnlInv inp c V s) {o q : Nat} (ho : o < inp.N) (hq : q < inp.Q)
    (h1 : s.mat_done o q = 1) : 1 ≤ s.rowsums o := by
  by_contra hlt
  have := h.undone_of_zero ho (by omega) q hq
  omega

/-- In a state left by the propagation loop with two dimensions, the visited
categories are closed under connection. -/
theorem GnlVisited.visited_closed {inp : GnlInput} {c : Nat → Nat → ℚ} {V : Nat × Nat → Prop}
    {s : GnlState} (hQ : inp.Q = 2) (h : GnlInv inp c V s) (hf : GnlFix inp s)
    {x y : Nat × Nat} (hxy : GnlConn inp x y) (hx : GnlVisited inp s x) :
    GnlVisited inp s y := by
  refine GnlConn.closed2 (GnlVisited inp s) ?_ hxy hx
  rintro x y ⟨o, ho, q, hq, rfl, h1⟩ ⟨o2, ho2, hq1, hq2, e1, e2⟩
  simp only at hq1 e1
  have hd : s.mat_done o2 q = 1 := by
    rw [h.uniform o2 ho2 o ho q hq e1]; exact h1
  have hpos := rowsums_pos h ho2 hq hd
  have hfull : s.rowsums o2 = inp.Q := by
    by_contra hne
    have hle := h.rows_le ho2
    have hmem := hf.1 o2 ho2 (by omega)
    have := (hf.2.1 o2 hmem).2
    omega
  refine ⟨o2, ho2, y.1, hq2, ?_, h.done_of_full ho2 hfull y.1 hq2⟩
  rw [e2]

/-- A category of an observation none of whose categories is resolved is not connected
to any visited category. -/
theorem GnlVisited.fresh {inp : GnlInput} {c : Nat → Nat → ℚ} {V : Nat × Nat → Prop}
    {s : GnlState} (hQ : inp.Q = 2) (h : GnlInv inp c V s) (hf : GnlFix inp s)
    {qm : Nat} (hqm : qm < inp.N) (hz : s.rowsums qm = 0) {x : Nat × Nat}
    (hx : GnlVisited inp s x) {q : Nat} (hq : q < inp.Q) :
    ¬ GnlConn inp x (q, inp.dum qm q) := by
  intro hconn
  obtain ⟨o, ho, q2, hq2, e, h1⟩ := GnlVisited.visited_closed hQ h hf hconn hx
  simp only [Prod.mk.injEq] at e
  obtain ⟨e1, e2⟩ := e
  subst e1
  have := h.uniform qm hqm o ho q hq e2
  have hzz := h.undone_of_zero hqm hz q hq
  omega

theorem rowSum_two {inp : GnlInput} (hQ : inp.Q = 2) (c : Nat → Nat → ℚ) (o : Nat) :
    inp.rowSum c o = c 0 (inp.dum o 0) + c 1 (inp.dum o 1) := by
  unfold GnlInput.rowSum
  rw [hQ]
  simp [List.range_succ]

/-- Shifting the coefficients of one connected component, so that the category `kref`
of the second dimension gets the coefficient `0`, keeps the sums over the
observations. -/
theorem shift_exists {inp : GnlInput} (hQ : inp.Q = 2) (c : Nat → Nat → ℚ) (kref : Nat) :
    ∃ c2 : Nat → Nat → ℚ, (∀ o < inp.N, inp.rowSum c2 o = inp.rowSum c o) ∧
      (∀ q k, ¬ GnlConn inp (q, k) (1, kref) → c2 q k = c q k) ∧ c2 1 kref = 0 := by
  classical
  refine ⟨fun q k => if GnlConn inp (q, k) (1, kref) then
      (if q = 0 then c 0 k + c 1 kref else c q k - c 1 kref) else c q k, ?_, ?_, ?_⟩
  · intro o ho
    rw [rowSum_two hQ, rowSum_two hQ]
    have hadj : GnlAdj inp (0, inp.dum o 0) (1, inp.dum o 1) :=
      ⟨o, ho, by simp [hQ], by simp [hQ], rfl, rfl⟩
    by_cases hc : GnlConn inp (0, inp.dum o 0) (1, kref)
    · have hc2 : GnlConn inp (1, inp.dum o 1) (1, kref) :=
        Relation.ReflTransGen.head hadj.adj_symm2 hc
      simp only [hc, hc2, if_true]
      simp
    · have hc2 : ¬ GnlConn inp (1, inp.dum o 1) (1, kref) := fun hh =>
        hc (Relation.ReflTransGen.head hadj hh)
      simp only [hc, hc2, if_false]
  · intro q k hn
    simp only [hn, if_false]
  · have : GnlConn inp (1, kref) (1, kref) := Relation.ReflTransGen.refl
    simp only [this, if_true]
    simp

theorem find_qui_max_two (rowsums : Nat → Nat) (qm : Nat) (rest : List Nat)
    (hz : rowsums qm = 0) : find_qui_max 2 rowsums (qm :: rest) 0 0 = qm := by
  unfold find_qui_max
  simp [hz]

/-- One pass of the main loop with two dimensions, started on a worklist whose first
observation is `qm`: the category of `qm` in the second dimension becomes a reference,
and at least `qm` leaves the worklist.  The pass is complete when the worklist is not
longer than the cap of the propagation loop, and also when the second dimension has
the same category for all observations. -/
theorem gnl_pass_two {inp : GnlInput} (hv : GnlValid inp) {ix : GnlIndex}
    (hix : GnlIndexOk inp ix) (hQ : inp.Q = 2) {c0 c : Nat → Nat → ℚ} {R : List Nat}
    {s : GnlState} (h : Gnl2Inv inp c0 c R s) (first : Bool) (qm : Nat) (rest : List Nat)
    (hW : s.id2do_next = qm :: rest) (hfirst : first = true → qm = 0)
    (hcap : s.id2do_next.length ≤ iterMax_loop ∨ ∀ o < inp.N, inp.dum o 1 = inp.dum qm 1) :
    ∃ t c2, gnl_pass inp ix first s = some t ∧
      Gnl2Inv inp c0 c2 (R ++ [inp.dum qm 1]) t ∧
      t.id2do_next.length < s.id2do_next.length ∧
      ((∀ o < inp.N, inp.dum o 1 = inp.dum qm 1) → t.id2do_next = []) := by
  have hQ2 : 2 ≤ inp.Q := by omega
  have h1Q : 1 < inp.Q := by omega
  have hid : s.id2do = qm :: rest := by
    rw [h.fix.2.2 (by rw [hW]; simp), hW]
  have hmem : qm ∈ s.id2do_next := by rw [hW]; simp
  obtain ⟨hqm, hlt⟩ := h.fix.2.1 qm hmem
  have hz : s.rowsums qm = 0 := by omega
  have hsel : (if first = true then 0 else find_qui_max inp.Q s.rowsums s.id2do 0 0) = qm := by
    by_cases hf : first = true
    · simp [hf, hfirst hf]
    · simp only [hf, if_false]
      rw [hQ, hid]
      exact find_qui_max_two _ _ _ hz
  obtain ⟨c2, hc2a, hc2b, hc2c⟩ := shift_exists hQ c (inp.dum qm 1)
  have hcons2 : GnlConsistent inp c2 ↔ GnlConsistent inp c := by
    constructor
    · intro hh o ho; rw [← hc2a o ho]; exact hh o ho
    · intro hh o ho; rw [hc2a o ho]; exact hh o ho
  have hfresh : ∀ x, GnlVisited inp s x → ¬ GnlConn inp x (1, inp.dum qm 1) := fun x hx =>
    GnlVisited.fresh hQ h.inv h.fix hqm hz hx h1Q
  -- the invariant for the shifted coefficients and the longer list of references
  have hinv2 : GnlInv inp c2 (RefV inp (R ++ [inp.dum qm 1])) s := by
    refine ⟨h.inv.bit, h.inv.uniform, h.inv.rows, h.inv.zero, ?_, ?_, h.inv.untouched⟩
    · intro hcons o ho q hq hd
      rw [h.inv.val (hcons2.1 hcons) o ho q hq hd]
      exact (hc2b _ _ (hfresh _ ⟨o, ho, q, hq, rfl, hd⟩)).symm
    · intro o ho q hq hd
      obtain ⟨r, hr, hc⟩ := h.inv.good o ho q hq hd
      exact ⟨r, List.mem_append_left _ hr, hc⟩
  obtain ⟨s1, hs1, k1, k2, k3, k4, k5, k6, k7⟩ := set_references_spec hv hix s hinv2 qm hqm hz
    (by
      intro _ q hq1 hq2
      have : q = 1 := by omega
      subst this
      exact hc2c)
    (by
      intro q hq1 hq2
      have : q = 1 := by omega
      subst this
      exact ⟨inp.dum qm 1, by simp, Relation.ReflTransGen.refl⟩)
  have hW1 : ∀ o ∈ s1.id2do, o < inp.N := by
    intro o ho
    rw [k2, h.fix.2.2 (by rw [hW]; simp)] at ho
    exact (h.fix.2.1 o ho).1
  have hcov1 : GnlCover inp s1 s1.id2do := by
    intro o ho hlt1
    rw [k2, h.fix.2.2 (by rw [hW]; simp)]
    have := k4 o
    exact h.fix.1 o ho (by omega)
  have hd1 : s1.mat_done qm 1 = 1 := by
    rw [k7]
    simp [h1Q, hqm]
  have hlen1 : s1.id2do.length ≤ 9999 + 1 ∨ ∀ o ∈ s1.id2do, inp.Q ≤ s1.rowsums o + 1 := by
    rcases hcap with hl | hl
    · left
      rw [k2, h.fix.2.2 (by rw [hW]; simp)]
      exact hl
    · right
      intro o ho
      have hoN := hW1 o ho
      have : s1.mat_done o 1 = 1 := by
        rw [k7]
        simp [h1Q, hoN, hl o hoN]
      have := rowsums_pos k1 hoN h1Q this
      omega
  obtain ⟨t, ht, g1, g2, g3, g4, g5⟩ := propagation_loop_first hv hix hQ2
    RefV.closed_adj 9999 s1 k1 hW1 hcov1 hlen1
  have hqm1 : qm ∈ s1.id2do := by rw [k2, hid]; simp
  have hqmfull : t.rowsums qm = inp.Q := by
    apply g5 qm hqm1
    have := rowsums_pos k1 hqm h1Q hd1
    omega
  have hnot : qm ∉ t.id2do_next := by
    intro hin
    have := (g3.2.1 qm hin).2
    omega
  have hsub : t.id2do_next.Sublist s.id2do_next := by
    have := g4
    rwa [k2, h.fix.2.2 (by rw [hW]; simp)] at this
  refine ⟨t, c2, ?_, ?_, ?_, ?_⟩
  · unfold gnl_pass
    rw [hsel, hs1]
    exact ht
  · refine ⟨g1, g3, fun hh => hcons2.2 (h.cons hh), ?_, ?_, ?_, ?_, ?_, ?_⟩
    · rw [List.nodup_append]
      refine ⟨h.nodup, List.nodup_singleton _, ?_⟩
      intro r hr1 hr2
      rw [List.mem_singleton] at hr2
      subst hr2
      obtain ⟨o, ho, e, hd⟩ := h.vis _ hr1
      have := h.inv.uniform qm hqm o ho 1 h1Q e.symm
      have := h.inv.undone_of_zero hqm hz 1 h1Q
      omega
    · rw [g2.2.2, k6, h.cnt1]
      simp [h1Q]
    · rw [g2.2.2, k6, h.cnt0]
      simp
    · intro r hr
      rw [List.mem_append, List.mem_singleton] at hr
      rcases hr with hr | hr
      · obtain ⟨o, ho, e, hd⟩ := h.vis r hr
        exact ⟨o, ho, e, g2.2.1 o 1 (k5 o 1 hd)⟩
      · subst hr
        exact ⟨qm, hqm, rfl, g2.2.1 qm 1 hd1⟩
    · intro r hr r2 hr2 hconn
      rw [List.mem_append, List.mem_singleton] at hr hr2
      rcases hr with hr | hr <;> rcases hr2 with hr2 | hr2
      · exact h.sep r hr r2 hr2 hconn
      · subst hr2
        obtain ⟨o, ho, e, hd⟩ := h.vis r hr
        exact absurd hconn (hfresh _ ⟨o, ho, 1, h1Q, by rw [e], hd⟩)
      · subst hr
        obtain ⟨o, ho, e, hd⟩ := h.vis r2 hr2
        exact absurd hconn.conn_symm2 (hfresh _ ⟨o, ho, 1, h1Q, by rw [e], hd⟩)
      · rw [hr, hr2]
    · intro r hr
      rw [List.mem_append, List.mem_singleton] at hr
      rcases hr with hr | hr
      · obtain ⟨o, ho, e, hd⟩ := h.vis r hr
        rw [hc2b _ _ (hfresh _ ⟨o, ho, 1, h1Q, by rw [e], hd⟩)]
        exact h.czero r hr
      · subst hr
        exact hc2c
  · rcases Nat.lt_or_ge t.id2do_next.length s.id2do_next.length with hl | hl
    · exact hl
    · exfalso
      have := hsub.eq_of_length (le_antisymm hsub.length_le hl)
      exact hnot (this ▸ hmem)
  · intro hall
    apply List.eq_nil_iff_forall_not_mem.mpr
    intro o ho
    have ho1 : o ∈ s1.id2do := g4.subset ho
    have hoN := hW1 o ho1
    have hd : s1.mat_done o 1 = 1 := by
      rw [k7]
      simp [h1Q, hoN, hall o hoN]
    have hp := rowsums_pos k1 hoN h1Q hd
    have := g5 o ho1 (by omega)
    have := (g3.2.1 o ho).2
    omega

theorem gnl_init_inv (inp : GnlInput) (c : Nat → Nat → ℚ) (V : Nat × Nat → Prop) :
    GnlInv inp c V (gnl_init inp) := by
  constructor
  · intro o _ q _; left; rfl
  · intro o _ o2 _ q _ _; rfl
  · intro o _
    show 0 = ((List.range inp.Q).map (fun _ => 0)).sum
    simp
  · intro o _ q _ _; rfl
  · intro _ o _ q _ hd
    exact absurd hd (by simp [gnl_init])
  · intro o _ q _ hd
    exact absurd hd (by simp [gnl_init])
  · intro idx _; rfl

theorem gnl_init_two {inp : GnlInput} (hQ : inp.Q = 2) (c0 : Nat → Nat → ℚ) :
    Gnl2Inv inp c0 c0 [] (gnl_init inp) := by
  refine ⟨gnl_init_inv inp c0 _, ⟨?_, ?_, fun _ => rfl⟩, fun h => h, List.nodup_nil, rfl, rfl,
    ?_, ?_, ?_⟩
  · intro o ho _
    show o ∈ List.range inp.N
    exact List.mem_range.mpr ho
  · intro o ho
    have : o ∈ List.range inp.N := ho
    refine ⟨List.mem_range.mp this, ?_⟩
    show 0 + 1 < inp.Q
    omega
  · intro r hr; simp at hr
  · intro r hr; simp at hr
  · intro r hr; simp at hr

theorem range_eq_cons (n : Nat) (h : 1 ≤ n) : List.range n = 0 :: List.range' 1 (n - 1) := by
  rw [List.range_eq_range']
  have : n = (n - 1) + 1 := by omega
  conv_lhs => rw [this]
  rw [List.range'_succ]

/-- The main loop with two dimensions: when the worklist is not longer than the two
caps, the loop ends with an empty worklist. -/
theorem gnl_loop_two {inp : GnlInput} (hv : GnlValid inp) {ix : GnlIndex}
    (hix : GnlIndexOk inp ix) (hQ : inp.Q = 2) (c0 : Nat → Nat → ℚ) (n : Nat) :
    ∀ (first : Bool) (c : Nat → Nat → ℚ) (R : List Nat) (s : GnlState),
      Gnl2Inv inp c0 c R s → s.id2do_next ≠ [] →
      (first = true → s.id2do_next.head? = some 0) → s.id2do_next.length ≤ n →
      s.id2do_next.length ≤ iterMax_loop →
      ∃ t c2 R2, gnl_loop inp ix n first s = some t ∧ Gnl2Inv inp c0 c2 R2 t ∧
        t.id2do_next = [] := by
  induction n with
  | zero =>
    intro first c R s _ hne _ hlen _
    exact absurd (List.length_eq_zero.mp (by omega)) hne
  | succ n ih =>
    intro first c R s h hne hfirst hlen hcap
    obtain ⟨qm, rest, hW⟩ := List.exists_cons_of_ne_nil hne
    obtain ⟨t, c2, ht, hinv, hlt, _⟩ := gnl_pass_two hv hix hQ h first qm rest hW
      (by
        intro hf
        have := hfirst hf
        rw [hW] at this
        simpa using this)
      (Or.inl hcap)
    unfold gnl_loop
    simp only [ht]
    by_cases hz : t.id2do_next.length = 0
    · simp only [hz, if_true]
      exact ⟨t, c2, _, rfl, hinv, List.length_eq_zero.mp hz⟩
    · simp only [hz, if_false]
      exact ih false c2 _ t hinv (fun hh => hz (by rw [hh]; rfl)) (by simp) (by omega)
        (by omega)

theorem gnl_run_eq {inp : GnlInput} {ix : GnlIndex} (hix : gnl_index inp = some ix) :
    gnl_run inp = gnl_loop inp ix iterMax true (gnl_init inp) := by
  unfold gnl_run
  rw [hix]

theorem cpp_get_fe_gnl_eq {inp : GnlInput} {t : GnlState} (h : gnl_run inp = some t) :
    cpp_get_fe_gnl inp = some (gnl_result inp t) := by
  unfold cpp_get_fe_gnl
  rw [h]
  rfl

/-- With two dimensions and at most 10000 observations the main loop ends with an empty
worklist, in a state that satisfies the invariant. -/
theorem gnl_run_two {inp : GnlInput} (hv : GnlValid inp) (hQ : inp.Q = 2)
    (hN : inp.N ≤ 10000) (c0 : Nat → Nat → ℚ) :
    ∃ t c R, gnl_run inp = some t ∧ Gnl2Inv inp c0 c R t ∧ t.id2do_next = [] := by
  obtain ⟨ix, hix, hok⟩ := gnl_index_ok hv
  have hnp := hv.npos
  have hcons := range_eq_cons inp.N hnp
  obtain ⟨t, c, R, ht, hinv, hnil⟩ := gnl_loop_two hv hok hQ c0 iterMax true c0 []
    (gnl_init inp) (gnl_init_two hQ c0)
    (by show List.range inp.N ≠ []; rw [hcons]; simp)
    (by intro _; show (List.range inp.N).head? = some 0; rw [hcons]; rfl)
    (by show (List.range inp.N).length ≤ iterMax; simp [iterMax]; exact hN)
    (by show (List.range inp.N).length ≤ iterMax_loop; simp [iterMax_loop]; exact hN)
  exact ⟨t, c, R, by rw [gnl_run_eq hix]; exact ht, hinv, hnil⟩

/-- With two dimensions, when all the observations have the same category in the second
dimension, the main loop ends after its first pass, with that category as only
reference. -/
theorem gnl_run_single {inp : GnlInput} (hv : GnlValid inp) (hQ : inp.Q = 2)
    (hone : ∀ o < inp.N, inp.dum o 1 = inp.dum 0 1) (c0 : Nat → Nat → ℚ) :
    ∃ t c, gnl_run inp = some t ∧ Gnl2Inv inp c0 c [inp.dum 0 1] t ∧ t.id2do_next = [] := by
  obtain ⟨ix, hix, hok⟩ := gnl_index_ok hv
  have hnp := hv.npos
  have hcons := range_eq_cons inp.N hnp
  obtain ⟨t, c2, ht, hinv, _, hnil⟩ := gnl_pass_two hv hok hQ (gnl_init_two hQ c0) true 0
    (List.range' 1 (inp.N - 1)) hcons (fun _ => rfl) (Or.inr hone)
  refine ⟨t, c2, ?_, hinv, hnil hone⟩
  rw [gnl_run_eq hix]
  show gnl_loop inp ix (9999 + 1) true (gnl_init inp) = some t
  unfold gnl_loop
  simp only [ht, hnil hone, List.length_nil, if_true]

/-- When the worklist is empty every observation is resolved in every dimension. -/
theorem Gnl2Inv.all_done {inp : GnlInput} {c0 c : Nat → Nat → ℚ} {R : List Nat}
    {t : GnlState} (h : Gnl2Inv inp c0 c R t) (hnil : t.id2do_next = []) :
    ∀ o < inp.N, ∀ q < inp.Q, t.mat_done o q = 1 := by
  intro o ho
  apply h.inv.done_of_full ho
  by_contra hne
  have hle := h.inv.rows_le ho
  have := h.fix.1 o ho (by omega)
  rw [hnil] at this
  simp at this

theorem getD_map_range {α : Type} (f : Nat → α) (n i : Nat) (h : i < n) (d : α) :
    ((List.range n).map f).getD i d = f i := by
  rw [List.getD_eq_getElem?_getD, List.getElem?_map, List.getElem?_range h]
  rfl

theorem gnl_coef_result (inp : GnlInput) (t : GnlState) {q k : Nat} (hq : q < inp.Q)
    (hk : k < inp.size q) :
    gnl_coef (gnl_result inp t) q k =
      t.cluster_values (pindex_cluster inp.cluster_sizes q + k) := by
  unfold gnl_coef gnl_result
  simp only
  rw [getD_map_range _ _ _ hq]
  exact getD_map_range _ _ _ hk _

theorem gnl_nb_ref_result (inp : GnlInput) (t : GnlState) {q : Nat} (hq : q < inp.Q) :
    gnl_nb_ref (gnl_result inp t) q = t.nb_ref q := by
  unfold gnl_nb_ref gnl_result
  simp only
  rw [getD_map_range _ _ _ hq]

theorem gnl_nb_ref_list_two (inp : GnlInput) (t : GnlState) (hQ : inp.Q = 2) :
    (gnl_result inp t).nb_ref = [t.nb_ref 0, t.nb_ref 1] := by
  unfold gnl_result
  simp only
  rw [hQ]
  rfl

/-- The returned coefficients of a fully resolved observation add up to its value. -/
theorem gnl_result_consistent {inp : GnlInput} (hv : GnlValid inp) {c : Nat → Nat → ℚ}
    {V : Nat × Nat → Prop} {t : GnlState} (h : GnlInv inp c V t) (hc : GnlConsistent inp c)
    {o : Nat} (ho : o < inp.N) (hd : ∀ q < inp.Q, t.mat_done o q = 1) :
    inp.sfe o = inp.rowSum (gnl_coef (gnl_result inp t)) o := by
  rw [hc o ho]
  unfold GnlInput.rowSum
  congr 1
  apply List.map_congr_left
  intro q hq
  rw [List.mem_range] at hq
  rw [gnl_coef_result inp t hq (hv.range o ho q hq)]
  exact (h.val hc o ho q hq (hd q hq)).symm

/-- The propagation loop keeps the invariant, whatever its cap; after at least one scan
the worklist `id2do_next` holds every observation that is not fully resolved. -/
theorem propagation_loop_sound {inp : GnlInput} {c : Nat → Nat → ℚ} {V : Nat × Nat → Prop}
    (hv : GnlValid inp) {ix : GnlIndex} (hix : GnlIndexOk inp ix) (hQ : 2 ≤ inp.Q)
    (hV : ∀ x y, V x → GnlAdj inp x y → V y) (n : Nat) :
    ∀ (first : Bool) (s : GnlState), GnlInv inp c V s →
      (∀ o ∈ (if first = true then s.id2do else s.id2do_next), o < inp.N) →
      GnlCover inp s (if first = true then s.id2do else s.id2do_next) →
      ∃ t, propagation_loop inp ix n first s = some t ∧ GnlInv inp c V t ∧ GnlGrow s t ∧
        ((first = false ∨ 1 ≤ n) → GnlCover inp t t.id2do_next) := by
  induction n with
  | zero =>
    intro first s h _ hc
    refine ⟨s, rfl, h, GnlGrow.grow_refl s, ?_⟩
    intro hf
    rcases hf with hf | hf
    · simpa [hf] using hc
    · omega
  | succ n ih =>
    intro first s h hW hc
    obtain ⟨s2, hs2, k1, k2, k3, k4, k5, k6, k7⟩ :=
      scan_spec hv hix hQ hV s h _ hW
    unfold propagation_loop
    simp only [hs2]
    by_cases heq : s2.id2do_next.length = s2.id2do.length
    · simp only [heq, if_true]
      exact ⟨s2, rfl, k1, k3, fun _ => GnlCover.after_scan hc k3 k6⟩
    · simp only [heq, if_false]
      obtain ⟨t, ht, g1, g2, g3⟩ := ih false s2 k1
        (by
          intro o ho
          simp only [Bool.false_eq_true, if_false] at ho
          exact hW o (k4.subset ho))
        (by
          simp only [Bool.false_eq_true, if_false]
          exact GnlCover.after_scan hc k3 k6)
      exact ⟨t, ht, g1, k3.grow_trans g2, fun _ => g3 (Or.inl rfl)⟩

theorem sum_map_sub_add (l : List Nat) (f g h : Nat → ℚ) :
    (l.map (fun q => f q - g q + h q)).sum =
      (l.map f).sum - (l.map g).sum + (l.map h).sum := by
  induction l with
  | nil => simp
  | cons x xs ih =>
    simp only [List.map_cons, List.sum_cons, ih]
    ring

/-- Shifting the coefficients so that the categories of observation `0` get the
coefficient `0` in every dimension but the first keeps the sums over the
observations. -/
theorem shift_first_exists (inp : GnlInput) (hQ : 1 ≤ inp.Q) (c : Nat → Nat → ℚ) :
    ∃ c2 : Nat → Nat → ℚ, (∀ o, inp.rowSum c2 o = inp.rowSum c o) ∧
      ∀ q, 1 ≤ q → c2 q (inp.dum 0 q) = 0 := by
  refine ⟨fun q k => c q k - c q (inp.dum 0 q) + (if q = 0 then inp.rowSum c 0 else 0),
    ?_, ?_⟩
  · intro o
    unfold GnlInput.rowSum
    rw [sum_map_sub_add (List.range inp.Q) (fun q => c q (inp.dum o q))
      (fun q => c q (inp.dum 0 q))
      (fun q => if q = 0 then ((List.range inp.Q).map (fun q => c q (inp.dum 0 q))).sum else 0)]
    have h1 := sum_map_setAt (fun _ : Nat => (0 : ℚ)) inp.Q 0
      (((List.range inp.Q).map (fun q => c q (inp.dum 0 q))).sum) (by omega)
    have h2 : (List.range inp.Q).map (fun q => if q = 0 then
        ((List.range inp.Q).map (fun q => c q (inp.dum 0 q))).sum else 0) =
        (List.range inp.Q).map (setAt (fun _ : Nat => (0 : ℚ)) 0
          (((List.range inp.Q).map (fun q => c q (inp.dum 0 q))).sum)) := by
      apply List.map_congr_left
      intro q _
      simp [setAt]
    have h3 : ((List.range inp.Q).map (fun _ : Nat => (0 : ℚ))).sum = 0 := by simp
    rw [h2]
    rw [h3] at h1
    beta_reduce at h1
    linarith
  · intro q hq
    have : q ≠ 0 := by omega
    simp [this]

/-- The first pass of the main loop, for any number of dimensions: it ends in a state
whose stored values are coefficients behind the values `sumFE`, on the categories that
are done, and whose worklist holds every observation that is not fully resolved. -/
theorem gnl_first_pass {inp : GnlInput} (hv : GnlValid inp) (hQ : 2 ≤ inp.Q)
    (c : Nat → Nat → ℚ) {ix : GnlIndex} (hix : GnlIndexOk inp ix) :
    ∃ t c2, gnl_pass inp ix true (gnl_init inp) = some t ∧
      (GnlConsistent inp c → GnlConsistent inp c2) ∧
      GnlInv inp c2 (fun _ => True) t ∧ GnlCover inp t t.id2do_next := by
  obtain ⟨c2, hc2a, hc2b⟩ := shift_first_exists inp (by omega) c
  have hnp := hv.npos
  obtain ⟨s1, hs1, k1, k2, k3, k4, k5, k6, k7⟩ := set_references_spec hv hix (gnl_init inp)
    (gnl_init_inv inp c2 (fun _ => True)) 0 (by omega) rfl
    (fun _ q hq _ => hc2b q hq) (fun _ _ _ => trivial)
  obtain ⟨t, ht, g1, g2, g3⟩ := propagation_loop_sound hv hix hQ (fun _ _ _ _ => trivial)
    iterMax_loop true s1 k1
    (by
      intro o ho
      simp only [if_true] at ho
      rw [k2] at ho
      exact List.mem_range.mp ho)
    (by
      intro o ho _
      simp only [if_true]
      rw [k2]
      exact List.mem_range.mpr ho)
  refine ⟨t, c2, ?_, ?_, g1, g3 (Or.inr (by simp [iterMax_loop]))⟩
  · unfold gnl_pass
    simp only [if_true, hs1]
    exact ht
  · intro hc o ho
    rw [hc2a o]
    exact hc o ho

/-- The number of classes of an equivalence relation is the length of a list without
repetition whose elements pick exactly one element in every class. -/
theorem card_quotient_eq_length {α : Type} (S : Setoid α) (R : List Nat) (hnd : R.Nodup)
    (f : ∀ r, r ∈ R → α)
    (hinj : ∀ r r2 (hr : r ∈ R) (hr2 : r2 ∈ R), S.r (f r hr) (f r2 hr2) → r = r2)
    (hsurj : ∀ x : α, ∃ r, ∃ hr : r ∈ R, S.r x (f r hr)) :
    Nat.card (Quotient S) = R.length := by
  rw [← List.toFinset_card_of_nodup hnd, ← Nat.card_eq_finsetCard]
  symm
  refine Nat.card_congr (Equiv.ofBijective
    (fun r : R.toFinset => (Quotient.mk S (f r.1 (List.mem_toFinset.mp r.2)))) ⟨?_, ?_⟩)
  · intro x y hxy
    apply Subtype.ext
    exact hinj x.1 y.1 _ _ (Quotient.exact hxy)
  · intro q
    induction q using Quotient.inductionOn with
    | _ x =>
      obtain ⟨r, hr, hrel⟩ := hsurj x
      exact ⟨⟨r, List.mem_toFinset.mpr hr⟩, Quotient.sound (S.symm hrel)⟩

/-- A list without repetition whose elements lie in different classes is not longer than
the number of classes. -/
theorem length_le_card_quotient {α : Type} [Finite α] (S : Setoid α) (R : List Nat)
    (hnd : R.Nodup) (f : ∀ r, r ∈ R → α)
    (hinj : ∀ r r2 (hr : r ∈ R) (hr2 : r2 ∈ R), S.r (f r hr) (f r2 hr2) → r = r2) :
    R.length ≤ Nat.card (Quotient S) := by
  rw [← List.toFinset_card_of_nodup hnd, ← Nat.card_eq_finsetCard]
  refine Nat.card_le_card_of_injective
    (fun r : R.toFinset => (Quotient.mk S (f r.1 (List.mem_toFinset.mp r.2)))) ?_
  intro x y hxy
  apply Subtype.ext
  exact hinj x.1 y.1 _ _ (Quotient.exact hxy)

theorem Gnl2Inv.ref_lt {inp : GnlInput} (hv : GnlValid inp) (hQ : inp.Q = 2)
    {c0 c : Nat → Nat → ℚ} {R : List Nat} {t : GnlState} (h : Gnl2Inv inp c0 c R t) :
    ∀ r ∈ R, r < inp.size 1 := by
  intro r hr
  obtain ⟨o, ho, e, _⟩ := h.vis r hr
  rw [← e]
  exact hv.range o ho 1 (by omega)

/-- With two dimensions the references lie in different connected components. -/
theorem Gnl2Inv.refs_le {inp : GnlInput} (hv : GnlValid inp) (hQ : inp.Q = 2)
    {c0 c : Nat → Nat → ℚ} {R : List Nat} {t : GnlState} (h : Gnl2Inv inp c0 c R t) :
    R.length ≤ Nat.card (Quotient (gnlSetoid inp)) :=
  length_le_card_quotient (gnlSetoid inp) R h.nodup
    (fun r hr => ⟨⟨1, by omega⟩, ⟨r, h.ref_lt hv hQ r hr⟩⟩)
    (fun r r2 hr hr2 hrel => h.sep r hr r2 hr2 hrel)

/-- With two dimensions, when every observation is resolved and every category has an
observation, there is exactly one reference in every connected component. -/
theorem Gnl2Inv.refs_eq {inp : GnlInput} (hv : GnlValid inp) (hQ : inp.Q = 2)
    {c0 c : Nat → Nat → ℚ} {R : List Nat} {t : GnlState} (h : Gnl2Inv inp c0 c R t)
    (hnil : t.id2do_next = [])
    (hne : ∀ q < inp.Q, ∀ k < inp.size q, ∃ o < inp.N, inp.dum o q = k) :
    Nat.card (Quotient (gnlSetoid inp)) = R.length :=
  card_quotient_eq_length (gnlSetoid inp) R h.nodup
    (fun r hr => ⟨⟨1, by omega⟩, ⟨r, h.ref_lt hv hQ r hr⟩⟩)
    (fun r r2 hr hr2 hrel => h.sep r hr r2 hr2 hrel)
    (by
      rintro ⟨⟨q, hq⟩, ⟨k, hk⟩⟩
      obtain ⟨o, ho, e⟩ := hne q hq k hk
      obtain ⟨r, hr, hconn⟩ := h.inv.good o ho q hq (h.all_done hnil o ho q hq)
      rw [e] at hconn
      exact ⟨r, hr, hconn⟩)

theorem gnl_single_valid : GnlValid gnl_single := by decide!

theorem gnl_single_consistent : GnlConsistent gnl_single gnl_single_coef := by decide!

theorem gnl_three_way_run :
    cpp_get_fe_gnl gnl_three_way = some ⟨[[0, 2], [0, 2], [0, 0]], [0, 1, 2]⟩ := by decide!

theorem gnl_three_way_rowsums :
    (gnl_run gnl_three_way).map (fun t => (List.range 4).map t.rowsums) = some [3, 3, 3, 3] := by
  decide!

theorem gnl_three_way_connected (x : GnlNode gnl_three_way) :
    GnlConn gnl_three_way x.pair (0, 0) := by
  have a10 : GnlAdj gnl_three_way (1, 0) (0, 0) := ⟨0, by decide, by decide, by decide, rfl, rfl⟩
  have a20 : GnlAdj gnl_three_way (2, 0) (0, 0) := ⟨0, by decide, by decide, by decide, rfl, rfl⟩
  have a11 : GnlAdj gnl_three_way (1, 1) (0, 0) := ⟨1, by decide, by decide, by decide, rfl, rfl⟩
  have a21 : GnlAdj gnl_three_way (2, 1) (0, 0) := ⟨1, by decide, by decide, by decide, rfl, rfl⟩
  have a01 : GnlAdj gnl_three_way (0, 1) (1, 0) := ⟨2, by decide, by decide, by decide, rfl, rfl⟩
  obtain ⟨⟨q, hq⟩, ⟨k, hk⟩⟩ := x
  have hq3 : q < 3 := hq
  have hk2 : k < 2 := by
    have : gnl_three_way.size q ≤ 2 := by
      interval_cases q <;> decide
    exact lt_of_lt_of_le hk this
  show GnlConn gnl_three_way (q, k) (0, 0)
  interval_cases q <;> interval_cases k
  · exact Relation.ReflTransGen.refl
  · exact Relation.ReflTransGen.head a01 (Relation.ReflTransGen.single a10)
  · exact Relation.ReflTransGen.single a10
  · exact Relation.ReflTransGen.single a11
  · exact Relation.ReflTransGen.single a20
  · exact Relation.ReflTransGen.single a21

theorem gnl_three_way_components : Nat.card (Quotient (gnlSetoid gnl_three_way)) = 1 :=
  card_quotient_eq_length (gnlSetoid gnl_three_way) [0] (List.nodup_singleton 0)
    (fun _ _ => ⟨⟨0, by decide⟩, ⟨0, by decide⟩⟩)
    (fun r r2 hr hr2 _ => by
      rw [List.mem_singleton] at hr hr2
      rw [hr, hr2])
    (fun x => ⟨0, List.mem_singleton_self 0, gnl_three_way_connected x⟩)

/-- C3 (counterexample).  The claim fails with three dimensions: on `gnl_three_way`, a
valid input whose values are sums of coefficients, the routine returns with every
observation resolved, and the returned coefficients of observation `3` add up to `4`
while its value is `2`. -/
theorem gnl_consistency_counterexample :
    ¬ (∀ (inp : GnlInput) (c : Nat → Nat → ℚ), 2 ≤ inp.Q → GnlValid inp →
      GnlConsistent inp c → ∀ t, gnl_run inp = some t →
      (∀ o < inp.N, t.rowsums o = inp.Q) →
      ∀ o < inp.N, inp.sfe o = inp.rowSum (gnl_coef (gnl_result inp t)) o) := by
  intro h
  have hrun := gnl_three_way_run
  have hrows := gnl_three_way_rowsums
  cases ht : gnl_run gnl_three_way with
  | none =>
    rw [ht] at hrows
    simp at hrows
  | some t =>
    rw [ht] at hrows
    rw [cpp_get_fe_gnl_eq ht] at hrun
    have hres := Option.some.inj hrun
    simp only [Option.map_some', Option.some.injEq] at hrows
    have hall : ∀ o < gnl_three_way.N, t.rowsums o = gnl_three_way.Q := by
      intro o ho
      have hQ : gnl_three_way.Q = 3 := rfl
      have hN : gnl_three_way.N = 4 := rfl
      rw [hN] at ho
      rw [hQ]
      have e := congrArg (fun l => l.getD o 0) hrows
      simp only at e
      rw [getD_map_range _ _ _ ho] at e
      rw [e]
      interval_cases o <;> rfl
    have := h gnl_three_way gnl_three_way_coef (by decide) gnl_three_way_valid
      gnl_three_way_consistent t ht hall 3 (by decide)
    rw [hres] at this
    revert this
    decide!

/-- The consistency of the General Recoverer when the main loop ends after its first
pass.  For every number of dimensions `Q ≥ 2` and every valid input whose
values are sums of coefficients: when every observation is resolved at the end of the
first pass of the main loop (the references are then the ones put on observation `0`),
the routine returns there and the returned coefficients of every observation add up to
its value; with `Q = 2` and at most 10000 observations this holds for every number of
passes. -/
theorem gnl_consistency_first_pass (inp : GnlInput) (c : Nat → Nat → ℚ) (hv : GnlValid inp)
    (hQ : 2 ≤ inp.Q) (hc : GnlConsistent inp c) :
    (∃ ix t, gnl_index inp = some ix ∧ gnl_pass inp ix true (gnl_init inp) = some t ∧
      (t.id2do_next = [] →
        cpp_get_fe_gnl inp = some (gnl_result inp t) ∧
        ∀ o < inp.N, inp.sfe o = inp.rowSum (gnl_coef (gnl_result inp t)) o)) ∧
    (inp.Q = 2 → inp.N ≤ 10000 →
      ∃ out, cpp_get_fe_gnl inp = some out ∧
        ∀ o < inp.N, inp.sfe o = inp.rowSum (gnl_coef out) o) := by
  constructor
  · obtain ⟨ix, hix, hok⟩ := gnl_index_ok hv
    obtain ⟨t, c2, ht, hc2, hinv, hcov⟩ := gnl_first_pass hv hQ c hok
    refine ⟨ix, t, hix, ht, ?_⟩
    intro hnil
    constructor
    · apply cpp_get_fe_gnl_eq
      rw [gnl_run_eq hix]
      show gnl_loop inp ix (9999 + 1) true (gnl_init inp) = some t
      unfold gnl_loop
      simp only [ht, hnil, List.length_nil, if_true]
    · intro o ho
      apply gnl_result_consistent hv hinv (hc2 hc) ho
      apply hinv.done_of_full ho
      by_contra hne
      have hle := hinv.rows_le ho
      have := hcov o ho (by omega)
      rw [hnil] at this
      simp at this
  · intro hQ2 hN
    obtain ⟨t, c2, R, ht, hinv, hnil⟩ := gnl_run_two hv hQ2 hN c
    refine ⟨_, cpp_get_fe_gnl_eq ht, ?_⟩
    intro o ho
    exact gnl_result_consistent hv hinv.inv (hinv.cons hc) ho (hinv.all_done hnil o ho)

/-- The consistency after the first pass on the scenario of the specification, whose
observations are all resolved at the end of the first pass. -/
theorem gnl_consistency_first_pass_witness :
    GnlValid gnl_example ∧ GnlConsistent gnl_example gnl_example_coef ∧
    ((gnl_index gnl_example).bind
      (fun ix => gnl_pass gnl_example ix true (gnl_init gnl_example))).map
      (fun t => t.id2do_next) = some [] ∧
    ∃ ix t, gnl_index gnl_example = some ix ∧
      gnl_pass gnl_example ix true (gnl_init gnl_example) = some t ∧
      (t.id2do_next = [] →
        cpp_get_fe_gnl gnl_example = some (gnl_result gnl_example t) ∧
        ∀ o < gnl_example.N,
          gnl_example.sfe o = gnl_example.rowSum (gnl_coef (gnl_result gnl_example t)) o) :=
  ⟨gnl_example_valid, gnl_example_consistent, by decide!,
    (gnl_consistency_first_pass gnl_example gnl_example_coef gnl_example_valid (by decide)
      gnl_example_consistent).1⟩

/-- C4 (counterexample).  The claim fails with three dimensions: on `gnl_three_way`, whose
categories form one connected component, the reference count returned for the third
dimension is `2`. -/
theorem gnl_reference_minimality_counterexample :
    ¬ (∀ (inp : GnlInput), GnlValid inp → ∀ out, cpp_get_fe_gnl inp = some out →
      ∀ q < inp.Q, gnl_nb_ref out q ≤ Nat.card (Quotient (gnlSetoid inp))) := by
  intro h
  have := h gnl_three_way gnl_three_way_valid _ gnl_three_way_run 2 (by decide)
  rw [gnl_three_way_components] at this
  revert this
  decide

/-- C4 (amended).  For every valid input with two dimensions and at most 10000
observations the routine returns, and the reference count returned for each of the two
dimensions does not exceed the number of connected components of the category
hypergraph. -/
theorem gnl_two_reference_minimality (inp : GnlInput) (hv : GnlValid inp) (hQ : inp.Q = 2)
    (hN : inp.N ≤ 10000) :
    ∃ out, cpp_get_fe_gnl inp = some out ∧
      ∀ q < inp.Q, gnl_nb_ref out q ≤ Nat.card (Quotient (gnlSetoid inp)) := by
  obtain ⟨t, c, R, ht, hinv, _⟩ := gnl_run_two hv hQ hN (fun _ _ => 0)
  refine ⟨_, cpp_get_fe_gnl_eq ht, ?_⟩
  intro q hq
  rw [gnl_nb_ref_result inp t hq]
  have hq2 : q = 0 ∨ q = 1 := by omega
  rcases hq2 with rfl | rfl
  · rw [hinv.cnt0]; exact Nat.zero_le _
  · rw [hinv.cnt1]; exact hinv.refs_le hv hQ

/-- The amended reference minimality on the scenario of the specification. -/
theorem gnl_two_reference_minimality_witness :
    GnlValid gnl_example ∧
    ∃ out, cpp_get_fe_gnl gnl_example = some out ∧
      ∀ q < gnl_example.Q, gnl_nb_ref out q ≤ Nat.card (Quotient (gnlSetoid gnl_example)) :=
  ⟨gnl_example_valid,
    gnl_two_reference_minimality gnl_example gnl_example_valid (by decide) (by decide)⟩

/-- C5 (amended: the General Recoverer with `Q = 2` is consistent over exact
arithmetic).  Over exact arithmetic, for every valid input with two dimensions and at
most 10000 observations whose values are `a i + b j`, the routine returns and the two
returned coefficients of every observation add up to its value.  On the scenario of
the specification the coefficients are `(5, 8)` and `(0, 2)` and the reference counts
are `(0, 1)`. -/
theorem gnl_two_consistent :
    (∀ (inp : GnlInput) (c : Nat → Nat → ℚ), GnlValid inp → inp.Q = 2 → inp.N ≤ 10000 →
      GnlConsistent inp c →
      ∃ out, cpp_get_fe_gnl inp = some out ∧
        ∀ o < inp.N,
          gnl_coef out 0 (inp.dum o 0) + gnl_coef out 1 (inp.dum o 1) = inp.sfe o) ∧
    cpp_get_fe_gnl gnl_example = some ⟨[[5, 8], [0, 2]], [0, 1]⟩ := by
  refine ⟨?_, by decide!⟩
  intro inp c hv hQ hN hc
  obtain ⟨t, c2, R, ht, hinv, hnil⟩ := gnl_run_two hv hQ hN c
  refine ⟨_, cpp_get_fe_gnl_eq ht, ?_⟩
  intro o ho
  have := gnl_result_consistent hv hinv.inv (hinv.cons hc) ho (hinv.all_done hnil o ho)
  rw [rowSum_two hQ] at this
  exact this.symm

/-- The consistency with two dimensions on the scenario of the specification. -/
theorem gnl_two_consistent_witness :
    GnlValid gnl_example ∧ GnlConsistent gnl_example gnl_example_coef ∧
    ∃ out, cpp_get_fe_gnl gnl_example = some out ∧
      ∀ o < gnl_example.N,
        gnl_coef out 0 (gnl_example.dum o 0) + gnl_coef out 1 (gnl_example.dum o 1) =
          gnl_example.sfe o :=
  ⟨gnl_example_valid, gnl_example_consistent,
    gnl_two_consistent.1 gnl_example gnl_example_coef gnl_example_valid (by decide)
      (by decide) gnl_example_consistent⟩

/-- C7 (reference counts of the General Recoverer for `Q = 2`).  For every valid input
with two dimensions and at most 10000 observations in which every category has at
least one observation, the routine returns the reference counts `0` for the first
dimension and the number of connected components of the category hypergraph for the
second dimension. -/
theorem gnl_two_reference_counts (inp : GnlInput) (hv : GnlValid inp) (hQ : inp.Q = 2)
    (hN : inp.N ≤ 10000)
    (hne : ∀ q < inp.Q, ∀ k < inp.size q, ∃ o < inp.N, inp.dum o q = k) :
    ∃ out, cpp_get_fe_gnl inp = some out ∧
      out.nb_ref = [0, Nat.card (Quotient (gnlSetoid inp))] := by
  obtain ⟨t, c, R, ht, hinv, hnil⟩ := gnl_run_two hv hQ hN (fun _ _ => 0)
  refine ⟨_, cpp_get_fe_gnl_eq ht, ?_⟩
  rw [gnl_nb_ref_list_two inp t hQ, hinv.cnt0, hinv.cnt1, hinv.refs_eq hv hQ hnil hne]

/-- The reference counts on the scenario of the specification. -/
theorem gnl_two_reference_counts_witness :
    GnlValid gnl_example ∧
    (∀ q < gnl_example.Q, ∀ k < gnl_example.size q,
      ∃ o < gnl_example.N, gnl_example.dum o q = k) ∧
    ∃ out, cpp_get_fe_gnl gnl_example = some out ∧
      out.nb_ref = [0, Nat.card (Quotient (gnlSetoid gnl_example))] :=
  ⟨gnl_example_valid, by decide,
    gnl_two_reference_counts gnl_example gnl_example_valid (by decide) (by decide)
      (by decide)⟩

theorem gnl_single_run : cpp_get_fe_gnl gnl_single = some ⟨[[3, 4], [0]], [0, 1]⟩ := by
  decide!

/-- C8 (counterexample).  The claim fails on `gnl_single`, a valid input with two
dimensions whose second dimension has one category: the reference count returned for
the second dimension is `1`. -/
theorem gnl_single_category_counterexample :
    ¬ (∀ (inp : GnlInput), GnlValid inp → inp.Q = 2 → inp.size 1 = 1 →
      ∀ out, cpp_get_fe_gnl inp = some out → gnl_nb_ref out 1 = 0) := by
  intro h
  have := h gnl_single gnl_single_valid rfl rfl _ gnl_single_run
  revert this
  decide

theorem single_category_same {inp : GnlInput} (hv : GnlValid inp) (hQ : inp.Q = 2)
    (h1 : inp.size 1 = 1) : ∀ o < inp.N, inp.dum o 1 = inp.dum 0 1 := by
  intro o ho
  have a := hv.range o ho 1 (by omega)
  have b := hv.range 0 hv.npos 1 (by omega)
  omega

/-- C8 (amended).  For every valid input with two dimensions in which the second
dimension has exactly one category, the routine returns with the reference counts `0`
for the first dimension and `1` for the second: the single category is the
reference. -/
theorem gnl_single_category_reference (inp : GnlInput) (hv : GnlValid inp) (hQ : inp.Q = 2)
    (h1 : inp.size 1 = 1) :
    ∃ out, cpp_get_fe_gnl inp = some out ∧ out.nb_ref = [0, 1] := by
  obtain ⟨t, c, ht, hinv, _⟩ := gnl_run_single hv hQ (single_category_same hv hQ h1)
    (fun _ _ => 0)
  refine ⟨_, cpp_get_fe_gnl_eq ht, ?_⟩
  rw [gnl_nb_ref_list_two inp t hQ, hinv.cnt0, hinv.cnt1]
  rfl

/-- The amended reference count on `gnl_single`. -/
theorem gnl_single_category_reference_witness :
    GnlValid gnl_single ∧ gnl_single.size 1 = 1 ∧
    ∃ out, cpp_get_fe_gnl gnl_single = some out ∧ out.nb_ref = [0, 1] :=
  ⟨gnl_single_valid, rfl, gnl_single_category_reference gnl_single gnl_single_valid rfl rfl⟩

/-- C9 (a single-category dimension gives category means).  For every valid input with
two dimensions in which the second dimension has exactly one category and whose values
are sums of coefficients, the routine returns; the returned coefficient of every
category of the first dimension that has an observation is the mean of `sumFE` over
the observations of that category (a category without observation keeps the
coefficient `0`), and the coefficient of the single category of the second dimension
is `0`. -/
theorem gnl_single_category_means (inp : GnlInput) (c : Nat → Nat → ℚ) (hv : GnlValid inp)
    (hQ : inp.Q = 2) (h1 : inp.size 1 = 1) (hc : GnlConsistent inp c) :
    ∃ out, cpp_get_fe_gnl inp = some out ∧
      (∀ k < inp.size 0, 0 < cntEq inp 0 k →
        gnl_coef out 0 k =
          (((List.range inp.N).filter (fun o => decide (inp.dum o 0 = k))).map inp.sfe).sum /
            (cntEq inp 0 k : ℚ)) ∧
      (∀ k < inp.size 0, cntEq inp 0 k = 0 → gnl_coef out 0 k = 0) ∧
      gnl_coef out 1 0 = 0 := by
  have hone := single_category_same hv hQ h1
  obtain ⟨t, c2, ht, hinv, hnil⟩ := gnl_run_single hv hQ hone c
  have hd0 : inp.dum 0 1 = 0 := by
    have := hv.range 0 hv.npos 1 (by omega)
    omega
  have hcons := hinv.cons hc
  have hzero : gnl_coef (gnl_result inp t) 1 0 = 0 := by
    rw [gnl_coef_result inp t (by omega) (by omega)]
    have := hinv.inv.val hcons 0 hv.npos 1 (by omega)
      (hinv.all_done hnil 0 hv.npos 1 (by omega))
    rw [hd0] at this
    rw [this]
    exact hinv.czero 0 (by rw [hd0]; simp)
  have hobs : ∀ o < inp.N, inp.sfe o = gnl_coef (gnl_result inp t) 0 (inp.dum o 0) := by
    intro o ho
    have := gnl_result_consistent hv hinv.inv hcons ho (hinv.all_done hnil o ho)
    rw [rowSum_two hQ, hone o ho, hd0, hzero, add_zero] at this
    exact this
  refine ⟨_, cpp_get_fe_gnl_eq ht, ?_, ?_, hzero⟩
  swap
  · intro k hk hcnt
    rw [gnl_coef_result inp t (by omega) hk]
    apply hinv.inv.untouched
    intro o ho q hq heq
    have hk1 : k < inp.size 0 := hk
    obtain ⟨e1, e2⟩ := pindex_cluster_inj hv (show 0 < inp.Q by omega) hk1 hq
      (hv.range o ho q hq) heq
    subst e1
    unfold cntEq at hcnt
    rw [List.countP_eq_zero] at hcnt
    have := hcnt o (List.mem_range.mpr ho)
    simp only [decide_eq_true_eq] at this
    exact this e2.symm
  intro k _ hpos
  have hmap : ((List.range inp.N).filter (fun o => decide (inp.dum o 0 = k))).map inp.sfe =
      ((List.range inp.N).filter (fun o => decide (inp.dum o 0 = k))).map
        (fun _ => gnl_coef (gnl_result inp t) 0 k) := by
    apply List.map_congr_left
    intro o ho
    rw [List.mem_filter, List.mem_range] at ho
    rw [hobs o ho.1]
    have : inp.dum o 0 = k := by simpa using ho.2
    rw [this]
  have hlen : ((List.range inp.N).filter (fun o => decide (inp.dum o 0 = k))).length =
      cntEq inp 0 k := by
    unfold cntEq
    rw [List.countP_eq_length_filter]
  rw [hmap, List.map_const', List.sum_replicate, hlen, nsmul_eq_mul]
  have hne : (cntEq inp 0 k : ℚ) ≠ 0 := by
    exact_mod_cast (Nat.pos_iff_ne_zero.mp hpos)
  field_simp

/-- The category means on `gnl_single`: the coefficients `3` and `4` are the values of
the only observation of each category. -/
theorem gnl_single_category_means_witness :
    GnlValid gnl_single ∧ gnl_single.size 1 = 1 ∧
    GnlConsistent gnl_single gnl_single_coef ∧
    cpp_get_fe_gnl gnl_single = some ⟨[[3, 4], [0]], [0, 1]⟩ ∧
    ∃ out, cpp_get_fe_gnl gnl_single = some out ∧
      (∀ k < gnl_single.size 0, 0 < cntEq gnl_single 0 k →
        gnl_coef out 0 k =
          (((List.range gnl_single.N).filter
            (fun o => decide (gnl_single.dum o 0 = k))).map gnl_single.sfe).sum /
            (cntEq gnl_single 0 k : ℚ)) ∧
      (∀ k < gnl_single.size 0, cntEq gnl_single 0 k = 0 → gnl_coef out 0 k = 0) ∧
      gnl_coef out 1 0 = 0 :=
  ⟨gnl_single_valid, rfl, gnl_single_consistent, gnl_single_run,
    gnl_single_category_means gnl_single gnl_single_coef gnl_single_valid rfl rfl
      gnl_single_consistent⟩

theorem fe2_chain_valid : Fe2Valid fe2_chain := by decide!

theorem fe2_chain_passes :
    ((fe2_pass fe2_chain fe2_init).bind fun s =>
      (fe2_pass fe2_chain s).map fun t => (s.n_done, t.n_done)) = some (3, 3) := by
  decide!

/-- Every state at the top of the loop satisfies the invariant. -/
theorem Fe2Reach.top {inp : Fe2Input} (hv : Fe2Views inp) (a b : Nat → ℚ) {s : Fe2State}
    (h : Fe2Reach inp s) : Fe2Top inp a b s := by
  induction h with
  | init => exact fe2_init_top inp a b
  | pass s t _ hn ht ih =>
    obtain ⟨t2, ht2, htop, _⟩ := fe2_pass_spec hv s ih hn
    rw [ht] at ht2
    cases ht2
    exact htop

/-- The resolved count over a pass: it grows by at least one when the pass starts with
an empty pending list, and by at least one when it ends with a non-empty one. -/
theorem fe2_pass_count {inp : Fe2Input} {a b : Nat → ℚ} (hv : Fe2Views inp)
    (s : Fe2State) (htop : Fe2Top inp a b s) (hn : s.n_done < inp.n_i + inp.n_j) :
    ∃ t, fe2_pass inp s = some t ∧ Fe2Top inp a b t ∧ s.n_done ≤ t.n_done ∧
      (s.cluster_pending_j = [] → s.n_done < t.n_done) ∧
      s.n_done + fe2_stale t + 1 ≤ t.n_done + fe2_stale s := by
  unfold fe2_pass
  by_cases hp : s.cluster_pending_j.length = 0
  · have hp' : s.cluster_pending_j = [] := List.length_eq_zero.mp hp
    obtain ⟨s1, hs1, htop1, hn1⟩ := set_reference_spec hv s htop hp' hn
    obtain ⟨s2, hs2, hmid2, hn2⟩ := propagate_j_to_i_spec hv s1 htop1
    obtain ⟨t, ht, htop3, hn3⟩ := propagate_i_to_j_spec hv s2 hmid2
    refine ⟨t, by simp [hp, hs1, hs2, ht], htop3, by omega, fun _ => by omega, ?_⟩
    unfold fe2_stale
    simp only [hp, if_true]
    split <;> omega
  · obtain ⟨s2, hs2, hmid2, hn2⟩ := propagate_j_to_i_spec hv s htop
    obtain ⟨t, ht, htop3, hn3⟩ := propagate_i_to_j_spec hv s2 hmid2
    refine ⟨t, by simp [hp, hs2, ht], htop3, by omega,
      fun h => absurd (by rw [h]; rfl) hp, ?_⟩
    unfold fe2_stale
    simp only [hp, if_false]
    split <;> omega

/-- The loop ends within as many passes as categories are left to resolve, plus one
when the pending list is not empty. -/
theorem fe2_loop_tight {inp : Fe2Input} {a b : Nat → ℚ} (hv : Fe2Views inp) :
    ∀ (fuel : Nat) (s : Fe2State), Fe2Top inp a b s →
      inp.n_i + inp.n_j - s.n_done + fe2_stale s ≤ fuel →
      ∃ t, fe2_loop inp fuel s = some t ∧ Fe2Top inp a b t ∧ inp.n_i + inp.n_j ≤ t.n_done := by
  intro fuel
  induction fuel with
  | zero =>
    intro s htop hm
    have : ¬ s.n_done < inp.n_i + inp.n_j := by omega
    exact ⟨s, by simp [fe2_loop, this], htop, by omega⟩
  | succ fuel ih =>
    intro s htop hm
    by_cases hn : s.n_done < inp.n_i + inp.n_j
    · obtain ⟨t, ht, htop2, _, _, hlt⟩ := fe2_pass_count hv s htop hn
      have hle := htop2.1.n_done_le
      obtain ⟨t2, ht2, h1, h2⟩ := ih t htop2 (by omega)
      exact ⟨t2, by simp [fe2_loop, hn, ht, ht2], h1, h2⟩
    · exact ⟨s, by simp [fe2_loop, hn], htop, by omega⟩

/-- C11, as stated, fails: on the valid input `fe2_chain` the first pass ends with
`n_done = 3 < 5`, and the second pass, made from that state, ends with `n_done = 3`
again. -/
theorem fe2_pass_progress_counterexample :
    Fe2Valid fe2_chain ∧
    ∃ s t, Fe2Reach fe2_chain s ∧ s.n_done < fe2_chain.n_i + fe2_chain.n_j ∧
      fe2_pass fe2_chain s = some t ∧ ¬ s.n_done < t.n_done := by
  refine ⟨fe2_chain_valid, ?_⟩
  have h := fe2_chain_passes
  obtain ⟨s, hs, h2⟩ := Option.bind_eq_some.mp h
  obtain ⟨t, ht, h3⟩ := Option.map_eq_some'.mp h2
  have hs3 : s.n_done = 3 := congrArg Prod.fst h3
  have ht3 : t.n_done = 3 := congrArg Prod.snd h3
  refine ⟨s, t, Fe2Reach.pass fe2_init s Fe2Reach.init (by decide) hs, ?_, ht, ?_⟩
  · rw [hs3]; decide
  · rw [hs3, ht3]; decide

/-- C11 (progress of the passes of the Bipartite Recoverer), amended.  On every valid
input, a pass made from a state at the top of the `while` loop in which the loop
condition holds is defined and never decreases `n_done`; it increases `n_done` when
it starts with an empty pending list of dimension 2; and in every case `n_done` minus
one when the pending list of dimension 2 is not empty (`fe2_stale`) grows by at least
one.  Hence the loop ends within `n_i + n_j` passes, with `n_done = n_i + n_j`. -/
theorem fe2_pass_progress (inp : Fe2Input) (hv : Fe2Valid inp) :
    (∀ s, Fe2Reach inp s → s.n_done < inp.n_i + inp.n_j →
      ∃ t, fe2_pass inp s = some t ∧ s.n_done ≤ t.n_done ∧
        (s.cluster_pending_j = [] → s.n_done < t.n_done) ∧
        s.n_done + fe2_stale t + 1 ≤ t.n_done + fe2_stale s) ∧
    ∃ t, fe2_loop inp (inp.n_i + inp.n_j) fe2_init = some t ∧
      t.n_done = inp.n_i + inp.n_j := by
  constructor
  · intro s hr hn
    obtain ⟨t, ht, _, h1, h2, h3⟩ :=
      fe2_pass_count hv.views s (hr.top hv.views (fun _ => 0) (fun _ => 0)) hn
    exact ⟨t, ht, h1, h2, h3⟩
  · obtain ⟨t, ht, htop, hn⟩ := fe2_loop_tight hv.views (inp.n_i + inp.n_j) fe2_init
      (fe2_init_top inp (fun _ => 0) (fun _ => 0)) (by simp [fe2_stale, fe2_init])
    have := htop.1.n_done_le
    exact ⟨t, ht, by omega⟩

/-- The amended C11 on the input `fe2_chain`: the loop ends within five passes. -/
theorem fe2_pass_progress_witness :
    Fe2Valid fe2_chain ∧
    ∃ t, fe2_loop fe2_chain (fe2_chain.n_i + fe2_chain.n_j) fe2_init = some t ∧
      t.n_done = fe2_chain.n_i + fe2_chain.n_j :=
  ⟨fe2_chain_valid, (fe2_pass_progress fe2_chain fe2_chain_valid).2⟩

theorem fe2_table_length (inp : Fe2Input) (s : Fe2State) :
    (fe2_table inp s).length = inp.n_i + inp.n_j := by
  simp [fe2_table]

theorem fe2_table_columns (inp : Fe2Input) (s : Fe2State) :
    ∀ row ∈ fe2_table inp s, row.length = 4 := by
  intro row hrow
  unfold fe2_table at hrow
  rcases List.mem_append.mp hrow with h | h
  · obtain ⟨i, _, rfl⟩ := List.mem_map.mp h
    rfl
  · obtain ⟨j, _, rfl⟩ := List.mem_map.mp h
    rfl

/-- C13, as stated, fails: in the result of the scenario `fe2_example`, row `0`
describes category `0` of dimension 1 and holds `1`, not `0`, as local index. -/
theorem fe2_layout_counterexample :
    Fe2Valid fe2_example ∧
    ∃ res, cpp_get_fe_2 8 fe2_example = some res ∧ fe2_dim res 0 = 1 ∧
      fe2_index res 0 = 1 ∧ fe2_index res 0 ≠ ((0 : Nat) : ℚ) := by
  refine ⟨fe2_example_valid, [[1, 1, 5, 0], [1, 2, 8, 0], [2, 1, 0, 1], [2, 2, 2, 0]], ?_, ?_, ?_, ?_⟩
  · decide!
  · decide!
  · decide!
  · decide!

/-- C13 (layout of the result of the Bipartite Recoverer), amended.  On every valid
input `cpp_get_fe_2` returns a table with exactly `n_i + n_j` rows of 4 entries: row
`i < n_i` describes category `i` of dimension 1 and row `n_i + j` category `j` of
dimension 2, in index order; a row holds the dimension (`1` or `2`), the local index
counted from one (the zero-based index plus one), the coefficient and the
is-reference flag of its category. -/
theorem fe2_layout (inp : Fe2Input) (hv : Fe2Valid inp) (fuel : Nat)
    (hf : inp.n_i + inp.n_j ≤ fuel) :
    ∃ t res, fe2_loop inp fuel fe2_init = some t ∧ cpp_get_fe_2 fuel inp = some res ∧
      res.length = inp.n_i + inp.n_j ∧ (∀ row ∈ res, row.length = 4) ∧
      (∀ i < inp.n_i, res.getD i [] =
        [1, ((i + 1 : Nat) : ℚ), t.cluster_coef_i i, boolToRat (t.isRef_i i)]) ∧
      (∀ j < inp.n_j, res.getD (inp.n_i + j) [] =
        [2, ((j + 1 : Nat) : ℚ), t.cluster_coef_j j, boolToRat (t.isRef_j j)]) := by
  obtain ⟨t, ht, _, _⟩ := fe2_loop_tight hv.views fuel fe2_init
    (fe2_init_top inp (fun _ => 0) (fun _ => 0)) (by simp [fe2_stale, fe2_init]; omega)
  exact ⟨t, fe2_table inp t, ht, cpp_get_fe_2_eq ht, fe2_table_length inp t,
    fe2_table_columns inp t, fun i hi => fe2_table_row_i inp t i hi,
    fun j hj => fe2_table_row_j inp t j hj⟩

/-- The amended C13 on the scenario of the specification. -/
theorem fe2_layout_witness :
    Fe2Valid fe2_example ∧
    ∃ res, cpp_get_fe_2 4 fe2_example = some res ∧ res.length = 4 := by
  refine ⟨fe2_example_valid, ?_⟩
  obtain ⟨_, res, _, h1, h2, _⟩ := fe2_layout fe2_example fe2_example_valid 4 (by decide)
  exact ⟨res, h1, h2⟩

theorem find_qui_max_mem (Q : Nat) (rowsums : Nat → Nat) :
    ∀ (l : List Nat) (qm rs : Nat),
      find_qui_max Q rowsums l qm rs = qm ∨ find_qui_max Q rowsums l qm rs ∈ l := by
  intro l
  induction l with
  | nil => intro qm rs; left; rfl
  | cons o rest ih =>
    intro qm rs
    unfold find_qui_max
    split
    · right; simp
    · split
      · rcases ih o (rowsums o) with h | h
        · right; rw [h]; simp
        · right; exact List.mem_cons_of_mem _ h
      · split
        · rcases ih o rs with h | h
          · right; rw [h]; simp
          · right; exact List.mem_cons_of_mem _ h
        · rcases ih qm rs with h | h
          · left; exact h
          · right; exact List.mem_cons_of_mem _ h

/-- The scan of lines 488-507 over a worklist whose first observation has at least two
unresolved dimensions selects an observation of the worklist. -/
theorem find_qui_max_head (Q : Nat) (rowsums : Nat → Nat) (o : Nat) (rest : List Nat)
    (h : rowsums o + 2 ≤ Q) : find_qui_max Q rowsums (o :: rest) 0 0 ∈ o :: rest := by
  unfold find_qui_max
  split
  · simp
  · split
    · rcases find_qui_max_mem Q rowsums rest o (rowsums o) with h1 | h1
      · rw [h1]; simp
      · exact List.mem_cons_of_mem _ h1
    · have hz : rowsums o = 0 := by omega
      simp only [hz, and_self, if_true]
      rcases find_qui_max_mem Q rowsums rest o 0 with h1 | h1
      · rw [h1]; simp
      · exact List.mem_cons_of_mem _ h1

/-- A row of flags all set but at most one sums to at least `n - 1`. -/
theorem sum_bits_but_one (f : Nat → Nat) (n q0 : Nat) (hq0 : q0 < n)
    (h : ∀ q < n, q ≠ q0 → f q = 1) : n ≤ ((List.range n).map f).sum + 1 := by
  have h1 := sum_map_setAt f n q0 1 hq0
  have h2 : ((List.range n).map (setAt f q0 1)).sum = n := by
    apply sum_bits_ones
    intro q hq
    by_cases hqq : q = q0
    · subst hqq; simp
    · rw [setAt_ne _ _ _ _ hqq]; exact h q hq hqq
  omega

/-- Setting the references on an observation `qm` with at least two unresolved
dimensions: the first unresolved dimension is spared, the category of `qm` becomes a
reference in the others, and `qm` is left with one unresolved dimension. -/
theorem set_references_gen {inp : GnlInput} {c : Nat → Nat → ℚ} {V : Nat × Nat → Prop}
    (hv : GnlValid inp) {ix : GnlIndex} (hix : GnlIndexOk inp ix) (s : GnlState)
    (h : GnlInv inp c V s) (qm : Nat) (hqm : qm < inp.N) (hrs : s.rowsums qm + 2 ≤ inp.Q)
    (hc0 : GnlConsistent inp c → ∀ q < inp.Q, c q (inp.dum qm q) = 0)
    (hV0 : ∀ q < inp.Q, V (q, inp.dum qm q)) :
    ∃ t, set_references inp ix qm s = some t ∧ GnlInv inp c V t ∧ t.id2do = s.id2do ∧
      t.id2do_next = s.id2do_next ∧ (∀ o, s.rowsums o ≤ t.rowsums o) ∧
      (∀ o q, s.mat_done o q = 1 → t.mat_done o q = 1) ∧ inp.Q ≤ t.rowsums qm + 1 := by
  unfold set_references
  obtain ⟨tf, htf, hP⟩ := foldlM_range_inv (set_ref_step inp ix qm)
    (fun m tf => GnlInv inp c V tf.1 ∧ tf.1.id2do = s.id2do ∧
      tf.1.id2do_next = s.id2do_next ∧ (∀ o, s.rowsums o ≤ tf.1.rowsums o) ∧
      (∀ o q, s.mat_done o q = 1 → tf.1.mat_done o q = 1) ∧
      (∀ o q, m ≤ q → tf.1.mat_done o q = s.mat_done o q) ∧
      (tf.2 = true → ∀ q < m, s.mat_done qm q = 1) ∧
      (tf.2 = false → ∃ q0 < m, ∀ q < m, q ≠ q0 → tf.1.mat_done qm q = 1))
    inp.Q (s, true)
    ⟨h, rfl, rfl, fun _ => le_refl _, fun _ _ hh => hh, fun _ _ _ => rfl,
      fun _ q hq => absurd hq (Nat.not_lt_zero q), fun hh => absurd hh (by simp)⟩
    (by
      rintro m ⟨t, f⟩ hm ⟨g1, g2, g3, g4, g5, g6, g7, g8⟩
      simp only at g1 g2 g3 g4 g5 g6 g7 g8
      unfold set_ref_step
      simp only [hqm, if_true]
      by_cases hmz : t.mat_done qm m = 0
      · simp only [hmz, if_true]
        by_cases hf : f = true
        · simp only [hf, if_true]
          refine ⟨_, rfl, g1, g2, g3, g4, g5, fun o q hq => g6 o q (by omega),
            fun hh => absurd hh (by simp), fun _ => ⟨m, by omega, ?_⟩⟩
          intro q hq hne
          exact g5 qm q (g7 hf q (by omega))
        · have hff : f = false := by simpa using hf
          obtain ⟨q0, hq0, hall⟩ := g8 hff
          have hr := hv.range qm hqm m hm
          have hr' : inp.dum qm m < inp.cluster_sizes.getD m 0 := hr
          simp only [hf, Bool.false_eq_true, if_false, hv.matGet_dum hqm hm, hr', if_true]
          obtain ⟨t1, ht1, k1, k2, k3, k4, k5, k6⟩ := mark_cluster_spec hv hix hm hr
            { t with cluster_values := (setAt t.cluster_values
                (pindex_cluster inp.cluster_sizes m + inp.dum qm m) 0) }
          simp only [ht1]
          have hinv1 : GnlInv inp c V t1 := by
            refine g1.mark hv hqm hm hmz k1 k2 ?_ ?_ (hV0 m hm)
            · intro idx hidx
              rw [k3]
              exact setAt_ne _ _ _ _ hidx
            · intro hcons
              rw [k3]
              simp only [setAt_same]
              exact (hc0 hcons m hm).symm
          have hmono : ∀ o q, t.mat_done o q = 1 → t1.mat_done o q = 1 := by
            intro o q hd
            rw [k1]
            split
            · rfl
            · exact hd
          refine ⟨_, rfl, hinv1.congr rfl rfl rfl, k5.trans g2, k6.trans g3, ?_, ?_, ?_,
            fun hh => absurd hh (by simp), fun _ => ⟨q0, by omega, ?_⟩⟩
          · intro o
            show s.rowsums o ≤ t1.rowsums o
            rw [k2]
            exact le_trans (g4 o) (Nat.le_add_right _ _)
          · intro o q hd
            exact hmono o q (g5 o q hd)
          · intro o q hq
            show t1.mat_done o q = _
            rw [k1, if_neg (fun hh => by omega)]
            exact g6 o q (by omega)
          · intro q hq hne
            show t1.mat_done qm q = 1
            by_cases hqm2 : q = m
            · subst hqm2
              rw [k1, if_pos ⟨rfl, hqm, rfl⟩]
            · exact hmono qm q (hall q (by omega) hne)
      · have hone : t.mat_done qm m = 1 := by
          rcases g1.bit qm hqm m hm with hb | hb
          · exact absurd hb hmz
          · exact hb
        simp only [hmz, if_false]
        refine ⟨_, rfl, g1, g2, g3, g4, g5, fun o q hq => g6 o q (by omega), ?_, ?_⟩
        · intro hf q hq
          by_cases hqm2 : q = m
          · subst hqm2
            rw [← g6 qm q (le_refl _)]
            exact hone
          · exact g7 hf q (by omega)
        · intro hf
          obtain ⟨q0, hq0, hall⟩ := g8 hf
          refine ⟨q0, by omega, ?_⟩
          intro q hq hne
          by_cases hqm2 : q = m
          · subst hqm2; exact hone
          · exact hall q (by omega) hne)
  obtain ⟨g1, g2, g3, g4, g5, g6, g7, g8⟩ := hP
  refine ⟨tf.1, by simp [htf], g1, g2, g3, g4, g5, ?_⟩
  by_cases hf : tf.2 = true
  · exfalso
    have := sum_bits_ones (s.mat_done qm) inp.Q (g7 hf)
    rw [← h.rows qm hqm] at this
    omega
  · obtain ⟨q0, hq0, hall⟩ := g8 (by simpa using hf)
    rw [g1.rows qm hqm]
    exact sum_bits_but_one _ _ q0 hq0 hall

/-- One pass of the main loop with any number of dimensions, started at the end of a
propagation loop with a non-empty worklist: the selected observation leaves the
worklist. -/
theorem gnl_pass_gen {inp : GnlInput} (hv : GnlValid inp) {ix : GnlIndex}
    (hix : GnlIndexOk inp ix) (hQ : 2 ≤ inp.Q) {c : Nat → Nat → ℚ}
    (hc : ¬ GnlConsistent inp c) {s : GnlState} (h : GnlInv inp c (fun _ => True) s)
    (hfix : GnlFix inp s) (first : Bool) (hne : s.id2do_next ≠ [])
    (hfirst : first = true → 0 ∈ s.id2do_next)
    (hcap : s.id2do_next.length ≤ iterMax_loop) :
    ∃ t, gnl_pass inp ix first s = some t ∧ GnlInv inp c (fun _ => True) t ∧
      GnlFix inp t ∧ t.id2do_next.length < s.id2do_next.length ∧
      (∀ o, s.rowsums o ≤ t.rowsums o) ∧
      (∀ o q, s.mat_done o q = 1 → t.mat_done o q = 1) := by
  have hid : s.id2do = s.id2do_next := hfix.2.2 hne
  have hmem : (if first = true then 0 else find_qui_max inp.Q s.rowsums s.id2do 0 0) ∈
      s.id2do_next := by
    by_cases hf : first = true
    · simp only [hf, if_true]
      exact hfirst hf
    · simp only [hf, if_false]
      obtain ⟨o, rest, hW⟩ := List.exists_cons_of_ne_nil hne
      rw [hid, hW]
      apply find_qui_max_head
      have := (hfix.2.1 o (by rw [hW]; simp)).2
      omega
  obtain ⟨qm, hsel⟩ : ∃ qm,
      (if first = true then 0 else find_qui_max inp.Q s.rowsums s.id2do 0 0) = qm := ⟨_, rfl⟩
  rw [hsel] at hmem
  obtain ⟨hqm, hlt⟩ := hfix.2.1 qm hmem
  obtain ⟨s1, hs1, k1, k2, k3, k4, k5, k6⟩ := set_references_gen hv hix s h qm hqm (by omega)
    (fun hh => absurd hh hc) (fun _ _ => trivial)
  have hW1 : ∀ o ∈ s1.id2do, o < inp.N := by
    intro o ho
    rw [k2, hid] at ho
    exact (hfix.2.1 o ho).1
  have hcov1 : GnlCover inp s1 s1.id2do := by
    intro o ho hlt1
    rw [k2, hid]
    have := k4 o
    exact hfix.1 o ho (by omega)
  obtain ⟨t, ht, g1, g2, g3, g4, g5⟩ := propagation_loop_first hv hix hQ
    (fun _ _ _ _ => trivial) 9999 s1 k1 hW1 hcov1
    (Or.inl (by rw [k2, hid]; exact hcap))
  have hqm1 : qm ∈ s1.id2do := by rw [k2, hid]; exact hmem
  have hqmfull : t.rowsums qm = inp.Q := g5 qm hqm1 k6
  have hnot : qm ∉ t.id2do_next := by
    intro hin
    have := (g3.2.1 qm hin).2
    omega
  have hsub : t.id2do_next.Sublist s.id2do_next := by
    have := g4
    rwa [k2, hid] at this
  refine ⟨t, ?_, g1, g3, ?_, fun o => le_trans (k4 o) (g2.1 o),
    fun o q hd => g2.2.1 o q (k5 o q hd)⟩
  · unfold gnl_pass
    rw [hsel, hs1]
    exact ht
  · rcases Nat.lt_or_ge t.id2do_next.length s.id2do_next.length with hl | hl
    · exact hl
    · exfalso
      have := hsub.eq_of_length (le_antisymm hsub.length_le hl)
      exact hnot (this ▸ hmem)

/-- The main loop with any number of dimensions: when the worklist is not longer than
the two caps, the loop ends with an empty worklist. -/
theorem gnl_loop_gen {inp : GnlInput} (hv : GnlValid inp) {ix : GnlIndex}
    (hix : GnlIndexOk inp ix) (hQ : 2 ≤ inp.Q) {c : Nat → Nat → ℚ}
    (hc : ¬ GnlConsistent inp c) (n : Nat) :
    ∀ (first : Bool) (s : GnlState), GnlInv inp c (fun _ => True) s → GnlFix inp s →
      s.id2do_next ≠ [] → (first = true → 0 ∈ s.id2do_next) → s.id2do_next.length ≤ n →
      s.id2do_next.length ≤ iterMax_loop →
      ∃ t, gnl_loop inp ix n first s = some t ∧ GnlInv inp c (fun _ => True) t ∧
        GnlFix inp t ∧ t.id2do_next = [] := by
  induction n with
  | zero =>
    intro first s _ _ hne _ hlen _
    exact absurd (List.length_eq_zero.mp (by omega)) hne
  | succ n ih =>
    intro first s h hfix hne hfirst hlen hcap
    obtain ⟨t, ht, hinv, hfix2, hlt, _, _⟩ := gnl_pass_gen hv hix hQ hc h hfix first hne
      hfirst hcap
    unfold gnl_loop
    simp only [ht]
    by_cases hz : t.id2do_next.length = 0
    · simp only [hz, if_true]
      exact ⟨t, rfl, hinv, hfix2, List.length_eq_zero.mp hz⟩
    · simp only [hz, if_false]
      exact ih false t hinv hfix2 (fun hh => hz (by rw [hh]; rfl)) (by simp) (by omega)
        (by omega)

theorem gnl_off_rowSum (inp : GnlInput) (o : Nat) (n : Nat) :
    ((List.range (n + 1)).map (fun q => gnl_off inp q (inp.dum o q))).sum = inp.sfe 0 + 1 := by
  induction n with
  | zero => simp [gnl_off, List.range_succ]
  | succ n ih =>
    rw [List.range_succ, List.map_append, List.sum_append, ih]
    simp [gnl_off]

theorem gnl_off_inconsistent (inp : GnlInput) (hN : 1 ≤ inp.N) (hQ : 1 ≤ inp.Q) :
    ¬ GnlConsistent inp (gnl_off inp) := by
  intro h
  have h0 := h 0 (by omega)
  unfold GnlInput.rowSum at h0
  obtain ⟨n, hn⟩ : ∃ n, inp.Q = n + 1 := ⟨inp.Q - 1, by omega⟩
  rw [hn, gnl_off_rowSum] at h0
  linarith

theorem gnl_init_fix {inp : GnlInput} (hQ : 2 ≤ inp.Q) : GnlFix inp (gnl_init inp) := by
  refine ⟨?_, ?_, fun _ => rfl⟩
  · intro o ho _
    show o ∈ List.range inp.N
    exact List.mem_range.mpr ho
  · intro o ho
    have : o ∈ List.range inp.N := ho
    refine ⟨List.mem_range.mp this, ?_⟩
    show 0 + 1 < inp.Q
    omega

/-- With at least two dimensions and at most 10000 observations, the main loop ends
with an empty worklist, every observation being resolved in every dimension. -/
theorem gnl_run_gen {inp : GnlInput} (hv : GnlValid inp) (hQ : 2 ≤ inp.Q)
    (hN : inp.N ≤ 10000) :
    ∃ t, gnl_run inp = some t ∧ t.id2do_next = [] ∧ (∀ o < inp.N, t.rowsums o = inp.Q) ∧
      (∀ o < inp.N, ∀ q < inp.Q, t.mat_done o q = 1) := by
  obtain ⟨ix, hix, hok⟩ := gnl_index_ok hv
  have hnp := hv.npos
  have hc := gnl_off_inconsistent inp hnp (by omega)
  obtain ⟨t, ht, hinv, hfix, hnil⟩ := gnl_loop_gen hv hok hQ hc iterMax true
    (gnl_init inp) (gnl_init_inv inp _ _) (gnl_init_fix hQ)
    (by
      show List.range inp.N ≠ []
      intro hh
      have := congrArg List.length hh
      simp at this
      omega)
    (by intro _; show 0 ∈ List.range inp.N; exact List.mem_range.mpr (by omega))
    (by show (List.range inp.N).length ≤ iterMax; simp [iterMax]; exact hN)
    (by show (List.range inp.N).length ≤ iterMax_loop; simp [iterMax_loop]; exact hN)
  have hfull : ∀ o < inp.N, t.rowsums o = inp.Q := by
    intro o ho
    by_contra hne
    have hle := hinv.rows_le ho
    have := hfix.1 o ho (by omega)
    rw [hnil] at this
    simp at this
  exact ⟨t, by rw [gnl_run_eq hix]; exact ht, hnil, hfull,
    fun o ho => hinv.done_of_full ho (hfull o ho)⟩

/-- A loop over a list in which the body stops at one of the elements, whatever the
state, stops; the way it stops is one of the ways the body stops. -/
theorem foldlM_except_stop {σ α ε : Type} (f : σ → α → Except ε σ) (E : ε → Prop) (x : α)
    (hbad : ∀ s, ∃ e, f s x = Except.error e) :
    ∀ (l : List α), x ∈ l → (∀ s y e, y ∈ l → f s y = Except.error e → E e) →
      ∀ s, ∃ e, l.foldlM f s = Except.error e ∧ E e := by
  intro l
  induction l with
  | nil => intro hx; simp at hx
  | cons y rest ih =>
    intro hx hE s
    rw [List.foldlM_cons]
    cases hy : f s y with
    | error e => exact ⟨e, rfl, hE s y e (List.mem_cons_self _ _) hy⟩
    | ok s2 =>
      rcases List.mem_cons.mp hx with h | h
      · subst h
        obtain ⟨e, he⟩ := hbad s
        rw [he] at hy
        cases hy
      · exact ih h (fun s y e hy he => hE s y e (List.mem_cons_of_mem _ hy) he) s2

theorem matGetRaw_some {r : GnlRaw} (hs : GnlRawShape r) {i q : Nat} (hi : i < r.N)
    (hq : q < r.Q) : ∃ k, matGetRaw r.dumMat i q = some k := by
  obtain ⟨_, h2, h3⟩ := hs
  have hi2 : i < r.dumMat.length := by omega
  have hrow := h3 i hi
  unfold matGetRaw
  rw [List.getElem?_eq_getElem hi2]
  rw [List.getD_eq_getElem?_getD, List.getElem?_eq_getElem hi2] at hrow
  simp only [Option.getD_some] at hrow
  exact ⟨(r.dumMat[i])[q], List.getElem?_eq_getElem (by omega)⟩

/-- With arguments of the declared shapes, the counting step stops only by the
exception of the checked accessor. -/
theorem table_step_raw_stop {r : GnlRaw} (hs : GnlRawShape r) {i q : Nat} (hi : i < r.N)
    (hq : q < r.Q) (t : Nat → Nat) (e : GnlStop)
    (h : table_step_raw r q t i = Except.error e) : e.outside := by
  obtain ⟨k, hk⟩ := matGetRaw_some hs hi hq
  unfold table_step_raw at h
  rw [hk] at h
  simp only at h
  split at h
  · cases h
  · cases h
    show k < 0 ∨ _ ≤ k
    omega

theorem tableCluster_raw_stop {r : GnlRaw} (hs : GnlRawShape r) {q : Nat} (hq : q < r.Q)
    (e : GnlStop) (h : tableCluster_raw r q = Except.error e) : e.outside := by
  unfold tableCluster_raw at h
  have key : ∀ (l : List Nat), (∀ i ∈ l, i < r.N) → ∀ t e,
      l.foldlM (table_step_raw r q) t = Except.error e → e.outside := by
    intro l
    induction l with
    | nil => intro _ t e h; cases h
    | cons y rest ih =>
      intro hl t e h
      rw [List.foldlM_cons] at h
      cases hy : table_step_raw r q t y with
      | error e2 =>
        rw [hy] at h
        cases h
        exact table_step_raw_stop hs (hl y (List.mem_cons_self _ _)) hq t _ hy
      | ok t2 =>
        rw [hy] at h
        exact ih (fun i hi => hl i (List.mem_cons_of_mem _ hi)) t2 e h
  exact key _ (fun i hi => List.mem_range.mp hi) _ e h

/-- C14 (malformed input is rejected upfront).  On arguments of the declared shapes,
when an entry `k = dumMat(i, q)` of the membership matrix is negative or not smaller
than the declared number `cluster_sizes(q)` of categories of its dimension, the
prologue of `cpp_get_fe_gnl` stops with the exception `index_out_of_bounds` of the
checked access `tableCluster(k)` of line 432, for an index outside the vector: the
routine ends with that error, before the main loop, in which all the references are
set and all the coefficients assigned, is reached, and without access outside an
array (the outcome is not `GnlStop.undefined`). -/
theorem gnl_rejects_malformed (r : GnlRaw) (hs : GnlRawShape r) (i q : Nat) (k : Int)
    (hi : i < r.N) (hq : q < r.Q) (hk : matGetRaw r.dumMat i q = some k)
    (hbad : k < 0 ∨ ((r.cluster_sizes.getD q 0 : Nat) : Int) ≤ k) :
    ∃ e, e.outside ∧ e ≠ GnlStop.undefined ∧ gnl_index_raw r = Except.error e ∧
      cpp_get_fe_gnl_raw r = Except.error e := by
  have h1 : ∀ t, ∃ e, table_step_raw r q t i = Except.error e := by
    intro t
    unfold table_step_raw
    rw [hk]
    simp only
    rw [if_neg (by omega)]
    exact ⟨_, rfl⟩
  have h2 : ∃ e, tableCluster_raw r q = Except.error e := by
    obtain ⟨e, he, _⟩ := foldlM_except_stop (table_step_raw r q) (fun _ => True) i h1
      (List.range r.N) (List.mem_range.mpr hi) (fun _ _ _ _ _ => trivial) (fun _ => 0)
    exact ⟨e, he⟩
  have h3 : ∀ ix, ∃ e, index_dim_raw r ix q = Except.error e := by
    intro ix
    obtain ⟨e, he⟩ := h2
    unfold index_dim_raw
    rw [he]
    exact ⟨e, rfl⟩
  obtain ⟨e, he, hout⟩ := foldlM_except_stop (index_dim_raw r) GnlStop.outside q h3
    (List.range r.Q) (List.mem_range.mpr hq)
    (by
      intro ix y e hy hstep
      unfold index_dim_raw at hstep
      cases ht : tableCluster_raw r y with
      | error e2 =>
        rw [ht] at hstep
        cases hstep
        exact tableCluster_raw_stop hs (List.mem_range.mp hy) _ ht
      | ok table =>
        rw [ht] at hstep
        cases hstep)
    { start_cluster := fun _ => 0, end_cluster := fun _ => 0 }
  have h4 : gnl_index_raw r = Except.error e := by
    unfold gnl_index_raw
    rw [if_neg (by have := hs.1; omega)]
    exact he
  refine ⟨e, hout, ?_, h4, ?_⟩
  · intro hh
    rw [hh] at hout
    exact hout
  · unfold cpp_get_fe_gnl_raw
    rw [h4]

/-- C14 on the arguments `gnl_malformed`: they are rejected at the entry
`dumMat(1, 0) = 2`, with the exception for the index `2` in a vector of length `2`. -/
theorem gnl_rejects_malformed_witness :
    GnlRawShape gnl_malformed ∧ matGetRaw gnl_malformed.dumMat 1 0 = some 2 ∧
    cpp_get_fe_gnl_raw gnl_malformed = Except.error (GnlStop.index_out_of_bounds 2 2) ∧
    ∃ e, e.outside ∧ cpp_get_fe_gnl_raw gnl_malformed = Except.error e := by
  refine ⟨by decide, rfl, rfl, ?_⟩
  obtain ⟨e, h1, _, _, h2⟩ := gnl_rejects_malformed gnl_malformed (by decide) 1 0 2
    (by decide) (by decide) rfl (by decide)
  exact ⟨e, h1, h2⟩

theorem foldlM_agree {σ α ε : Type} (f : σ → α → Except ε σ) (g : σ → α → Option σ) :
    ∀ (l : List α), (∀ s, ∀ x ∈ l, ∃ s2, f s x = Except.ok s2 ∧ g s x = some s2) →
      ∀ s, ∃ s2, l.foldlM f s = Except.ok s2 ∧ l.foldlM g s = some s2 := by
  intro l
  induction l with
  | nil => intro _ s; exact ⟨s, rfl, rfl⟩
  | cons y rest ih =>
    intro h s
    obtain ⟨s1, h1, h2⟩ := h s y (List.mem_cons_self _ _)
    obtain ⟨s2, h3, h4⟩ := ih (fun s x hx => h s x (List.mem_cons_of_mem _ hx)) s1
    refine ⟨s2, ?_, ?_⟩
    · rw [List.foldlM_cons, h1]; exact h3
    · rw [List.foldlM_cons, h2]; exact h4

theorem matGet_toInput (r : GnlRaw) (i q : Nat) :
    matGet r.toInput.dumMat i q = (matGetRaw r.dumMat i q).map Int.toNat := by
  unfold matGet matGetRaw GnlRaw.toInput
  simp only [List.getElem?_map]
  cases r.dumMat[i]? with
  | none => rfl
  | some row => simp [List.getElem?_map]

/-- On arguments of the declared shapes whose entries are categories of their
dimension, the prologue on raw arguments ends without exception and builds the index
arrays of the embedding of the routine on natural numbers. -/
theorem gnl_index_raw_agrees (r : GnlRaw) (hs : GnlRawShape r) (hr : GnlRawRange r) :
    ∃ ix, gnl_index_raw r = Except.ok ix ∧ gnl_index r.toInput = some ix := by
  have htab : ∀ q < r.Q, ∃ table, tableCluster_raw r q = Except.ok table ∧
      tableCluster r.toInput q = some table := by
    intro q hq
    apply foldlM_agree
    intro t i hi
    have hi2 := List.mem_range.mp hi
    obtain ⟨k, hk⟩ := matGetRaw_some hs hi2 hq
    have hkr := hr i hi2 q hq k hk
    refine ⟨setAt t k.toNat (t k.toNat + 1), ?_, ?_⟩
    · unfold table_step_raw
      rw [hk]
      simp only
      rw [if_pos hkr]
    · unfold table_step
      rw [matGet_toInput, hk]
      simp only [Option.map_some']
      have : k.toNat < r.toInput.cluster_sizes.getD q 0 := by
        show k.toNat < r.cluster_sizes.getD q 0
        omega
      rw [if_pos this]
  have hfold := foldlM_agree (index_dim_raw r) (index_dim r.toInput) (List.range r.Q)
    (by
      intro ix q hq
      obtain ⟨table, h1, h2⟩ := htab q (List.mem_range.mp hq)
      refine ⟨(List.range (r.cluster_sizes.getD q 0)).foldl
        (index_step r.toInput q table) ix, ?_, ?_⟩
      · unfold index_dim_raw
        rw [h1]
      · unfold index_dim
        rw [h2]
        rfl)
    { start_cluster := fun _ => 0, end_cluster := fun _ => 0 }
  obtain ⟨ix, h1, h2⟩ := hfold
  refine ⟨ix, ?_, ?_⟩
  · unfold gnl_index_raw
    rw [if_neg (by have := hs.1; omega)]
    exact h1
  · unfold gnl_index
    have : ¬ r.toInput.cluster_sizes.length < r.toInput.Q := by
      show ¬ r.cluster_sizes.length < r.Q
      have := hs.1
      omega
    rw [if_neg this]
    exact h2

/-- On such arguments the routine on raw arguments returns the result of the
embedding on natural numbers. -/
theorem cpp_get_fe_gnl_raw_agrees (r : GnlRaw) (hs : GnlRawShape r) (hr : GnlRawRange r)
    (out : GnlOutput) (h : cpp_get_fe_gnl r.toInput = some out) :
    cpp_get_fe_gnl_raw r = Except.ok out := by
  obtain ⟨ix, h1, h2⟩ := gnl_index_raw_agrees r hs hr
  unfold cpp_get_fe_gnl gnl_run at h
  rw [h2] at h
  unfold cpp_get_fe_gnl_raw
  rw [h1]
  simp only
  simp only at h
  cases hl : gnl_loop r.toInput ix iterMax true (gnl_init r.toInput) with
  | none => rw [hl] at h; cases h
  | some s =>
    rw [hl] at h
    simp only [Option.map_some', Option.some.injEq] at h
    rw [← h]

theorem PdInput.obsBelow_succ (inp : PdInput) (q c n : Nat) :
    inp.obsBelow q c (n + 1) = inp.obsBelow q c n ++ (if inp.dum n q = c then [n] else []) := by
  unfold PdInput.obsBelow
  rw [List.range_succ, List.filter_append]
  by_cases h : inp.dum n q = c <;> simp [h]

theorem PdInput.mem_obsOf (inp : PdInput) (q c i : Nat) :
    i ∈ inp.obsOf q c ↔ i < inp.N ∧ inp.dum i q = c := by
  unfold PdInput.obsOf PdInput.obsBelow
  simp

theorem PdValid.dum_get {inp : PdInput} (hv : PdValid inp) {i q : Nat} (hi : i < inp.N)
    (hq : q < inp.Q) : matGet inp.dumMat i q = some (inp.dum i q) := by
  obtain ⟨_, _, _, _, h5, h6⟩ := hv.shape
  exact matGet_eq _ _ _ (by omega) (by rw [h6 i hi]; exact hq)

theorem PdValid.ll_get {inp : PdInput} (hv : PdValid inp) {i : Nat} (hi : i < inp.N) :
    inp.ll_d2[i]? = some (inp.ll i) :=
  getElem?_eq_some_getD _ _ _ (by rw [hv.shape.1]; exact hi)

theorem PdValid.dx_get {inp : PdInput} (hv : PdValid inp) {i : Nat} (hi : i < inp.N) :
    inp.dx_dother[i]? = some (inp.dx i) :=
  getElem?_eq_some_getD _ _ _ (by rw [hv.shape.2.1]; exact hi)

/-- Two categories in range are stored at different positions of a stacked vector. -/
theorem pindex_slot_inj (sizes : List Nat) {q k q2 k2 : Nat} (hq : q < sizes.length)
    (hk : k < sizes.getD q 0) (hq2 : q2 < sizes.length) (hk2 : k2 < sizes.getD q2 0)
    (h : pindex_cluster sizes q + k = pindex_cluster sizes q2 + k2) : q = q2 ∧ k = k2 := by
  have key : ∀ a b ka, a < b → a < sizes.length → ka < sizes.getD a 0 →
      pindex_cluster sizes a + ka < pindex_cluster sizes b := by
    intro a b ka hab ha hka
    have h1 := pindex_cluster_succ sizes a ha
    have h2 := pindex_cluster_mono sizes (show a + 1 ≤ b by omega)
    omega
  rcases Nat.lt_trichotomy q q2 with hlt | heq | hgt
  · have := key q q2 k hlt hq hk; omega
  · subst heq; exact ⟨rfl, by omega⟩
  · have := key q2 q k2 hgt hq2 hk2; omega

theorem pindex_slot_lt (sizes : List Nat) {q k : Nat} (hq : q < sizes.length)
    (hk : k < sizes.getD q 0) : pindex_cluster sizes q + k < pindex_cluster sizes sizes.length := by
  have h1 := pindex_cluster_succ sizes q hq
  have h2 := pindex_cluster_mono sizes (show q + 1 ≤ sizes.length by omega)
  omega

theorem pd_index_ok {inp : PdInput} (hv : PdValid inp) :
    ∃ x, pd_index inp = some x ∧ PdIndexOk inp x := by
  have hlen := hv.shape.2.2.2.1
  unfold pd_index
  obtain ⟨x, hx, hP⟩ := foldlM_range_inv (pd_index_step inp)
    (fun m x => (∀ q < m, x.start q = pindex_cluster inp.nbCluster q ∧
        x.end_ q = pindex_cluster inp.nbCluster q + inp.size q) ∧
      x.sum_cases = pindex_cluster inp.nbCluster m)
    inp.Q { start := fun _ => 0, end_ := fun _ => 0, sum_cases := 0 }
    ⟨fun q hq => absurd hq (Nat.not_lt_zero q), by simp [pindex_cluster]⟩
    (by
      intro m x hm ⟨g1, g2⟩
      have hsucc := pindex_cluster_succ inp.nbCluster m (by omega)
      unfold pd_index_step
      rw [getElem?_eq_some_getD inp.nbCluster m 0 (by omega)]
      simp only
      by_cases hm0 : m = 0
      · subst hm0
        simp only [if_true]
        refine ⟨_, rfl, ?_, ?_⟩
        · intro q hq
          have : q = 0 := by omega
          subst this
          simp [pindex_cluster, PdInput.size]
        · show x.sum_cases + _ = _
          rw [g2, hsucc]
      · simp only [hm0, if_false]
        rw [getElem?_eq_some_getD inp.nbCluster (m - 1) 0 (by omega)]
        simp only
        refine ⟨_, rfl, ?_, ?_⟩
        · intro q hq
          by_cases hqm : q = m
          · subst hqm
            simp only [setAt_same]
            have h1 := g1 (q - 1) (by omega)
            have h2 := pindex_cluster_succ inp.nbCluster (q - 1) (by omega)
            have h3 : q - 1 + 1 = q := by omega
            rw [h3] at h2
            constructor
            · rw [h1.1, h2]
            · rw [h1.2]
              show _ + inp.nbCluster.getD (q - 1) 0 + inp.nbCluster.getD q 0 = _
              rw [h2]
              rfl
          · have := g1 q (by omega)
            simp only [setAt_ne _ _ _ _ hqm]
            exact this
        · show x.sum_cases + _ = _
          rw [g2, hsucc])
  exact ⟨x, hx, hP⟩

theorem PdIndexOk.slot_lt {inp : PdInput} (hv : PdValid inp) {x : PdIndex}
    (hx : PdIndexOk inp x) {q c : Nat} (hq : q < inp.Q) (hc : c < inp.size q) :
    x.start q + c < x.sum_cases := by
  have hlen := hv.shape.2.2.2.1
  rw [(hx.1 q hq).1, hx.2, ← hlen]
  exact pindex_slot_lt _ (by omega) hc

theorem PdIndexOk.slot_inj {inp : PdInput} (hv : PdValid inp) {x : PdIndex}
    (hx : PdIndexOk inp x) {q c q2 c2 : Nat} (hq : q < inp.Q) (hc : c < inp.size q)
    (hq2 : q2 < inp.Q) (hc2 : c2 < inp.size q2) (h : x.start q + c = x.start q2 + c2) :
    q = q2 ∧ c = c2 := by
  have hlen := hv.shape.2.2.2.1
  rw [(hx.1 q hq).1, (hx.1 q2 hq2).1] at h
  exact pindex_slot_inj _ (by omega) hc (by omega) hc2 h

theorem PdInput.sumBelow_succ (inp : PdInput) (q c : Nat) (f : Nat → ℚ) (n : Nat) :
    inp.sumBelow q c f (n + 1) = inp.sumBelow q c f n + if inp.dum n q = c then f n else 0 := by
  unfold PdInput.sumBelow
  rw [PdInput.obsBelow_succ, List.map_append, List.sum_append]
  by_cases h : inp.dum n q = c <;> simp [h]

theorem pd_weights_ok {inp : PdInput} (hv : PdValid inp) {x : PdIndex}
    (hx : PdIndexOk inp x) :
    ∃ w, pd_weights inp x = some w ∧
      ∀ q < inp.Q, ∀ c < inp.size q, w (x.start q + c) = inp.weight q c := by
  unfold pd_weights
  obtain ⟨w, hw, hP⟩ := foldlM_range_inv (pd_weight_row inp x)
    (fun n w => ∀ q < inp.Q, ∀ c < inp.size q, w (x.start q + c) = inp.sumBelow q c inp.ll n)
    inp.N (fun _ => 0) (fun q _ c _ => by simp [PdInput.sumBelow, PdInput.obsBelow])
    (by
      intro i w hi hP
      unfold pd_weight_row
      obtain ⟨w2, hw2, hR⟩ := foldlM_range_inv (pd_weight_step inp x i)
        (fun m w2 => ∀ q < inp.Q, ∀ c < inp.size q, w2 (x.start q + c) =
          inp.sumBelow q c inp.ll i + if q < m ∧ inp.dum i q = c then inp.ll i else 0)
        inp.Q w (fun q hq c hc => by simp [hP q hq c hc])
        (by
          intro m w2 hm hR
          have hr := hv.range i hi m hm
          unfold pd_weight_step
          rw [hv.dum_get hi hm, hv.ll_get hi]
          simp only [hx.slot_lt hv hm hr, if_true]
          refine ⟨_, rfl, ?_⟩
          intro q hq c hc
          by_cases hs : x.start q + c = x.start m + inp.dum i m
          · obtain ⟨e1, e2⟩ := hx.slot_inj hv hq hc hm hr hs
            subst e1
            subst e2
            rw [hs, setAt_same, hR q hq _ hr]
            simp
          · rw [setAt_ne _ _ _ _ hs, hR q hq c hc]
            by_cases h1 : q < m ∧ inp.dum i q = c
            · rw [if_pos h1, if_pos ⟨by omega, h1.2⟩]
            · rw [if_neg h1, if_neg]
              rintro ⟨h2, h3⟩
              by_cases hqm : q = m
              · subst hqm
                subst h3
                exact hs rfl
              · exact h1 ⟨by omega, h3⟩)
      refine ⟨w2, hw2, ?_⟩
      intro q hq c hc
      rw [hR q hq c hc, PdInput.sumBelow_succ]
      simp [hq])
  exact ⟨w, hw, hP⟩

theorem pd_init_ok {inp : PdInput} (hv : PdValid inp) :
    ∃ S, pd_init inp = some S ∧ ∀ i < inp.N, S i = inp.init.getD i 0 := by
  unfold pd_init
  obtain ⟨S, hS, hP⟩ := foldlM_range_inv (pd_init_step inp)
    (fun n S => ∀ i < n, S i = inp.init.getD i 0)
    inp.N (fun _ => 0) (fun i hi => absurd hi (Nat.not_lt_zero i))
    (by
      intro n S hn hP
      unfold pd_init_step
      rw [getElem?_eq_some_getD inp.init n 0 (by rw [hv.shape.2.2.1]; exact hn)]
      refine ⟨_, rfl, ?_⟩
      intro i hi
      by_cases hin : i = n
      · subst hin; simp
      · rw [setAt_ne _ _ _ _ hin]
        exact hP i (by omega))
  exact ⟨S, hS, hP⟩

theorem foldlM_range'_inv {σ : Type} (f : σ → Nat → Option σ) (P : Nat → σ → Prop)
    (a n : Nat) (s : σ) (h0 : P 0 s)
    (hstep : ∀ k t, k < n → P k t → ∃ t', f t (a + k) = some t' ∧ P (k + 1) t') :
    ∃ s', (List.range' a n).foldlM f s = some s' ∧ P n s' := by
  induction n with
  | zero => exact ⟨s, by simp, h0⟩
  | succ n ih =>
    obtain ⟨t, ht, hP⟩ := ih (fun k t hk hp => hstep k t (by omega) hp)
    obtain ⟨t', ht', hP'⟩ := hstep n t (by omega) hP
    refine ⟨t', ?_, hP'⟩
    rw [List.range'_concat, List.foldlM_append, ht]
    simp [ht']

theorem pd_zero_spec {inp : PdInput} (hv : PdValid inp) {x : PdIndex} (hx : PdIndexOk inp x)
    {q : Nat} (hq : q < inp.Q) (cd : Nat → Option ℚ) :
    ∃ cd1, (List.range' (x.start q) (x.end_ q - x.start q)).foldlM (pd_zero_step x) cd =
        some cd1 ∧
      (∀ c < inp.size q, cd1 (x.start q + c) = some 0) ∧
      (∀ k, PdOutside inp x q k → cd1 k = cd k) := by
  have hlen : x.end_ q - x.start q = inp.size q := by
    rw [(hx.1 q hq).1, (hx.1 q hq).2]; omega
  rw [hlen]
  obtain ⟨cd1, h1, hP⟩ := foldlM_range'_inv (pd_zero_step x)
    (fun m cd1 => (∀ c < m, cd1 (x.start q + c) = some 0) ∧
      (∀ k, PdOutside inp x q k → cd1 k = cd k))
    (x.start q) (inp.size q) cd ⟨fun c hc => absurd hc (Nat.not_lt_zero c), fun _ _ => rfl⟩
    (by
      intro m t hm ⟨g1, g2⟩
      unfold pd_zero_step
      rw [if_pos (hx.slot_lt hv hq hm)]
      refine ⟨_, rfl, ?_, ?_⟩
      · intro c hc
        by_cases hcm : c = m
        · subst hcm; simp
        · rw [setAt_ne _ _ _ _ (by omega)]
          exact g1 c (by omega)
      · intro k hk
        rw [setAt_ne _ _ _ _ (hk m hm)]
        exact g2 k hk)
  exact ⟨cd1, h1, hP⟩

theorem pd_accum_spec {inp : PdInput} (hv : PdValid inp) {x : PdIndex} (hx : PdIndexOk inp x)
    {q : Nat} (hq : q < inp.Q) (S : Nat → ℚ) (cd1 : Nat → Option ℚ)
    (hz : ∀ c < inp.size q, cd1 (x.start q + c) = some 0) :
    ∃ cd2, (List.range inp.N).foldlM (pd_accum_step inp x q S) cd1 = some cd2 ∧
      (∀ c < inp.size q, cd2 (x.start q + c) = some (inp.residual S q c)) ∧
      (∀ k, PdOutside inp x q k → cd2 k = cd1 k) := by
  obtain ⟨cd2, h2, hP⟩ := foldlM_range_inv (pd_accum_step inp x q S)
    (fun n cd2 => (∀ c < inp.size q, cd2 (x.start q + c) =
        some (inp.sumBelow q c (fun i => inp.dx i + S i * inp.ll i) n)) ∧
      (∀ k, PdOutside inp x q k → cd2 k = cd1 k))
    inp.N cd1
    ⟨fun c hc => by rw [hz c hc]; simp [PdInput.sumBelow, PdInput.obsBelow], fun _ _ => rfl⟩
    (by
      intro n t hn ⟨g1, g2⟩
      have hr := hv.range n hn q hq
      unfold pd_accum_step
      rw [hv.dum_get hn hq, hv.dx_get hn, hv.ll_get hn]
      simp only [hx.slot_lt hv hq hr, if_true]
      refine ⟨_, rfl, ?_, ?_⟩
      · intro c hc
        rw [PdInput.sumBelow_succ]
        by_cases hcn : inp.dum n q = c
        · subst hcn
          rw [setAt_same, g1 _ hr]
          simp
        · rw [setAt_ne _ _ _ _ (by omega), g1 c hc, if_neg hcn, add_zero]
      · intro k hk
        rw [setAt_ne _ _ _ _ (hk _ hr)]
        exact g2 k hk)
  exact ⟨cd2, h2, hP⟩

theorem pd_update_spec {inp : PdInput} (hv : PdValid inp) {x : PdIndex} (hx : PdIndexOk inp x)
    {w : Nat → ℚ} (hw : ∀ q < inp.Q, ∀ c < inp.size q, w (x.start q + c) = inp.weight q c)
    {q : Nat} (hq : q < inp.Q) (hreg : PdRegular inp q) (S : Nat → ℚ)
    (cd2 : Nat → Option ℚ) (ok : Bool)
    (hd : ∀ c < inp.size q, cd2 (x.start q + c) = some (inp.residual S q c)) :
    ∃ co, (List.range' (x.start q) (x.end_ q - x.start q)).foldlM (pd_update_step inp x w)
        (cd2, ok) = some co ∧
      (∀ c < inp.size q, co.1 (x.start q + c) =
        if inp.weight q c = 0 then none else some (inp.update S q c)) ∧
      (∀ k, PdOutside inp x q k → co.1 k = cd2 k) ∧
      co.2 = (ok || (List.range (inp.size q)).any (fun c => inp.exceeds S q c)) := by
  have hlen : x.end_ q - x.start q = inp.size q := by
    rw [(hx.1 q hq).1, (hx.1 q hq).2]; omega
  rw [hlen]
  obtain ⟨co, h3, hP⟩ := foldlM_range'_inv (pd_update_step inp x w)
    (fun m co => (∀ c < m, co.1 (x.start q + c) =
        if inp.weight q c = 0 then none else some (inp.update S q c)) ∧
      (∀ c, m ≤ c → c < inp.size q → co.1 (x.start q + c) = some (inp.residual S q c)) ∧
      (∀ k, PdOutside inp x q k → co.1 k = cd2 k) ∧
      co.2 = (ok || (List.range m).any (fun c => inp.exceeds S q c)))
    (x.start q) (inp.size q) (cd2, ok)
    ⟨fun c hc => absurd hc (Nat.not_lt_zero c), fun c _ hc => hd c hc, fun _ _ => rfl,
      by simp⟩
    (by
      rintro m ⟨cd, o⟩ hm ⟨g1, g2, g3, g4⟩
      simp only at g1 g2 g3 g4
      unfold pd_update_step
      simp only [hx.slot_lt hv hq hm, if_true, g2 m (le_refl _) hm, hw q hq m hm]
      have hany : ∀ b : Bool, (ok || (List.range (m + 1)).any (fun c => inp.exceeds S q c)) =
          ((ok || (List.range m).any (fun c => inp.exceeds S q c)) || inp.exceeds S q m) := by
        intro _
        rw [List.range_succ, List.any_append]
        simp [Bool.or_assoc]
      by_cases hwz : inp.weight q m = 0
      · -- a zero weight sum: the category has no observation and its residual is zero
        have hempty : inp.obsOf q m = [] := by
          by_contra hne
          exact hreg m hm hne hwz
        have hres : inp.residual S q m = 0 := by
          unfold PdInput.residual PdInput.catSum
          rw [hempty]
          rfl
        simp only [hwz, if_true]
        refine ⟨_, rfl, ?_, ?_, ?_, ?_⟩
        · intro c hc
          dsimp only
          by_cases hcm : c = m
          · subst hcm; simp [hwz]
          · rw [setAt_ne _ _ _ _ (by omega)]
            exact g1 c (by omega)
        · intro c hc1 hc2
          dsimp only
          rw [setAt_ne _ _ _ _ (by omega)]
          exact g2 c (by omega) hc2
        · intro k hk
          dsimp only
          rw [setAt_ne _ _ _ _ (hk m hm)]
          exact g3 k hk
        · show (o || decide (inp.residual S q m ≠ 0)) = _
          rw [hany true, g4]
          simp [hres, PdInput.exceeds, hwz]
      · simp only [hwz, if_false]
        refine ⟨_, rfl, ?_, ?_, ?_, ?_⟩
        · intro c hc
          dsimp only
          by_cases hcm : c = m
          · subst hcm
            simp [hwz, PdInput.update]
          · rw [setAt_ne _ _ _ _ (by omega)]
            exact g1 c (by omega)
        · intro c hc1 hc2
          dsimp only
          rw [setAt_ne _ _ _ _ (by omega)]
          exact g2 c (by omega) hc2
        · intro k hk
          dsimp only
          rw [setAt_ne _ _ _ _ (hk m hm)]
          exact g3 k hk
        · show (o || decide (inp.epsDeriv < |(-inp.residual S q m / inp.weight q m)|)) = _
          rw [hany true, g4]
          simp [PdInput.exceeds, hwz, PdInput.update])
  exact ⟨co, h3, hP.1, hP.2.2.1, hP.2.2.2⟩

theorem pd_add_spec {inp : PdInput} (hv : PdValid inp) {x : PdIndex} (hx : PdIndexOk inp x)
    {q : Nat} (hq : q < inp.Q) (hreg : PdRegular inp q) (S0 : Nat → ℚ)
    (cd : Nat → Option ℚ)
    (hd : ∀ c < inp.size q, cd (x.start q + c) =
      if inp.weight q c = 0 then none else some (inp.update S0 q c))
    (S : Nat → ℚ) :
    ∃ S2, (List.range inp.N).foldlM (pd_add_step inp x q cd) S = some S2 ∧
      (∀ i < inp.N, S2 i = S i + inp.update S0 q (inp.dum i q)) ∧
      (∀ i, inp.N ≤ i → S2 i = S i) := by
  obtain ⟨S2, h4, hP⟩ := foldlM_range_inv (pd_add_step inp x q cd)
    (fun n S2 => (∀ i < n, S2 i = S i + inp.update S0 q (inp.dum i q)) ∧
      (∀ i, n ≤ i → S2 i = S i))
    inp.N S ⟨fun i hi => absurd hi (Nat.not_lt_zero i), fun _ _ => rfl⟩
    (by
      intro n t hn ⟨g1, g2⟩
      have hr := hv.range n hn q hq
      have hne : inp.weight q (inp.dum n q) ≠ 0 := by
        apply hreg _ hr
        intro hnil
        have : n ∈ inp.obsOf q (inp.dum n q) := (inp.mem_obsOf _ _ _).mpr ⟨hn, rfl⟩
        rw [hnil] at this
        simp at this
      unfold pd_add_step
      rw [hv.dum_get hn hq]
      simp only [hx.slot_lt hv hq hr, if_true, hd _ hr, hne, if_false]
      refine ⟨_, rfl, ?_, ?_⟩
      · intro i hi
        by_cases hin : i = n
        · subst hin
          rw [setAt_same, g2 i (le_refl _)]
        · rw [setAt_ne _ _ _ _ hin]
          exact g1 i (by omega)
      · intro i hi
        rw [setAt_ne _ _ _ _ (by omega)]
        exact g2 i (by omega))
  exact ⟨S2, h4, hP⟩

/-- The update of dimension `q` inside a sweep, on a valid input in which every
category of `q` with an observation has a non-zero weight sum. -/
theorem pd_block_spec {inp : PdInput} (hv : PdValid inp) {x : PdIndex} (hx : PdIndexOk inp x)
    {w : Nat → ℚ} (hw : ∀ q < inp.Q, ∀ c < inp.size q, w (x.start q + c) = inp.weight q c)
    {q : Nat} (hq : q < inp.Q) (hreg : PdRegular inp q) (st : PdState) :
    ∃ st2, pd_block inp x w st q = some st2 ∧ st2.iter = st.iter ∧
      (∀ i < inp.N, st2.S i = st.S i + inp.update st.S q (inp.dum i q)) ∧
      (∀ i, inp.N ≤ i → st2.S i = st.S i) ∧
      (∀ c < inp.size q, st2.clusterDeriv (x.start q + c) =
        if inp.weight q c = 0 then none else some (inp.update st.S q c)) ∧
      (∀ k, PdOutside inp x q k → st2.clusterDeriv k = st.clusterDeriv k) ∧
      st2.ok = (st.ok || (List.range (inp.size q)).any (fun c => inp.exceeds st.S q c)) := by
  obtain ⟨cd1, h1, a1, a2⟩ := pd_zero_spec hv hx hq st.clusterDeriv
  obtain ⟨cd2, h2, b1, b2⟩ := pd_accum_spec hv hx hq st.S cd1 a1
  obtain ⟨co, h3, c1, c2, c3⟩ := pd_update_spec hv hx hw hq hreg st.S cd2 st.ok b1
  obtain ⟨S2, h4, d1, d2⟩ := pd_add_spec hv hx hq hreg st.S co.1 c1 st.S
  refine ⟨{ clusterDeriv := co.1, S := S2, ok := co.2, iter := st.iter }, ?_, rfl, d1, d2, c1,
    ?_, c3⟩
  · unfold pd_block
    rw [h1, Option.some_bind, h2, Option.some_bind, h3, Option.some_bind, h4]
    rfl
  · intro k hk
    show co.1 k = _
    rw [c2 k hk, b2 k hk, a2 k hk]

theorem PdInput.residual_update (inp : PdInput) (S S2 : Nat → ℚ) (q c : Nat) (u : ℚ)
    (h : ∀ i ∈ inp.obsOf q c, S2 i = S i + u) :
    inp.residual S2 q c = inp.residual S q c + u * inp.weight q c := by
  unfold PdInput.residual PdInput.weight PdInput.catSum
  rw [← List.sum_map_mul_left, ← List.sum_map_add]
  apply congrArg
  apply List.map_congr_left
  intro i hi
  rw [h i hi]
  ring

/-- One sweep on a valid input in which every category with an observation has a
non-zero weight sum: the flag `ok` at the end of the sweep tells whether an update
computed during the sweep exceeds `epsDeriv`. -/
theorem pd_sweep_spec {inp : PdInput} (hv : PdValid inp) {x : PdIndex} (hx : PdIndexOk inp x)
    {w : Nat → ℚ} (hw : ∀ q < inp.Q, ∀ c < inp.size q, w (x.start q + c) = inp.weight q c)
    (hreg : ∀ q < inp.Q, PdRegular inp q) (st : PdState) :
    ∃ st2, pd_sweep inp x w st = some st2 ∧ st2.iter = st.iter + 1 ∧
      (st2.ok = true ↔ PdExceeds inp x st2) := by
  unfold pd_sweep
  obtain ⟨t, ht, hP⟩ := foldlM_range_inv (pd_block inp x w)
    (fun m t => t.iter = st.iter + 1 ∧
      (t.ok = true ↔ ∃ q < m, ∃ c < inp.size q,
        pd_slot_exceeds inp t.clusterDeriv (x.start q + c) = true))
    inp.Q { st with iter := st.iter + 1, ok := false }
    ⟨rfl, by simp⟩
    (by
      intro m t hm ⟨g1, g2⟩
      obtain ⟨t2, ht2, k1, _, _, k4, k5, k6⟩ := pd_block_spec hv hx hw hm (hreg m hm) t
      refine ⟨t2, ht2, by rw [k1, g1], ?_⟩
      have hold : ∀ q < m, ∀ c < inp.size q,
          pd_slot_exceeds inp t2.clusterDeriv (x.start q + c) =
            pd_slot_exceeds inp t.clusterDeriv (x.start q + c) := by
        intro q hq c hc
        unfold pd_slot_exceeds
        rw [k5]
        intro c2 hc2 heq
        have := (hx.slot_inj hv (by omega) hc hm hc2 heq).1
        omega
      have hnew : ∀ c < inp.size m,
          pd_slot_exceeds inp t2.clusterDeriv (x.start m + c) = inp.exceeds t.S m c := by
        intro c hc
        unfold pd_slot_exceeds PdInput.exceeds
        rw [k4 c hc]
        by_cases hwz : inp.weight m c = 0
        · simp [hwz]
        · simp [hwz]
      rw [k6]
      simp only [Bool.or_eq_true, List.any_eq_true, List.mem_range]
      constructor
      · rintro (h | ⟨c, hc, he⟩)
        · obtain ⟨q, hq, c, hc, he⟩ := g2.mp h
          exact ⟨q, by omega, c, hc, by rw [hold q hq c hc]; exact he⟩
        · exact ⟨m, by omega, c, hc, by rw [hnew c hc]; exact he⟩
      · rintro ⟨q, hq, c, hc, he⟩
        by_cases hqm : q = m
        · subst hqm
          right
          exact ⟨c, hc, by rw [← hnew c hc]; exact he⟩
        · left
          have hq2 : q < m := by omega
          exact g2.mpr ⟨q, hq2, c, hc, by rw [← hold q hq2 c hc]; exact he⟩)
  exact ⟨t, ht, hP.1, hP.2⟩

/-- The `while` loop started after `k` sweeps with enough fuel: it ends after some
number of sweeps not greater than `iterMax`, in the state reached by that many
sweeps; an update exceeded `epsDeriv` in every earlier sweep, and none does in the last
one when the loop ends before `iterMax` sweeps. -/
theorem pd_loop_spec {inp : PdInput} (hv : PdValid inp) {x : PdIndex} (hx : PdIndexOk inp x)
    {w : Nat → ℚ} (hw : ∀ q < inp.Q, ∀ c < inp.size q, w (x.start q + c) = inp.weight q c)
    (hreg : ∀ q < inp.Q, PdRegular inp q) (S : Nat → ℚ) :
    ∀ (fuel k : Nat) (st : PdState), pd_after inp x w S k = some st → st.iter = k →
      k ≤ inp.iterMax → inp.iterMax ≤ fuel + k →
      (1 ≤ k → (st.ok = true ↔ PdExceeds inp x st)) → (k = 0 → st.ok = true) →
      (∀ j, 1 ≤ j → j < k → ∃ sj, pd_after inp x w S j = some sj ∧ PdExceeds inp x sj) →
      ∃ st2, pd_loop inp x w fuel st = some st2 ∧ st2.iter ≤ inp.iterMax ∧
        pd_after inp x w S st2.iter = some st2 ∧
        (∀ j, 1 ≤ j → j < st2.iter →
          ∃ sj, pd_after inp x w S j = some sj ∧ PdExceeds inp x sj) ∧
        (1 ≤ st2.iter → st2.iter < inp.iterMax → ¬ PdExceeds inp x st2) ∧
        (1 ≤ inp.iterMax → 1 ≤ st2.iter) := by
  intro fuel
  induction fuel with
  | zero =>
    intro k st hk hit hle hfuel hok h0 hprev
    have hkk : ¬ (st.iter < inp.iterMax) := by omega
    refine ⟨st, by simp [pd_loop, hkk], by omega, by rw [hit]; exact hk,
      by rw [hit]; exact hprev, fun _ h => absurd h hkk, by omega⟩
  | succ fuel ih =>
    intro k st hk hit hle hfuel hok h0 hprev
    by_cases hc : st.ok = true ∧ st.iter < inp.iterMax
    · obtain ⟨st2, hs2, hi2, hok2⟩ := pd_sweep_spec hv hx hw hreg st
      have hafter : pd_after inp x w S (k + 1) = some st2 := by
        show (pd_after inp x w S k).bind (pd_sweep inp x w) = some st2
        rw [hk]
        exact hs2
      obtain ⟨st3, h3, r1, r2, r3, r4, r5⟩ := ih (k + 1) st2 hafter (by omega) (by omega)
        (by omega) (fun _ => hok2) (fun h => absurd h (by omega))
        (by
          intro j hj1 hj2
          by_cases hjk : j = k
          · subst hjk
            exact ⟨st, hk, (hok hj1).mp hc.1⟩
          · exact hprev j hj1 (by omega))
      refine ⟨st3, ?_, r1, r2, r3, r4, r5⟩
      unfold pd_loop
      simp only [hc.1, hc.2, decide_True, Bool.and_self, if_true, hs2, Option.some_bind]
      exact h3
    · refine ⟨st, ?_, by omega, by rw [hit]; exact hk, by rw [hit]; exact hprev, ?_, ?_⟩
      · unfold pd_loop
        have : (st.ok && decide (st.iter < inp.iterMax)) = false := by
          rcases Bool.eq_false_or_eq_true st.ok with h | h
          · have : ¬ st.iter < inp.iterMax := fun hh => hc ⟨h, hh⟩
            simp [this]
          · simp [h]
        simp [this]
      · intro h1 h2 hex
        exact hc ⟨(hok (by omega)).mpr hex, h2⟩
      · intro h1
        by_contra hlt
        have hk0 : k = 0 := by omega
        exact hc ⟨h0 hk0, by omega⟩

/-- The block update of the fixed-point solver on numbers zeroes the block residual.
On a valid input, in exact arithmetic, the update of a dimension `q` in which every category
with an observation has a non-zero weight sum is defined from any state, and for every
category `c` of `q`: the precomputed entry of `sum_lld2` is the sum of `ll_d2` over the
observations of `c`; when it is non-zero, the sum over the observations `i` of `c` of
`dx_dother(i) + S(i) * ll_d2(i)` is zero for the value `S` after the update, and the
update added to every observation of `c` is minus the value of that sum before the
update divided by the weight sum. -/
theorem pd_block_regular (inp : PdInput) (hv : PdValid inp) (q : Nat)
    (hq : q < inp.Q) (hreg : PdRegular inp q) (st : PdState) :
    ∃ x w st2, pd_index inp = some x ∧ pd_weights inp x = some w ∧
      pd_block inp x w st q = some st2 ∧
      ∀ c < inp.size q, w (x.start q + c) = inp.weight q c ∧
        (w (x.start q + c) ≠ 0 →
          inp.residual st2.S q c = 0 ∧
          ∀ i ∈ inp.obsOf q c,
            st2.S i = st.S i + -(inp.residual st.S q c) / w (x.start q + c)) := by
  obtain ⟨x, hx, hxok⟩ := pd_index_ok hv
  obtain ⟨w, hw, hwok⟩ := pd_weights_ok hv hxok
  obtain ⟨st2, hs2, _, k2, _, _, _, _⟩ := pd_block_spec hv hxok hwok hq hreg st
  refine ⟨x, w, st2, hx, hw, hs2, ?_⟩
  intro c hc
  refine ⟨hwok q hq c hc, ?_⟩
  intro hne
  rw [hwok q hq c hc] at hne ⊢
  have hadd : ∀ i ∈ inp.obsOf q c,
      st2.S i = st.S i + -(inp.residual st.S q c) / inp.weight q c := by
    intro i hi
    obtain ⟨hiN, hic⟩ := (inp.mem_obsOf q c i).mp hi
    rw [k2 i hiN, hic]
    rfl
  refine ⟨?_, hadd⟩
  rw [inp.residual_update st.S st2.S q c _ hadd]
  field_simp

/-- The block update on the input `pd_example`, for the first dimension and the initial
state. -/
theorem pd_block_regular_witness :
    PdValid pd_example ∧ PdRegular pd_example 0 ∧
    ∃ x w st2, pd_index pd_example = some x ∧ pd_weights pd_example x = some w ∧
      pd_block pd_example x w (pd_start (fun _ => 0)) 0 = some st2 ∧
      ∀ c < pd_example.size 0, w (x.start 0 + c) = pd_example.weight 0 c ∧
        (w (x.start 0 + c) ≠ 0 →
          pd_example.residual st2.S 0 c = 0 ∧
          ∀ i ∈ pd_example.obsOf 0 c,
            st2.S i = (pd_start (fun _ => 0)).S i +
              -(pd_example.residual (pd_start (fun _ => 0)).S 0 c) / w (x.start 0 + c)) :=
  ⟨by decide, by decide!,
    pd_block_regular pd_example (by decide) 0 (by decide) (by decide!)
      (pd_start (fun _ => 0))⟩

theorem pd_run_eq {inp : PdInput} {x : PdIndex} {w S : Nat → ℚ} (hx : pd_index inp = some x)
    (hw : pd_weights inp x = some w) (hS : pd_init inp = some S) :
    pd_run inp = pd_loop inp x w inp.iterMax (pd_start S) := by
  unfold pd_run
  rw [hx, Option.some_bind, hw, Option.some_bind, hS, Option.some_bind]

/-- The stopping rule of the fixed-point solver on numbers.  On a valid input in which
every category with an observation has a non-zero weight sum, `cpp_partialDerivative_other`
returns after a number `iter` of sweeps with `iter ≤ iterMax` (and `1 ≤ iter` when
`1 ≤ iterMax`), in the state reached by `iter` sweeps from the initial value.  It stops
exactly when the cap is reached or no update of the sweep exceeds `epsDeriv`: after
every earlier sweep `j < iter` some per-category update computed during that sweep
(held by `clusterDeriv`) had an absolute value greater than `epsDeriv`, so another
sweep was run; and when `iter < iterMax`, every update of the last sweep has an
absolute value not greater than `epsDeriv`. -/
theorem pd_stopping_regular (inp : PdInput) (hv : PdValid inp)
    (hreg : ∀ q < inp.Q, PdRegular inp q) :
    ∃ x w S st, pd_index inp = some x ∧ pd_weights inp x = some w ∧ pd_init inp = some S ∧
      pd_run inp = some st ∧
      cpp_partialDerivative_other inp = some ((List.range inp.N).map st.S) ∧
      st.iter ≤ inp.iterMax ∧ (1 ≤ inp.iterMax → 1 ≤ st.iter) ∧
      pd_after inp x w S st.iter = some st ∧
      (∀ j, 1 ≤ j → j < st.iter →
        ∃ sj, pd_after inp x w S j = some sj ∧ PdExceeds inp x sj) ∧
      (1 ≤ st.iter → st.iter < inp.iterMax →
        ∀ q < inp.Q, ∀ c < inp.size q, ∀ v, st.clusterDeriv (x.start q + c) = some v →
          |v| ≤ inp.epsDeriv) := by
  obtain ⟨x, hx, hxok⟩ := pd_index_ok hv
  obtain ⟨w, hw, hwok⟩ := pd_weights_ok hv hxok
  obtain ⟨S, hS, _⟩ := pd_init_ok hv
  obtain ⟨st, hst, r1, r2, r3, r4, r5⟩ := pd_loop_spec hv hxok hwok hreg S inp.iterMax 0
    (pd_start S) rfl rfl (Nat.zero_le _) (by omega) (fun h => absurd h (by omega))
    (fun _ => rfl) (fun j h1 h2 => absurd h2 (by omega))
  have hrun : pd_run inp = some st := by rw [pd_run_eq hx hw hS]; exact hst
  refine ⟨x, w, S, st, hx, hw, hS, hrun, ?_, r1, r5, r2, r3, ?_⟩
  · unfold cpp_partialDerivative_other
    rw [hrun]
    rfl
  · intro h1 h2 q hq c hc v hv2
    by_contra hgt
    apply r4 h1 h2
    refine ⟨q, hq, c, hc, ?_⟩
    unfold pd_slot_exceeds
    rw [hv2]
    simpa using hgt

theorem pd_example_regular : ∀ q < pd_example.Q, PdRegular pd_example q := by decide!

/-- The stopping rule on the input `pd_example`: the loop ends after 6 sweeps, before
the cap of 10. -/
theorem pd_stopping_regular_witness :
    PdValid pd_example ∧ (pd_run pd_example).map PdState.iter = some 6 ∧
    ∃ st, pd_run pd_example = some st ∧ st.iter ≤ pd_example.iterMax := by
  refine ⟨by decide, by decide!, ?_⟩
  obtain ⟨_, _, _, st, _, _, _, h1, _, h2, _⟩ :=
    pd_stopping_regular pd_example (by decide) pd_example_regular
  exact ⟨st, h1, h2⟩

/-- The result of `cpppar_matprod` does not depend on the thread count. -/
theorem cpppar_matprod_threads (x y : NumMat) (nthreads : Nat) :
    cpppar_matprod x y nthreads = cpppar_matprod x y 0 := rfl

/-- C17 fails on the code.  For `x = (1)`, with one row and one column, and
`y = (2 3)`, with one row and two columns, `cpppar_matprod` returns the matrix `(2)`
with one column, for every thread count, whereas `x %*% y` is `(2 3)`.  For `x = (1 1)`
and `y` the column `(2 3)`, the loop over `k < K = 2` reads `y(l, 1)` outside the
storage of `y`, which has one column. -/
theorem cpppar_matprod_not_product :
    (∀ nthreads, cpppar_matprod ⟨1, 1, [1]⟩ ⟨1, 2, [2, 3]⟩ nthreads = some ⟨1, 1, [2]⟩) ∧
    matprod ⟨1, 1, [1]⟩ ⟨1, 2, [2, 3]⟩ = ⟨1, 2, [2, 3]⟩ ∧
    (∀ nthreads, cpppar_matprod ⟨1, 1, [1]⟩ ⟨1, 2, [2, 3]⟩ nthreads ≠
      some (matprod ⟨1, 1, [1]⟩ ⟨1, 2, [2, 3]⟩)) ∧
    (∀ nthreads, cpppar_matprod ⟨1, 2, [1, 1]⟩ ⟨2, 1, [2, 3]⟩ nthreads = none) ∧
    matprod ⟨1, 2, [1, 1]⟩ ⟨2, 1, [2, 3]⟩ = ⟨1, 1, [5]⟩ := by
  have h1 : cpppar_matprod ⟨1, 1, [1]⟩ ⟨1, 2, [2, 3]⟩ 0 = some ⟨1, 1, [2]⟩ := by decide!
  have h2 : cpppar_matprod ⟨1, 2, [1, 1]⟩ ⟨2, 1, [2, 3]⟩ 0 = none := by decide!
  have h3 : matprod ⟨1, 1, [1]⟩ ⟨1, 2, [2, 3]⟩ = ⟨1, 2, [2, 3]⟩ := by decide!
  refine ⟨fun n => (cpppar_matprod_threads _ _ n).trans h1, h3, ?_,
    fun n => (cpppar_matprod_threads _ _ n).trans h2, by decide!⟩
  intro n
  rw [(cpppar_matprod_threads _ _ n).trans h1, h3]
  decide

theorem int32_eq (z : Int) (h1 : 0 ≤ z) (h2 : z < 2147483648) : int32 z = z := by
  unfold int32
  omega

theorem PanelOk.time_lt {id time : List Int} (hp : PanelOk id time) {a b : Nat}
    (hab : a < b) (hb : b < id.length) (h : id.getD a 0 = id.getD b 0) :
    time.getD a 0 < time.getD b 0 := hp.2.2 b hb a hab h

theorem LagMatch.lt {id time : List Int} {nlag : Int} (hp : PanelOk id time) (hn : 0 < nlag)
    {i j : Nat} (h : LagMatch id time nlag i j) : i < j := by
  obtain ⟨hi, hj, hid, ht⟩ := h
  rcases Nat.lt_trichotomy i j with h1 | h1 | h1
  · exact h1
  · subst h1; omega
  · have := hp.time_lt h1 hi hid.symm
    omega

theorem LagMatch.lag_unique {id time : List Int} {nlag : Int} (hp : PanelOk id time)
    {i i2 j : Nat} (h : LagMatch id time nlag i j) (h2 : LagMatch id time nlag i2 j) :
    i = i2 := by
  obtain ⟨hi, _, hid, ht⟩ := h
  obtain ⟨hi2, _, hid2, ht2⟩ := h2
  rcases Nat.lt_trichotomy i i2 with h1 | h1 | h1
  · have := hp.time_lt h1 hi2 (hid.trans hid2.symm)
    omega
  · exact h1
  · have := hp.time_lt h1 hi (hid2.trans hid.symm)
    omega

/-- The inner loop of the lags, started at `j` for the observation `i`: it ends, and
all the pairs of the observations up to the new value of `i` are recorded. -/
theorem lag_inner_spec {id time : List Int} {nlag : Int} (hp : PanelOk id time)
    (hs : LagSpanOk id time) (hn : 0 < nlag) (i : Nat) (hi : i < id.length) :
    ∀ (fuel j : Nat) (res : Nat → Option Int), i < j → j ≤ id.length → id.length - j ≤ fuel →
      (∀ j2, i < j2 → j2 < j →
        id.getD j2 0 = id.getD i 0 ∧ time.getD j2 0 - time.getD i 0 ≤ nlag) →
      LagInv id time nlag i j res →
      ∃ i2 res2, lag_inner id time nlag (id.getD i 0) (time.getD i 0) ((i : Int) + 1) fuel i j
          res = some (i2, res2) ∧ i ≤ i2 ∧ i2 < id.length ∧
        LagInv id time nlag (i2 + 1) 0 res2 := by
  have hfinish : ∀ j res, (∀ i2 j2, LagMatch id time nlag i2 j2 → i2 = i → j2 < j) →
      LagInv id time nlag i j res → LagInv id time nlag (i + 1) 0 res := by
    intro j res hall ⟨hA, hB⟩
    constructor
    · intro i2 j2 hm hc
      rcases hc with hc | hc
      · by_cases hii : i2 = i
        · exact hA i2 j2 hm (Or.inr ⟨hii, hall i2 j2 hm hii⟩)
        · exact hA i2 j2 hm (Or.inl (by omega))
      · omega
    · intro j2 v hv
      obtain ⟨i2, e, hm, hc⟩ := hB j2 v hv
      exact ⟨i2, e, hm, Or.inl (by omega)⟩
  intro fuel
  induction fuel with
  | zero =>
    intro j res hij hj hfuel hsame hinv
    have hjn : ¬ j < id.length := by omega
    refine ⟨i, res, by simp [lag_inner, hjn], le_refl _, hi, hfinish j res ?_ hinv⟩
    intro i2 j2 hm _
    have := hm.2.1
    omega
  | succ fuel ih =>
    intro j res hij hj hfuel hsame hinv
    unfold lag_inner
    by_cases hjn : j < id.length
    · have htj : time[j]? = some (time.getD j 0) :=
        getElem?_eq_some_getD _ _ _ (by rw [hp.1]; exact hjn)
      have hidj : id[j]? = some (id.getD j 0) := getElem?_eq_some_getD _ _ _ hjn
      simp only [hjn, if_true, htj, hidj]
      by_cases hne : id.getD j 0 ≠ id.getD i 0
      · -- another id starts at `j`
        simp only [hne, if_true, ne_eq, not_false_eq_true]
        refine ⟨j - 1, res, rfl, by omega, by omega, ?_⟩
        have hj1 : j - 1 + 1 = j := by omega
        rw [hj1]
        have hblock : ∀ j2, j2 < id.length → i < j2 → id.getD j2 0 = id.getD i 0 → j2 < j := by
          intro j2 hj2 hij2 hid2
          by_contra hge
          have hjj : j < j2 := by
            rcases Nat.lt_or_ge j j2 with h | h
            · exact h
            · have : j2 = j := by omega
              subst this
              exact absurd hid2 hne
          exact hne (hp.2.1 j2 hj2 j hjj i hij hid2.symm)
        constructor
        · intro i2 j2 hm hc
          have hlt := hm.lt hp hn
          have hi2j : i2 < j := by omega
          rcases Nat.lt_trichotomy i2 i with h | h | h
          · exact hinv.1 i2 j2 hm (Or.inl h)
          · subst h
            exact hinv.1 i2 j2 hm (Or.inr ⟨rfl, hblock j2 hm.2.1 hlt hm.2.2.1.symm⟩)
          · exfalso
            have hs := hsame i2 h hi2j
            have hj2 : j2 < j := hblock j2 hm.2.1 (by omega) (hm.2.2.1.symm.trans hs.1)
            have hs2 := hsame j2 (by omega) hj2
            have ht := hp.time_lt h hm.1 hs.1.symm
            have := hm.2.2.2
            omega
        · intro j2 v hv
          obtain ⟨i2, e, hm, hc⟩ := hinv.2 j2 v hv
          exact ⟨i2, e, hm, Or.inl (by omega)⟩
      · have heq : id.getD j 0 = id.getD i 0 := by
          by_contra h
          exact hne h
        have htlt := hp.time_lt hij hjn heq.symm
        have hw : int32 (time.getD j 0 - time.getD i 0) = time.getD j 0 - time.getD i 0 :=
          int32_eq _ (by omega) (hs j hjn i hij heq.symm)
        simp only [heq, ne_eq, not_true_eq_false, if_false, hw]
        by_cases hgt : time.getD j 0 - time.getD i 0 > nlag
        · -- too far
          simp only [hgt, if_true]
          refine ⟨i, res, rfl, le_refl _, hi, hfinish j res ?_ hinv⟩
          intro i2 j2 hm hii
          subst hii
          by_contra hge
          have hle : time.getD j 0 ≤ time.getD j2 0 := by
            rcases Nat.lt_or_ge j j2 with h | h
            · exact le_of_lt (hp.time_lt h hm.2.1 (heq.trans hm.2.2.1))
            · have : j2 = j := by omega
              subst this
              exact le_refl _
          have := hm.2.2.2
          omega
        · simp only [hgt, if_false]
          have hz : ¬ time.getD j 0 - time.getD i 0 = 0 := by omega
          simp only [hz, if_false]
          have hsame2 : ∀ j2, i < j2 → j2 < j + 1 →
              id.getD j2 0 = id.getD i 0 ∧ time.getD j2 0 - time.getD i 0 ≤ nlag := by
            intro j2 h1 h2
            by_cases hjj : j2 = j
            · subst hjj
              exact ⟨heq, by omega⟩
            · exact hsame j2 h1 (by omega)
          by_cases hlt : time.getD j 0 - time.getD i 0 < nlag
          · -- not far enough
            simp only [hlt, if_true]
            apply ih (j + 1) res (by omega) (by omega) (by omega) hsame2
            constructor
            · intro i2 j2 hm hc
              rcases hc with hc | ⟨hc1, hc2⟩
              · exact hinv.1 i2 j2 hm (Or.inl hc)
              · subst hc1
                have : j2 ≠ j := by
                  intro hh
                  subst hh
                  have := hm.2.2.2
                  omega
                exact hinv.1 i2 j2 hm (Or.inr ⟨rfl, by omega⟩)
            · intro j2 v hv
              obtain ⟨i2, e, hm, hc⟩ := hinv.2 j2 v hv
              refine ⟨i2, e, hm, ?_⟩
              rcases hc with hc | ⟨hc1, hc2⟩
              · exact Or.inl hc
              · exact Or.inr ⟨hc1, by omega⟩
          · -- match
            have hnl : time.getD j 0 - time.getD i 0 = nlag := by omega
            rw [if_neg hlt, if_pos hnl]
            have hmatch : LagMatch id time nlag i j := ⟨hi, hjn, heq.symm, hnl⟩
            apply ih (j + 1) _ (by omega) (by omega) (by omega) hsame2
            constructor
            · intro i2 j2 hm hc
              by_cases hjj : j2 = j
              · subst hjj
                have := hm.lag_unique hp hmatch
                subst this
                simp
              · rw [setAt_ne _ _ _ _ hjj]
                rcases hc with hc | ⟨hc1, hc2⟩
                · exact hinv.1 i2 j2 hm (Or.inl hc)
                · exact hinv.1 i2 j2 hm (Or.inr ⟨hc1, by omega⟩)
            · intro j2 v hv
              by_cases hjj : j2 = j
              · subst hjj
                rw [setAt_same] at hv
                cases hv
                exact ⟨i, rfl, hmatch, Or.inr ⟨rfl, by omega⟩⟩
              · rw [setAt_ne _ _ _ _ hjj] at hv
                obtain ⟨i2, e, hm, hc⟩ := hinv.2 j2 v hv
                refine ⟨i2, e, hm, ?_⟩
                rcases hc with hc | ⟨hc1, hc2⟩
                · exact Or.inl hc
                · exact Or.inr ⟨hc1, by omega⟩
    · simp only [hjn, if_false]
      refine ⟨i, res, rfl, le_refl _, hi, hfinish j res ?_ hinv⟩
      intro i2 j2 hm _
      have := hm.2.1
      omega

/-- The outer loop of the lags: it ends, and `res` records exactly the pairs of an
observation and its lag. -/
theorem lag_outer_spec {id time : List Int} {nlag : Int} (hp : PanelOk id time)
    (hs : LagSpanOk id time) (hn : 0 < nlag) :
    ∀ (fuel i : Nat) (res : Nat → Option Int), id.length - i ≤ fuel →
      LagInv id time nlag i 0 res →
      ∃ res2, lag_outer id time nlag fuel i res = some res2 ∧
        LagInv id time nlag id.length 0 res2 := by
  have hend : ∀ i res, id.length ≤ i → LagInv id time nlag i 0 res →
      LagInv id time nlag id.length 0 res := by
    intro i res hge ⟨hA, hB⟩
    constructor
    · intro i2 j2 hm _
      exact hA i2 j2 hm (Or.inl (by have := hm.1; omega))
    · intro j2 v hv
      obtain ⟨i2, e, hm, _⟩ := hB j2 v hv
      exact ⟨i2, e, hm, Or.inl hm.1⟩
  intro fuel
  induction fuel with
  | zero =>
    intro i res hfuel hinv
    have : ¬ i < id.length := by omega
    exact ⟨res, by simp [lag_outer, this], hend i res (by omega) hinv⟩
  | succ fuel ih =>
    intro i res hfuel hinv
    unfold lag_outer
    by_cases hi : i < id.length
    · have hti : time[i]? = some (time.getD i 0) :=
        getElem?_eq_some_getD _ _ _ (by rw [hp.1]; exact hi)
      have hidi : id[i]? = some (id.getD i 0) := getElem?_eq_some_getD _ _ _ hi
      simp only [hi, if_true, hti, hidi]
      obtain ⟨i2, res2, h1, h2, h3, h4⟩ := lag_inner_spec hp hs hn i hi id.length (i + 1) res
        (by omega) (by omega) (by omega) (fun j2 a b => absurd b (by omega))
        (by
          constructor
          · intro i2 j2 hm hc
            rcases hc with hc | ⟨hc1, hc2⟩
            · exact hinv.1 i2 j2 hm (Or.inl hc)
            · subst hc1
              have := hm.lt hp hn
              omega
          · intro j2 v hv
            obtain ⟨i2, e, hm, hc⟩ := hinv.2 j2 v hv
            refine ⟨i2, e, hm, ?_⟩
            rcases hc with hc | ⟨_, hc2⟩
            · exact Or.inl hc
            · omega)
      rw [h1]
      exact ih (i2 + 1) res2 (by omega) h4
    · simp only [hi, if_false]
      exact ⟨res, rfl, hend i res (by omega) hinv⟩

theorem lag_init_inv (id time : List Int) (nlag : Int) :
    LagInv id time nlag 0 0 (fun _ => none) := by
  constructor
  · intro i2 j2 _ hc
    omega
  · intro j2 v hv
    cases hv

/-- C18 (counterexample).  On the panel `lag_wide_id`, whose observations of id `1`
are contiguous with strictly increasing times, the observation at position `1` is the
lag `1` of the observation at position `2` (`time[2] - time[1] = 1`), but the routine
returns `NA` there: from `i = 0` the differences `time[1] - time[0]` and
`time[2] - time[0]` exceed `2^31` and wrap to `-3` and `-2` in the `int` `diff_time`,
so the inner loop runs to the change of id and the outer loop skips `i = 1`. -/
theorem cpp_lag_obs_lags_counterexample :
    PanelOk lag_wide_id lag_wide_time ∧ LagMatch lag_wide_id lag_wide_time 1 1 2 ∧
    cpp_lag_obs lag_wide_id lag_wide_time 1 = some [none, none, none, none] := by
  refine ⟨by decide, by decide, by decide⟩

/-- C18 (`cpp_lag_obs` computes lags), amended.  For every panel in which the
observations of each id are contiguous and have strictly increasing time, and in which
the times of the observations of an id span less than `2^31`, the routine returns a
vector `r` with one entry per observation.  With `nlag > 0`, for every position `j`:
`r[j] = i + 1` when `i` is a position with `id[i] = id[j]` and
`time[j] - time[i] = nlag`, and `r[j]` is `NA` (`none`) when there is no such position.
With `nlag = 0`, `r[j] = j + 1` for every `j`. -/
theorem cpp_lag_obs_lags (id time : List Int) (nlag : Int) (hp : PanelOk id time)
    (hs : LagSpanOk id time) (hn : 0 ≤ nlag) :
    ∃ r, cpp_lag_obs id time nlag = some r ∧ r.length = id.length ∧
      ∀ j < id.length,
        (nlag = 0 → r.getD j none = some ((j : Int) + 1)) ∧
        (0 < nlag →
          (∀ i, LagMatch id time nlag i j → r.getD j none = some ((i : Int) + 1)) ∧
          ((¬ ∃ i, LagMatch id time nlag i j) → r.getD j none = none)) := by
  by_cases hz : nlag = 0
  · subst hz
    refine ⟨(List.range id.length).map fun (i : Nat) => some ((i : Int) + 1),
      by simp [cpp_lag_obs],
      by simp, ?_⟩
    intro j hj
    refine ⟨fun _ => getD_map_range _ _ _ hj _, fun h => absurd h (lt_irrefl _)⟩
  · have hpos : 0 < nlag := by omega
    obtain ⟨res, hres, hA, hB⟩ := lag_outer_spec hp hs hpos id.length 0 (fun _ => none)
      (by omega) (lag_init_inv id time nlag)
    refine ⟨(List.range id.length).map res, ?_, by simp, ?_⟩
    · unfold cpp_lag_obs
      rw [if_pos hpos, hres]
      rfl
    · intro j hj
      refine ⟨fun h => absurd h hz, fun _ => ⟨?_, ?_⟩⟩
      · intro i hm
        rw [getD_map_range _ _ _ hj]
        exact hA i j hm (Or.inl hm.1)
      · intro hno
        rw [getD_map_range _ _ _ hj]
        cases hr : res j with
        | none => rfl
        | some v =>
          obtain ⟨i, _, hm, _⟩ := hB j v hr
          exact absurd ⟨i, hm⟩ hno

/-- C18 on the panel `lag_example_id`, for the lag `1`. -/
theorem cpp_lag_obs_lags_witness :
    PanelOk lag_example_id lag_example_time ∧
    LagSpanOk lag_example_id lag_example_time ∧
    cpp_lag_obs lag_example_id lag_example_time 1 = some [none, some 1, none, none, some 4] ∧
    ∃ r, cpp_lag_obs lag_example_id lag_example_time 1 = some r ∧ r.length = 5 := by
  refine ⟨by decide, by decide, by decide, ?_⟩
  obtain ⟨r, h1, h2, _⟩ :=
    cpp_lag_obs_lags lag_example_id lag_example_time 1 (by decide) (by decide) (by decide)
  exact ⟨r, h1, h2⟩

/-- C19 fails on the code.  For every panel and every `nlag < 0`, the branch of the
leads starts at `i = nobs` (line 953) and its first reads `id[i]` and `time[i]` (lines
956-957) are at the index `nobs`, outside the vectors: the routine has no defined
result.  The branch of the lags starts at `i = 0`, inside the vectors. -/
theorem cpp_lag_obs_lead_reads_outside (id time : List Int) (nlag : Int) (hn : nlag < 0) :
    readAt id (id.length : Int) = none ∧ cpp_lag_obs id time nlag = none := by
  have h1 : readAt id (id.length : Int) = none := by
    unfold readAt
    simp
  refine ⟨h1, ?_⟩
  unfold cpp_lag_obs
  rw [if_neg (by omega), if_pos hn]
  unfold lead_outer
  simp [h1]

/-- C19 on the panel `lag_example_id`, for the lead `1`: the first read is `id[5]` in a
vector of length `5`; started one position lower, at `i = nobs - 1`, the loops of the
leads give the leads `2, NA, NA, 5, NA`. -/
theorem cpp_lag_obs_lead_reads_outside_witness :
    PanelOk lag_example_id lag_example_time ∧
    readAt lag_example_id 5 = none ∧
    cpp_lag_obs lag_example_id lag_example_time (-1) = none ∧
    (lead_outer lag_example_id lag_example_time 1 6 4 (fun _ => none)).map
      (fun res => (List.range 5).map res) = some [some 2, none, none, some 5, none] :=
  ⟨by decide,
    (cpp_lag_obs_lead_reads_outside lag_example_id lag_example_time (-1) (by decide)).1,
    (cpp_lag_obs_lead_reads_outside lag_example_id lag_example_time (-1) (by decide)).2,
    by decide⟩

theorem occursBelow_succ (dum : List Int) (d : Nat) :
    occursBelow dum (d + 1) = occursBelow dum d + occurs dum d := by
  unfold occursBelow
  rw [List.range_succ, List.map_append, List.sum_append]
  simp

theorem occursBelow_mono (dum : List Int) {d d2 : Nat} (h : d ≤ d2) :
    occursBelow dum d ≤ occursBelow dum d2 := by
  induction d2 with
  | zero =>
    have : d = 0 := by omega
    subst this
    exact le_refl _
  | succ n ih =>
    by_cases hd : d = n + 1
    · subst hd; exact le_refl _
    · rw [occursBelow_succ]
      have := ih (by omega)
      omega

theorem occursBelow_le (dum : List Int) (d : Nat) : occursBelow dum d ≤ d := by
  induction d with
  | zero => simp [occursBelow]
  | succ n ih =>
    rw [occursBelow_succ]
    unfold occurs
    split <;> omega

theorem countP_le_succ (l : List Int) (d : Int) :
    l.countP (fun v => decide (v ≤ d + 1)) =
      l.countP (fun v => decide (v ≤ d)) + l.count (d + 1) := by
  induction l with
  | nil => simp
  | cons a rest ih =>
    rw [List.countP_cons, List.countP_cons, List.count_cons, ih]
    by_cases h1 : a ≤ d
    · have h2 : a ≤ d + 1 := by omega
      have h3 : ¬ a = d + 1 := by omega
      simp [h1, h2, h3]
      omega
    · by_cases h3 : a = d + 1
      · subst h3
        simp
        omega
      · have h2 : ¬ a ≤ d + 1 := by omega
        simp [h1, h2, h3]

/-- With values from `1` on, the number of distinct values not greater than `d` is the
number of values among `1, ..., d` that occur. -/
theorem distinctUpTo_eq (dum : List Int) (h1 : ∀ v ∈ dum, 1 ≤ v) (d : Nat) :
    distinctUpTo dum (d : Int) = occursBelow dum d := by
  unfold distinctUpTo
  rw [← List.countP_eq_length_filter]
  induction d with
  | zero =>
    have : occursBelow dum 0 = 0 := by simp [occursBelow]
    rw [this, List.countP_eq_zero]
    intro v hv
    have := h1 v (List.mem_dedup.mp hv)
    simp
    omega
  | succ n ih =>
    rw [occursBelow_succ, ← ih]
    have := countP_le_succ dum.dedup (n : Int)
    rw [Nat.cast_succ, this]
    congr 1
    unfold occurs
    by_cases hm : ((n : Int) + 1) ∈ dum
    · rw [if_pos hm]
      exact List.count_eq_one_of_mem (List.nodup_dedup dum) (List.mem_dedup.mpr hm)
    · rw [if_neg hm]
      exact List.count_eq_zero_of_not_mem (fun h => hm (List.mem_dedup.mp h))

/-- Every number from `1` to the number of values that occur is the rank of a value
that occurs. -/
theorem occursBelow_onto (dum : List Int) :
    ∀ (d v : Nat), 1 ≤ v → v ≤ occursBelow dum d →
      ∃ d2, d2 < d ∧ ((d2 : Int) + 1) ∈ dum ∧ occursBelow dum (d2 + 1) = v := by
  intro d
  induction d with
  | zero =>
    intro v h1 h2
    simp [occursBelow] at h2
    omega
  | succ n ih =>
    intro v h1 h2
    by_cases hle : v ≤ occursBelow dum n
    · obtain ⟨d2, hd2, hm, he⟩ := ih v h1 hle
      exact ⟨d2, by omega, hm, he⟩
    · rw [occursBelow_succ] at h2
      have hocc : occurs dum n = 1 := by
        unfold occurs at h2 ⊢
        split at h2
        · simp [*]
        · omega
      refine ⟨n, by omega, ?_, ?_⟩
      · unfold occurs at hocc
        by_contra hm
        rw [if_neg hm] at hocc
        omega
      · rw [occursBelow_succ]
        omega

theorem mapM_option_eq {α β : Type} (f : α → Option β) (g : α → β) :
    ∀ (l : List α), (∀ d ∈ l, f d = some (g d)) → l.mapM f = some (l.map g) := by
  intro l
  induction l with
  | nil => intro _; rfl
  | cons a rest ih =>
    intro h
    rw [List.mapM_cons, h a (List.mem_cons_self _ _), ih (fun d hd => h d (List.mem_cons_of_mem _ hd))]
    rfl

theorem occurs_congr {l l2 : List Int} (h : ∀ v, v ∈ l ↔ v ∈ l2) (k : Nat) :
    occurs l k = occurs l2 k := by
  unfold occurs
  by_cases hm : ((k : Int) + 1) ∈ l
  · rw [if_pos hm, if_pos ((h _).mp hm)]
  · rw [if_neg hm, if_neg (fun hh => hm ((h _).mpr hh))]

theorem update_mark_spec (k_max : Nat) :
    ∀ (rest pre : List Int) (uv : Nat → Nat) (total : Nat),
      (∀ d ∈ rest, 1 ≤ d ∧ d ≤ (k_max : Int)) → MarkInv k_max pre uv total →
      ∃ uv2 total2 pre2, update_mark k_max rest uv total = some (uv2, total2) ∧
        MarkInv k_max pre2 uv2 total2 ∧ (∀ v, v ∈ pre2 → v ∈ pre ∨ v ∈ rest) ∧
        (total2 = k_max ∨ ∀ v, v ∈ pre2 ↔ (v ∈ pre ∨ v ∈ rest)) := by
  intro rest
  induction rest with
  | nil =>
    intro pre uv total _ hinv
    exact ⟨uv, total, pre, rfl, hinv, fun v hv => Or.inl hv, Or.inr (fun v => by simp)⟩
  | cons d rest ih =>
    intro pre uv total hval hinv
    have hd := hval d (List.mem_cons_self _ _)
    have hrest : ∀ d ∈ rest, 1 ≤ d ∧ d ≤ (k_max : Int) :=
      fun x hx => hval x (List.mem_cons_of_mem _ hx)
    have hk0 : (d - 1).toNat < k_max := by omega
    have hk0d : (((d - 1).toNat : Nat) : Int) + 1 = d := by omega
    unfold update_mark
    rw [if_pos hd]
    by_cases hz : uv (d - 1).toNat = 0
    · rw [if_pos hz]
      have hnot : d ∉ pre := by
        intro hin
        have := hinv.1 _ hk0
        rw [hz] at this
        unfold occurs at this
        rw [hk0d, if_pos hin] at this
        omega
      have hinv2 : MarkInv k_max (pre ++ [d]) (setAt uv (d - 1).toNat 1) (total + 1) := by
        constructor
        · intro k hk
          by_cases hkk : k = (d - 1).toNat
          · subst hkk
            rw [setAt_same]
            unfold occurs
            rw [hk0d, if_pos (by simp)]
          · rw [setAt_ne _ _ _ _ hkk, hinv.1 k hk]
            unfold occurs
            have hne : ((k : Int) + 1) ≠ d := by omega
            by_cases hm : ((k : Int) + 1) ∈ pre
            · rw [if_pos hm, if_pos (by simp [hm])]
            · rw [if_neg hm, if_neg (by simp [hm, hne])]
        · have := sum_map_setAt uv k_max (d - 1).toNat 1 hk0
          rw [hz] at this
          rw [hinv.2]
          omega
      by_cases hfull : total + 1 = k_max
      · rw [if_pos hfull]
        refine ⟨_, _, pre ++ [d], rfl, hinv2, ?_, Or.inl hfull⟩
        intro v hv
        rcases List.mem_append.mp hv with h | h
        · exact Or.inl h
        · right
          rw [List.mem_singleton] at h
          rw [h]
          exact List.mem_cons_self _ _
      · rw [if_neg hfull]
        obtain ⟨uv2, total2, pre2, h1, h2, h3, h4⟩ := ih (pre ++ [d]) _ _ hrest hinv2
        refine ⟨uv2, total2, pre2, h1, h2, ?_, ?_⟩
        · intro v hv
          rcases h3 v hv with h | h
          · rcases List.mem_append.mp h with h | h
            · exact Or.inl h
            · right
              rw [List.mem_singleton] at h
              rw [h]
              exact List.mem_cons_self _ _
          · exact Or.inr (List.mem_cons_of_mem _ h)
        · rcases h4 with h | h
          · exact Or.inl h
          · right
            intro v
            rw [h v]
            simp only [List.mem_append, List.mem_singleton, List.mem_cons]
            tauto
    · rw [if_neg hz]
      have hin : d ∈ pre := by
        by_contra hnot
        have := hinv.1 _ hk0
        unfold occurs at this
        rw [hk0d, if_neg hnot] at this
        exact hz this
      obtain ⟨uv2, total2, pre2, h1, h2, h3, h4⟩ := ih pre uv total hrest hinv
      refine ⟨uv2, total2, pre2, h1, h2, ?_, ?_⟩
      · intro v hv
        rcases h3 v hv with h | h
        · exact Or.inl h
        · exact Or.inr (List.mem_cons_of_mem _ h)
      · rcases h4 with h | h
        · exact Or.inl h
        · right
          intro v
          rw [h v]
          simp only [List.mem_cons]
          constructor
          · rintro (hh | hh)
            · exact Or.inl hh
            · exact Or.inr (Or.inr hh)
          · rintro (hh | hh | hh)
            · exact Or.inl hh
            · subst hh; exact Or.inl hin
            · exact Or.inr hh

/-- The vector `adjust`: `adjust[k]` plus the number of marks up to `k` is `k + 1`. -/
theorem update_adjust_spec (k_max : Nat) (uv : Nat → Nat)
    (hbit : ∀ k < k_max, uv k = 0 ∨ uv k = 1) :
    ∀ k < k_max,
      update_adjust k_max uv k + ((List.range (k + 1)).map uv).sum = k + 1 := by
  unfold update_adjust
  have h := foldl_range_inv (update_adjust_step uv)
    (fun m aa => aa.2 + ((List.range m).map uv).sum = m ∧
      ∀ k < m, aa.1 k + ((List.range (k + 1)).map uv).sum = k + 1)
    k_max (fun _ => 0, 0) ⟨by simp, fun k hk => absurd hk (Nat.not_lt_zero k)⟩
    (by
      rintro m ⟨adj, a⟩ hm ⟨g1, g2⟩
      simp only at g1 g2
      have hs : ((List.range (m + 1)).map uv).sum = ((List.range m).map uv).sum + uv m := by
        rw [List.range_succ, List.map_append, List.sum_append]
        simp
      unfold update_adjust_step
      by_cases hz : uv m = 0
      · simp only [hz, if_true]
        refine ⟨by rw [hs]; omega, ?_⟩
        intro k hk
        by_cases hkm : k = m
        · subst hkm
          rw [setAt_same, hs]
          omega
        · rw [setAt_ne _ _ _ _ hkm]
          exact g2 k (by omega)
      · have h1 : uv m = 1 := by
          rcases hbit m hm with h | h
          · exact absurd h hz
          · exact h
        simp only [hz, if_false]
        refine ⟨by rw [hs]; omega, ?_⟩
        intro k hk
        by_cases hkm : k = m
        · subst hkm
          rw [setAt_same, hs]
          omega
        · rw [setAt_ne _ _ _ _ hkm]
          exact g2 k (by omega))
  exact h.2

theorem getD_map_int (g : Int → Int) (l : List Int) (i : Nat) (h : i < l.length) :
    (l.map g).getD i 0 = g (l.getD i 0) := by
  simp [List.getD_eq_getElem?_getD, List.getElem?_map, List.getElem?_eq_getElem h]

theorem getD_mem_int (l : List Int) (i : Nat) (h : i < l.length) : l.getD i 0 ∈ l := by
  rw [List.getD_eq_getElem?_getD, List.getElem?_eq_getElem h]
  exact List.getElem_mem _

theorem rankIn_eq (dum : List Int) (h1 : ∀ v ∈ dum, 1 ≤ v) (d : Int) (hd : 1 ≤ d) :
    rankIn dum d = (distinctUpTo dum d : Int) := by
  unfold rankIn
  have : ((d.toNat : Nat) : Int) = d := by omega
  rw [← distinctUpTo_eq dum h1 d.toNat, this]

theorem rankIn_lt (dum : List Int) {d d2 : Int} (hd : 1 ≤ d) (h : d < d2) (hm : d2 ∈ dum) :
    rankIn dum d < rankIn dum d2 := by
  unfold rankIn
  have h1 := occursBelow_mono dum (show d.toNat ≤ d2.toNat - 1 by omega)
  have h2 := occursBelow_succ dum (d2.toNat - 1)
  have h3 : d2.toNat - 1 + 1 = d2.toNat := by omega
  rw [h3] at h2
  have h4 : occurs dum (d2.toNat - 1) = 1 := by
    unfold occurs
    have : (((d2.toNat - 1 : Nat) : Int) + 1) = d2 := by omega
    rw [this, if_pos hm]
  omega

theorem rankIn_pos (dum : List Int) {d : Int} (hd : 1 ≤ d) (hm : d ∈ dum) :
    1 ≤ rankIn dum d := by
  unfold rankIn
  have h2 := occursBelow_succ dum (d.toNat - 1)
  have h3 : d.toNat - 1 + 1 = d.toNat := by omega
  rw [h3] at h2
  have h4 : occurs dum (d.toNat - 1) = 1 := by
    unfold occurs
    have : (((d.toNat - 1 : Nat) : Int) + 1) = d := by omega
    rw [this, if_pos hm]
  omega

/-- The routine on a vector with values in `1..k_max`: every value is replaced by the
number of values up to it that occur. -/
theorem cpp_update_dum_eq (dum : List Int) (k_max : Nat)
    (hv : ∀ d ∈ dum, 1 ≤ d ∧ d ≤ (k_max : Int)) :
    ∃ r, cpp_update_dum dum k_max = some r ∧ r.dum_new = dum.map (rankIn dum) ∧
      r.keep = (List.range k_max).map (occurs dum) := by
  obtain ⟨uv, total, pre, h1, h2, h3, h4⟩ := update_mark_spec k_max dum [] (fun _ => 0) 0 hv
    ⟨fun k _ => by simp [occurs], by simp⟩
  have hsub : ∀ v, v ∈ pre → v ∈ dum := by
    intro v hv2
    rcases h3 v hv2 with h | h
    · simp at h
    · exact h
  have hbit : ∀ k < k_max, uv k = 0 ∨ uv k = 1 := by
    intro k hk
    rw [h2.1 k hk]
    unfold occurs
    split
    · right; rfl
    · left; rfl
  unfold cpp_update_dum
  rw [h1]
  simp only
  by_cases hfull : total = k_max
  · rw [if_pos hfull]
    have hones : ∀ k < k_max, uv k = 1 :=
      sum_bits_eq uv k_max hbit (by rw [← h2.2]; exact hfull)
    have hall : ∀ k < k_max, occurs dum k = 1 := by
      intro k hk
      have := hones k hk
      rw [h2.1 k hk] at this
      unfold occurs at this ⊢
      by_cases hm : ((k : Int) + 1) ∈ pre
      · rw [if_pos (hsub _ hm)]
      · rw [if_neg hm] at this
        omega
    refine ⟨_, rfl, ?_, ?_⟩
    · show dum = dum.map (rankIn dum)
      conv_lhs => rw [← List.map_id dum]
      apply List.map_congr_left
      intro d hd
      have hdv := hv d hd
      unfold rankIn occursBelow
      rw [sum_bits_ones _ _ (fun q hq => hall q (by omega))]
      simp only [id]
      omega
    · show (List.range k_max).map uv = _
      apply List.map_congr_left
      intro k hk
      rw [hones k (List.mem_range.mp hk), hall k (List.mem_range.mp hk)]
  · rw [if_neg hfull]
    have hmem : ∀ v, v ∈ pre ↔ v ∈ dum := by
      rcases h4 with h | h
      · exact absurd h hfull
      · intro v
        rw [h v]
        simp
    have huv : ∀ k < k_max, uv k = occurs dum k := by
      intro k hk
      rw [h2.1 k hk]
      exact occurs_congr hmem k
    have hadj := update_adjust_spec k_max uv hbit
    have hmap : dum.mapM (update_renumber k_max (update_adjust k_max uv)) =
        some (dum.map (rankIn dum)) := by
      apply mapM_option_eq
      intro d hd
      have hdv := hv d hd
      unfold update_renumber
      rw [if_pos hdv]
      have ha := hadj (d - 1).toNat (by omega)
      have hn : (d - 1).toNat + 1 = d.toNat := by omega
      rw [hn] at ha
      have hs : ((List.range d.toNat).map uv).sum = occursBelow dum d.toNat := by
        unfold occursBelow
        apply congrArg
        apply List.map_congr_left
        intro k hk
        exact huv k (by have := List.mem_range.mp hk; omega)
      rw [hs] at ha
      unfold rankIn
      congr 1
      omega
    rw [hmap]
    refine ⟨_, rfl, rfl, ?_⟩
    show (List.range k_max).map uv = _
    apply List.map_congr_left
    intro k hk
    exact huv k (List.mem_range.mp hk)

theorem distinctUpTo_all (dum : List Int) (k_max : Nat) (hv : ∀ d ∈ dum, d ≤ (k_max : Int)) :
    distinctUpTo dum (k_max : Int) = dum.dedup.length := by
  unfold distinctUpTo
  rw [List.filter_eq_self.mpr]
  intro v hv2
  simpa using hv v (List.mem_dedup.mp hv2)

/-- C20 (`cpp_update_dum` renumbers like `unclass(factor(dum))`).  For every integer
vector `dum` with all values in `1..k_max`, the routine returns, and `dum_new[i]` is
the number of distinct values occurring in `dum` that are not greater than `dum[i]`.
Hence `dum_new` is order-preserving, it takes exactly the values `1..m`, where `m` is
the number of distinct values of `dum`, and it is equal to `dum` when all the `k_max`
levels occur. -/
theorem cpp_update_dum_renumbers (dum : List Int) (k_max : Nat)
    (hv : ∀ d ∈ dum, 1 ≤ d ∧ d ≤ (k_max : Int)) :
    ∃ r, cpp_update_dum dum k_max = some r ∧ r.dum_new.length = dum.length ∧
      (∀ i < dum.length, r.dum_new.getD i 0 = (distinctUpTo dum (dum.getD i 0) : Int)) ∧
      (∀ i < dum.length, ∀ j < dum.length,
        (dum.getD i 0 ≤ dum.getD j 0 ↔ r.dum_new.getD i 0 ≤ r.dum_new.getD j 0)) ∧
      (∀ i < dum.length,
        1 ≤ r.dum_new.getD i 0 ∧ r.dum_new.getD i 0 ≤ (dum.dedup.length : Int)) ∧
      (∀ v : Nat, 1 ≤ v → v ≤ dum.dedup.length →
        ∃ i < dum.length, r.dum_new.getD i 0 = (v : Int)) ∧
      ((∀ v : Int, 1 ≤ v → v ≤ (k_max : Int) → v ∈ dum) → r.dum_new = dum) := by
  obtain ⟨r, hr, hnew, _⟩ := cpp_update_dum_eq dum k_max hv
  have h1 : ∀ v ∈ dum, 1 ≤ v := fun v hm => (hv v hm).1
  have hget : ∀ i < dum.length, r.dum_new.getD i 0 = rankIn dum (dum.getD i 0) := by
    intro i hi
    rw [hnew]
    exact getD_map_int _ _ _ hi
  have hmono : ∀ d d2 : Int, d ≤ d2 → rankIn dum d ≤ rankIn dum d2 := by
    intro d d2 h
    unfold rankIn
    exact_mod_cast occursBelow_mono dum (Int.toNat_le_toNat h)
  refine ⟨r, hr, by rw [hnew]; simp, ?_, ?_, ?_, ?_, ?_⟩
  · intro i hi
    rw [hget i hi]
    exact rankIn_eq dum h1 _ (h1 _ (getD_mem_int dum i hi))
  · intro i hi j hj
    rw [hget i hi, hget j hj]
    constructor
    · exact hmono _ _
    · intro hle
      by_contra hlt
      have := rankIn_lt dum (h1 _ (getD_mem_int dum j hj)) (not_le.mp hlt)
        (getD_mem_int dum i hi)
      omega
  · intro i hi
    rw [hget i hi]
    refine ⟨rankIn_pos dum (h1 _ (getD_mem_int dum i hi)) (getD_mem_int dum i hi), ?_⟩
    rw [rankIn_eq dum h1 _ (h1 _ (getD_mem_int dum i hi))]
    unfold distinctUpTo
    exact_mod_cast List.length_filter_le _ _
  · intro v hv1 hv2
    rw [← distinctUpTo_all dum k_max (fun d hd => (hv d hd).2),
      distinctUpTo_eq dum h1 k_max] at hv2
    obtain ⟨d2, hd2, hm, he⟩ := occursBelow_onto dum k_max v hv1 hv2
    obtain ⟨i, hi, hie⟩ := List.getElem_of_mem hm
    refine ⟨i, hi, ?_⟩
    rw [hget i hi]
    have : dum.getD i 0 = (d2 : Int) + 1 := by
      rw [List.getD_eq_getElem?_getD, List.getElem?_eq_getElem hi]
      exact hie
    rw [this]
    unfold rankIn
    have h2 : ((d2 : Int) + 1).toNat = d2 + 1 := by omega
    rw [h2, he]
  · intro hall
    rw [hnew]
    conv_rhs => rw [← List.map_id dum]
    apply List.map_congr_left
    intro d hd
    have hdv := hv d hd
    unfold rankIn occursBelow
    rw [sum_bits_ones]
    · simp only [id]
      omega
    · intro q hq
      unfold occurs
      rw [if_pos (hall _ (by omega) (by omega))]

/-- C20 on the vector `5, 2, 2, 7, 5` with `k_max = 8`: the new numbers are
`2, 1, 1, 3, 2`. -/
theorem cpp_update_dum_renumbers_witness :
    (∀ d ∈ [5, 2, 2, 7, 5], (1 : Int) ≤ d ∧ d ≤ ((8 : Nat) : Int)) ∧
    cpp_update_dum [5, 2, 2, 7, 5] 8 =
      some ⟨[2, 1, 1, 3, 2], [0, 1, 0, 0, 1, 0, 1, 0]⟩ ∧
    ∃ r, cpp_update_dum [5, 2, 2, 7, 5] 8 = some r ∧ r.dum_new.length = 5 := by
  refine ⟨by decide, by decide, ?_⟩
  obtain ⟨r, h1, h2, _⟩ := cpp_update_dum_renumbers [5, 2, 2, 7, 5] 8 (by decide)
  exact ⟨r, h1, h2⟩

theorem colmajor_mod (N i k : Nat) (hi : i < N) : (i + N * k) % N = i := by
  rw [Nat.add_mul_mod_self_left]
  exact Nat.mod_eq_of_lt hi

theorem colmajor_div (N i k : Nat) (hi : i < N) : (i + N * k) / N = k := by
  rw [Nat.add_mul_div_left _ _ (by omega : 0 < N), Nat.div_eq_of_lt hi]
  omega

theorem colmajor_lt (N K i k : Nat) (hi : i < N) (hk : k < K) : i + N * k < N * K := by
  have : N * (k + 1) ≤ N * K := Nat.mul_le_mul_left N (by omega)
  rw [Nat.mul_succ] at this
  omega

theorem matprod_inner_spec (x y : NumMat) (hx : x.data.length = x.nrow * x.ncol)
    (hy : y.nrow = x.ncol) (hyd : y.data.length = y.nrow * y.ncol) {i k : Nat}
    (hi : i < x.nrow) (hk : k < y.ncol) :
    (List.range x.ncol).foldlM (matprod_inner x y i k) 0 = some (matprod_entry x y i k) := by
  obtain ⟨v, hv, hP⟩ := foldlM_range_inv (matprod_inner x y i k)
    (fun m v => v = ((List.range m).map
      (fun l => x.data.getD (i + x.nrow * l) 0 * y.data.getD (l + y.nrow * k) 0)).sum)
    x.ncol 0 (by simp)
    (by
      intro l v hl hv
      have h1 : x.get i l = some (x.data.getD (i + x.nrow * l) 0) := by
        unfold NumMat.get
        exact getElem?_eq_some_getD _ _ _ (by rw [hx]; exact colmajor_lt _ _ _ _ hi hl)
      have h2 : y.get l k = some (y.data.getD (l + y.nrow * k) 0) := by
        unfold NumMat.get
        exact getElem?_eq_some_getD _ _ _
          (by rw [hyd]; exact colmajor_lt _ _ _ _ (by omega) hk)
      unfold matprod_inner
      rw [h1, h2]
      refine ⟨_, rfl, ?_⟩
      show _ = ((List.range (l + 1)).map _).sum
      rw [List.range_succ, List.map_append, List.sum_append, hv]
      simp)
  rw [hv, hP]
  rfl

/-- When `y` is square, with as many rows and columns as `x` has columns,
`cpppar_matprod` returns the matrix product, for every thread count. -/
theorem cpppar_matprod_square (x y : NumMat) (hx : x.data.length = x.nrow * x.ncol)
    (hy : y.nrow = x.ncol) (hy2 : y.ncol = x.ncol) (hyd : y.data.length = y.nrow * y.ncol)
    (nthreads : Nat) : cpppar_matprod x y nthreads = some (matprod x y) := by
  have hrow : ∀ i < x.nrow, ∀ xy : Nat → ℚ,
      ∃ xy2, matprod_row x y xy i = some xy2 ∧
        (∀ k < x.ncol, xy2 (i + x.nrow * k) = matprod_entry x y i k) ∧
        (∀ p, (∀ k < x.ncol, p ≠ i + x.nrow * k) → xy2 p = xy p) := by
    intro i hi xy
    unfold matprod_row
    obtain ⟨xy2, h2, hP⟩ := foldlM_range_inv (matprod_cell x y i)
      (fun m xy2 => (∀ k < m, xy2 (i + x.nrow * k) = matprod_entry x y i k) ∧
        (∀ p, (∀ k < m, p ≠ i + x.nrow * k) → xy2 p = xy p))
      x.ncol xy ⟨fun k hk => absurd hk (Nat.not_lt_zero k), fun _ _ => rfl⟩
      (by
        intro m t hm ⟨g1, g2⟩
        unfold matprod_cell
        rw [matprod_inner_spec x y hx hy hyd hi (by omega)]
        refine ⟨_, rfl, ?_, ?_⟩
        · intro k hk
          by_cases hkm : k = m
          · subst hkm
            simp
          · have hne : i + x.nrow * k ≠ i + x.nrow * m := by
              intro h
              have h1 := colmajor_div x.nrow i k hi
              have h2 := colmajor_div x.nrow i m hi
              rw [h] at h1
              omega
            show setAt t (i + x.nrow * m) _ (i + x.nrow * k) = _
            rw [setAt_ne _ _ _ _ hne]
            exact g1 k (by omega)
        · intro p hp
          show setAt t (i + x.nrow * m) _ p = _
          rw [setAt_ne _ _ _ _ (hp m (by omega))]
          exact g2 p (fun k hk => hp k (by omega)))
    exact ⟨xy2, h2, hP⟩
  obtain ⟨xy, hxy, hP⟩ := foldlM_range_inv (matprod_row x y)
    (fun m xy => ∀ i < m, ∀ k < x.ncol, xy (i + x.nrow * k) = matprod_entry x y i k)
    x.nrow (fun _ => 0) (fun i hi => absurd hi (Nat.not_lt_zero i))
    (by
      intro m t hm hP
      obtain ⟨t2, h2, g1, g2⟩ := hrow m hm t
      refine ⟨t2, h2, ?_⟩
      intro i hi k hk
      by_cases him : i = m
      · subst him
        exact g1 k hk
      · rw [g2]
        · exact hP i (by omega) k hk
        · intro k2 _ h
          have h1 := colmajor_mod x.nrow i k (by omega)
          have h3 := colmajor_mod x.nrow m k2 hm
          rw [h] at h1
          omega)
  unfold cpppar_matprod
  rw [hxy]
  simp only [Option.map_some']
  congr 1
  unfold matprod
  rw [hy2]
  congr 1
  apply List.map_congr_left
  intro p hp
  have hp2 := List.mem_range.mp hp
  have hN : 0 < x.nrow := by
    rcases Nat.eq_zero_or_pos x.nrow with h | h
    · rw [h] at hp2; simp at hp2
    · exact h
  have hi : p % x.nrow < x.nrow := Nat.mod_lt _ hN
  have hk : p / x.nrow < x.ncol := by
    rw [Nat.div_lt_iff_lt_mul hN, Nat.mul_comm]
    exact hp2
  have hdecomp : p = p % x.nrow + x.nrow * (p / x.nrow) := (Nat.mod_add_div p x.nrow).symm
  conv_lhs => rw [hdecomp]
  exact hP _ hi _ hk

theorem PdInput.residual_congr (inp : PdInput) (S S2 : Nat → ℚ) (q c : Nat)
    (h : ∀ i < inp.N, S2 i = S i) : inp.residual S2 q c = inp.residual S q c := by
  unfold PdInput.residual PdInput.catSum
  apply congrArg
  apply List.map_congr_left
  intro i hi
  rw [h i ((inp.mem_obsOf q c i).1 hi).1]

/-- A sweep started at a stationary value changes nothing and leaves `ok` false. -/
theorem pd_sweep_stationary {inp : PdInput} (hv : PdValid inp) {x : PdIndex}
    (hx : PdIndexOk inp x) {w : Nat → ℚ}
    (hw : ∀ q < inp.Q, ∀ c < inp.size q, w (x.start q + c) = inp.weight q c)
    (hne : ∀ q < inp.Q, ∀ c < inp.size q, inp.weight q c ≠ 0) (heps : 0 ≤ inp.epsDeriv)
    (st : PdState) (hstat : ∀ q < inp.Q, ∀ c < inp.size q, inp.residual st.S q c = 0) :
    ∃ st2, pd_sweep inp x w st = some st2 ∧ st2.iter = st.iter + 1 ∧ st2.ok = false ∧
      ∀ i < inp.N, st2.S i = st.S i := by
  unfold pd_sweep
  obtain ⟨t, ht, h1, h2, h3⟩ := foldlM_range_inv (pd_block inp x w)
    (fun _ t => t.iter = st.iter + 1 ∧ t.ok = false ∧ ∀ i < inp.N, t.S i = st.S i)
    inp.Q { st with iter := st.iter + 1, ok := false } ⟨rfl, rfl, fun _ _ => rfl⟩
    (by
      intro q t hq ⟨g1, g2, g3⟩
      obtain ⟨t2, e, k1, k2, _, _, _, k6⟩ :=
        pd_block_spec hv hx hw hq (fun c hc _ => hne q hq c hc) t
      have hres : ∀ c < inp.size q, inp.residual t.S q c = 0 := by
        intro c hc
        rw [inp.residual_congr st.S t.S q c g3]
        exact hstat q hq c hc
      have hupd : ∀ c < inp.size q, inp.update t.S q c = 0 := by
        intro c hc
        unfold PdInput.update
        rw [hres c hc]
        simp
      refine ⟨t2, e, by rw [k1, g1], ?_, ?_⟩
      · rw [k6, g2, Bool.false_or, List.any_eq_false]
        intro c hc
        have hc2 : c < inp.size q := List.mem_range.1 hc
        unfold PdInput.exceeds
        rw [hupd c hc2]
        simp only [abs_zero, decide_eq_true_eq, not_and, not_lt]
        intro _
        exact heps
      · intro i hi
        rw [k2 i hi, hupd _ (hv.range i hi q hq), add_zero]
        exact g3 i hi)
  exact ⟨t, ht, h1, h2, h3⟩

/-- C28 (a stationary start is a fixed point of the solver).  On a valid input whose
category weight sums are all non-zero, with `0 ≤ epsDeriv` and `1 ≤ iterMax`: if for
every dimension `q` and every category `c` of `q` the sum over the observations `i` of
`c` of `dx_dother(i) + init(i) * ll_d2(i)` is zero, then `cpp_partialDerivative_other`
makes exactly one sweep (`iter = 1` at the end of its loop) and returns `init`
unchanged. -/
theorem pd_stationary_start (inp : PdInput) (hv : PdValid inp)
    (hstat : ∀ q < inp.Q, ∀ c < inp.size q, inp.residual inp.start q c = 0)
    (hne : ∀ q < inp.Q, ∀ c < inp.size q, inp.weight q c ≠ 0)
    (heps : 0 ≤ inp.epsDeriv) (hit : 1 ≤ inp.iterMax) :
    (∃ st, pd_run inp = some st ∧ st.iter = 1) ∧
      cpp_partialDerivative_other inp = some inp.init := by
  obtain ⟨x, hx, hxok⟩ := pd_index_ok hv
  obtain ⟨w, hw, hwok⟩ := pd_weights_ok hv hxok
  obtain ⟨S, hS, hSok⟩ := pd_init_ok hv
  have hst : ∀ q < inp.Q, ∀ c < inp.size q, inp.residual (pd_start S).S q c = 0 := by
    intro q hq c hc
    rw [inp.residual_congr inp.start (pd_start S).S q c (fun i hi => hSok i hi)]
    exact hstat q hq c hc
  obtain ⟨st, e, k1, k2, k3⟩ := pd_sweep_stationary hv hxok hwok hne heps (pd_start S) hst
  have hrun : pd_run inp = some st := by
    rw [pd_run_eq hx hw hS]
    obtain ⟨f, hf⟩ : ∃ f, inp.iterMax = f + 1 := ⟨inp.iterMax - 1, by omega⟩
    have hcond : ((pd_start S).ok && decide ((pd_start S).iter < inp.iterMax)) = true := by
      simp only [pd_start, Bool.true_and, decide_eq_true_eq]
      omega
    rw [hf]
    unfold pd_loop
    rw [if_pos hcond, e, Option.some_bind]
    cases f with
    | zero => unfold pd_loop; rw [k2]; rfl
    | succ f => unfold pd_loop; rw [k2]; rfl
  refine ⟨⟨st, hrun, by rw [k1]; rfl⟩, ?_⟩
  unfold cpp_partialDerivative_other
  rw [hrun, Option.map_some']
  apply congrArg
  have hlen : inp.init.length = inp.N := hv.shape.2.2.1
  apply List.ext_getElem
  · simp [hlen]
  · intro i h1 h2
    have hi : i < inp.N := by rw [← hlen]; exact h2
    rw [List.getElem_map, List.getElem_range, k3 i hi]
    show S i = _
    rw [hSok i hi, List.getD_eq_getElem _ _ h2]

/-- C28 on the input `pd_stationary`. -/
theorem pd_stationary_start_witness :
    PdValid pd_stationary ∧
    (∃ st, pd_run pd_stationary = some st ∧ st.iter = 1) ∧
      cpp_partialDerivative_other pd_stationary = some [1, 0, 2] :=
  ⟨by decide, pd_stationary_start pd_stationary (by decide) (by decide!) (by decide!)
    (by decide!) (by decide)⟩

theorem pgcd_min_spec (rest : List Int) (a : Int) :
    (rest.foldl pgcd_min_step a ∈ a :: rest) ∧ rest.foldl pgcd_min_step a ≤ a := by
  induction rest generalizing a with
  | nil => simp
  | cons b rest ih =>
    rw [List.foldl_cons]
    obtain ⟨h1, h2⟩ := ih (pgcd_min_step a b)
    have h3 : pgcd_min_step a b = a ∨ pgcd_min_step a b = b := by
      unfold pgcd_min_step; split <;> simp
    have h4 : pgcd_min_step a b ≤ a := by
      unfold pgcd_min_step; split <;> omega
    refine ⟨?_, le_trans h2 h4⟩
    rcases List.mem_cons.1 h1 with h | h
    · rcases h3 with h3 | h3
      · rw [h, h3]; simp
      · rw [h, h3]; simp
    · simp [h]

theorem pgcd_search_ok (x : List Int) (fuel : Nat) (p : Int) :
    pgcd_search x fuel true p = some p := by
  cases fuel <;> simp [pgcd_search]

theorem pgcd_fails_iff (x : List Int) (p : Int) :
    pgcd_fails x p = false ↔ CommonDivisor x p := by
  unfold pgcd_fails CommonDivisor
  rw [List.any_eq_false]
  constructor
  · intro h v hv
    have := h v hv
    simp only [ne_eq, decide_not, Bool.not_eq_true', decide_eq_false_iff_not, not_not,
      Bool.not_eq_true, Bool.not_eq_false', decide_eq_true_eq] at this
    exact Int.dvd_of_tmod_eq_zero this
  · intro h v hv
    simp only [ne_eq, decide_not, Bool.not_eq_true', decide_eq_false_iff_not, not_not,
      Bool.not_eq_true, Bool.not_eq_false', decide_eq_true_eq]
    exact Int.tmod_eq_zero_of_dvd (h v hv)

/-- The search started at a candidate `p ≥ 1` that bounds every common divisor ends
with the largest common divisor. -/
theorem pgcd_search_spec (x : List Int) :
    ∀ (fuel : Nat) (p : Int), 1 ≤ p → p ≤ (fuel : Int) + 1 →
      (∀ e, CommonDivisor x e → e ≤ p) →
      ∃ d, pgcd_search x fuel false p = some d ∧ 1 ≤ d ∧ CommonDivisor x d ∧
        ∀ e, CommonDivisor x e → e ≤ d := by
  intro fuel
  induction fuel with
  | zero =>
    intro p h1 h2 hub
    have hp : p = 1 := by omega
    subst hp
    refine ⟨1, by simp [pgcd_search], le_refl _, fun v _ => one_dvd v, hub⟩
  | succ fuel ih =>
    intro p h1 h2 hub
    unfold pgcd_search
    by_cases hp : p > 1
    · have hc : (!false && decide (p > 1)) = true := by simp [hp]
      rw [if_pos hc]
      cases hf : pgcd_fails x p with
      | true =>
        rw [if_pos rfl]
        apply ih (p - 1) (by omega) (by push_cast at h2; omega)
        intro e he
        have h3 := hub e he
        have h4 : e ≠ p := by
          intro h
          subst h
          have := (pgcd_fails_iff x e).2 he
          rw [hf] at this
          exact Bool.noConfusion this
        omega
      | false =>
        rw [if_neg (by simp), pgcd_search_ok]
        exact ⟨p, rfl, h1, (pgcd_fails_iff x p).1 hf, hub⟩
    · have hp1 : p = 1 := by omega
      subst hp1
      have hc : ¬ ((!false && decide ((1 : Int) > 1)) = true) := by simp
      rw [if_neg hc]
      exact ⟨1, rfl, le_refl _, fun v _ => one_dvd v, hub⟩

/-- C29 (`cpp_pgcd` is the greatest common divisor).  For every non-empty vector `x` of
positive integers, `cpp_pgcd` returns a value `d`, which is at least one, divides every
element of `x`, and is not smaller than any integer dividing every element of `x`. -/
theorem cpp_pgcd_greatest (x : List Int) (hne : x ≠ []) (hpos : ∀ v ∈ x, 0 < v) :
    ∃ d, cpp_pgcd x = some d ∧ 1 ≤ d ∧ CommonDivisor x d ∧
      ∀ e, CommonDivisor x e → e ≤ d := by
  match x, hne with
  | [a], _ =>
    have ha : 0 < a := hpos a (by simp)
    refine ⟨a, rfl, by omega, ?_, ?_⟩
    · intro v hv
      rw [List.mem_singleton.1 hv]
    · intro e he
      exact Int.le_of_dvd ha (he a (by simp))
  | a :: b :: rest, _ =>
    obtain ⟨hm, _⟩ := pgcd_min_spec (b :: rest) a
    have hmpos := hpos _ hm
    show ∃ d, pgcd_search (a :: b :: rest) ((b :: rest).foldl pgcd_min_step a).toNat false
      ((b :: rest).foldl pgcd_min_step a) = some d ∧ _
    apply pgcd_search_spec
    · omega
    · rw [Int.toNat_of_nonneg (by omega)]
      omega
    · intro e he
      exact Int.le_of_dvd hmpos (he _ hm)

/-- C29 on the vector `(12, 18, 30)`, whose greatest common divisor is 6. -/
theorem cpp_pgcd_greatest_witness :
    cpp_pgcd [12, 18, 30] = some 6 ∧
    ∃ d, cpp_pgcd [12, 18, 30] = some d ∧ 1 ≤ d ∧ CommonDivisor [12, 18, 30] d ∧
      ∀ e, CommonDivisor [12, 18, 30] e → e ≤ d :=
  ⟨by decide, cpp_pgcd_greatest [12, 18, 30] (by decide) (by decide)⟩

theorem jumps_succ (x : List ℚ) (i : Nat) :
    jumps x (i + 1) = jumps x i + if x.getD i 0 ≠ x.getD (i + 1) 0 then 1 else 0 := by
  unfold jumps
  rw [List.range_succ, List.countP_append, List.countP_cons, List.countP_nil]
  by_cases h : x.getD i 0 = x.getD (i + 1) 0
  · rw [if_neg (by simpa using h), if_neg (by simpa using h)]
  · rw [if_pos (by simpa using h), if_pos h]

theorem jumps_mono (x : List ℚ) {i j : Nat} (h : i ≤ j) : jumps x i ≤ jumps x j := by
  induction j with
  | zero =>
    have : i = 0 := by omega
    subst this
    exact le_refl _
  | succ n ih =>
    by_cases hd : i = n + 1
    · subst hd; exact le_refl _
    · rw [jumps_succ]
      have := ih (by omega)
      omega

/-- The routine returns, at position `i`, one plus the number of changes of value
before `i`. -/
theorem cpp_unclassFactor_eq (x : List ℚ) (hne : x ≠ []) :
    cpp_unclassFactor x = some ((List.range x.length).map fun i => 1 + jumps x i) := by
  have hlen : 0 < x.length := List.length_pos.2 hne
  unfold cpp_unclassFactor
  rw [if_neg (by omega)]
  obtain ⟨rk, hrk, hk, hr⟩ := foldlM_range'_inv (unclass_step x)
    (fun k rk => rk.2 = 1 + jumps x k ∧ ∀ i ≤ k, rk.1 i = 1 + jumps x i)
    1 (x.length - 1) (setAt (fun _ => 0) 0 1, 1)
    ⟨by simp [jumps], fun i hi => by
      have : i = 0 := by omega
      subst this
      simp [jumps]⟩
    (by
      intro k rk hk ⟨g1, g2⟩
      unfold unclass_step
      have e1 : 1 + k - 1 = k := by omega
      rw [e1, getElem?_eq_some_getD x k 0 (by omega),
        getElem?_eq_some_getD x (1 + k) 0 (by omega)]
      have e2 : 1 + k = k + 1 := by omega
      simp only [e2]
      by_cases h : x.getD k 0 = x.getD (k + 1) 0
      · rw [if_neg (by simpa using h)]
        refine ⟨_, rfl, ?_, ?_⟩
        · show rk.2 = _
          rw [g1, jumps_succ, if_neg (by simpa using h)]
          rfl
        · intro i hi
          show setAt rk.1 (k + 1) rk.2 i = _
          by_cases hik : i = k + 1
          · subst hik
            rw [setAt_same, g1, jumps_succ, if_neg (by simpa using h)]
            rfl
          · rw [setAt_ne _ _ _ _ hik]
            exact g2 i (by omega)
      · rw [if_pos h]
        refine ⟨_, rfl, ?_, ?_⟩
        · show rk.2 + 1 = _
          rw [g1, jumps_succ, if_pos h]
          omega
        · intro i hi
          show setAt rk.1 (k + 1) (rk.2 + 1) i = _
          by_cases hik : i = k + 1
          · subst hik
            rw [setAt_same, g1, jumps_succ, if_pos h]
            omega
          · rw [setAt_ne _ _ _ _ hik]
            exact g2 i (by omega))
  rw [hrk, Option.map_some']
  apply congrArg
  apply List.map_congr_left
  intro i hi
  exact hr i (by have := List.mem_range.1 hi; omega)

theorem sorted_getD_le (x : List ℚ) (hs : x.Sorted (· ≤ ·)) {i j : Nat} (hij : i ≤ j)
    (hj : j < x.length) : x.getD i 0 ≤ x.getD j 0 := by
  rw [List.getD_eq_getElem _ _ (by omega), List.getD_eq_getElem _ _ hj]
  rcases Nat.lt_or_eq_of_le hij with h | h
  · exact (List.pairwise_iff_getElem.1 hs) i j (by omega) hj h
  · subst h; exact le_refl _

/-- On a sorted vector, two positions have the same number of changes before them
exactly when they hold the same value. -/
theorem jumps_eq_iff (x : List ℚ) (hs : x.Sorted (· ≤ ·)) (i : Nat) :
    ∀ j, i ≤ j → j < x.length → (jumps x i = jumps x j ↔ x.getD i 0 = x.getD j 0) := by
  intro j
  induction j with
  | zero =>
    intro hij _
    have : i = 0 := by omega
    subst this
    simp
  | succ n ih =>
    intro hij hj
    by_cases hd : i = n + 1
    · subst hd; simp
    · have hin : i ≤ n := by omega
      have ih2 := ih hin (by omega)
      have hm := jumps_mono x hin
      rw [jumps_succ]
      constructor
      · intro h
        by_cases hx : x.getD n 0 = x.getD (n + 1) 0
        · rw [if_neg (by simpa using hx)] at h
          rw [← hx]
          exact ih2.1 h
        · rw [if_pos hx] at h
          omega
      · intro h
        have h1 := sorted_getD_le x hs hin (show n < x.length by omega)
        have h2 := sorted_getD_le x hs (Nat.le_succ n) hj
        have h3 : x.getD i 0 = x.getD n 0 := le_antisymm h1 (by rw [h]; exact h2)
        have h4 : x.getD n 0 = x.getD (n + 1) 0 := by rw [← h3, h]
        rw [if_neg (by simpa using h4)]
        exact ih2.2 h3

/-- On a sorted vector, the number of distinct values among the first `n + 1` elements
is one plus the number of changes of value before position `n`. -/
theorem distinct_prefix (x : List ℚ) (hs : x.Sorted (· ≤ ·)) :
    ∀ n, n < x.length →
      ((Finset.range (n + 1)).image fun i => x.getD i 0).card = 1 + jumps x n := by
  intro n
  induction n with
  | zero =>
    intro _
    simp [jumps]
  | succ n ih =>
    intro hn
    have ih2 := ih (by omega)
    rw [Finset.range_succ, Finset.image_insert, jumps_succ]
    by_cases hx : x.getD n 0 = x.getD (n + 1) 0
    · rw [if_neg (by simpa using hx), Finset.insert_eq_of_mem, ih2]
      · rfl
      · rw [Finset.mem_image]
        exact ⟨n, by simp, hx⟩
    · rw [if_pos hx, Finset.card_insert_of_not_mem, ih2]
      · omega
      · rw [Finset.mem_image]
        rintro ⟨i, hi, hxi⟩
        have hin : i ≤ n := by
          have := Finset.mem_range.1 hi
          omega
        have h1 := sorted_getD_le x hs hin (show n < x.length by omega)
        have h2 := sorted_getD_le x hs (Nat.le_succ n) hn
        apply hx
        exact le_antisymm h2 (by rw [← hxi]; exact h1)

theorem toFinset_eq_image (x : List ℚ) :
    x.toFinset = (Finset.range x.length).image fun i => x.getD i 0 := by
  ext v
  rw [List.mem_toFinset, Finset.mem_image, List.mem_iff_getElem]
  constructor
  · rintro ⟨i, hi, h⟩
    exact ⟨i, Finset.mem_range.2 hi, by rw [List.getD_eq_getElem _ _ hi]; exact h⟩
  · rintro ⟨i, hi, h⟩
    have hi2 := Finset.mem_range.1 hi
    exact ⟨i, hi2, by rw [List.getD_eq_getElem _ _ hi2] at h; exact h⟩

/-- C30 (`cpp_unclassFactor` is a dense rank).  For every non-empty sorted
(non-decreasing) vector `x`, `cpp_unclassFactor` returns a vector `r` of the length of
`x` with `r[0] = 1`, in which each element is its predecessor or its predecessor plus
one, with `r[i] = r[j]` exactly when `x[i] = x[j]`, and whose last element is the
number of distinct values of `x`. -/
theorem cpp_unclassFactor_dense_rank (x : List ℚ) (hne : x ≠ [])
    (hs : x.Sorted (· ≤ ·)) :
    ∃ r, cpp_unclassFactor x = some r ∧ r.length = x.length ∧ r.getD 0 0 = 1 ∧
      (∀ i, i + 1 < x.length →
        r.getD (i + 1) 0 = r.getD i 0 ∨ r.getD (i + 1) 0 = r.getD i 0 + 1) ∧
      (∀ i j, i < x.length → j < x.length →
        (r.getD i 0 = r.getD j 0 ↔ x.getD i 0 = x.getD j 0)) ∧
      r.getD (x.length - 1) 0 = x.dedup.length := by
  have hlen : 0 < x.length := List.length_pos.2 hne
  refine ⟨_, cpp_unclassFactor_eq x hne, by simp, ?_, ?_, ?_, ?_⟩
  · rw [getD_map_range _ _ _ hlen]
    simp [jumps]
  · intro i hi
    rw [getD_map_range _ _ _ hi, getD_map_range _ _ _ (show i < x.length by omega),
      jumps_succ]
    split <;> omega
  · intro i j hi hj
    rw [getD_map_range _ _ _ hi, getD_map_range _ _ _ hj]
    rcases Nat.le_total i j with h | h
    · rw [← jumps_eq_iff x hs i j h hj]
      omega
    · have := jumps_eq_iff x hs j i h hi
      constructor
      · intro e
        exact (this.1 (by omega)).symm
      · intro e
        have := this.2 e.symm
        omega
  · rw [getD_map_range _ _ _ (show x.length - 1 < x.length by omega),
      ← distinct_prefix x hs (x.length - 1) (by omega), ← List.card_toFinset,
      toFinset_eq_image]
    have e : x.length - 1 + 1 = x.length := by omega
    rw [e]

/-- C30 on the vector `(1, 1, 3, 5, 5, 5, 8)`, which has four distinct values. -/
theorem cpp_unclassFactor_dense_rank_witness :
    cpp_unclassFactor [1, 1, 3, 5, 5, 5, 8] = some [1, 1, 2, 3, 3, 3, 4] ∧
    ∃ r, cpp_unclassFactor [1, 1, 3, 5, 5, 5, 8] = some r ∧
      r.length = ([1, 1, 3, 5, 5, 5, 8] : List ℚ).length ∧ r.getD 0 0 = 1 ∧
      (∀ i, i + 1 < ([1, 1, 3, 5, 5, 5, 8] : List ℚ).length →
        r.getD (i + 1) 0 = r.getD i 0 ∨ r.getD (i + 1) 0 = r.getD i 0 + 1) ∧
      (∀ i j, i < ([1, 1, 3, 5, 5, 5, 8] : List ℚ).length →
        j < ([1, 1, 3, 5, 5, 5, 8] : List ℚ).length →
        (r.getD i 0 = r.getD j 0 ↔
          ([1, 1, 3, 5, 5, 5, 8] : List ℚ).getD i 0 =
            ([1, 1, 3, 5, 5, 5, 8] : List ℚ).getD j 0)) ∧
      r.getD (([1, 1, 3, 5, 5, 5, 8] : List ℚ).length - 1) 0 =
        ([1, 1, 3, 5, 5, 5, 8] : List ℚ).dedup.length :=
  ⟨by decide!, cpp_unclassFactor_dense_rank [1, 1, 3, 5, 5, 5, 8] (by decide)
    (by decide!)⟩

/-- Invariant rule for a loop whose body may fail, read at a result: a property kept by
every successful step holds when the loop returns. -/
theorem foldlM_some_inv {σ α : Type} (f : σ → α → Option σ) (P : σ → Prop)
    (hstep : ∀ s x t, P s → f s x = some t → P t) :
    ∀ (l : List α) (s t : σ), P s → l.foldlM f s = some t → P t := by
  intro l
  induction l with
  | nil =>
    intro s t h e
    have : s = t := by simpa using e
    rw [← this]
    exact h
  | cons x xs ih =>
    intro s t h e
    rw [List.foldlM_cons] at e
    cases hx : f s x with
    | none => rw [hx] at e; exact Option.noConfusion e
    | some u =>
      rw [hx] at e
      exact ih u t (hstep s x u h hx) e

/-- The same rule for a loop over `0, ..., n - 1`, with a property that depends on the
number of rounds made. -/
theorem foldlM_range_some_inv {σ : Type} (f : σ → Nat → Option σ) (P : Nat → σ → Prop)
    (n : Nat) (s : σ) (h0 : P 0 s)
    (hstep : ∀ k t u, k < n → P k t → f t k = some u → P (k + 1) u) :
    ∀ t, (List.range n).foldlM f s = some t → P n t := by
  induction n with
  | zero =>
    intro t e
    have : s = t := by simpa using e
    rw [← this]
    exact h0
  | succ n ih =>
    intro t e
    rw [List.range_succ, List.foldlM_append] at e
    cases hx : (List.range n).foldlM f s with
    | none => rw [hx] at e; exact Option.noConfusion e
    | some u =>
      rw [hx] at e
      have hu := ih (fun k t u hk => hstep k t u (by omega)) u hx
      have e2 : f u n = some t := by simpa using e
      exact hstep n u t (by omega) hu e2

theorem mark_done_frame {inp : GnlInput} {q : Nat} {s t : GnlState} {i : Nat}
    (h : mark_done inp q s i = some t) :
    t.nb_ref = s.nb_ref ∧ ∀ o q2, q2 ≠ q → t.mat_done o q2 = s.mat_done o q2 := by
  unfold mark_done at h
  split at h
  · exact Option.noConfusion h
  · split at h
    · have e := Option.some.inj h
      subst e
      refine ⟨rfl, ?_⟩
      intro o q2 hq2
      show setAt2 s.mat_done _ q 1 o q2 = _
      unfold setAt2
      rw [if_neg (by intro hh; exact hq2 hh.2)]
    · exact Option.noConfusion h

theorem mark_cluster_frame {inp : GnlInput} {ix : GnlIndex} {q index : Nat} {s t : GnlState}
    (h : mark_cluster inp ix q index s = some t) :
    t.nb_ref = s.nb_ref ∧ ∀ o q2, q2 ≠ q → t.mat_done o q2 = s.mat_done o q2 := by
  unfold mark_cluster at h
  exact foldlM_some_inv (mark_done inp q)
    (fun u => u.nb_ref = s.nb_ref ∧ ∀ o q2, q2 ≠ q → u.mat_done o q2 = s.mat_done o q2)
    (by
      intro u x v ⟨g1, g2⟩ e
      obtain ⟨k1, k2⟩ := mark_done_frame e
      exact ⟨by rw [k1, g1], fun o q2 hq2 => by rw [k2 o q2 hq2, g2 o q2 hq2]⟩)
    _ s t ⟨rfl, fun _ _ _ => rfl⟩ h

/-- One round of the loop that sets the references, on arbitrary arguments: the
counters of the other dimensions and the done markers of the other columns are kept,
the counter of the dimension does not decrease; it is kept when the flag `first` is
set, and otherwise raised when the marker of the selected observation is zero. -/
theorem set_ref_step_frame {inp : GnlInput} {ix : GnlIndex} {qm q : Nat}
    {sf tf : GnlState × Bool} (h : set_ref_step inp ix qm sf q = some tf) :
    (∀ q2, q2 ≠ q → tf.1.nb_ref q2 = sf.1.nb_ref q2) ∧
    (∀ o q2, q2 ≠ q → tf.1.mat_done o q2 = sf.1.mat_done o q2) ∧
    sf.1.nb_ref q ≤ tf.1.nb_ref q ∧
    (sf.2 = true → tf.1.nb_ref = sf.1.nb_ref) ∧
    (sf.1.mat_done qm q = 0 → tf.2 = false ∧ (sf.2 = false → 1 ≤ tf.1.nb_ref q)) ∧
    (sf.2 = false → tf.2 = false) := by
  unfold set_ref_step at h
  split at h
  · split at h
    · rename_i hz
      split at h
      · rename_i hfl
        have e := Option.some.inj h
        subst e
        exact ⟨fun _ _ => rfl, fun _ _ _ => rfl, le_refl _, fun _ => rfl,
          fun _ => ⟨rfl, fun hf => by rw [hf] at hfl; exact Bool.noConfusion hfl⟩,
          fun _ => rfl⟩
      · rename_i hfl
        split at h
        · exact Option.noConfusion h
        · split at h
          · dsimp only at h
            split at h
            · exact Option.noConfusion h
            · rename_i s1 hs1
              have e := Option.some.inj h
              subst e
              obtain ⟨k1, k2⟩ := mark_cluster_frame hs1
              refine ⟨?_, ?_, ?_, ?_, ?_, fun _ => rfl⟩
              · intro q2 hq2
                show setAt s1.nb_ref q _ q2 = _
                rw [setAt_ne _ _ _ _ hq2, k1]
              · intro o q2 hq2
                exact k2 o q2 hq2
              · show _ ≤ setAt s1.nb_ref q _ q
                rw [setAt_same, k1]
                exact Nat.le_succ _
              · intro hf
                exact absurd hf hfl
              · intro _
                refine ⟨rfl, fun _ => ?_⟩
                show 1 ≤ setAt s1.nb_ref q _ q
                rw [setAt_same]
                exact Nat.le_add_left 1 _
          · exact Option.noConfusion h
    · rename_i hz
      have e := Option.some.inj h
      subst e
      exact ⟨fun _ _ => rfl, fun _ _ _ => rfl, le_refl _, fun _ => rfl,
        fun hz2 => absurd hz2 hz, fun hf => hf⟩
  · exact Option.noConfusion h

/-- The loop that sets the references, on arbitrary arguments: the counter of dimension
`0` is kept and no counter decreases; when the marker of the selected observation is
zero in dimension `0`, every dimension `q ≥ 1` in which it is zero receives a
reference. -/
theorem set_references_frame {inp : GnlInput} {ix : GnlIndex} {qm : Nat} {s t : GnlState}
    (h : set_references inp ix qm s = some t) :
    t.nb_ref 0 = s.nb_ref 0 ∧ (∀ q, s.nb_ref q ≤ t.nb_ref q) ∧
    (s.mat_done qm 0 = 0 →
      ∀ q, 1 ≤ q → q < inp.Q → s.mat_done qm q = 0 → 1 ≤ t.nb_ref q) := by
  unfold set_references at h
  cases hf : (List.range inp.Q).foldlM (set_ref_step inp ix qm) (s, true) with
  | none => rw [hf] at h; exact Option.noConfusion h
  | some tf =>
    rw [hf] at h
    have e : tf.1 = t := by simpa using h
    subst e
    have key := foldlM_range_some_inv (set_ref_step inp ix qm)
      (fun k uf => uf.1.nb_ref 0 = s.nb_ref 0 ∧ (∀ q, s.nb_ref q ≤ uf.1.nb_ref q) ∧
        (k = 0 → uf.2 = true) ∧ (s.mat_done qm 0 = 0 → 1 ≤ k → uf.2 = false) ∧
        (∀ o q, k ≤ q → uf.1.mat_done o q = s.mat_done o q) ∧
        (s.mat_done qm 0 = 0 →
          ∀ q, 1 ≤ q → q < k → s.mat_done qm q = 0 → 1 ≤ uf.1.nb_ref q))
      inp.Q (s, true)
      ⟨rfl, fun _ => le_refl _, fun _ => rfl, fun _ h => by omega, fun _ _ _ => rfl,
        fun _ q h1 h2 => by omega⟩
      (by
        intro k uf vf hk ⟨g1, g2, g3, g6, g4, g5⟩ e
        obtain ⟨k1, k2, k3, k4, k5, k7⟩ := set_ref_step_frame e
        refine ⟨?_, ?_, ?_, ?_, ?_, ?_⟩
        · by_cases hk0 : k = 0
          · rw [k4 (g3 hk0)]; exact g1
          · rw [k1 0 (by omega)]; exact g1
        · intro q
          by_cases hqk : q = k
          · subst hqk; exact le_trans (g2 q) k3
          · rw [k1 q hqk]; exact g2 q
        · intro hk0; omega
        · intro hz0 _
          by_cases hk0 : k = 0
          · subst hk0
            exact (k5 (by rw [g4 qm 0 (le_refl _)]; exact hz0)).1
          · exact k7 (g6 hz0 (by omega))
        · intro o q hq
          rw [k2 o q (by omega)]
          exact g4 o q (by omega)
        · intro hz0 q h1 h2 hz
          by_cases hqk : q = k
          · subst hqk
            have hz2 : uf.1.mat_done qm q = 0 := by rw [g4 qm q (le_refl _)]; exact hz
            exact (k5 hz2).2 (g6 hz0 (by omega))
          · rw [k1 q hqk]
            exact g5 hz0 q h1 (by omega) hz)
      tf hf
    exact ⟨key.1, key.2.1, fun hz0 q h1 h2 hz => key.2.2.2.2.2 hz0 q h1 h2 hz⟩

theorem scan_obs_frame {inp : GnlInput} {ix : GnlIndex} {s t : GnlState} {o : Nat}
    (h : scan_obs inp ix s o = some t) : t.nb_ref = s.nb_ref := by
  unfold scan_obs at h
  split at h
  · have e := Option.some.inj h
    subst e
    rfl
  · split at h
    · split at h
      · exact Option.noConfusion h
      · split at h
        · exact Option.noConfusion h
        · split at h
          · dsimp only at h
            split at h
            · exact (mark_cluster_frame h).1
            · exact Option.noConfusion h
          · exact Option.noConfusion h
    · have e := Option.some.inj h
      subst e
      rfl

theorem propagation_loop_frame {inp : GnlInput} {ix : GnlIndex} (n : Nat) :
    ∀ (first_scan : Bool) (s t : GnlState),
      propagation_loop inp ix n first_scan s = some t → t.nb_ref = s.nb_ref := by
  induction n with
  | zero =>
    intro fs s t h
    unfold propagation_loop at h
    have e := Option.some.inj h
    subst e
    rfl
  | succ n ih =>
    intro fs s t h
    unfold propagation_loop at h
    split at h
    · exact Option.noConfusion h
    · rename_i s2 hs2
      have h2 : s2.nb_ref = s.nb_ref := by
        refine foldlM_some_inv (scan_obs inp ix) (fun u => u.nb_ref = s.nb_ref)
          (fun u x v g e => by show v.nb_ref = _; rw [scan_obs_frame e]; exact g) _ _ s2 ?_ hs2
        rfl
      split at h
      · have e := Option.some.inj h
        subst e
        exact h2
      · rw [ih false s2 t h]
        exact h2

theorem gnl_pass_frame {inp : GnlInput} {ix : GnlIndex} {first : Bool} {s t : GnlState}
    (h : gnl_pass inp ix first s = some t) :
    t.nb_ref 0 = s.nb_ref 0 ∧ (∀ q, s.nb_ref q ≤ t.nb_ref q) ∧
    (first = true → s.mat_done 0 0 = 0 →
      ∀ q, 1 ≤ q → q < inp.Q → s.mat_done 0 q = 0 → 1 ≤ t.nb_ref q) := by
  unfold gnl_pass at h
  cases hs1 : set_references inp ix
      (if first = true then 0 else find_qui_max inp.Q s.rowsums s.id2do 0 0) s with
  | none => rw [hs1] at h; exact Option.noConfusion h
  | some s1 =>
    rw [hs1, Option.some_bind] at h
    have h2 := propagation_loop_frame _ _ _ _ h
    obtain ⟨k1, k2, k3⟩ := set_references_frame hs1
    rw [h2]
    refine ⟨k1, k2, ?_⟩
    intro hf
    rw [if_pos hf] at k3
    exact k3

theorem gnl_loop_frame {inp : GnlInput} {ix : GnlIndex} (n : Nat) :
    ∀ (first : Bool) (s t : GnlState), gnl_loop inp ix n first s = some t →
      t.nb_ref 0 = s.nb_ref 0 ∧ (∀ q, s.nb_ref q ≤ t.nb_ref q) ∧
      (1 ≤ n → first = true → s.mat_done 0 0 = 0 →
        ∀ q, 1 ≤ q → q < inp.Q → s.mat_done 0 q = 0 → 1 ≤ t.nb_ref q) := by
  induction n with
  | zero =>
    intro first s t h
    unfold gnl_loop at h
    have e := Option.some.inj h
    subst e
    exact ⟨rfl, fun _ => le_refl _, fun h => by omega⟩
  | succ n ih =>
    intro first s t h
    unfold gnl_loop at h
    split at h
    · exact Option.noConfusion h
    · rename_i s1 hs1
      obtain ⟨k1, k2, k3⟩ := gnl_pass_frame hs1
      split at h
      · have e := Option.some.inj h
        subst e
        exact ⟨k1, k2, fun _ => k3⟩
      · obtain ⟨j1, j2, _⟩ := ih false s1 t h
        refine ⟨by rw [j1, k1], fun q => le_trans (k2 q) (j2 q), ?_⟩
        intro _ hf hz0 q h1 h2 hz
        exact le_trans (k3 hf hz0 q h1 h2 hz) (j2 q)

/-- The reference counts at the end of the main loop, on arbitrary arguments. -/
theorem gnl_run_nb_ref {inp : GnlInput} {t : GnlState} (h : gnl_run inp = some t) :
    t.nb_ref 0 = 0 ∧ ∀ q, 1 ≤ q → q < inp.Q → 1 ≤ t.nb_ref q := by
  unfold gnl_run at h
  split at h
  · exact Option.noConfusion h
  · rename_i ix _
    obtain ⟨k1, _, k3⟩ := gnl_loop_frame _ _ _ _ h
    exact ⟨k1, fun q h1 h2 => k3 (by decide) rfl rfl q h1 h2 rfl⟩

theorem nodup_length_le (l : List Nat) (n : Nat) (hnd : l.Nodup) (h : ∀ x ∈ l, x < n) :
    l.length ≤ n := by
  rw [← List.toFinset_card_of_nodup hnd, ← Finset.card_range n]
  apply Finset.card_le_card
  intro x hx
  rw [List.mem_toFinset] at hx
  exact Finset.mem_range.2 (h x hx)

theorem forBucket_some_inv {σ : Type} (cum : List Nat) (k : Nat) (f : σ → Nat → Option σ)
    (P : σ → Prop) (hstep : ∀ s x t, P s → f s x = some t → P t) (s t : σ) (h0 : P s)
    (h : forBucket cum k f s = some t) : P t := by
  unfold forBucket at h
  split at h
  · exact foldlM_some_inv f P hstep _ s t h0 h
  · exact Option.noConfusion h

theorem visit_i_pend {inp : Fe2Input} {j u : Nat} {s t : Fe2State}
    (h : visit_i inp j s u = some t) (hp : PendOk_i inp s) : PendOk_i inp t := by
  unfold visit_i at h
  split at h
  · exact Option.noConfusion h
  · rename_i i _
    split at h
    · rename_i hi
      split at h
      · rename_i hvis
        split at h
        · exact Option.noConfusion h
        · have e := Option.some.inj h
          subst e
          have hni : i ∉ s.cluster_pending_i := by
            intro hmem
            have := (hp.2 i hmem).2
            rw [hvis] at this
            exact Bool.noConfusion this
          constructor
          · show (s.cluster_pending_i ++ [i]).Nodup
            rw [List.nodup_append]
            refine ⟨hp.1, List.nodup_singleton i, ?_⟩
            intro x hx hx2
            rw [List.mem_singleton] at hx2
            subst hx2
            exact hni hx
          · intro x hx
            have hx2 : x ∈ s.cluster_pending_i ++ [i] := hx
            rw [List.mem_append, List.mem_singleton] at hx2
            show x < inp.n_i ∧ setAt s.to_visit_i i false x = false
            rcases hx2 with hx2 | hx2
            · refine ⟨(hp.2 x hx2).1, ?_⟩
              by_cases hxi : x = i
              · subst hxi; exact setAt_same _ _ _
              · rw [setAt_ne _ _ _ _ hxi]; exact (hp.2 x hx2).2
            · subst hx2
              exact ⟨hi, setAt_same _ _ _⟩
      · have e := Option.some.inj h
        subst e
        exact hp
    · exact Option.noConfusion h

theorem visit_j_pend {inp : Fe2Input} {i u : Nat} {s t : Fe2State}
    (h : visit_j inp i s u = some t) (hp : PendOk_j inp s) : PendOk_j inp t := by
  unfold visit_j at h
  split at h
  · exact Option.noConfusion h
  · rename_i j _
    split at h
    · rename_i hj
      split at h
      · rename_i hvis
        split at h
        · exact Option.noConfusion h
        · have e := Option.some.inj h
          subst e
          have hnj : j ∉ s.cluster_pending_j := by
            intro hmem
            have := (hp.2 j hmem).2
            rw [hvis] at this
            exact Bool.noConfusion this
          constructor
          · show (s.cluster_pending_j ++ [j]).Nodup
            rw [List.nodup_append]
            refine ⟨hp.1, List.nodup_singleton j, ?_⟩
            intro x hx hx2
            rw [List.mem_singleton] at hx2
            subst hx2
            exact hnj hx
          · intro x hx
            have hx2 : x ∈ s.cluster_pending_j ++ [j] := hx
            rw [List.mem_append, List.mem_singleton] at hx2
            show x < inp.n_j ∧ setAt s.to_visit_j j false x = false
            rcases hx2 with hx2 | hx2
            · refine ⟨(hp.2 x hx2).1, ?_⟩
              by_cases hxj : x = j
              · subst hxj; exact setAt_same _ _ _
              · rw [setAt_ne _ _ _ _ hxj]; exact (hp.2 x hx2).2
            · subst hx2
              exact ⟨hj, setAt_same _ _ _⟩
      · have e := Option.some.inj h
        subst e
        exact hp
    · exact Option.noConfusion h

/-- On arbitrary arguments, the frontier of dimension 1 built by a propagation holds at
most `n_i` entries. -/
theorem propagate_j_to_i_pend {inp : Fe2Input} {s t : Fe2State}
    (h : propagate_j_to_i inp s = some t) : t.cluster_pending_i.length ≤ inp.n_i := by
  unfold propagate_j_to_i at h
  have hP : PendOk_i inp t := by
    refine foldlM_some_inv _ (PendOk_i inp) ?_ _ _ t ?_ h
    · intro u j v hu e
      exact forBucket_some_inv _ _ _ (PendOk_i inp) (fun _ _ _ hp e => visit_i_pend e hp)
        u v hu e
    · exact ⟨List.nodup_nil, fun i hi => absurd hi (List.not_mem_nil i)⟩
  exact nodup_length_le _ _ hP.1 (fun x hx => (hP.2 x hx).1)

/-- On arbitrary arguments, the frontier of dimension 2 built by a propagation holds at
most `n_j` entries. -/
theorem propagate_i_to_j_pend {inp : Fe2Input} {s t : Fe2State}
    (h : propagate_i_to_j inp s = some t) : t.cluster_pending_j.length ≤ inp.n_j := by
  unfold propagate_i_to_j at h
  have hP : PendOk_j inp t := by
    refine foldlM_some_inv _ (PendOk_j inp) ?_ _ _ t ?_ h
    · intro u i v hu e
      exact forBucket_some_inv _ _ _ (PendOk_j inp) (fun _ _ _ hp e => visit_j_pend e hp)
        u v hu e
    · exact ⟨List.nodup_nil, fun j hj => absurd hj (List.not_mem_nil j)⟩
  exact nodup_length_le _ _ hP.1 (fun x hx => (hP.2 x hx).1)

theorem Fe2Reach.pend_le {inp : Fe2Input} {s : Fe2State} (h : Fe2Reach inp s) :
    s.cluster_pending_j.length ≤ inp.n_j := by
  induction h with
  | init => exact Nat.zero_le _
  | pass s t _ _ ht _ =>
    unfold fe2_pass at ht
    cases h1 : (if s.cluster_pending_j.length = 0 then set_reference inp s else some s) with
    | none => rw [h1] at ht; exact Option.noConfusion ht
    | some s1 =>
      rw [h1, Option.some_bind] at ht
      cases h2 : propagate_j_to_i inp s1 with
      | none => rw [h2] at ht; exact Option.noConfusion ht
      | some s2 =>
        rw [h2, Option.some_bind] at ht
        exact propagate_i_to_j_pend ht

/-- C27 (the reference scan of the Bipartite Recoverer stays in range).  On an input
of `cpp_get_fe_2` in which every category of dimension 1 has at least one observation
and the two views hold the same observations, at every state `s` at the top of the
`while` loop in which the loop condition holds: when the reference scan runs
(`n_pending_j == 0`), it stops at an index `j` with `j_start ≤ j < n_j`, the first
index from `j_start` on whose category is still to visit; and the three steps of the
pass succeed, with at most `n_j` entries in the frontier of dimension 2 after the
scan, at most `n_i` entries written to the frontier of dimension 1, and at most `n_j`
entries written to the frontier of dimension 2. -/
theorem fe2_scan_in_range (inp : Fe2Input) (hv : Fe2Views inp) (s : Fe2State)
    (hr : Fe2Reach inp s) (hn : s.n_done < inp.n_i + inp.n_j) :
    (s.cluster_pending_j.length = 0 →
      ∃ j, (List.range' s.j_start (inp.n_j - s.j_start)).find? (fun j => s.to_visit_j j) =
          some j ∧
        s.j_start ≤ j ∧ j < inp.n_j ∧ s.to_visit_j j = true ∧
        ∀ k, s.j_start ≤ k → k < j → s.to_visit_j k = false) ∧
    ∃ s1 s2 t,
      (if s.cluster_pending_j.length = 0 then set_reference inp s else some s) = some s1 ∧
      propagate_j_to_i inp s1 = some s2 ∧ propagate_i_to_j inp s2 = some t ∧
      fe2_pass inp s = some t ∧
      s1.cluster_pending_j.length ≤ inp.n_j ∧ s2.cluster_pending_i.length ≤ inp.n_i ∧
      t.cluster_pending_j.length ≤ inp.n_j := by
  have htop := hr.top hv (fun _ => 0) (fun _ => 0)
  constructor
  · intro hp
    obtain ⟨t, ht, _, _⟩ := set_reference_spec hv s htop (List.length_eq_zero.1 hp) hn
    unfold set_reference at ht
    cases hf : (List.range' s.j_start (inp.n_j - s.j_start)).find?
        (fun j => s.to_visit_j j) with
    | none => rw [hf] at ht; exact Option.noConfusion ht
    | some j =>
      obtain ⟨g1, g2, g3, g4⟩ := find_range'_some _ _ _ _ hf
      exact ⟨j, rfl, g1, by omega, g3, g4⟩
  · by_cases hp : s.cluster_pending_j.length = 0
    · obtain ⟨s1, hs1, htop1, _⟩ := set_reference_spec hv s htop (List.length_eq_zero.1 hp) hn
      obtain ⟨s2, hs2, hmid2, _⟩ := propagate_j_to_i_spec hv s1 htop1
      obtain ⟨t, ht, _, _⟩ := propagate_i_to_j_spec hv s2 hmid2
      have hpass : fe2_pass inp s = some t := by
        unfold fe2_pass
        rw [if_pos hp, hs1, Option.some_bind, hs2, Option.some_bind, ht]
      refine ⟨s1, s2, t, by rw [if_pos hp, hs1], hs2, ht, hpass, ?_,
        propagate_j_to_i_pend hs2, propagate_i_to_j_pend ht⟩
      unfold set_reference at hs1
      split at hs1
      · exact Option.noConfusion hs1
      · rename_i j hf
        have e := Option.some.inj hs1
        subst e
        have := find_range'_some _ _ _ _ hf
        show 1 ≤ inp.n_j
        omega
    · obtain ⟨s2, hs2, hmid2, _⟩ := propagate_j_to_i_spec hv s htop
      obtain ⟨t, ht, _, _⟩ := propagate_i_to_j_spec hv s2 hmid2
      have hpass : fe2_pass inp s = some t := by
        unfold fe2_pass
        rw [if_neg hp, Option.some_bind, hs2, Option.some_bind, ht]
      exact ⟨s, s2, t, by rw [if_neg hp], hs2, ht, hpass, hr.pend_le,
        propagate_j_to_i_pend hs2, propagate_i_to_j_pend ht⟩

/-- C27 on the input `fe2_gap`, whose category `1` of dimension 2 has no observation,
at the state reached after one pass. -/
theorem fe2_scan_in_range_witness :
    Fe2Views fe2_gap ∧ ¬ Fe2Valid fe2_gap ∧
    ∃ s, fe2_pass fe2_gap fe2_init = some s ∧ s.n_done < fe2_gap.n_i + fe2_gap.n_j ∧
      (s.cluster_pending_j.length = 0 →
        ∃ j, (List.range' s.j_start (fe2_gap.n_j - s.j_start)).find?
            (fun j => s.to_visit_j j) = some j ∧
          s.j_start ≤ j ∧ j < fe2_gap.n_j ∧ s.to_visit_j j = true ∧
          ∀ k, s.j_start ≤ k → k < j → s.to_visit_j k = false) ∧
      ∃ s1 s2 t,
        (if s.cluster_pending_j.length = 0 then set_reference fe2_gap s else some s) =
          some s1 ∧
        propagate_j_to_i fe2_gap s1 = some s2 ∧ propagate_i_to_j fe2_gap s2 = some t ∧
        fe2_pass fe2_gap s = some t ∧
        s1.cluster_pending_j.length ≤ fe2_gap.n_j ∧
        s2.cluster_pending_i.length ≤ fe2_gap.n_i ∧
        t.cluster_pending_j.length ≤ fe2_gap.n_j := by
  refine ⟨by decide!, by decide!, ?_⟩
  have hsome : (fe2_pass fe2_gap fe2_init).isSome = true := by decide!
  obtain ⟨s, h⟩ := Option.isSome_iff_exists.1 hsome
  · have hn : s.n_done < fe2_gap.n_i + fe2_gap.n_j := by
      have : (fe2_pass fe2_gap fe2_init).map (fun s => s.n_done) = some 2 := by decide!
      rw [h] at this
      have e : s.n_done = 2 := by simpa using this
      rw [e]
      decide
    exact ⟨s, h, hn, fe2_scan_in_range fe2_gap (by decide!) s
      (Fe2Reach.pass fe2_init s Fe2Reach.init (by decide) h) hn⟩

theorem logged_fold_snd {σ α : Type} (f : σ → α → Option σ) (ev : σ → α → GnlEvent) :
    ∀ (l : List α) (ls : List GnlEvent × σ),
      (l.foldlM (logged f ev) ls).map Prod.snd = l.foldlM f ls.2 := by
  intro l
  induction l with
  | nil => intro ls; rfl
  | cons a l ih =>
    intro ls
    rw [List.foldlM_cons, List.foldlM_cons]
    have e : logged f ev ls a = (f ls.2 a).map fun t => (ls.1 ++ [ev ls.2 a], t) := rfl
    rw [e]
    cases h : f ls.2 a with
    | none => rfl
    | some t =>
      simp only [Option.map_some', Option.bind_eq_bind, Option.some_bind]
      exact ih _

/-- The loop with its log makes the steps of `set_references`. -/
theorem set_references_log_snd (inp : GnlInput) (ix : GnlIndex) (qm : Nat)
    (ls : List GnlEvent × GnlState) :
    (set_references_log inp ix qm ls).map Prod.snd = set_references inp ix qm ls.2 := by
  unfold set_references_log set_references
  rw [← logged_fold_snd (set_ref_step inp ix qm)
    (fun sf q => GnlEvent.ref qm q sf.2 sf.1) (List.range inp.Q) (ls.1, (ls.2, true))]
  rw [Option.map_map, Option.map_map]
  rfl

/-- The loop with its log makes the steps of `propagation_loop`. -/
theorem propagation_loop_log_snd (inp : GnlInput) (ix : GnlIndex) (n : Nat) :
    ∀ (first_scan : Bool) (ls : List GnlEvent × GnlState),
      (propagation_loop_log inp ix n first_scan ls).map Prod.snd =
        propagation_loop inp ix n first_scan ls.2 := by
  induction n with
  | zero => intro fs ls; rfl
  | succ n ih =>
    intro fs ls
    unfold propagation_loop_log propagation_loop
    have key := logged_fold_snd (scan_obs inp ix) (fun s obs => GnlEvent.obs obs s)
      (if fs = true then ls.2.id2do else ls.2.id2do_next)
      (ls.1 ++ [GnlEvent.scan { ls.2 with
          id2do := (if fs = true then ls.2.id2do else ls.2.id2do_next), id2do_next := [] }],
        { ls.2 with
          id2do := (if fs = true then ls.2.id2do else ls.2.id2do_next), id2do_next := [] })
    simp only at key
    rw [← key]
    cases h : (if fs = true then ls.2.id2do else ls.2.id2do_next).foldlM
        (logged (scan_obs inp ix) (fun s obs => GnlEvent.obs obs s))
        (ls.1 ++ [GnlEvent.scan { ls.2 with
            id2do := (if fs = true then ls.2.id2do else ls.2.id2do_next),
            id2do_next := [] }],
          { ls.2 with
            id2do := (if fs = true then ls.2.id2do else ls.2.id2do_next),
            id2do_next := [] }) with
    | none => rfl
    | some ls2 =>
      simp only [Option.map_some']
      by_cases hl : ls2.2.id2do_next.length = ls2.2.id2do.length
      · rw [if_pos hl, if_pos hl]; rfl
      · rw [if_neg hl, if_neg hl]; exact ih false ls2

/-- The pass with its log makes the steps of `gnl_pass`. -/
theorem gnl_pass_log_snd (inp : GnlInput) (ix : GnlIndex) (first : Bool)
    (ls : List GnlEvent × GnlState) :
    (gnl_pass_log inp ix first ls).map Prod.snd = gnl_pass inp ix first ls.2 := by
  unfold gnl_pass_log gnl_pass
  have key := set_references_log_snd inp ix
    (if first = true then 0 else find_qui_max inp.Q ls.2.rowsums ls.2.id2do 0 0)
    (ls.1 ++ [GnlEvent.pass first
      (if first = true then 0 else find_qui_max inp.Q ls.2.rowsums ls.2.id2do 0 0) ls.2],
      ls.2)
  simp only at key
  rw [← key]
  cases h : set_references_log inp ix
      (if first = true then 0 else find_qui_max inp.Q ls.2.rowsums ls.2.id2do 0 0)
      (ls.1 ++ [GnlEvent.pass first
        (if first = true then 0 else find_qui_max inp.Q ls.2.rowsums ls.2.id2do 0 0) ls.2],
        ls.2) with
  | none => rfl
  | some ls1 =>
    rw [Option.some_bind, Option.map_some', Option.some_bind]
    exact propagation_loop_log_snd inp ix _ true ls1

/-- The loop with its log makes the steps of `gnl_loop`. -/
theorem gnl_loop_log_snd (inp : GnlInput) (ix : GnlIndex) (n : Nat) :
    ∀ (first : Bool) (ls : List GnlEvent × GnlState),
      (gnl_loop_log inp ix n first ls).map Prod.snd = gnl_loop inp ix n first ls.2 := by
  induction n with
  | zero => intro first ls; rfl
  | succ n ih =>
    intro first ls
    unfold gnl_loop_log gnl_loop
    rw [← gnl_pass_log_snd inp ix first ls]
    cases h : gnl_pass_log inp ix first ls with
    | none => rfl
    | some ls1 =>
      simp only [Option.map_some']
      by_cases hl : ls1.2.id2do_next.length = 0
      · rw [if_pos hl, if_pos hl]; rfl
      · rw [if_neg hl, if_neg hl]; exact ih false ls1

/-- The run with its log ends in the state of `gnl_run`. -/
theorem gnl_run_log_snd (inp : GnlInput) :
    (gnl_run_log inp).map Prod.snd = gnl_run inp := by
  unfold gnl_run_log gnl_run
  cases h : gnl_index inp with
  | none => rfl
  | some ix => exact gnl_loop_log_snd inp ix iterMax true ([], gnl_init inp)

theorem GnlLogOk.log_nil (inp : GnlInput) : GnlLogOk inp [] := by
  intro pre e post h
  exact absurd h (by simp)

theorem GnlLogOk.snoc {inp : GnlInput} {L : List GnlEvent} {e : GnlEvent}
    (h : GnlLogOk inp L) (he : GnlEventOk inp L e) : GnlLogOk inp (L ++ [e]) := by
  intro pre e2 post heq
  rcases List.eq_nil_or_concat post with hp | ⟨post2, x, hp⟩
  · subst hp
    have h1 := List.append_inj' heq (by simp)
    obtain ⟨h2, h3⟩ := h1
    have h4 : e = e2 := by simpa using h3
    subst h2 h4
    exact he
  · subst hp
    have h0 : L ++ [e] = (pre ++ e2 :: post2) ++ [x] := by
      rw [heq]; simp
    have h1 := List.append_inj' h0 (by simp)
    exact h pre e2 post2 h1.1

theorem gnl_writes_snoc (inp : GnlInput) (L : List GnlEvent) (e : GnlEvent) :
    gnl_writes inp (L ++ [e]) =
      gnl_writes inp L ++ (match e.write inp with | some w => [w] | none => []) := by
  unfold gnl_writes
  rw [List.filterMap_append]
  congr 1
  cases h : e.write inp with
  | none => simp [List.filterMap_cons, h]
  | some w => simp [List.filterMap_cons, h]

/-- A step that writes no coefficient and keeps the markers, the rowsums and the values
keeps the invariant of the log. -/
theorem GnlLogInv.skip {inp : GnlInput} {L : List GnlEvent} {s t : GnlState} {e : GnlEvent}
    (h : GnlLogInv inp L s) (hw : e.write inp = none) (h1 : t.mat_done = s.mat_done)
    (h2 : t.rowsums = s.rowsums) (h3 : t.cluster_values = s.cluster_values)
    (h4 : ∀ o ∈ t.id2do, o < inp.N) (h5 : ∀ o ∈ t.id2do_next, o < inp.N) :
    GnlLogInv inp (L ++ [e]) t := by
  have e1 : gnl_writes inp (L ++ [e]) = gnl_writes inp L := by
    rw [gnl_writes_snoc, hw]; simp
  have e2 : gnl_resolved inp (L ++ [e]) = gnl_resolved inp L := by
    unfold gnl_resolved; rw [e1]
  refine ⟨h.inv.congr h1 h2 h3, ?_, ?_, ?_, ?_, h4, h5⟩
  · intro o ho q hq
    rw [e2, h1]
    exact h.res o ho q hq
  · rw [e2]; exact h.nodup
  · intro w hw2
    rw [e1] at hw2
    rw [h3]
    exact h.vals w hw2
  · intro w hw2
    rw [e1] at hw2
    exact h.touched w hw2

/-- The same state with other worklists. -/
theorem GnlLogInv.relist {inp : GnlInput} {L : List GnlEvent} {s t : GnlState}
    (h : GnlLogInv inp L s) (h1 : t.mat_done = s.mat_done)
    (h2 : t.rowsums = s.rowsums) (h3 : t.cluster_values = s.cluster_values)
    (h4 : ∀ o ∈ t.id2do, o < inp.N) (h5 : ∀ o ∈ t.id2do_next, o < inp.N) :
    GnlLogInv inp L t := by
  refine ⟨h.inv.congr h1 h2 h3, ?_, h.nodup, ?_, h.touched, h4, h5⟩
  · intro o ho q hq
    rw [h1]
    exact h.res o ho q hq
  · intro w hw2
    rw [h3]
    exact h.vals w hw2

/-- A step that resolves the category of the observation `o` in the dimension `q`,
where its marker was zero, keeps the invariant of the log. -/
theorem GnlLogInv.marked {inp : GnlInput} (hv : GnlValid inp)
    {L : List GnlEvent} {s t : GnlState} {e : GnlEvent} {o q : Nat} {v : ℚ}
    (h : GnlLogInv inp L s) (ho : o < inp.N) (hq : q < inp.Q) (hz : s.mat_done o q = 0)
    (hw : e.write inp = some (q, inp.dum o q, v))
    (hm : GnlMarked inp s t q (inp.dum o q) v) : GnlLogInv inp (L ++ [e]) t := by
  obtain ⟨m1, m2, m3, m4, m5⟩ := hm
  have e1 : gnl_writes inp (L ++ [e]) = gnl_writes inp L ++ [(q, inp.dum o q, v)] := by
    rw [gnl_writes_snoc, hw]
  have e2 : gnl_resolved inp (L ++ [e]) = gnl_resolved inp L ++ [(q, inp.dum o q)] := by
    unfold gnl_resolved; rw [e1, List.map_append]; rfl
  have hnew : (q, inp.dum o q) ∉ gnl_resolved inp L := by
    intro hmem
    have := (h.res o ho q hq).2 hmem
    omega
  have hlen : inp.cluster_sizes.length = inp.Q := hv.shape.2.1
  refine ⟨?_, ?_, ?_, ?_, ?_, ?_, ?_⟩
  · refine h.inv.mark hv ho hq hz m1 m2 ?_ ?_ trivial
    · intro idx hidx
      rw [m3]
      exact setAt_ne _ _ _ _ hidx
    · intro hcons
      exact absurd hcons (gnl_off_inconsistent inp hv.npos (by omega))
  · intro o2 ho2 q2 hq2
    rw [e2, m1, List.mem_append, List.mem_singleton]
    by_cases hc : q2 = q ∧ o2 < inp.N ∧ inp.dum o2 q = inp.dum o q
    · rw [if_pos hc]
      obtain ⟨c1, _, c3⟩ := hc
      subst c1
      exact ⟨fun _ => Or.inr (by rw [c3]), fun _ => rfl⟩
    · rw [if_neg hc]
      constructor
      · intro hd
        exact Or.inl ((h.res o2 ho2 q2 hq2).1 hd)
      · rintro (hd | hd)
        · exact (h.res o2 ho2 q2 hq2).2 hd
        · exfalso
          apply hc
          have h1 : q2 = q := (Prod.mk.inj hd).1
          have h2 : inp.dum o2 q2 = inp.dum o q := (Prod.mk.inj hd).2
          subst h1
          exact ⟨rfl, ho2, h2⟩
  · rw [e2, List.nodup_append]
    refine ⟨h.nodup, List.nodup_singleton _, ?_⟩
    intro x hx hx2
    rw [List.mem_singleton] at hx2
    subst hx2
    exact hnew hx
  · intro w hw2
    rw [e1, List.mem_append, List.mem_singleton] at hw2
    rw [m3]
    rcases hw2 with hw2 | hw2
    · obtain ⟨hwq, o2, ho2, hwo⟩ := h.touched w hw2
      have hne : pindex_cluster inp.cluster_sizes w.1 + w.2.1 ≠
          pindex_cluster inp.cluster_sizes q + inp.dum o q := by
        intro heq
        have hr1 : w.2.1 < inp.cluster_sizes.getD w.1 0 := by
          rw [← hwo]; exact hv.range o2 ho2 w.1 hwq
        have hr2 : inp.dum o q < inp.cluster_sizes.getD q 0 := hv.range o ho q hq
        obtain ⟨a1, a2⟩ := pindex_slot_inj inp.cluster_sizes (by omega) hr1 (by omega) hr2 heq
        apply hnew
        unfold gnl_resolved
        rw [List.mem_map]
        exact ⟨w, hw2, by rw [a1, a2]⟩
      rw [setAt_ne _ _ _ _ hne]
      exact h.vals w hw2
    · subst hw2
      exact setAt_same _ _ _
  · intro w hw2
    rw [e1, List.mem_append, List.mem_singleton] at hw2
    rcases hw2 with hw2 | hw2
    · exact h.touched w hw2
    · subst hw2
      exact ⟨hq, o, ho, rfl⟩
  · intro o2 ho2
    rw [m4] at ho2
    exact h.todo o2 ho2
  · intro o2 ho2
    rw [m5] at ho2
    exact h.next o2 ho2

/-- One round of the loop that sets the references, on a valid input: either the
category of `qm` in dimension `q` becomes a reference, or the dimension is spared, or
it is already resolved. -/
theorem set_ref_step_exact {inp : GnlInput} {c : Nat → Nat → ℚ} {V : Nat × Nat → Prop}
    (hv : GnlValid inp) {ix : GnlIndex} (hix : GnlIndexOk inp ix) (s : GnlState)
    (h : GnlInv inp c V s) (qm : Nat) (hqm : qm < inp.N) (q : Nat) (hq : q < inp.Q)
    (fl : Bool) :
    ∃ t fl2, set_ref_step inp ix qm (s, fl) q = some (t, fl2) ∧
      ((s.mat_done qm q = 0 ∧ fl = false ∧ fl2 = false ∧
          GnlMarked inp s t q (inp.dum qm q) 0 ∧
          t.nb_ref = setAt s.nb_ref q (s.nb_ref q + 1)) ∨
        (s.mat_done qm q = 0 ∧ fl = true ∧ fl2 = false ∧ t = s) ∨
        (s.mat_done qm q = 1 ∧ fl2 = fl ∧ t = s)) := by
  by_cases hmz : s.mat_done qm q = 0
  · by_cases hf : fl = true
    · refine ⟨s, false, ?_, Or.inr (Or.inl ⟨hmz, hf, rfl, rfl⟩)⟩
      unfold set_ref_step
      simp only [hqm, hmz, hf, if_true]
    · have hff : fl = false := by simpa using hf
      have hr := hv.range qm hqm q hq
      have hr2 : inp.dum qm q < inp.cluster_sizes.getD q 0 := hr
      obtain ⟨t1, ht1, k1, k2, k3, k4, k5, k6⟩ := mark_cluster_spec hv hix hq hr
        { s with cluster_values := (setAt s.cluster_values
            (pindex_cluster inp.cluster_sizes q + inp.dum qm q) 0) }
      refine ⟨{ t1 with nb_ref := setAt t1.nb_ref q (t1.nb_ref q + 1) }, false, ?_,
        Or.inl ⟨hmz, hff, rfl, ⟨k1, k2, k3, k5, k6⟩, ?_⟩⟩
      · unfold set_ref_step
        simp only [hqm, hmz, hf, Bool.false_eq_true, if_false, if_true, hv.matGet_dum hqm hq,
          hr2, ht1]
      · show setAt t1.nb_ref q (t1.nb_ref q + 1) = _
        rw [k4]
  · have hone : s.mat_done qm q = 1 := by
      rcases h.bit qm hqm q hq with hb | hb
      · exact absurd hb hmz
      · exact hb
    refine ⟨s, fl, ?_, Or.inr (Or.inr ⟨hone, rfl, rfl⟩)⟩
    unfold set_ref_step
    simp only [hqm, hmz, if_true, if_false]

/-- The body of the scan on the observation `o`, on a valid input: either `o` is kept
for the next scan, or its rowsum is `Q - 1` and the category of its only unresolved
dimension receives `sumFE(o)` minus the sum of the stored values of the categories of
`o`, or `o` is fully resolved and nothing is done. -/
theorem scan_obs_exact {inp : GnlInput} {c : Nat → Nat → ℚ} {V : Nat × Nat → Prop}
    (hv : GnlValid inp) {ix : GnlIndex} (hix : GnlIndexOk inp ix) (s : GnlState)
    (h : GnlInv inp c V s) (o : Nat) (ho : o < inp.N) :
    ∃ t, scan_obs inp ix s o = some t ∧
      ((s.rowsums o + 1 < inp.Q ∧ t = { s with id2do_next := s.id2do_next ++ [o] }) ∨
        (s.rowsums o + 1 = inp.Q ∧ ∃ q < inp.Q,
          (List.range inp.Q).find? (fun q => s.mat_done o q == 0) = some q ∧
          s.mat_done o q = 0 ∧ (∀ q2 < inp.Q, q2 ≠ q → s.mat_done o q2 = 1) ∧
          GnlMarked inp s t q (inp.dum o q)
            (inp.sfe o - ((List.range inp.Q).map fun l =>
              s.cluster_values (pindex_cluster inp.cluster_sizes l + inp.dum o l)).sum) ∧
          t.nb_ref = s.nb_ref) ∨
        (s.rowsums o = inp.Q ∧ t = s)) := by
  have hle := h.rows_le ho
  by_cases c1 : ((s.rowsums o : Nat) : ℤ) < (inp.Q : ℤ) - 1
  · refine ⟨_, ?_, Or.inl ⟨by omega, rfl⟩⟩
    unfold scan_obs
    simp only [c1, if_true]
  · by_cases c2 : ((s.rowsums o : Nat) : ℤ) = (inp.Q : ℤ) - 1
    · have hrs : s.rowsums o + 1 = inp.Q := by omega
      have hsum : ((List.range inp.Q).map (s.mat_done o)).sum + 1 = inp.Q := by
        rw [← h.rows o ho]; exact hrs
      cases hfind : (List.range inp.Q).find? (fun q => s.mat_done o q == 0) with
      | none =>
        exfalso
        have hall : ∀ q < inp.Q, s.mat_done o q = 1 := by
          intro q hq
          have := find_range_none _ _ hfind q hq
          rcases h.bit o ho q hq with h0 | h1
          · simp [h0] at this
          · exact h1
        have := sum_bits_ones _ _ hall
        omega
      | some q0 =>
        obtain ⟨hq0, hp, _⟩ := find_range_some _ _ _ hfind
        have hz : s.mat_done o q0 = 0 := by simpa using hp
        have hones := sum_bits_pred _ _ q0 (h.bit o ho) hq0 hz hsum
        have hr := hv.range o ho q0 hq0
        have hr2 : inp.dum o q0 < inp.cluster_sizes.getD q0 0 := hr
        obtain ⟨t, ht, g1, g2, g3, g4, g5, g6⟩ := mark_cluster_spec hv hix hq0 hr
          { s with cluster_values := (setAt s.cluster_values
              (pindex_cluster inp.cluster_sizes q0 + inp.dum o q0)
              (inp.sfe o - ((List.range inp.Q).map
                (fun l => s.cluster_values
                  (pindex_cluster inp.cluster_sizes l + inp.dum o l))).sum)) }
        refine ⟨t, ?_,
          Or.inr (Or.inl ⟨hrs, q0, hq0, rfl, hz, hones, ⟨g1, g2, g3, g5, g6⟩, g4⟩)⟩
        unfold scan_obs
        rw [if_neg c1, if_pos c2]
        simp only [if_true, hfind, hv.matGet_dum ho hq0, hr2,
          other_value_eq hv _ ho, hv.sumFE_get ho]
        exact ht
    · refine ⟨s, ?_, Or.inr (Or.inr ⟨by omega, rfl⟩)⟩
      unfold scan_obs
      rw [if_neg c1, if_neg c2]

/-- One round of the loop that sets the references keeps the invariant of the log. -/
theorem set_ref_step_log {inp : GnlInput} (hv : GnlValid inp) {ix : GnlIndex}
    (hix : GnlIndexOk inp ix) {L : List GnlEvent} {s : GnlState}
    (h : GnlLogInv inp L s) (qm : Nat) (hqm : qm < inp.N) (q : Nat) (hq : q < inp.Q)
    (fl : Bool) :
    ∃ t fl2, set_ref_step inp ix qm (s, fl) q = some (t, fl2) ∧
      GnlLogInv inp (L ++ [GnlEvent.ref qm q fl s]) t ∧
      ((s.mat_done qm q = 0 ∧ fl = false ∧ fl2 = false ∧
          GnlMarked inp s t q (inp.dum qm q) 0 ∧
          t.nb_ref = setAt s.nb_ref q (s.nb_ref q + 1)) ∨
        (s.mat_done qm q = 0 ∧ fl = true ∧ fl2 = false ∧ t = s) ∨
        (s.mat_done qm q = 1 ∧ fl2 = fl ∧ t = s)) := by
  obtain ⟨t, fl2, e, hcase⟩ := set_ref_step_exact hv hix s h.inv qm hqm q hq fl
  refine ⟨t, fl2, e, ?_, hcase⟩
  rcases hcase with ⟨a1, a2, _, a4, _⟩ | ⟨a1, a2, _, a4⟩ | ⟨a1, _, a4⟩
  · refine h.marked hv hqm hq a1 ?_ a4
    show (if s.mat_done qm q = 0 ∧ fl = false then some (q, inp.dum qm q, (0 : ℚ)) else none) = _
    rw [if_pos ⟨a1, a2⟩]
  · subst a4
    refine h.skip ?_ rfl rfl rfl h.todo h.next
    show (if t.mat_done qm q = 0 ∧ fl = false then some (q, inp.dum qm q, (0 : ℚ)) else none) = _
    rw [if_neg (by rw [a2]; simp)]
  · subst a4
    refine h.skip ?_ rfl rfl rfl h.todo h.next
    show (if t.mat_done qm q = 0 ∧ fl = false then some (q, inp.dum qm q, (0 : ℚ)) else none) = _
    rw [if_neg (by rw [a1]; simp)]

/-- The body of the scan keeps the invariant of the log. -/
theorem scan_obs_log {inp : GnlInput} (hv : GnlValid inp) {ix : GnlIndex}
    (hix : GnlIndexOk inp ix) {L : List GnlEvent} {s : GnlState}
    (h : GnlLogInv inp L s) (o : Nat) (ho : o < inp.N) :
    ∃ t, scan_obs inp ix s o = some t ∧ GnlLogInv inp (L ++ [GnlEvent.obs o s]) t ∧
      t.id2do = s.id2do := by
  obtain ⟨t, e, hcase⟩ := scan_obs_exact hv hix s h.inv o ho
  refine ⟨t, e, ?_⟩
  rcases hcase with ⟨a1, a2⟩ | ⟨a1, q, hq, a2, a3, _, a5, _⟩ | ⟨a1, a2⟩
  · subst a2
    refine ⟨h.skip ?_ rfl rfl rfl h.todo ?_, rfl⟩
    · show (if s.rowsums o + 1 = inp.Q then _ else none) = _
      rw [if_neg (by omega)]
    · intro o2 ho2
      have : o2 ∈ s.id2do_next ++ [o] := ho2
      rw [List.mem_append, List.mem_singleton] at this
      rcases this with h1 | h1
      · exact h.next o2 h1
      · rw [h1]; exact ho
  · refine ⟨h.marked hv ho hq a3 ?_ a5, a5.2.2.2.1⟩
    show (if s.rowsums o + 1 = inp.Q then _ else none) = _
    rw [if_pos a1, a2]
    rfl
  · subst a2
    refine ⟨h.skip ?_ rfl rfl rfl h.todo h.next, rfl⟩
    show (if t.rowsums o + 1 = inp.Q then _ else none) = _
    rw [if_neg (by omega)]

theorem zerosBelow_succ (f : Nat → Nat) (k : Nat) :
    zerosBelow f (k + 1) = zerosBelow f k + if f k = 0 then 1 else 0 := by
  unfold zerosBelow
  rw [List.range_succ, List.countP_append, List.countP_cons, List.countP_nil]
  by_cases h : f k = 0
  · rw [if_pos (by simpa using h), if_pos h]
  · rw [if_neg (by simpa using h), if_neg h]

theorem zerosBelow_add_sum (f : Nat → Nat) (n : Nat) (h : ∀ q < n, f q = 0 ∨ f q = 1) :
    zerosBelow f n + ((List.range n).map f).sum = n := by
  induction n with
  | zero => simp [zerosBelow]
  | succ n ih =>
    have ih2 := ih (fun q hq => h q (by omega))
    rw [zerosBelow_succ, List.range_succ, List.map_append, List.sum_append]
    simp only [List.map_cons, List.map_nil, List.sum_cons, List.sum_nil, add_zero]
    rcases h n (by omega) with h0 | h1
    · rw [if_pos h0, h0]; omega
    · rw [if_neg (by omega), h1]; omega

/-- The loop that sets the references keeps the invariant of the log; the selected
observation is left with one unresolved dimension unless it was fully resolved, and
one reference is added per unresolved dimension but the first. -/
theorem set_references_log_spec {inp : GnlInput} (hv : GnlValid inp) {ix : GnlIndex}
    (hix : GnlIndexOk inp ix) {L : List GnlEvent} {s : GnlState}
    (h : GnlLogInv inp L s) (hok : GnlLogOk inp L) (qm : Nat) (hqm : qm < inp.N) :
    ∃ L2 t, set_references_log inp ix qm (L, s) = some (L2, t) ∧ GnlLogInv inp L2 t ∧
      GnlLogOk inp L2 ∧ t.id2do = s.id2do ∧ t.id2do_next = s.id2do_next ∧
      t.rowsums qm + (if s.rowsums qm = inp.Q then 0 else 1) = inp.Q ∧
      ((List.range inp.Q).map t.nb_ref).sum + s.rowsums qm +
          (if s.rowsums qm = inp.Q then 0 else 1) =
        ((List.range inp.Q).map s.nb_ref).sum + inp.Q := by
  unfold set_references_log
  obtain ⟨r, hr, hP⟩ := foldlM_range_inv
    (logged (set_ref_step inp ix qm) (fun sf q => GnlEvent.ref qm q sf.2 sf.1))
    (fun k r => GnlLogInv inp r.1 r.2.1 ∧ GnlLogOk inp r.1 ∧ r.2.1.id2do = s.id2do ∧
      r.2.1.id2do_next = s.id2do_next ∧
      (∀ o q2, k ≤ q2 → r.2.1.mat_done o q2 = s.mat_done o q2) ∧
      (r.2.2 = true ↔ zerosBelow (s.mat_done qm) k = 0) ∧
      r.2.1.rowsums qm + (if zerosBelow (s.mat_done qm) k = 0 then 0 else 1) =
        s.rowsums qm + zerosBelow (s.mat_done qm) k ∧
      ((List.range inp.Q).map r.2.1.nb_ref).sum +
          (if zerosBelow (s.mat_done qm) k = 0 then 0 else 1) =
        ((List.range inp.Q).map s.nb_ref).sum + zerosBelow (s.mat_done qm) k)
    inp.Q (L, (s, true))
    ⟨h, hok, rfl, rfl, fun _ _ _ => rfl, by simp [zerosBelow], by simp [zerosBelow],
      by simp [zerosBelow]⟩
    (by
      rintro k ⟨L1, u, fl⟩ hk ⟨g1, g2, g3, g4, g5, g6, g7, g8⟩
      simp only at g1 g2 g3 g4 g5 g6 g7 g8
      obtain ⟨t, fl2, e, hJ, hcase⟩ := set_ref_step_log hv hix g1 qm hqm k hk fl
      have hok2 : GnlLogOk inp (L1 ++ [GnlEvent.ref qm k fl u]) :=
        g2.snoc ⟨g1, hqm, hk⟩
      have hcol : u.mat_done qm k = s.mat_done qm k := g5 qm k (le_refl _)
      refine ⟨(L1 ++ [GnlEvent.ref qm k fl u], (t, fl2)), ?_, hJ, hok2, ?_⟩
      · show (set_ref_step inp ix qm (u, fl) k).map _ = _
        rw [e]
        rfl
      · show t.id2do = s.id2do ∧ t.id2do_next = s.id2do_next ∧
          (∀ o q2, k + 1 ≤ q2 → t.mat_done o q2 = s.mat_done o q2) ∧
          (fl2 = true ↔ zerosBelow (s.mat_done qm) (k + 1) = 0) ∧
          t.rowsums qm + (if zerosBelow (s.mat_done qm) (k + 1) = 0 then 0 else 1) =
            s.rowsums qm + zerosBelow (s.mat_done qm) (k + 1) ∧
          ((List.range inp.Q).map t.nb_ref).sum +
              (if zerosBelow (s.mat_done qm) (k + 1) = 0 then 0 else 1) =
            ((List.range inp.Q).map s.nb_ref).sum + zerosBelow (s.mat_done qm) (k + 1)
        rw [zerosBelow_succ]
        rcases hcase with ⟨a1, a2, a3, ⟨m1, m2, m3, m4, m5⟩, a5⟩ | ⟨a1, a2, a3, a4⟩ |
          ⟨a1, a3, a4⟩
        · have hz : s.mat_done qm k = 0 := by rw [← hcol]; exact a1
          have hzn : zerosBelow (s.mat_done qm) k ≠ 0 := by
            intro hh
            have := g6.2 hh
            rw [a2] at this
            exact Bool.noConfusion this
          rw [if_pos hz, if_neg (by omega)]
          rw [if_neg hzn] at g7 g8
          refine ⟨m4.trans g3, m5.trans g4, ?_, ?_, ?_, ?_⟩
          · intro o q2 hq2
            rw [m1, if_neg (fun hh => by omega)]
            exact g5 o q2 (by omega)
          · rw [a3]
            constructor
            · intro hh; exact Bool.noConfusion hh
            · intro hh; omega
          · rw [m2, if_pos ⟨hqm, rfl⟩]
            omega
          · rw [a5]
            have := sum_map_setAt u.nb_ref inp.Q k (u.nb_ref k + 1) hk
            omega
        · subst a4
          have hz : s.mat_done qm k = 0 := by rw [← hcol]; exact a1
          have hzz : zerosBelow (s.mat_done qm) k = 0 := g6.1 a2
          rw [if_pos hz, if_neg (by omega)]
          rw [if_pos hzz] at g7 g8
          refine ⟨g3, g4, fun o q2 hq2 => g5 o q2 (by omega), ?_, by omega, by omega⟩
          rw [a3]
          constructor
          · intro hh; exact Bool.noConfusion hh
          · intro hh; omega
        · subst a4
          have hz : ¬ s.mat_done qm k = 0 := by rw [← hcol, a1]; omega
          rw [if_neg hz, add_zero]
          refine ⟨g3, g4, fun o q2 hq2 => g5 o q2 (by omega), ?_, g7, g8⟩
          rw [a3]
          exact g6)
  obtain ⟨g1, g2, g3, g4, _, _, g7, g8⟩ := hP
  have hz := zerosBelow_add_sum (s.mat_done qm) inp.Q (h.inv.bit qm hqm)
  rw [← h.inv.rows qm hqm] at hz
  refine ⟨r.1, r.2.1, by rw [hr]; rfl, g1, g2, g3, g4, ?_, ?_⟩
  · by_cases hfull : s.rowsums qm = inp.Q
    · rw [if_pos hfull]
      rw [if_pos (by omega)] at g7
      omega
    · rw [if_neg hfull]
      rw [if_neg (by omega)] at g7
      omega
  · by_cases hfull : s.rowsums qm = inp.Q
    · rw [if_pos hfull]
      rw [if_pos (by omega)] at g8
      omega
    · rw [if_neg hfull]
      rw [if_neg (by omega)] at g8
      omega

/-- A scan of the worklist `W` keeps the invariant of the log. -/
theorem scan_log_spec {inp : GnlInput} (hv : GnlValid inp) {ix : GnlIndex}
    (hix : GnlIndexOk inp ix) (W : List Nat) (hW : ∀ o ∈ W, o < inp.N)
    {L : List GnlEvent} {s : GnlState} (h : GnlLogInv inp L s) (hok : GnlLogOk inp L) :
    ∃ L2 t, W.foldlM (logged (scan_obs inp ix) (fun s obs => GnlEvent.obs obs s)) (L, s) =
        some (L2, t) ∧ GnlLogInv inp L2 t ∧ GnlLogOk inp L2 := by
  obtain ⟨r, hr, hP⟩ := foldlM_option_inv
    (logged (scan_obs inp ix) (fun s obs => GnlEvent.obs obs s))
    (fun _ r => GnlLogInv inp r.1 r.2 ∧ GnlLogOk inp r.1) W (L, s) ⟨h, hok⟩
    (by
      rintro pre o suf ⟨L1, u⟩ hsplit ⟨g1, g2⟩
      simp only at g1 g2
      have ho : o < inp.N := hW o (by rw [hsplit]; simp)
      obtain ⟨t, e, hJ, _⟩ := scan_obs_log hv hix g1 o ho
      refine ⟨(L1 ++ [GnlEvent.obs o u], t), ?_, hJ, g2.snoc ⟨g1, ho⟩⟩
      show (scan_obs inp ix u o).map _ = _
      rw [e]
      rfl)
  exact ⟨r.1, r.2, hr, hP.1, hP.2⟩

/-- The propagation loop keeps the invariant of the log, whatever the cap. -/
theorem propagation_loop_log_spec {inp : GnlInput} (hv : GnlValid inp) {ix : GnlIndex}
    (hix : GnlIndexOk inp ix) (n : Nat) :
    ∀ (first_scan : Bool) (L : List GnlEvent) (s : GnlState), GnlLogInv inp L s →
      GnlLogOk inp L →
      ∃ L2 t, propagation_loop_log inp ix n first_scan (L, s) = some (L2, t) ∧
        GnlLogInv inp L2 t ∧ GnlLogOk inp L2 := by
  induction n with
  | zero =>
    intro fs L s h hok
    exact ⟨L, s, rfl, h, hok⟩
  | succ n ih =>
    intro fs L s h hok
    have hW : ∀ o ∈ (if fs = true then s.id2do else s.id2do_next), o < inp.N := by
      intro o ho
      by_cases hfs : fs = true
      · rw [if_pos hfs] at ho; exact h.todo o ho
      · rw [if_neg hfs] at ho; exact h.next o ho
    have h0 : GnlLogInv inp L { s with
        id2do := (if fs = true then s.id2do else s.id2do_next), id2do_next := [] } :=
      h.relist rfl rfl rfl hW (fun o ho => absurd ho (List.not_mem_nil o))
    have h1 : GnlLogInv inp (L ++ [GnlEvent.scan { s with
        id2do := (if fs = true then s.id2do else s.id2do_next), id2do_next := [] }])
        { s with id2do := (if fs = true then s.id2do else s.id2do_next), id2do_next := [] } :=
      h0.skip rfl rfl rfl rfl hW (fun o ho => absurd ho (List.not_mem_nil o))
    obtain ⟨L2, t, e, hJ, hok2⟩ := scan_log_spec hv hix _ hW h1 (hok.snoc h0)
    unfold propagation_loop_log
    simp only [e]
    by_cases hl : t.id2do_next.length = t.id2do.length
    · rw [if_pos hl]
      exact ⟨L2, t, rfl, hJ, hok2⟩
    · rw [if_neg hl]
      exact ih false L2 t hJ hok2

/-- An outer pass that starts as described by `GnlPassStart`: the selected observation
is in the worklist with at least two unresolved dimensions, it is fully resolved at the
end of the pass, and the next pass, if any, starts in the same way. -/
theorem gnl_pass_capped {inp : GnlInput} (hv : GnlValid inp) {ix : GnlIndex}
    (hix : GnlIndexOk inp ix) (hQ : 2 ≤ inp.Q) {s : GnlState}
    (h : GnlInv inp (gnl_off inp) (fun _ => True) s) (first : Bool)
    (hp : GnlPassStart inp first s) (qm : Nat)
    (hsel : qm = (if first = true then 0 else find_qui_max inp.Q s.rowsums s.id2do 0 0)) :
    qm ∈ s.id2do ∧ s.rowsums qm + 2 ≤ inp.Q ∧
    ∃ s1 t, set_references inp ix qm s = some s1 ∧
      propagation_loop inp ix iterMax_loop true s1 = some t ∧
      gnl_pass inp ix first s = some t ∧ t.rowsums qm = inp.Q ∧
      (t.id2do_next ≠ [] → GnlPassStart inp false t) := by
  obtain ⟨hfix, hne, hcap, hfirst, hlater⟩ := hp
  have hc := gnl_off_inconsistent inp hv.npos (by omega)
  have hid : s.id2do = s.id2do_next := hfix.2.2 hne
  have hmem : qm ∈ s.id2do_next := by
    rw [hsel]
    by_cases hf : first = true
    · simp only [hf, if_true]
      exact (hfirst hf).1
    · simp only [hf, if_false]
      obtain ⟨o, rest, hW⟩ := List.exists_cons_of_ne_nil hne
      rw [hid, hW]
      apply find_qui_max_head
      have := (hfix.2.1 o (by rw [hW]; simp)).2
      omega
  obtain ⟨hqm, hlt⟩ := hfix.2.1 qm hmem
  obtain ⟨s1, hs1, k1, k2, k3, k4, k5, k6⟩ := set_references_gen hv hix s h qm hqm (by omega)
    (fun hh => absurd hh hc) (fun _ _ => trivial)
  have hW1 : ∀ o ∈ s1.id2do, o < inp.N := by
    intro o ho
    rw [k2, hid] at ho
    exact (hfix.2.1 o ho).1
  have hcov1 : GnlCover inp s1 s1.id2do := by
    intro o ho hlt1
    rw [k2, hid]
    have := k4 o
    exact hfix.1 o ho (by omega)
  obtain ⟨t, ht, g1, g2, g3, g4, g5⟩ := propagation_loop_first hv hix hQ
    (fun _ _ _ _ => trivial) 9999 s1 k1 hW1 hcov1
    (Or.inl (by rw [k2, hid]; exact hcap))
  have hqm1 : qm ∈ s1.id2do := by rw [k2, hid]; exact hmem
  have hqmfull : t.rowsums qm = inp.Q := g5 qm hqm1 k6
  have hnot : qm ∉ t.id2do_next := by
    intro hin
    have := (g3.2.1 qm hin).2
    omega
  have hsub : t.id2do_next.Sublist s.id2do_next := by
    have := g4
    rwa [k2, hid] at this
  have hlen : t.id2do_next.length < s.id2do_next.length := by
    rcases Nat.lt_or_ge t.id2do_next.length s.id2do_next.length with hl | hl
    · exact hl
    · exfalso
      have := hsub.eq_of_length (le_antisymm hsub.length_le hl)
      exact hnot (this ▸ hmem)
  refine ⟨by rw [hid]; exact hmem, by omega, s1, t, hs1, ht, ?_, hqmfull, ?_⟩
  · unfold gnl_pass
    rw [← hsel, hs1]
    exact ht
  · intro hne2
    refine ⟨g3, hne2, by omega, fun hh => Bool.noConfusion hh, fun _ => ?_⟩
    by_cases hf : first = true
    · rw [hf, if_pos rfl] at hsel
      rw [← hsel]
      exact hqmfull
    · have h0 := hlater (by simpa using hf)
      have h1 := le_trans (k4 0) (g2.1 0)
      have h2 := g1.rows_le hv.npos
      omega

/-- One outer pass keeps the invariant of the log; with at most 10000 observations and
at least two dimensions the next pass, if any, starts as described by
`GnlPassStart`. -/
theorem gnl_pass_log_spec {inp : GnlInput} (hv : GnlValid inp) {ix : GnlIndex}
    (hix : GnlIndexOk inp ix) {L : List GnlEvent} {s : GnlState}
    (h : GnlLogInv inp L s) (hok : GnlLogOk inp L) (first : Bool)
    (hcap : inp.N ≤ 10000 → 2 ≤ inp.Q → GnlPassStart inp first s) :
    ∃ L2 t, gnl_pass_log inp ix first (L, s) = some (L2, t) ∧ GnlLogInv inp L2 t ∧
      GnlLogOk inp L2 ∧
      (inp.N ≤ 10000 → 2 ≤ inp.Q → t.id2do_next ≠ [] → GnlPassStart inp false t) := by
  obtain ⟨qm, hsel⟩ : ∃ qm,
      qm = (if first = true then 0 else find_qui_max inp.Q s.rowsums s.id2do 0 0) := ⟨_, rfl⟩
  have hqm : qm < inp.N := by
    rw [hsel]
    by_cases hf : first = true
    · rw [if_pos hf]; exact hv.npos
    · rw [if_neg hf]
      rcases find_qui_max_mem inp.Q s.rowsums s.id2do 0 0 with h0 | h0
      · rw [h0]; exact hv.npos
      · exact h.todo _ h0
  have h1 : GnlLogInv inp (L ++ [GnlEvent.pass first qm s]) s :=
    h.skip rfl rfl rfl rfl h.todo h.next
  have hok1 : GnlLogOk inp (L ++ [GnlEvent.pass first qm s]) :=
    hok.snoc ⟨h, hsel, hqm, hcap⟩
  obtain ⟨L1, s1, e1, hJ1, hok2, _⟩ :=
    set_references_log_spec hv hix h1 hok1 qm hqm
  obtain ⟨L2, t, e2, hJ2, hok3⟩ :=
    propagation_loop_log_spec hv hix iterMax_loop true L1 s1 hJ1 hok2
  have e : gnl_pass_log inp ix first (L, s) = some (L2, t) := by
    unfold gnl_pass_log
    simp only
    rw [← hsel, e1, Option.some_bind, e2]
  refine ⟨L2, t, e, hJ2, hok3, ?_⟩
  intro hN hQ hne
  obtain ⟨_, _, s1b, tb, _, _, hpass, _, hnext⟩ :=
    gnl_pass_capped hv hix hQ h.inv first (hcap hN hQ) qm hsel
  have hproj := gnl_pass_log_snd inp ix first (L, s)
  rw [e, hpass] at hproj
  have htt : t = tb := by simpa using hproj
  subst htt
  exact hnext hne

/-- The outer loop keeps the invariant of the log, whatever the cap. -/
theorem gnl_loop_log_spec {inp : GnlInput} (hv : GnlValid inp) {ix : GnlIndex}
    (hix : GnlIndexOk inp ix) (n : Nat) :
    ∀ (first : Bool) (L : List GnlEvent) (s : GnlState), GnlLogInv inp L s →
      GnlLogOk inp L →
      (inp.N ≤ 10000 → 2 ≤ inp.Q → s.id2do_next ≠ [] → GnlPassStart inp first s) →
      s.id2do_next ≠ [] →
      ∃ L2 t, gnl_loop_log inp ix n first (L, s) = some (L2, t) ∧ GnlLogInv inp L2 t ∧
        GnlLogOk inp L2 := by
  induction n with
  | zero =>
    intro first L s h hok _ _
    exact ⟨L, s, rfl, h, hok⟩
  | succ n ih =>
    intro first L s h hok hcap hne
    obtain ⟨L2, t, e, hJ, hok2, hnext⟩ :=
      gnl_pass_log_spec hv hix h hok first (fun hN hQ => hcap hN hQ hne)
    unfold gnl_loop_log
    simp only [e]
    by_cases hl : t.id2do_next.length = 0
    · rw [if_pos hl]
      exact ⟨L2, t, rfl, hJ, hok2⟩
    · rw [if_neg hl]
      exact ih false L2 t hJ hok2 hnext (fun hh => hl (by rw [hh]; rfl))

/-- The initial state satisfies the invariant of the empty log. -/
theorem gnl_init_log (inp : GnlInput) : GnlLogInv inp [] (gnl_init inp) := by
  refine ⟨gnl_init_inv inp _ _, ?_, List.nodup_nil, ?_, ?_, ?_, ?_⟩
  · intro o _ q _
    constructor
    · intro hh
      have : (0 : Nat) = 1 := hh
      omega
    · intro hh
      exact absurd hh (List.not_mem_nil _)
  · intro w hw
    exact absurd hw (List.not_mem_nil _)
  · intro w hw
    exact absurd hw (List.not_mem_nil _)
  · intro o ho
    exact List.mem_range.1 ho
  · intro o ho
    exact List.mem_range.1 ho

/-- The run of `cpp_get_fe_gnl` on a valid input: the main loop returns, in the state of `gnl_run`, with a log whose every program point is
reached in a state that satisfies `GnlEventOk`, and the final state satisfies the
invariant of the log. -/
theorem gnl_log_ok {inp : GnlInput} (hv : GnlValid inp) :
    ∃ ix L t, gnl_index inp = some ix ∧ GnlIndexOk inp ix ∧
      gnl_run_log inp = some (L, t) ∧ gnl_run inp = some t ∧
      GnlLogInv inp L t ∧ GnlLogOk inp L := by
  obtain ⟨ix, hix, hixok⟩ := gnl_index_ok hv
  have hne : (gnl_init inp).id2do_next ≠ [] := by
    show List.range inp.N ≠ []
    intro hh
    have := congrArg List.length hh
    simp at this
    have := hv.npos
    omega
  obtain ⟨L, t, e, hJ, hok⟩ := gnl_loop_log_spec hv hixok iterMax true []
    (gnl_init inp) (gnl_init_log inp) (GnlLogOk.log_nil inp)
    (by
      intro hN hQ _
      refine ⟨gnl_init_fix hQ, hne, ?_, fun _ => ⟨?_, rfl⟩, fun hh => Bool.noConfusion hh⟩
      · show (List.range inp.N).length ≤ iterMax_loop
        rw [List.length_range]
        exact hN
      · show 0 ∈ List.range inp.N
        exact List.mem_range.2 hv.npos)
    hne
  have e2 : gnl_run_log inp = some (L, t) := by
    unfold gnl_run_log
    rw [hix]
    exact e
  have hproj := gnl_run_log_snd inp
  rw [e2] at hproj
  exact ⟨ix, L, t, hix, hixok, e2, hproj.symm, hJ, hok⟩

theorem sum_bits_count (f : Nat → Nat) (n : Nat) (h : ∀ q < n, f q = 0 ∨ f q = 1) :
    ((List.range n).map f).sum = (List.range n).countP fun q => decide (f q = 1) := by
  induction n with
  | zero => simp
  | succ n ih =>
    have ih2 := ih (fun q hq => h q (by omega))
    rw [List.range_succ, List.map_append, List.sum_append, List.countP_append, ih2]
    simp only [List.map_cons, List.map_nil, List.sum_cons, List.sum_nil, add_zero,
      List.countP_cons, List.countP_nil, zero_add]
    rcases h n (by omega) with h0 | h1
    · rw [h0]; simp
    · rw [h1]; simp

theorem sum_filter_ne {M : Type} [AddCommMonoid M] (g : Nat → M) (n q : Nat) (hq : q < n) :
    ((List.range n).map g).sum =
      (((List.range n).filter fun l => decide (l ≠ q)).map g).sum + g q := by
  induction n with
  | zero => omega
  | succ n ih =>
    rw [List.range_succ, List.map_append, List.sum_append, List.filter_append,
      List.map_append, List.sum_append]
    by_cases hqn : q = n
    · subst hqn
      have e : (List.range q).filter (fun l => decide (l ≠ q)) = List.range q := by
        rw [List.filter_eq_self]
        intro l hl
        have := List.mem_range.1 hl
        simp only [ne_eq, decide_not, Bool.not_eq_true', decide_eq_false_iff_not]
        omega
      rw [e]
      simp
    · have ih2 := ih (by omega)
      rw [ih2]
      have e : [n].filter (fun l => decide (l ≠ q)) = [n] := by
        rw [List.filter_eq_self]
        intro l hl
        rw [List.mem_singleton] at hl
        subst hl
        simp only [ne_eq, decide_not, Bool.not_eq_true', decide_eq_false_iff_not]
        omega
      rw [e]
      simp only [List.map_cons, List.map_nil, List.sum_cons, List.sum_nil, add_zero]
      rw [add_right_comm]

theorem GnlLogOk.of_append {inp : GnlInput} {pre post : List GnlEvent}
    (h : GnlLogOk inp (pre ++ post)) : GnlLogOk inp pre := by
  intro a e b heq
  apply h a e (b ++ post)
  rw [heq]
  simp

theorem GnlEventOk.log_inv {inp : GnlInput} {pre : List GnlEvent} {e : GnlEvent}
    (h : GnlEventOk inp pre e) : GnlLogInv inp pre e.state := by
  cases e with
  | pass first qm s => exact h.1
  | ref qm q fl s => exact h.1
  | scan s => exact h
  | obs o s => exact h.1

/-- A category that no step of the log has resolved holds the stored value `0`. -/
theorem GnlLogInv.unresolved_zero {inp : GnlInput} {L : List GnlEvent} {s : GnlState}
    (h : GnlLogInv inp L s) {o q : Nat} (ho : o < inp.N) (hq : q < inp.Q)
    (hn : (q, inp.dum o q) ∉ gnl_resolved inp L) :
    s.cluster_values (pindex_cluster inp.cluster_sizes q + inp.dum o q) = 0 := by
  apply h.inv.zero o ho q hq
  rcases h.inv.bit o ho q hq with h0 | h1
  · exact h0
  · exact absurd ((h.res o ho q hq).1 h1) hn

/-- The value stored at a position of `cluster_values` is the value written by the
step of the log that resolved its category, and `0` when no step did. -/
theorem GnlLogInv.value_at {inp : GnlInput} {L : List GnlEvent} {s : GnlState}
    (h : GnlLogInv inp L s) (idx : Nat) :
    (∃ w ∈ gnl_writes inp L, pindex_cluster inp.cluster_sizes w.1 + w.2.1 = idx ∧
        s.cluster_values idx = w.2.2) ∨
      ((∀ w ∈ gnl_writes inp L, pindex_cluster inp.cluster_sizes w.1 + w.2.1 ≠ idx) ∧
        s.cluster_values idx = 0) := by
  by_cases hex : ∃ w ∈ gnl_writes inp L, pindex_cluster inp.cluster_sizes w.1 + w.2.1 = idx
  · obtain ⟨w, hw, hidx⟩ := hex
    exact Or.inl ⟨w, hw, hidx, by rw [← hidx]; exact h.vals w hw⟩
  · have hall : ∀ w ∈ gnl_writes inp L,
        pindex_cluster inp.cluster_sizes w.1 + w.2.1 ≠ idx :=
      fun w hw hidx => hex ⟨w, hw, hidx⟩
    refine Or.inr ⟨hall, ?_⟩
    by_cases ht : ∃ o < inp.N, ∃ q < inp.Q,
        idx = pindex_cluster inp.cluster_sizes q + inp.dum o q
    · obtain ⟨o, ho, q, hq, hidx⟩ := ht
      rw [hidx]
      apply h.unresolved_zero ho hq
      intro hmem
      unfold gnl_resolved at hmem
      rw [List.mem_map] at hmem
      obtain ⟨w, hw, hcat⟩ := hmem
      apply hall w hw
      rw [hidx, (Prod.mk.inj hcat).1, (Prod.mk.inj hcat).2]
    · apply h.inv.untouched
      intro o ho q hq hidx
      exact ht ⟨o, ho, q, hq, hidx⟩

/-- Between two consecutive program points, `cluster_values` changes by the write of
the step made, and not at all when the step writes no coefficient. -/
theorem GnlLogInv.step_values {inp : GnlInput} {pre : List GnlEvent} {e : GnlEvent}
    {s s2 : GnlState} (h1 : GnlLogInv inp pre s) (h2 : GnlLogInv inp (pre ++ [e]) s2) :
    s2.cluster_values =
      match e.write inp with
      | none => s.cluster_values
      | some w => setAt s.cluster_values (pindex_cluster inp.cluster_sizes w.1 + w.2.1) w.2.2 := by
  have hw := gnl_writes_snoc inp pre e
  cases he : e.write inp with
  | none =>
    rw [he] at hw
    simp only [List.append_nil] at hw
    simp only
    funext idx
    rcases h1.value_at idx with ⟨w, hw1, hidx, hval⟩ | ⟨hall, hval⟩
    · rw [hval, ← hidx]
      exact h2.vals w (by rw [hw]; exact hw1)
    · rcases h2.value_at idx with ⟨w, hw2, hidx, _⟩ | ⟨_, hval2⟩
      · rw [hw] at hw2
        exact absurd hidx (hall w hw2)
      · rw [hval, hval2]
  | some wn =>
    rw [he] at hw
    simp only at hw
    simp only
    funext idx
    by_cases hidx : idx = pindex_cluster inp.cluster_sizes wn.1 + wn.2.1
    · rw [hidx, setAt_same]
      exact h2.vals wn (by rw [hw]; simp)
    · rw [setAt_ne _ _ _ _ hidx]
      rcases h1.value_at idx with ⟨w, hw1, hidx1, hval⟩ | ⟨hall, hval⟩
      · rw [hval, ← hidx1]
        exact h2.vals w (by rw [hw]; simp [hw1])
      · rcases h2.value_at idx with ⟨w, hw2, hidx2, _⟩ | ⟨_, hval2⟩
        · rw [hw, List.mem_append, List.mem_singleton] at hw2
          rcases hw2 with hw2 | hw2
          · exact absurd hidx2 (hall w hw2)
          · subst hw2
            exact absurd hidx2.symm hidx
        · rw [hval, hval2]

/-- C21 (rowsum invariant of the General Recoverer).  On every valid input the main
loop returns, and whenever control reaches the start of an
outer pass or the start of a propagation scan, for every observation `o`: `rowsums[o]`
is the number of dimensions `q` whose marker `mat_done(o, q)` is `1`; every marker is
`0` or `1`, and it is `1` exactly when the category `dumMat(o, q)` of dimension `q` has
been resolved by an earlier step, as a reference or by propagation; and
`rowsums[o] ≤ Q`. -/
theorem gnl_rowsum_invariant (inp : GnlInput) (hv : GnlValid inp) :
    ∃ L t, gnl_run_log inp = some (L, t) ∧ gnl_run inp = some t ∧
      ∀ pre e post s, L = pre ++ e :: post →
        ((∃ first qm, e = GnlEvent.pass first qm s) ∨ e = GnlEvent.scan s) →
        ∀ o < inp.N,
          s.rowsums o = (List.range inp.Q).countP (fun q => decide (s.mat_done o q = 1)) ∧
          (∀ q < inp.Q, (s.mat_done o q = 0 ∨ s.mat_done o q = 1) ∧
            (s.mat_done o q = 1 ↔ (q, inp.dum o q) ∈ gnl_resolved inp pre)) ∧
          s.rowsums o ≤ inp.Q := by
  obtain ⟨ix, L, t, _, _, hlog, hrun, _, hok⟩ := gnl_log_ok hv
  refine ⟨L, t, hlog, hrun, ?_⟩
  intro pre e post s hsplit he o ho
  have hJ : GnlLogInv inp pre s := by
    have := (hok pre e post hsplit).log_inv
    rcases he with ⟨first, qm, he⟩ | he
    · rw [he] at this; exact this
    · rw [he] at this; exact this
  refine ⟨?_, fun q hq => ⟨hJ.inv.bit o ho q hq, hJ.res o ho q hq⟩, hJ.inv.rows_le ho⟩
  rw [hJ.inv.rows o ho]
  exact sum_bits_count _ _ (hJ.inv.bit o ho)

/-- C22 (resolution is permanent in the General Recoverer).  On every valid input the
main loop returns, and over its run: the categories resolved
by the steps, as reference or by propagation, are pairwise distinct; a step that writes
the coefficient of a category finds it resolved by no earlier step, and no later step
resolves it; between two consecutive program points `cluster_values` changes by the
write of the step made, and not at all when the step writes no coefficient; and the
value written is the one held at every later program point and at the end of the
loop. -/
theorem gnl_resolution_permanent (inp : GnlInput) (hv : GnlValid inp) :
    ∃ L t, gnl_run_log inp = some (L, t) ∧ gnl_run inp = some t ∧
      (gnl_resolved inp L).Nodup ∧
      (∀ pre e e2 post, L = pre ++ e :: e2 :: post →
        e2.state.cluster_values =
          match e.write inp with
          | none => e.state.cluster_values
          | some w => setAt e.state.cluster_values
              (pindex_cluster inp.cluster_sizes w.1 + w.2.1) w.2.2) ∧
      (∀ pre e, L = pre ++ [e] →
        t.cluster_values =
          match e.write inp with
          | none => e.state.cluster_values
          | some w => setAt e.state.cluster_values
              (pindex_cluster inp.cluster_sizes w.1 + w.2.1) w.2.2) ∧
      ∀ pre e post q k v, L = pre ++ e :: post → e.write inp = some (q, k, v) →
        (q, k) ∉ gnl_resolved inp pre ∧ (q, k) ∉ gnl_resolved inp post ∧
        (∀ mid e2 post2, post = mid ++ e2 :: post2 →
          e2.state.cluster_values (pindex_cluster inp.cluster_sizes q + k) = v) ∧
        t.cluster_values (pindex_cluster inp.cluster_sizes q + k) = v := by
  obtain ⟨ix, L, t, _, _, hlog, hrun, hJ, hok⟩ := gnl_log_ok hv
  refine ⟨L, t, hlog, hrun, hJ.nodup, ?_, ?_, ?_⟩
  · intro pre e e2 post hsplit
    have h1 := (hok pre e (e2 :: post) hsplit).log_inv
    have h2 := (hok (pre ++ [e]) e2 post (by rw [hsplit]; simp)).log_inv
    exact h1.step_values h2
  · intro pre e hsplit
    have h1 := (hok pre e [] hsplit).log_inv
    rw [hsplit] at hJ
    exact h1.step_values hJ
  · intro pre e post q k v hsplit hw
    have hwr : gnl_writes inp L =
        gnl_writes inp pre ++ (q, k, v) :: gnl_writes inp post := by
      rw [hsplit]
      unfold gnl_writes
      rw [List.filterMap_append, List.filterMap_cons, hw]
    have hres : gnl_resolved inp L =
        gnl_resolved inp pre ++ (q, k) :: gnl_resolved inp post := by
      unfold gnl_resolved
      rw [hwr, List.map_append, List.map_cons]
    have hnd := hJ.nodup
    rw [hres] at hnd
    have hnd2 := List.nodup_append.1 hnd
    refine ⟨?_, ?_, ?_, ?_⟩
    · intro hmem
      exact hnd2.2.2 hmem (List.mem_cons_self _ _) 
    · exact (List.nodup_cons.1 hnd2.2.1).1
    · intro mid e2 post2 hpost
      have h2 := (hok (pre ++ e :: mid) e2 post2 (by rw [hsplit, hpost]; simp)).log_inv
      apply h2.vals (q, k, v)
      unfold gnl_writes
      rw [List.filterMap_append, List.filterMap_cons, hw]
      simp
    · apply hJ.vals (q, k, v)
      rw [hwr]
      simp

/-- C23 (one-step resolution rule).  On every valid input the main loop returns, and
whenever the propagation scan processes an observation `o`
whose rowsum is `Q - 1`: there is one dimension `q` in which the category of `o` has
not been resolved by an earlier step, the categories of `o` in the other dimensions
have been; the step writes the coefficient of category `dumMat(o, q)` of dimension
`q`, and the value written is `sumFE(o)` minus the sum of the stored values of the
categories of `o` in the `Q - 1` other dimensions.  The sum `other_value` that the
code takes over all the `Q` dimensions is that sum, because the category of `o` in
dimension `q` holds `0`, as does every category that no earlier step has resolved. -/
theorem gnl_one_step_rule (inp : GnlInput) (hv : GnlValid inp) :
    ∃ ix L t, gnl_index inp = some ix ∧ gnl_run_log inp = some (L, t) ∧
      gnl_run inp = some t ∧
      ∀ pre o s post, L = pre ++ GnlEvent.obs o s :: post → s.rowsums o + 1 = inp.Q →
        ∃ q u, q < inp.Q ∧ (q, inp.dum o q) ∉ gnl_resolved inp pre ∧
          (∀ q2 < inp.Q, q2 ≠ q → (q2, inp.dum o q2) ∈ gnl_resolved inp pre) ∧
          scan_obs inp ix s o = some u ∧
          (GnlEvent.obs o s).write inp = some (q, inp.dum o q,
            u.cluster_values (pindex_cluster inp.cluster_sizes q + inp.dum o q)) ∧
          u.cluster_values (pindex_cluster inp.cluster_sizes q + inp.dum o q) =
            inp.sfe o - (((List.range inp.Q).filter fun l => decide (l ≠ q)).map fun l =>
              s.cluster_values (pindex_cluster inp.cluster_sizes l + inp.dum o l)).sum ∧
          other_value inp s.cluster_values o =
            some ((((List.range inp.Q).filter fun l => decide (l ≠ q)).map fun l =>
              s.cluster_values (pindex_cluster inp.cluster_sizes l + inp.dum o l)).sum) ∧
          (∀ o2 < inp.N, ∀ q2 < inp.Q, (q2, inp.dum o2 q2) ∉ gnl_resolved inp pre →
            s.cluster_values (pindex_cluster inp.cluster_sizes q2 + inp.dum o2 q2) = 0) := by
  obtain ⟨ix, L, t, hix, hixok, hlog, hrun, _, hok⟩ := gnl_log_ok hv
  refine ⟨ix, L, t, hix, hlog, hrun, ?_⟩
  intro pre o s post hsplit hrs
  obtain ⟨hJ, ho⟩ := hok pre (GnlEvent.obs o s) post hsplit
  obtain ⟨u, e, hcase⟩ := scan_obs_exact hv hixok s hJ.inv o ho
  rcases hcase with ⟨a1, _⟩ | ⟨_, q, hq, a2, a3, a4, a5, _⟩ | ⟨a1, _⟩
  · omega
  · have hzero : s.cluster_values (pindex_cluster inp.cluster_sizes q + inp.dum o q) = 0 :=
      hJ.inv.zero o ho q hq a3
    have hsum := sum_filter_ne (fun l =>
      s.cluster_values (pindex_cluster inp.cluster_sizes l + inp.dum o l)) inp.Q q hq
    simp only at hsum
    rw [hzero, add_zero] at hsum
    have hval : u.cluster_values (pindex_cluster inp.cluster_sizes q + inp.dum o q) =
        inp.sfe o - ((List.range inp.Q).map fun l =>
          s.cluster_values (pindex_cluster inp.cluster_sizes l + inp.dum o l)).sum := by
      rw [a5.2.2.1, setAt_same]
    refine ⟨q, u, hq, ?_, ?_, e, ?_, ?_, ?_, ?_⟩
    · intro hmem
      have := (hJ.res o ho q hq).2 hmem
      omega
    · intro q2 hq2 hne
      exact (hJ.res o ho q2 hq2).1 (a4 q2 hq2 hne)
    · show (if s.rowsums o + 1 = inp.Q then _ else none) = _
      rw [if_pos hrs, a2, hval]
      rfl
    · rw [hval, hsum]
    · rw [other_value_eq hv _ ho, hsum]
    · intro o2 ho2 q2 hq2 hn
      exact hJ.unresolved_zero ho2 hq2 hn
  · omega

theorem FirstMax.le_max {rs : Nat → Nat} {W : List Nat} {r : Nat} (h : FirstMax rs W r) :
    ∀ o ∈ W, rs o ≤ rs r := by
  obtain ⟨a, b, hW, ha, hb⟩ := h
  intro o ho
  rw [hW, List.mem_append, List.mem_cons] at ho
  rcases ho with ho | ho | ho
  · exact Nat.le_of_lt (ha o ho)
  · rw [ho]
  · exact hb o ho

theorem FirstMax.mem_list {rs : Nat → Nat} {W : List Nat} {r : Nat} (h : FirstMax rs W r) :
    r ∈ W := by
  obtain ⟨a, b, hW, _, _⟩ := h
  rw [hW]
  simp

/-- The search of lines 488-507 over a worklist whose observations all have at least
two unresolved dimensions and differ from observation `0`: after the part `P` of the
worklist, `qm` is the first observation of `P` with the largest rowsum and `rsmax` is
that rowsum; the search returns the first observation of the whole worklist with the
largest rowsum. -/
theorem find_qui_max_first (Q : Nat) (rs : Nat → Nat) :
    ∀ (W P : List Nat) (qm rsmax : Nat),
      (∀ o ∈ P ++ W, rs o + 2 ≤ Q ∧ o ≠ 0) → (∀ o ∈ P, rs o + 2 < Q) →
      (P = [] → qm = 0 ∧ rsmax = 0) →
      (P ≠ [] → FirstMax rs P qm ∧ rsmax = rs qm ∧ qm ≠ 0) → P ++ W ≠ [] →
      FirstMax rs (P ++ W) (find_qui_max Q rs W qm rsmax) := by
  intro W
  induction W with
  | nil =>
    intro P qm rsmax _ _ _ h4 hne
    rw [List.append_nil] at hne ⊢
    exact (h4 hne).1
  | cons o W ih =>
    intro P qm rsmax h1 h2 h3 h4 _
    have ho := h1 o (by simp)
    have hassoc : P ++ o :: W = (P ++ [o]) ++ W := by simp
    unfold find_qui_max
    by_cases c1 : ((rs o : Nat) : ℤ) = (Q : ℤ) - 2
    · rw [if_pos c1]
      refine ⟨P, W, rfl, ?_, ?_⟩
      · intro p hp
        have := h2 p hp
        omega
      · intro w hw
        have := (h1 w (by simp [hw])).1
        omega
    · rw [if_neg c1]
      have hlt : rs o + 2 < Q := by omega
      have hall : ∀ p ∈ P ++ [o], rs p + 2 < Q := by
        intro p hp
        rw [List.mem_append, List.mem_singleton] at hp
        rcases hp with hp | hp
        · exact h2 p hp
        · rw [hp]; exact hlt
      have hne2 : (P ++ [o]) ++ W ≠ [] := by simp
      have hne3 : P ++ [o] ≠ [] := by simp
      by_cases c2 : rs o < Q ∧ rs o > rsmax
      · rw [if_pos c2, hassoc]
        apply ih (P ++ [o]) o (rs o) (by rw [← hassoc]; exact h1) hall
          (fun hh => absurd hh hne3) _ hne2
        intro _
        refine ⟨⟨P, [], rfl, ?_, fun _ hh => absurd hh (List.not_mem_nil _)⟩, rfl, ho.2⟩
        intro p hp
        have hP : P ≠ [] := List.ne_nil_of_mem hp
        obtain ⟨hfm, hrs, _⟩ := h4 hP
        have := hfm.le_max p hp
        omega
      · rw [if_neg c2]
        by_cases c3 : qm = 0 ∧ rs o = 0
        · rw [if_pos c3, hassoc]
          have hP : P = [] := by
            by_contra hP
            exact (h4 hP).2.2 c3.1
          subst hP
          apply ih ([] ++ [o]) o rsmax (by rw [← hassoc]; exact h1) hall
            (fun hh => absurd hh hne3) _ hne2
          intro _
          refine ⟨⟨[], [], rfl, fun _ hh => absurd hh (List.not_mem_nil _),
            fun _ hh => absurd hh (List.not_mem_nil _)⟩, ?_, ho.2⟩
          rw [(h3 rfl).2, c3.2]
        · rw [if_neg c3, hassoc]
          have hP : P ≠ [] := by
            intro hP
            obtain ⟨hq0, hr0⟩ := h3 hP
            apply c3
            refine ⟨hq0, ?_⟩
            by_contra hrs
            apply c2
            omega
          obtain ⟨hfm, hrs, hq0⟩ := h4 hP
          apply ih (P ++ [o]) qm rsmax (by rw [← hassoc]; exact h1) hall
            (fun hh => absurd hh hne3) _ hne2
          intro _
          refine ⟨?_, hrs, hq0⟩
          obtain ⟨a, b, hW, ha, hb⟩ := hfm
          refine ⟨a, b ++ [o], by rw [hW]; simp, ha, ?_⟩
          intro p hp
          rw [List.mem_append, List.mem_singleton] at hp
          rcases hp with hp | hp
          · exact hb p hp
          · rw [hp]
            have : ¬ rs o > rsmax := fun hh => c2 ⟨by omega, hh⟩
            omega

/-- C24 (reference selection picks the first maximal observation).  On a valid input
with at least two dimensions and at most 10000 observations the main loop returns, and
at the start of every outer pass `qui_max` is the observation selected by lines
482-508: in the first pass it is observation `0`; in every later pass it belongs to the
worklist `id2do`, its rowsum is at most `Q - 2`, no observation of the worklist has a
larger rowsum, and every observation before it in the worklist has a smaller
rowsum. -/
theorem gnl_selects_first_maximal (inp : GnlInput) (hv : GnlValid inp) (hQ : 2 ≤ inp.Q)
    (hN : inp.N ≤ 10000) :
    ∃ L t, gnl_run_log inp = some (L, t) ∧ gnl_run inp = some t ∧
      ∀ pre first qm s post, L = pre ++ GnlEvent.pass first qm s :: post →
        qm = (if first then 0 else find_qui_max inp.Q s.rowsums s.id2do 0 0) ∧
        (first = true → qm = 0) ∧
        (first = false → qm ∈ s.id2do ∧ s.rowsums qm + 2 ≤ inp.Q ∧
          (∀ o ∈ s.id2do, s.rowsums o ≤ s.rowsums qm) ∧
          ∃ a b, s.id2do = a ++ qm :: b ∧ ∀ o ∈ a, s.rowsums o < s.rowsums qm) := by
  obtain ⟨ix, L, t, _, _, hlog, hrun, _, hok⟩ := gnl_log_ok hv
  refine ⟨L, t, hlog, hrun, ?_⟩
  intro pre first qm s post hsplit
  obtain ⟨hJ, hsel, _, hcap⟩ := hok pre (GnlEvent.pass first qm s) post hsplit
  obtain ⟨hfix, hne, _, _, hlater⟩ := hcap hN hQ
  refine ⟨hsel, ?_, ?_⟩
  · intro hf
    rw [hsel, if_pos hf]
  · intro hf
    have hid : s.id2do = s.id2do_next := hfix.2.2 hne
    have hrs0 := hlater hf
    have hW : ∀ o ∈ [] ++ s.id2do, s.rowsums o + 2 ≤ inp.Q ∧ o ≠ 0 := by
      intro o ho
      rw [List.nil_append, hid] at ho
      have := (hfix.2.1 o ho).2
      refine ⟨by omega, ?_⟩
      intro h0
      rw [h0] at this
      omega
    have hfm := find_qui_max_first inp.Q s.rowsums s.id2do [] 0 0 hW
      (fun _ hh => absurd hh (List.not_mem_nil _)) (fun _ => ⟨rfl, rfl⟩)
      (fun hh => absurd rfl hh) (by rw [List.nil_append, hid]; exact hne)
    rw [List.nil_append] at hfm
    have hq : qm = find_qui_max inp.Q s.rowsums s.id2do 0 0 := by
      rw [hsel, if_neg (by rw [hf]; simp)]
    rw [← hq] at hfm
    refine ⟨hfm.mem_list, (hW qm (by rw [List.nil_append]; exact hfm.mem_list)).1,
      hfm.le_max, ?_⟩
    obtain ⟨a, b, hab, ha, _⟩ := hfm
    exact ⟨a, b, hab, ha⟩

/-- C25 (every outer pass of the General Recoverer makes progress).  On a valid input
with at least two dimensions and at most 10000 observations the main loop returns, and
in every outer pass, for the selected observation `qui_max`: after the loop that sets
the references its rowsum is `Q - 1`; the number of references added by the pass, over
all the dimensions, is `Q - 1` minus its rowsum at the start of the pass, which is at
least one in a pass after the first and is `Q - 1` in the first; and at the end of the
pass its rowsum is `Q`, with all its markers set. -/
theorem gnl_pass_progress (inp : GnlInput) (hv : GnlValid inp) (hQ : 2 ≤ inp.Q)
    (hN : inp.N ≤ 10000) :
    ∃ ix L t, gnl_index inp = some ix ∧ gnl_run_log inp = some (L, t) ∧
      gnl_run inp = some t ∧
      ∀ pre first qm s post, L = pre ++ GnlEvent.pass first qm s :: post →
        ∃ s1 u, set_references inp ix qm s = some s1 ∧ s1.rowsums qm + 1 = inp.Q ∧
          ((List.range inp.Q).map s1.nb_ref).sum =
            ((List.range inp.Q).map s.nb_ref).sum + (inp.Q - 1 - s.rowsums qm) ∧
          (first = false → 1 ≤ inp.Q - 1 - s.rowsums qm) ∧
          (first = true → inp.Q - 1 - s.rowsums qm = inp.Q - 1) ∧
          propagation_loop inp ix iterMax_loop true s1 = some u ∧
          gnl_pass inp ix first s = some u ∧ u.rowsums qm = inp.Q ∧
          ∀ q < inp.Q, u.mat_done qm q = 1 := by
  obtain ⟨ix, L, t, hix, hixok, hlog, hrun, _, hok⟩ := gnl_log_ok hv
  refine ⟨ix, L, t, hix, hlog, hrun, ?_⟩
  intro pre first qm s post hsplit
  have hpre : GnlLogOk inp pre := by
    rw [hsplit] at hok
    exact hok.of_append
  obtain ⟨hJ, hsel, hqm, hcap⟩ := hok pre (GnlEvent.pass first qm s) post hsplit
  obtain ⟨_, hlow, s1, u, hs1, hu, hpass, hfull, _⟩ :=
    gnl_pass_capped hv hixok hQ hJ.inv first (hcap hN hQ) qm hsel
  -- the counts, from the loop with its log
  have h1 : GnlLogInv inp (pre ++ [GnlEvent.pass first qm s]) s :=
    hJ.skip rfl rfl rfl rfl hJ.todo hJ.next
  have hok1 : GnlLogOk inp (pre ++ [GnlEvent.pass first qm s]) :=
    hpre.snoc ⟨hJ, hsel, hqm, hcap⟩
  obtain ⟨L1, s1b, e1, _, _, _, _, c1, c2⟩ :=
    set_references_log_spec hv hixok h1 hok1 qm hqm
  have hproj := set_references_log_snd inp ix qm (pre ++ [GnlEvent.pass first qm s], s)
  rw [e1, hs1] at hproj
  have hss : s1b = s1 := by simpa using hproj
  subst hss
  rw [if_neg (by omega)] at c1 c2
  -- the invariant at the end of the pass
  obtain ⟨L2, ub, e2, hJ2, _, _⟩ := gnl_pass_log_spec hv hixok hJ hpre first hcap
  have hproj2 := gnl_pass_log_snd inp ix first (pre, s)
  rw [e2, hpass] at hproj2
  have huu : ub = u := by simpa using hproj2
  subst huu
  refine ⟨s1b, ub, hs1, by omega, by omega, fun _ => by omega, ?_, hu, hpass, hfull,
    hJ2.inv.done_of_full hqm hfull⟩
  intro hf
  have hq0 : qm = 0 := by rw [hsel, if_pos hf]
  have := ((hcap hN hQ).2.2.2.1 hf).2
  rw [hq0, this, Nat.sub_zero]

/-- C21 on the input `gnl_three_way`, whose run resolves six categories. -/
theorem gnl_rowsum_invariant_witness :
    GnlValid gnl_three_way ∧
    (gnl_run_log gnl_three_way).map (fun r => gnl_resolved gnl_three_way r.1) =
      some [(1, 0), (2, 0), (0, 0), (2, 1), (1, 1), (0, 1)] ∧
    ∃ L t, gnl_run_log gnl_three_way = some (L, t) ∧ gnl_run gnl_three_way = some t ∧
      ∀ pre e post s, L = pre ++ e :: post →
        ((∃ first qm, e = GnlEvent.pass first qm s) ∨ e = GnlEvent.scan s) →
        ∀ o < gnl_three_way.N,
          s.rowsums o =
            (List.range gnl_three_way.Q).countP (fun q => decide (s.mat_done o q = 1)) ∧
          (∀ q < gnl_three_way.Q, (s.mat_done o q = 0 ∨ s.mat_done o q = 1) ∧
            (s.mat_done o q = 1 ↔
              (q, gnl_three_way.dum o q) ∈ gnl_resolved gnl_three_way pre)) ∧
          s.rowsums o ≤ gnl_three_way.Q :=
  ⟨gnl_three_way_valid, by decide!,
    gnl_rowsum_invariant gnl_three_way gnl_three_way_valid⟩

/-- C22 on the input `gnl_three_way`: six writes, to six distinct categories. -/
theorem gnl_resolution_permanent_witness :
    GnlValid gnl_three_way ∧
    (gnl_run_log gnl_three_way).map (fun r => (gnl_writes gnl_three_way r.1).length) =
      some 6 ∧
    ∃ L t, gnl_run_log gnl_three_way = some (L, t) ∧ gnl_run gnl_three_way = some t ∧
      (gnl_resolved gnl_three_way L).Nodup := by
  refine ⟨gnl_three_way_valid, by decide!, ?_⟩
  obtain ⟨L, t, h1, h2, h3, _⟩ :=
    gnl_resolution_permanent gnl_three_way gnl_three_way_valid
  exact ⟨L, t, h1, h2, h3⟩

/-- C23 on the input `gnl_three_way`: the two categories resolved by propagation
receive the value `2`. -/
theorem gnl_one_step_rule_witness :
    GnlValid gnl_three_way ∧
    (gnl_run_log gnl_three_way).map (fun r => (gnl_writes gnl_three_way r.1).drop 4) =
      some [(1, 1, 2), (0, 1, 2)] ∧
    ∃ ix L t, gnl_index gnl_three_way = some ix ∧
      gnl_run_log gnl_three_way = some (L, t) ∧ gnl_run gnl_three_way = some t ∧
      ∀ pre o s post, L = pre ++ GnlEvent.obs o s :: post →
        s.rowsums o + 1 = gnl_three_way.Q →
        ∃ q u, q < gnl_three_way.Q ∧ scan_obs gnl_three_way ix s o = some u ∧
          u.cluster_values
              (pindex_cluster gnl_three_way.cluster_sizes q + gnl_three_way.dum o q) =
            gnl_three_way.sfe o -
              (((List.range gnl_three_way.Q).filter fun l => decide (l ≠ q)).map fun l =>
                s.cluster_values (pindex_cluster gnl_three_way.cluster_sizes l +
                  gnl_three_way.dum o l)).sum := by
  refine ⟨gnl_three_way_valid, by decide!, ?_⟩
  obtain ⟨ix, L, t, h1, h2, h3, h4⟩ :=
    gnl_one_step_rule gnl_three_way gnl_three_way_valid
  refine ⟨ix, L, t, h1, h2, h3, ?_⟩
  intro pre o s post hsplit hrs
  obtain ⟨q, u, k1, _, _, k4, _, k6, _⟩ := h4 pre o s post hsplit hrs
  exact ⟨q, u, k1, k4, k6⟩

/-- C24 on the input `gnl_three_way`: the first pass selects observation `0`, the
second observation `1`. -/
theorem gnl_selects_first_maximal_witness :
    GnlValid gnl_three_way ∧
    (gnl_run_log gnl_three_way).map (fun r => gnl_selected r.1) =
      some [(true, 0), (false, 1)] ∧
    ∃ L t, gnl_run_log gnl_three_way = some (L, t) ∧ gnl_run gnl_three_way = some t ∧
      ∀ pre first qm s post, L = pre ++ GnlEvent.pass first qm s :: post →
        (first = true → qm = 0) ∧
        (first = false → qm ∈ s.id2do ∧ s.rowsums qm + 2 ≤ gnl_three_way.Q ∧
          (∀ o ∈ s.id2do, s.rowsums o ≤ s.rowsums qm) ∧
          ∃ a b, s.id2do = a ++ qm :: b ∧ ∀ o ∈ a, s.rowsums o < s.rowsums qm) := by
  refine ⟨gnl_three_way_valid, by decide!, ?_⟩
  obtain ⟨L, t, h1, h2, h3⟩ :=
    gnl_selects_first_maximal gnl_three_way gnl_three_way_valid (by decide) (by decide)
  refine ⟨L, t, h1, h2, ?_⟩
  intro pre first qm s post hsplit
  exact (h3 pre first qm s post hsplit).2

/-- C25 on the input `gnl_three_way`: three references in all, two set by the first
pass and one by the second. -/
theorem gnl_pass_progress_witness :
    GnlValid gnl_three_way ∧
    (cpp_get_fe_gnl gnl_three_way).map (fun out => out.nb_ref) = some [0, 1, 2] ∧
    ∃ ix L t, gnl_index gnl_three_way = some ix ∧
      gnl_run_log gnl_three_way = some (L, t) ∧ gnl_run gnl_three_way = some t ∧
      ∀ pre first qm s post, L = pre ++ GnlEvent.pass first qm s :: post →
        ∃ s1 u, set_references gnl_three_way ix qm s = some s1 ∧
          s1.rowsums qm + 1 = gnl_three_way.Q ∧
          gnl_pass gnl_three_way ix first s = some u ∧ u.rowsums qm = gnl_three_way.Q := by
  refine ⟨gnl_three_way_valid, by decide!, ?_⟩
  obtain ⟨ix, L, t, h1, h2, h3, h4⟩ :=
    gnl_pass_progress gnl_three_way gnl_three_way_valid (by decide) (by decide)
  refine ⟨ix, L, t, h1, h2, h3, ?_⟩
  intro pre first qm s post hsplit
  obtain ⟨s1, u, k1, k2, _, _, _, _, k7, k8, _⟩ := h4 pre first qm s post hsplit
  exact ⟨s1, u, k1, k2, k7, k8⟩

/-- C26 (the first dimension never receives a reference).  Whatever the arguments,
when `cpp_get_fe_gnl` returns, the reference count it returns for dimension `0` is `0`
and the count it returns for every other dimension is at least `1`; and it returns on
every valid input. -/
theorem gnl_first_dimension_spared (inp : GnlInput) :
    (∀ out, cpp_get_fe_gnl inp = some out →
      gnl_nb_ref out 0 = 0 ∧ (1 ≤ inp.Q → out.nb_ref[0]? = some 0) ∧
      ∀ q, 1 ≤ q → q < inp.Q → 1 ≤ gnl_nb_ref out q) ∧
    (GnlValid inp → ∃ out, cpp_get_fe_gnl inp = some out) := by
  constructor
  · intro out hout
    unfold cpp_get_fe_gnl at hout
    cases hrun : gnl_run inp with
    | none => rw [hrun] at hout; exact Option.noConfusion hout
    | some t =>
      rw [hrun, Option.map_some'] at hout
      have e := Option.some.inj hout
      subst e
      obtain ⟨h0, h1⟩ := gnl_run_nb_ref hrun
      refine ⟨?_, ?_, ?_⟩
      · by_cases hQ : 0 < inp.Q
        · rw [gnl_nb_ref_result inp t hQ]; exact h0
        · have hQ0 : inp.Q = 0 := by omega
          unfold gnl_nb_ref gnl_result
          simp [hQ0]
      · intro hQ
        show ((List.range inp.Q).map t.nb_ref)[0]? = some 0
        rw [List.getElem?_map, List.getElem?_range (by omega)]
        simp [h0]
      · intro q hq1 hq2
        rw [gnl_nb_ref_result inp t hq2]
        exact h1 q hq1 hq2
  · intro hv
    obtain ⟨_, _, t, _, _, _, hrun, _, _⟩ := gnl_log_ok hv
    exact ⟨gnl_result inp t, cpp_get_fe_gnl_eq hrun⟩

/-- C26 on the input `gnl_three_way`, whose reference counts are `0`, `1` and `2`. -/
theorem gnl_first_dimension_spared_witness :
    GnlValid gnl_three_way ∧
    ∃ out, cpp_get_fe_gnl gnl_three_way = some out ∧ out.nb_ref = [0, 1, 2] ∧
      gnl_nb_ref out 0 = 0 ∧ ∀ q, 1 ≤ q → q < gnl_three_way.Q → 1 ≤ gnl_nb_ref out q := by
  refine ⟨gnl_three_way_valid, ?_⟩
  obtain ⟨hpart, htot⟩ := gnl_first_dimension_spared gnl_three_way
  obtain ⟨out, hout⟩ := htot gnl_three_way_valid
  have hnb : (cpp_get_fe_gnl gnl_three_way).map (fun out => out.nb_ref) = some [0, 1, 2] := by
    decide!
  rw [hout] at hnb
  obtain ⟨k1, _, k3⟩ := hpart out hout
  exact ⟨out, hout, by simpa using hnb, k1, k3⟩

/-- An observation that the scan processes while its rowsum is `Q - 1`: at the end of
the run, the stored values of its `Q` categories add up to its value `sumFE`. -/
theorem gnl_active_sum {inp : GnlInput} (hv : GnlValid inp) {ix : GnlIndex}
    (hix : GnlIndexOk inp ix) {L pre post : List GnlEvent} {s t : GnlState} {o : Nat}
    (hsplit : L = pre ++ GnlEvent.obs o s :: post) (hJ : GnlLogInv inp L t)
    (hpre : GnlLogInv inp pre s) (ho : o < inp.N) (hrs : s.rowsums o + 1 = inp.Q) :
    inp.sfe o = inp.rowSum (gnl_coef (gnl_result inp t)) o := by
  obtain ⟨u, _, hcase⟩ := scan_obs_exact hv hix s hpre.inv o ho
  rcases hcase with ⟨a1, _⟩ | ⟨_, q, hq, a2, a3, a4, _, _⟩ | ⟨a1, _⟩
  · omega
  · have hwe : (GnlEvent.obs o s).write inp = some (q, inp.dum o q,
        inp.sfe o - ((List.range inp.Q).map fun l =>
          s.cluster_values (pindex_cluster inp.cluster_sizes l + inp.dum o l)).sum) := by
      show (if s.rowsums o + 1 = inp.Q then _ else none) = _
      rw [if_pos hrs, a2]
      rfl
    have hmemL : ∀ w ∈ gnl_writes inp pre, w ∈ gnl_writes inp L := by
      intro w hw
      rw [hsplit]
      unfold gnl_writes
      rw [List.filterMap_append]
      exact List.mem_append_left _ hw
    have hnew : (q, inp.dum o q, inp.sfe o - ((List.range inp.Q).map fun l =>
        s.cluster_values (pindex_cluster inp.cluster_sizes l + inp.dum o l)).sum) ∈
        gnl_writes inp L := by
      rw [hsplit]
      unfold gnl_writes
      rw [List.filterMap_append, List.filterMap_cons, hwe]
      simp
    have hzero : s.cluster_values (pindex_cluster inp.cluster_sizes q + inp.dum o q) = 0 :=
      hpre.inv.zero o ho q hq a3
    have hfinal : ∀ l < inp.Q,
        t.cluster_values (pindex_cluster inp.cluster_sizes l + inp.dum o l) =
          setAt (fun l => s.cluster_values
            (pindex_cluster inp.cluster_sizes l + inp.dum o l)) q
            (inp.sfe o - ((List.range inp.Q).map fun l =>
              s.cluster_values (pindex_cluster inp.cluster_sizes l + inp.dum o l)).sum) l := by
      intro l hl
      by_cases hlq : l = q
      · subst hlq
        rw [setAt_same]
        exact hJ.vals _ hnew
      · rw [setAt_ne _ _ _ _ hlq]
        have hres := (hpre.res o ho l hl).1 (a4 l hl hlq)
        unfold gnl_resolved at hres
        rw [List.mem_map] at hres
        obtain ⟨w, hw, hcat⟩ := hres
        have h1 := hpre.vals w hw
        have h2 := hJ.vals w (hmemL w hw)
        rw [(Prod.mk.inj hcat).1, (Prod.mk.inj hcat).2] at h1 h2
        rw [h1, h2]
    unfold GnlInput.rowSum
    have e : (List.range inp.Q).map (fun l => gnl_coef (gnl_result inp t) l (inp.dum o l)) =
        (List.range inp.Q).map (setAt (fun l => s.cluster_values
          (pindex_cluster inp.cluster_sizes l + inp.dum o l)) q
          (inp.sfe o - ((List.range inp.Q).map fun l =>
            s.cluster_values (pindex_cluster inp.cluster_sizes l + inp.dum o l)).sum)) := by
      apply List.map_congr_left
      intro l hl
      have hl2 := List.mem_range.1 hl
      rw [gnl_coef_result inp t hl2 (hv.range o ho l hl2)]
      exact hfinal l hl2
    rw [e]
    have hs := sum_map_setAt (fun l => s.cluster_values
      (pindex_cluster inp.cluster_sizes l + inp.dum o l)) inp.Q q
      (inp.sfe o - ((List.range inp.Q).map fun l =>
        s.cluster_values (pindex_cluster inp.cluster_sizes l + inp.dum o l)).sum) hq
    simp only at hs
    rw [hzero, add_zero] at hs
    rw [hs]
    ring
  · omega

/-- C3 (amended).  For every number of dimensions `Q ≥ 2` and every valid input whose
values are sums of coefficients, the routine returns and the returned coefficients of
an observation add up to its value `sumFE` for every observation that the propagation
scan processes while its rowsum is `Q - 1`, that is, every observation whose last
category is resolved from its own value, whatever the number of passes.  The
observations left out are those whose `Q` categories are all resolved from other
observations.  For them the sum holds too when the main loop ends after its first
pass, and, whatever the number of passes, with `Q = 2` and at most 10000
observations. -/
theorem gnl_consistency_resolved (inp : GnlInput) (c : Nat → Nat → ℚ) (hv : GnlValid inp)
    (hQ : 2 ≤ inp.Q) (hc : GnlConsistent inp c) :
    (∃ L t, gnl_run_log inp = some (L, t) ∧ gnl_run inp = some t ∧
      cpp_get_fe_gnl inp = some (gnl_result inp t) ∧
      ∀ pre o s post, L = pre ++ GnlEvent.obs o s :: post → s.rowsums o + 1 = inp.Q →
        inp.sfe o = inp.rowSum (gnl_coef (gnl_result inp t)) o) ∧
    (∃ ix t, gnl_index inp = some ix ∧ gnl_pass inp ix true (gnl_init inp) = some t ∧
      (t.id2do_next = [] →
        cpp_get_fe_gnl inp = some (gnl_result inp t) ∧
        ∀ o < inp.N, inp.sfe o = inp.rowSum (gnl_coef (gnl_result inp t)) o)) ∧
    (inp.Q = 2 → inp.N ≤ 10000 →
      ∃ out, cpp_get_fe_gnl inp = some out ∧
        ∀ o < inp.N, inp.sfe o = inp.rowSum (gnl_coef out) o) := by
  obtain ⟨h1, h2⟩ := gnl_consistency_first_pass inp c hv hQ hc
  refine ⟨?_, h1, h2⟩
  obtain ⟨ix, L, t, _, hixok, hlog, hrun, hJ, hok⟩ := gnl_log_ok hv
  refine ⟨L, t, hlog, hrun, cpp_get_fe_gnl_eq hrun, ?_⟩
  intro pre o s post hsplit hrs
  obtain ⟨hpre, ho⟩ := hok pre (GnlEvent.obs o s) post hsplit
  exact gnl_active_sum hv hixok hsplit hJ hpre ho hrs

/-- C3 (amended) on the input `gnl_three_way`: the observations `0`, `1` and `2` are
processed with rowsum `2`, and the observation `3`, on which the sum fails, is not. -/
theorem gnl_consistency_resolved_witness :
    GnlValid gnl_three_way ∧ GnlConsistent gnl_three_way gnl_three_way_coef ∧
    (gnl_run_log gnl_three_way).map (fun r => gnl_active gnl_three_way r.1) =
      some [0, 1, 2] ∧
    ∃ L t, gnl_run_log gnl_three_way = some (L, t) ∧ gnl_run gnl_three_way = some t ∧
      cpp_get_fe_gnl gnl_three_way = some (gnl_result gnl_three_way t) ∧
      ∀ pre o s post, L = pre ++ GnlEvent.obs o s :: post →
        s.rowsums o + 1 = gnl_three_way.Q →
        gnl_three_way.sfe o =
          gnl_three_way.rowSum (gnl_coef (gnl_result gnl_three_way t)) o :=
  ⟨gnl_three_way_valid, gnl_three_way_consistent, by decide!,
    (gnl_consistency_resolved gnl_three_way gnl_three_way_coef gnl_three_way_valid
      (by decide) gnl_three_way_consistent).1⟩

/-- C12 (the General Recoverer resolves every observation).  For every valid input with
at least two dimensions and between 1 and 10000 observations, `cpp_get_fe_gnl` returns,
its main loop ending with an empty worklist: the rowsum of every observation is `Q`,
every observation is marked done in every dimension, and every category touched by an
observation has been assigned a coefficient, exactly once: the run has one step that
writes its coefficient, and the value written there is the value the routine returns
for the category. -/
theorem gnl_resolves_every_observation (inp : GnlInput) (hv : GnlValid inp)
    (hQ : 2 ≤ inp.Q) (hN : inp.N ≤ 10000) :
    ∃ L t, gnl_run_log inp = some (L, t) ∧ gnl_run inp = some t ∧
      cpp_get_fe_gnl inp = some (gnl_result inp t) ∧
      t.id2do_next = [] ∧ (∀ o < inp.N, t.rowsums o = inp.Q) ∧
      (∀ o < inp.N, ∀ q < inp.Q, t.mat_done o q = 1) ∧
      (gnl_resolved inp L).Nodup ∧
      ∀ o < inp.N, ∀ q < inp.Q,
        ∃ pre e post v, L = pre ++ e :: post ∧ e.write inp = some (q, inp.dum o q, v) ∧
          (q, inp.dum o q) ∉ gnl_resolved inp pre ∧
          (q, inp.dum o q) ∉ gnl_resolved inp post ∧
          t.cluster_values (pindex_cluster inp.cluster_sizes q + inp.dum o q) = v ∧
          gnl_coef (gnl_result inp t) q (inp.dum o q) = v := by
  obtain ⟨ix, L, t, _, _, hlog, hrun, hJ, hok⟩ := gnl_log_ok hv
  obtain ⟨t2, ht2, hnil, hrow, hdone⟩ := gnl_run_gen hv hQ hN
  rw [hrun] at ht2
  have htt := Option.some.inj ht2
  subst htt
  refine ⟨L, t, hlog, hrun, cpp_get_fe_gnl_eq hrun, hnil, hrow, hdone, hJ.nodup, ?_⟩
  intro o ho q hq
  have hres := (hJ.res o ho q hq).1 (hdone o ho q hq)
  unfold gnl_resolved gnl_writes at hres
  rw [List.mem_map] at hres
  obtain ⟨w, hw, hcat⟩ := hres
  rw [List.mem_filterMap] at hw
  obtain ⟨e, he, hwe⟩ := hw
  obtain ⟨pre, post, hsplit⟩ := List.append_of_mem he
  have hw3 : w = (q, inp.dum o q, w.2.2) := by
    obtain ⟨w1, w2, w3⟩ := w
    obtain ⟨e1, e2⟩ := Prod.mk.inj hcat
    simp only at e1 e2
    rw [e1, e2]
  rw [hw3] at hwe
  have hwr : gnl_writes inp L =
      gnl_writes inp pre ++ (q, inp.dum o q, w.2.2) :: gnl_writes inp post := by
    rw [hsplit]
    unfold gnl_writes
    rw [List.filterMap_append, List.filterMap_cons, hwe]
  have hrs2 : gnl_resolved inp L =
      gnl_resolved inp pre ++ (q, inp.dum o q) :: gnl_resolved inp post := by
    unfold gnl_resolved
    rw [hwr, List.map_append, List.map_cons]
  have hnd := hJ.nodup
  rw [hrs2] at hnd
  have hnd2 := List.nodup_append.1 hnd
  have hval : t.cluster_values (pindex_cluster inp.cluster_sizes q + inp.dum o q) = w.2.2 :=
    hJ.vals (q, inp.dum o q, w.2.2) (by rw [hwr]; simp)
  refine ⟨pre, e, post, w.2.2, hsplit, hwe, ?_, (List.nodup_cons.1 hnd2.2.1).1, hval, ?_⟩
  · intro hmem
    exact hnd2.2.2 hmem (List.mem_cons_self _ _)
  · rw [gnl_coef_result inp t hq (hv.range o ho q hq)]
    exact hval

/-- C12 on the input `gnl_three_way` with three dimensions: six categories, six
writes. -/
theorem gnl_resolves_every_observation_witness :
    GnlValid gnl_three_way ∧
    (gnl_run_log gnl_three_way).map (fun r => gnl_writes gnl_three_way r.1) =
      some [(1, 0, 0), (2, 0, 0), (0, 0, 0), (2, 1, 0), (1, 1, 2), (0, 1, 2)] ∧
    ∃ L t, gnl_run_log gnl_three_way = some (L, t) ∧ gnl_run gnl_three_way = some t ∧
      (∀ o < gnl_three_way.N, t.rowsums o = 3) ∧ (gnl_resolved gnl_three_way L).Nodup := by
  refine ⟨gnl_three_way_valid, by decide!, ?_⟩
  obtain ⟨L, t, h1, h2, _, _, hrow, _, hnd, _⟩ :=
    gnl_resolves_every_observation gnl_three_way gnl_three_way_valid (by decide) (by decide)
  exact ⟨L, t, h1, h2, hrow, hnd⟩

/-- On `gnl_two_blocks` the main loop makes two passes, both observations are processed
by the scan with rowsum `2`, and the returned coefficients of both add up to their
values. -/
theorem gnl_two_blocks_run :
    GnlValid gnl_two_blocks ∧
    ((gnl_index gnl_two_blocks).bind
      (fun ix => gnl_pass gnl_two_blocks ix true (gnl_init gnl_two_blocks))).map
      (fun t => t.id2do_next) = some [1] ∧
    (gnl_run_log gnl_two_blocks).map (fun r => gnl_active gnl_two_blocks r.1) = some [0, 1] ∧
    cpp_get_fe_gnl gnl_two_blocks = some ⟨[[3, 6], [0, 0], [0, 0]], [0, 2, 2]⟩ := by
  refine ⟨by decide!, by decide!, by decide!, by decide!⟩

theorem visit_i_rnd_id (inp : Fe2Input) : visit_i_rnd id inp = visit_i inp := rfl

theorem visit_j_rnd_id (inp : Fe2Input) : visit_j_rnd id inp = visit_j inp := rfl

theorem fe2_pass_rnd_id (inp : Fe2Input) : fe2_pass_rnd id inp = fe2_pass inp := rfl

theorem fe2_loop_rnd_id (inp : Fe2Input) (fuel : Nat) (s : Fe2State) :
    fe2_loop_rnd id inp fuel s = fe2_loop inp fuel s := by
  induction fuel generalizing s with
  | zero => rfl
  | succ fuel ih =>
    unfold fe2_loop_rnd fe2_loop
    rw [fe2_pass_rnd_id]
    split
    · cases fe2_pass inp s with
      | none => rfl
      | some s1 => exact ih s1
    · rfl

/-- With the identity for the rounding, the routine in double precision is the routine
over exact arithmetic. -/
theorem cpp_get_fe_2_rnd_id (fuel : Nat) (inp : Fe2Input) :
    cpp_get_fe_2_rnd id fuel inp = cpp_get_fe_2 fuel inp := by
  unfold cpp_get_fe_2_rnd cpp_get_fe_2
  rw [fe2_loop_rnd_id]

theorem scan_obs_rnd_id (inp : GnlInput) (ix : GnlIndex) :
    scan_obs_rnd id inp ix = scan_obs inp ix := rfl

theorem propagation_loop_rnd_id (inp : GnlInput) (ix : GnlIndex) (n : Nat) :
    propagation_loop_rnd id inp ix n = propagation_loop inp ix n := by
  induction n with
  | zero => rfl
  | succ n ih =>
    funext first s
    unfold propagation_loop_rnd propagation_loop
    rw [scan_obs_rnd_id]
    generalize List.foldlM (scan_obs inp ix)
      { s with id2do := (if first = true then s.id2do else s.id2do_next), id2do_next := [] }
      (if first = true then s.id2do else s.id2do_next) = r
    cases r with
    | none => rfl
    | some s2 =>
      show (if s2.id2do_next.length = s2.id2do.length then some s2
        else propagation_loop_rnd id inp ix n false s2) = _
      rw [ih]

theorem gnl_pass_rnd_id (inp : GnlInput) (ix : GnlIndex) :
    gnl_pass_rnd id inp ix = gnl_pass inp ix := by
  funext first s
  unfold gnl_pass_rnd gnl_pass
  rw [propagation_loop_rnd_id]

theorem gnl_loop_rnd_id (inp : GnlInput) (ix : GnlIndex) (n : Nat) :
    gnl_loop_rnd id inp ix n = gnl_loop inp ix n := by
  induction n with
  | zero => rfl
  | succ n ih =>
    funext first s
    unfold gnl_loop_rnd gnl_loop
    rw [gnl_pass_rnd_id]
    generalize gnl_pass inp ix first s = r
    cases r with
    | none => rfl
    | some s1 =>
      show (if s1.id2do_next.length = 0 then some s1 else gnl_loop_rnd id inp ix n false s1) = _
      rw [ih]

/-- With the identity for the rounding, the routine in double precision is the routine
over exact arithmetic. -/
theorem cpp_get_fe_gnl_rnd_id (inp : GnlInput) :
    cpp_get_fe_gnl_rnd id inp = cpp_get_fe_gnl inp := by
  unfold cpp_get_fe_gnl_rnd cpp_get_fe_gnl gnl_run
  cases gnl_index inp with
  | none => rfl
  | some ix =>
    simp only
    rw [gnl_loop_rnd_id]

/-- C2 (counterexample).  In double precision the claim fails: `fe2_tie` is a valid
input whose values are doubles and are the sums `a i + b j` of coefficients that are
doubles; the routine returns `1/4`, `1/4` for dimension 1 and `0`, `-9/8` for
dimension 2, the difference `(-7/8 + 2^-53) - 1/4` of line 343 being half-way between
two doubles and rounded to `-9/8`; the coefficients of the observation of the
categories `0` and `1` add up to `-7/8`, which is not its value `-7/8 + 2^-53`. -/
theorem fe2_sumFE_reconstruction_counterexample :
    Fe2Valid fe2_tie ∧ Fe2Consistent fe2_tie fe2_tie_a fe2_tie_b ∧
    (∀ v ∈ fe2_tie.i_sorted_sumFE, roundDouble v = v) ∧
    (∀ k < 2, roundDouble (fe2_tie_a k) = fe2_tie_a k ∧
      roundDouble (fe2_tie_b k) = fe2_tie_b k) ∧
    cpp_get_fe_2_rnd roundDouble 8 fe2_tie =
      some [[1, 1, 1 / 4, 0], [1, 2, 1 / 4, 0], [2, 1, 0, 1], [2, 2, -9 / 8, 0]] ∧
    ∃ res, cpp_get_fe_2_rnd roundDouble 8 fe2_tie = some res ∧
      fe2_tie.i_sorted_index_j.getD 1 0 = 1 ∧
      fe2_coef res 0 + fe2_coef res (fe2_tie.n_i + 1) = -7 / 8 ∧
      fe2_coef res 0 + fe2_coef res (fe2_tie.n_i + 1) ≠ fe2_tie.i_sorted_sumFE.getD 1 0 := by
  refine ⟨by decide!, by decide!, by decide!, by decide!, by decide!,
    [[1, 1, 1 / 4, 0], [1, 2, 1 / 4, 0], [2, 1, 0, 1], [2, 2, -9 / 8, 0]], by decide!,
    by decide!, by decide!, by decide!⟩

/-- C5 (counterexample).  In double precision the claim fails: `gnl_tie` is a valid
input with two dimensions and three observations whose values are doubles and are the
sums of coefficients that are doubles; the routine returns the coefficients
`(1/4, 1/4)` and `(0, -9/8)`, the difference `(-7/8 + 2^-53) - 1/4` of line 602 being
rounded to `-9/8`; the coefficients of observation `1` add up to `-7/8`, which is not
its value `-7/8 + 2^-53`. -/
theorem gnl_two_consistent_counterexample :
    GnlValid gnl_tie ∧ gnl_tie.Q = 2 ∧ gnl_tie.N ≤ 10000 ∧
    GnlConsistent gnl_tie gnl_tie_coef ∧
    (∀ v ∈ gnl_tie.sumFE, roundDouble v = v) ∧
    (∀ q < 2, ∀ k < 2, roundDouble (gnl_tie_coef q k) = gnl_tie_coef q k) ∧
    cpp_get_fe_gnl_rnd roundDouble gnl_tie = some ⟨[[1 / 4, 1 / 4], [0, -9 / 8]], [0, 1]⟩ ∧
    ∃ out, cpp_get_fe_gnl_rnd roundDouble gnl_tie = some out ∧
      gnl_coef out 0 (gnl_tie.dum 1 0) + gnl_coef out 1 (gnl_tie.dum 1 1) = -7 / 8 ∧
      gnl_coef out 0 (gnl_tie.dum 1 0) + gnl_coef out 1 (gnl_tie.dum 1 1) ≠ gnl_tie.sfe 1 := by
  refine ⟨by decide!, by decide!, by decide!, by decide!, by decide!, by decide!, by decide!,
    ⟨[[1 / 4, 1 / 4], [0, -9 / 8]], [0, 1]⟩, by decide!, by decide!, by decide!⟩

theorem PdInput.residualBelow_succ (inp : PdInput) (S : Nat → Ext) (q c n : Nat) :
    inp.residualBelow S q c (n + 1) =
      if inp.dum n q = c then (inp.residualBelow S q c n).add (inp.termExt S n)
      else inp.residualBelow S q c n := by
  unfold PdInput.residualBelow
  rw [PdInput.obsBelow_succ, List.map_append, List.foldl_append]
  by_cases h : inp.dum n q = c
  · rw [if_pos h, if_pos h]
    rfl
  · rw [if_neg h, if_neg h]
    rfl

theorem Ext.fin_add (x y : ℚ) : (Ext.fin x).add (Ext.fin y) = Ext.fin (x + y) := rfl

theorem Ext.fin_mul (x l : ℚ) : (Ext.fin x).mul l = Ext.fin (x * l) := rfl

theorem Ext.eq_fin_of_isFin {a : Ext} (h : a.isFin = true) : a = Ext.fin a.toRat := by
  cases a with
  | fin x => rfl
  | pinf => exact absurd h (by decide)
  | ninf => exact absurd h (by decide)
  | nan => exact absurd h (by decide)

/-- On running values that are numbers the block residual is the sum over exact
arithmetic. -/
theorem PdInput.residualBelow_fin (inp : PdInput) (S : Nat → Ext) (q c n : Nat)
    (h : ∀ i ∈ inp.obsBelow q c n, (S i).isFin = true) :
    inp.residualBelow S q c n =
      Ext.fin (inp.sumBelow q c (fun i => inp.dx i + (S i).toRat * inp.ll i) n) := by
  induction n with
  | zero => rfl
  | succ n ih =>
    have hsub : ∀ i ∈ inp.obsBelow q c n, (S i).isFin = true := by
      intro i hi
      apply h
      rw [PdInput.obsBelow_succ]
      exact List.mem_append_left _ hi
    rw [PdInput.residualBelow_succ, PdInput.sumBelow_succ, ih hsub]
    by_cases hc : inp.dum n q = c
    · rw [if_pos hc, if_pos hc]
      have hn : (S n).isFin = true := by
        apply h
        rw [PdInput.obsBelow_succ, if_pos hc]
        simp
      unfold PdInput.termExt
      rw [Ext.eq_fin_of_isFin hn, Ext.fin_mul, Ext.fin_add, Ext.fin_add]
      rfl
    · rw [if_neg hc, if_neg hc, add_zero]

theorem PdInput.residualExt_fin (inp : PdInput) (S : Nat → Ext) (q c : Nat)
    (h : ∀ i ∈ inp.obsOf q c, (S i).isFin = true) :
    inp.residualExt S q c = Ext.fin (inp.residual (fun i => (S i).toRat) q c) :=
  inp.residualBelow_fin S q c inp.N h

theorem pd_zero_ext_spec {inp : PdInput} (hv : PdValid inp) {x : PdIndex}
    (hx : PdIndexOk inp x) {q : Nat} (hq : q < inp.Q) (cd : Nat → Ext) :
    ∃ cd1, (List.range' (x.start q) (x.end_ q - x.start q)).foldlM (pd_zero_step_ext x) cd =
        some cd1 ∧
      (∀ c < inp.size q, cd1 (x.start q + c) = Ext.fin 0) ∧
      (∀ k, PdOutside inp x q k → cd1 k = cd k) := by
  have hlen : x.end_ q - x.start q = inp.size q := by
    rw [(hx.1 q hq).1, (hx.1 q hq).2]; omega
  rw [hlen]
  obtain ⟨cd1, h1, hP⟩ := foldlM_range'_inv (pd_zero_step_ext x)
    (fun m cd1 => (∀ c < m, cd1 (x.start q + c) = Ext.fin 0) ∧
      (∀ k, PdOutside inp x q k → cd1 k = cd k))
    (x.start q) (inp.size q) cd ⟨fun c hc => absurd hc (Nat.not_lt_zero c), fun _ _ => rfl⟩
    (by
      intro m t hm ⟨g1, g2⟩
      unfold pd_zero_step_ext
      rw [if_pos (hx.slot_lt hv hq hm)]
      refine ⟨_, rfl, ?_, ?_⟩
      · intro c hc
        by_cases hcm : c = m
        · subst hcm; simp
        · rw [setAt_ne _ _ _ _ (by omega)]
          exact g1 c (by omega)
      · intro k hk
        rw [setAt_ne _ _ _ _ (hk m hm)]
        exact g2 k hk)
  exact ⟨cd1, h1, hP⟩

theorem pd_accum_ext_spec {inp : PdInput} (hv : PdValid inp) {x : PdIndex}
    (hx : PdIndexOk inp x) {q : Nat} (hq : q < inp.Q) (S : Nat → Ext) (cd1 : Nat → Ext)
    (hz : ∀ c < inp.size q, cd1 (x.start q + c) = Ext.fin 0) :
    ∃ cd2, (List.range inp.N).foldlM (pd_accum_step_ext inp x q S) cd1 = some cd2 ∧
      (∀ c < inp.size q, cd2 (x.start q + c) = inp.residualExt S q c) ∧
      (∀ k, PdOutside inp x q k → cd2 k = cd1 k) := by
  obtain ⟨cd2, h2, hP⟩ := foldlM_range_inv (pd_accum_step_ext inp x q S)
    (fun n cd2 => (∀ c < inp.size q, cd2 (x.start q + c) = inp.residualBelow S q c n) ∧
      (∀ k, PdOutside inp x q k → cd2 k = cd1 k))
    inp.N cd1
    ⟨fun c hc => by rw [hz c hc]; rfl, fun _ _ => rfl⟩
    (by
      intro n t hn ⟨g1, g2⟩
      have hr := hv.range n hn q hq
      unfold pd_accum_step_ext
      rw [hv.dum_get hn hq, hv.dx_get hn, hv.ll_get hn]
      simp only [hx.slot_lt hv hq hr, if_true]
      refine ⟨_, rfl, ?_, ?_⟩
      · intro c hc
        rw [PdInput.residualBelow_succ]
        by_cases hcn : inp.dum n q = c
        · subst hcn
          rw [setAt_same, g1 _ hr, if_pos rfl]
          rfl
        · rw [setAt_ne _ _ _ _ (by omega), g1 c hc, if_neg hcn]
      · intro k hk
        rw [setAt_ne _ _ _ _ (hk _ hr)]
        exact g2 k hk)
  exact ⟨cd2, h2, hP⟩

theorem pd_update_ext_spec {inp : PdInput} (hv : PdValid inp) {x : PdIndex}
    (hx : PdIndexOk inp x) {w : Nat → ℚ}
    (hw : ∀ q < inp.Q, ∀ c < inp.size q, w (x.start q + c) = inp.weight q c)
    {q : Nat} (hq : q < inp.Q) (S : Nat → Ext) (cd2 : Nat → Ext) (ok : Bool)
    (hd : ∀ c < inp.size q, cd2 (x.start q + c) = inp.residualExt S q c) :
    ∃ co, (List.range' (x.start q) (x.end_ q - x.start q)).foldlM
        (pd_update_step_ext inp x w) (cd2, ok) = some co ∧
      (∀ c < inp.size q, co.1 (x.start q + c) = inp.updateExt S q c) ∧
      (∀ k, PdOutside inp x q k → co.1 k = cd2 k) ∧
      co.2 = (ok || (List.range (inp.size q)).any
        (fun c => (inp.updateExt S q c).exceeds inp.epsDeriv)) := by
  have hlen : x.end_ q - x.start q = inp.size q := by
    rw [(hx.1 q hq).1, (hx.1 q hq).2]; omega
  rw [hlen]
  obtain ⟨co, h3, hP⟩ := foldlM_range'_inv (pd_update_step_ext inp x w)
    (fun m co => (∀ c < m, co.1 (x.start q + c) = inp.updateExt S q c) ∧
      (∀ c, m ≤ c → c < inp.size q → co.1 (x.start q + c) = inp.residualExt S q c) ∧
      (∀ k, PdOutside inp x q k → co.1 k = cd2 k) ∧
      co.2 = (ok || (List.range m).any
        (fun c => (inp.updateExt S q c).exceeds inp.epsDeriv)))
    (x.start q) (inp.size q) (cd2, ok)
    ⟨fun c hc => absurd hc (Nat.not_lt_zero c), fun c _ hc => hd c hc, fun _ _ => rfl,
      by simp⟩
    (by
      rintro m ⟨cd, o⟩ hm ⟨g1, g2, g3, g4⟩
      simp only at g1 g2 g3 g4
      unfold pd_update_step_ext
      rw [if_pos (hx.slot_lt hv hq hm)]
      have hnew : (cd (x.start q + m)).neg.div (w (x.start q + m)) = inp.updateExt S q m := by
        rw [g2 m (le_refl _) hm, hw q hq m hm]
        rfl
      refine ⟨_, rfl, ?_, ?_, ?_, ?_⟩
      · intro c hc
        dsimp only
        by_cases hcm : c = m
        · subst hcm
          rw [setAt_same, hnew]
        · rw [setAt_ne _ _ _ _ (by omega)]
          exact g1 c (by omega)
      · intro c hc1 hc2
        dsimp only
        rw [setAt_ne _ _ _ _ (by omega)]
        exact g2 c (by omega) hc2
      · intro k hk
        dsimp only
        rw [setAt_ne _ _ _ _ (hk m hm)]
        exact g3 k hk
      · dsimp only
        rw [hnew, g4, List.range_succ, List.any_append]
        simp [Bool.or_assoc])
  exact ⟨co, h3, hP.1, hP.2.2.1, hP.2.2.2⟩

theorem pd_add_ext_spec {inp : PdInput} (hv : PdValid inp) {x : PdIndex}
    (hx : PdIndexOk inp x) {q : Nat} (hq : q < inp.Q) (cd : Nat → Ext) (S : Nat → Ext) :
    ∃ S2, (List.range inp.N).foldlM (pd_add_step_ext inp x q cd) S = some S2 ∧
      (∀ i < inp.N, S2 i = (S i).add (cd (x.start q + inp.dum i q))) ∧
      (∀ i, inp.N ≤ i → S2 i = S i) := by
  obtain ⟨S2, h4, hP⟩ := foldlM_range_inv (pd_add_step_ext inp x q cd)
    (fun n S2 => (∀ i < n, S2 i = (S i).add (cd (x.start q + inp.dum i q))) ∧
      (∀ i, n ≤ i → S2 i = S i))
    inp.N S ⟨fun i hi => absurd hi (Nat.not_lt_zero i), fun _ _ => rfl⟩
    (by
      intro n t hn ⟨g1, g2⟩
      have hr := hv.range n hn q hq
      unfold pd_add_step_ext
      rw [hv.dum_get hn hq]
      simp only [hx.slot_lt hv hq hr, if_true]
      refine ⟨_, rfl, ?_, ?_⟩
      · intro i hi
        by_cases hin : i = n
        · subst hin
          rw [setAt_same, g2 i (le_refl _)]
        · rw [setAt_ne _ _ _ _ hin]
          exact g1 i (by omega)
      · intro i hi
        rw [setAt_ne _ _ _ _ (by omega)]
        exact g2 i (by omega))
  exact ⟨S2, h4, hP⟩

/-- The update of dimension `q` inside a sweep, on a valid input and from any state: it
is defined, whatever the weight sums. -/
theorem pd_block_ext_spec {inp : PdInput} (hv : PdValid inp) {x : PdIndex}
    (hx : PdIndexOk inp x) {w : Nat → ℚ}
    (hw : ∀ q < inp.Q, ∀ c < inp.size q, w (x.start q + c) = inp.weight q c)
    {q : Nat} (hq : q < inp.Q) (st : PdStateExt) :
    ∃ st2, pd_block_ext inp x w st q = some st2 ∧ st2.iter = st.iter ∧
      (∀ i < inp.N, st2.S i = (st.S i).add (inp.updateExt st.S q (inp.dum i q))) ∧
      (∀ i, inp.N ≤ i → st2.S i = st.S i) ∧
      (∀ c < inp.size q, st2.clusterDeriv (x.start q + c) = inp.updateExt st.S q c) ∧
      (∀ k, PdOutside inp x q k → st2.clusterDeriv k = st.clusterDeriv k) ∧
      st2.ok = (st.ok || (List.range (inp.size q)).any
        (fun c => (inp.updateExt st.S q c).exceeds inp.epsDeriv)) := by
  obtain ⟨cd1, h1, a1, a2⟩ := pd_zero_ext_spec hv hx hq st.clusterDeriv
  obtain ⟨cd2, h2, b1, b2⟩ := pd_accum_ext_spec hv hx hq st.S cd1 a1
  obtain ⟨co, h3, c1, c2, c3⟩ := pd_update_ext_spec hv hx hw hq st.S cd2 st.ok b1
  obtain ⟨S2, h4, d1, d2⟩ := pd_add_ext_spec hv hx hq co.1 st.S
  refine ⟨{ clusterDeriv := co.1, S := S2, ok := co.2, iter := st.iter }, ?_, rfl, ?_, d2, c1,
    ?_, c3⟩
  · unfold pd_block_ext
    rw [h1, Option.some_bind, h2, Option.some_bind, h3, Option.some_bind, h4]
    rfl
  · intro i hi
    show S2 i = _
    rw [d1 i hi, c1 _ (hv.range i hi q hq)]
  · intro k hk
    show co.1 k = _
    rw [c2 k hk, b2 k hk, a2 k hk]

/-- One sweep on a valid input: it is defined, and the flag `ok` at the end of the sweep
tells whether an update computed during the sweep passes the test
`fabs(new_value) > epsDeriv`. -/
theorem pd_sweep_ext_spec {inp : PdInput} (hv : PdValid inp) {x : PdIndex}
    (hx : PdIndexOk inp x) {w : Nat → ℚ}
    (hw : ∀ q < inp.Q, ∀ c < inp.size q, w (x.start q + c) = inp.weight q c)
    (st : PdStateExt) :
    ∃ st2, pd_sweep_ext inp x w st = some st2 ∧ st2.iter = st.iter + 1 ∧
      (st2.ok = true ↔ PdExceedsExt inp x st2) := by
  unfold pd_sweep_ext
  obtain ⟨t, ht, hP⟩ := foldlM_range_inv (pd_block_ext inp x w)
    (fun m t => t.iter = st.iter + 1 ∧
      (t.ok = true ↔ ∃ q < m, ∃ c < inp.size q,
        (t.clusterDeriv (x.start q + c)).exceeds inp.epsDeriv = true))
    inp.Q { st with iter := st.iter + 1, ok := false }
    ⟨rfl, by simp⟩
    (by
      intro m t hm ⟨g1, g2⟩
      obtain ⟨t2, ht2, k1, _, _, k4, k5, k6⟩ := pd_block_ext_spec hv hx hw hm t
      refine ⟨t2, ht2, by rw [k1, g1], ?_⟩
      have hold : ∀ q < m, ∀ c < inp.size q,
          t2.clusterDeriv (x.start q + c) = t.clusterDeriv (x.start q + c) := by
        intro q hq c hc
        apply k5
        intro c2 hc2 heq
        have := (hx.slot_inj hv (by omega) hc hm hc2 heq).1
        omega
      rw [k6]
      simp only [Bool.or_eq_true, List.any_eq_true, List.mem_range]
      constructor
      · rintro (h | ⟨c, hc, he⟩)
        · obtain ⟨q, hq, c, hc, he⟩ := g2.mp h
          exact ⟨q, by omega, c, hc, by rw [hold q hq c hc]; exact he⟩
        · exact ⟨m, by omega, c, hc, by rw [k4 c hc]; exact he⟩
      · rintro ⟨q, hq, c, hc, he⟩
        by_cases hqm : q = m
        · subst hqm
          right
          exact ⟨c, hc, by rw [← k4 c hc]; exact he⟩
        · left
          have hq2 : q < m := by omega
          exact g2.mpr ⟨q, hq2, c, hc, by rw [← hold q hq2 c hc]; exact he⟩)
  exact ⟨t, ht, hP.1, hP.2⟩

/-- The `while` loop started after `k` sweeps with enough fuel: it ends after some
number of sweeps not greater than `iterMax`, in the state reached by that many
sweeps; an update passed the test in every earlier sweep, and none does in the last one
when the loop ends before `iterMax` sweeps. -/
theorem pd_loop_ext_spec {inp : PdInput} (hv : PdValid inp) {x : PdIndex}
    (hx : PdIndexOk inp x) {w : Nat → ℚ}
    (hw : ∀ q < inp.Q, ∀ c < inp.size q, w (x.start q + c) = inp.weight q c)
    (S : Nat → ℚ) :
    ∀ (fuel k : Nat) (st : PdStateExt), pd_after_ext inp x w S k = some st → st.iter = k →
      k ≤ inp.iterMax → inp.iterMax ≤ fuel + k →
      (1 ≤ k → (st.ok = true ↔ PdExceedsExt inp x st)) → (k = 0 → st.ok = true) →
      (∀ j, 1 ≤ j → j < k →
        ∃ sj, pd_after_ext inp x w S j = some sj ∧ PdExceedsExt inp x sj) →
      ∃ st2, pd_loop_ext inp x w fuel st = some st2 ∧ st2.iter ≤ inp.iterMax ∧
        pd_after_ext inp x w S st2.iter = some st2 ∧
        (∀ j, 1 ≤ j → j < st2.iter →
          ∃ sj, pd_after_ext inp x w S j = some sj ∧ PdExceedsExt inp x sj) ∧
        (1 ≤ st2.iter → st2.iter < inp.iterMax → ¬ PdExceedsExt inp x st2) ∧
        (1 ≤ inp.iterMax → 1 ≤ st2.iter) ∧
        (st2.iter < inp.iterMax → st2.ok = false) := by
  intro fuel
  induction fuel with
  | zero =>
    intro k st hk hit hle hfuel hok h0 hprev
    have hkk : ¬ (st.iter < inp.iterMax) := by omega
    refine ⟨st, by simp [pd_loop_ext, hkk], by omega, by rw [hit]; exact hk,
      by rw [hit]; exact hprev, fun _ h => absurd h hkk, by omega, fun h => absurd h hkk⟩
  | succ fuel ih =>
    intro k st hk hit hle hfuel hok h0 hprev
    by_cases hc : st.ok = true ∧ st.iter < inp.iterMax
    · obtain ⟨st2, hs2, hi2, hok2⟩ := pd_sweep_ext_spec hv hx hw st
      have hafter : pd_after_ext inp x w S (k + 1) = some st2 := by
        show (pd_after_ext inp x w S k).bind (pd_sweep_ext inp x w) = some st2
        rw [hk]
        exact hs2
      obtain ⟨st3, h3, r1, r2, r3, r4, r5, r6⟩ := ih (k + 1) st2 hafter (by omega) (by omega)
        (by omega) (fun _ => hok2) (fun h => absurd h (by omega))
        (by
          intro j hj1 hj2
          by_cases hjk : j = k
          · subst hjk
            exact ⟨st, hk, (hok hj1).mp hc.1⟩
          · exact hprev j hj1 (by omega))
      refine ⟨st3, ?_, r1, r2, r3, r4, r5, r6⟩
      unfold pd_loop_ext
      simp only [hc.1, hc.2, decide_True, Bool.and_self, if_true, hs2, Option.some_bind]
      exact h3
    · refine ⟨st, ?_, by omega, by rw [hit]; exact hk, by rw [hit]; exact hprev, ?_, ?_, ?_⟩
      · unfold pd_loop_ext
        have : (st.ok && decide (st.iter < inp.iterMax)) = false := by
          rcases Bool.eq_false_or_eq_true st.ok with h | h
          · have : ¬ st.iter < inp.iterMax := fun hh => hc ⟨h, hh⟩
            simp [this]
          · simp [h]
        simp [this]
      · intro h1 h2 hex
        exact hc ⟨(hok (by omega)).mpr hex, h2⟩
      · intro h1
        by_contra hlt
        have hk0 : k = 0 := by omega
        exact hc ⟨h0 hk0, by omega⟩
      · intro h2
        rcases Bool.eq_false_or_eq_true st.ok with h | h
        · exact absurd ⟨h, h2⟩ hc
        · exact h

theorem pd_run_ext_eq {inp : PdInput} {x : PdIndex} {w S : Nat → ℚ}
    (hx : pd_index inp = some x) (hw : pd_weights inp x = some w)
    (hS : pd_init inp = some S) :
    pd_run_ext inp = pd_loop_ext inp x w inp.iterMax (pd_start_ext S) := by
  unfold pd_run_ext
  rw [hx, Option.some_bind, hw, Option.some_bind, hS, Option.some_bind]

theorem Ext.within_of_not_exceeds {eps : ℚ} {a : Ext} (h : a.exceeds eps = false) (v : ℚ)
    (ha : a = Ext.fin v) : |v| ≤ eps := by
  subst ha
  unfold Ext.exceeds at h
  simpa using h

theorem Ext.within_or_nan {eps : ℚ} {a : Ext} (h : a.exceeds eps = false) :
    a.within eps = true ∨ a = Ext.nan := by
  cases a with
  | fin x =>
    left
    unfold Ext.exceeds at h
    unfold Ext.within
    simpa using h
  | pinf => exact Bool.noConfusion h
  | ninf => exact Bool.noConfusion h
  | nan => exact Or.inr rfl

/-- C15 (counterexample).  On `pd_zero_weight` the routine returns after two sweeps, the
cap being ten, and the update of category `0` computed during the last sweep is NaN (its
weight sum `1 - 1` is zero): its absolute value is not greater than `epsDeriv`, and it
is not smaller or equal either. -/
theorem pd_stopping_rule_counterexample :
    PdValid pd_zero_weight ∧
    (pd_run_ext pd_zero_weight).map
      (fun st => (st.iter, st.clusterDeriv 0, st.clusterDeriv 1)) =
        some (2, Ext.nan, Ext.fin 0) ∧
    2 < pd_zero_weight.iterMax ∧
    Ext.exceeds pd_zero_weight.epsDeriv Ext.nan = false ∧
    Ext.within pd_zero_weight.epsDeriv Ext.nan = false ∧
    cpp_partialDerivative_other_ext pd_zero_weight =
      some [Ext.nan, Ext.nan, Ext.fin (-1 / 2)] := by
  refine ⟨by decide!, by decide!, by decide!, by decide!, by decide!, by decide!⟩

/-- C15 (amended: stopping rule of the fixed-point solver).  On every valid input,
whatever the weight sums, `cpp_partialDerivative_other` returns after a number `iter`
of sweeps with `iter ≤ iterMax` (and `1 ≤ iter` when `1 ≤ iterMax`), in the state
reached by `iter` sweeps from the initial value.  It stops exactly when the cap is
reached or no update of the sweep passes the test `fabs(new_value) > epsDeriv`: after
every earlier sweep `j < iter` some per-category update computed during that sweep
(held by `clusterDeriv`) passed the test, so another sweep was run; and when
`iter < iterMax`, no update of the last sweep passes the test: each is a number of
absolute value not greater than `epsDeriv` or is NaN. -/
theorem pd_stopping_rule (inp : PdInput) (hv : PdValid inp) :
    ∃ x w S st, pd_index inp = some x ∧ pd_weights inp x = some w ∧ pd_init inp = some S ∧
      pd_run_ext inp = some st ∧
      cpp_partialDerivative_other_ext inp = some ((List.range inp.N).map st.S) ∧
      st.iter ≤ inp.iterMax ∧ (1 ≤ inp.iterMax → 1 ≤ st.iter) ∧
      pd_after_ext inp x w S st.iter = some st ∧
      (∀ j, 1 ≤ j → j < st.iter →
        ∃ sj, pd_after_ext inp x w S j = some sj ∧ PdExceedsExt inp x sj) ∧
      (1 ≤ st.iter → st.iter < inp.iterMax →
        ∀ q < inp.Q, ∀ c < inp.size q,
          (st.clusterDeriv (x.start q + c)).exceeds inp.epsDeriv = false ∧
          ((st.clusterDeriv (x.start q + c)).within inp.epsDeriv = true ∨
            st.clusterDeriv (x.start q + c) = Ext.nan)) := by
  obtain ⟨x, hx, hxok⟩ := pd_index_ok hv
  obtain ⟨w, hw, hwok⟩ := pd_weights_ok hv hxok
  obtain ⟨S, hS, _⟩ := pd_init_ok hv
  obtain ⟨st, hst, r1, r2, r3, r4, r5, _⟩ := pd_loop_ext_spec hv hxok hwok S inp.iterMax 0
    (pd_start_ext S) rfl rfl (Nat.zero_le _) (by omega) (fun h => absurd h (by omega))
    (fun _ => rfl) (fun j h1 h2 => absurd h2 (by omega))
  have hrun : pd_run_ext inp = some st := by rw [pd_run_ext_eq hx hw hS]; exact hst
  refine ⟨x, w, S, st, hx, hw, hS, hrun, ?_, r1, r5, r2, r3, ?_⟩
  · unfold cpp_partialDerivative_other_ext
    rw [hrun]
    rfl
  · intro h1 h2 q hq c hc
    have hne : (st.clusterDeriv (x.start q + c)).exceeds inp.epsDeriv = false := by
      rcases Bool.eq_false_or_eq_true
        ((st.clusterDeriv (x.start q + c)).exceeds inp.epsDeriv) with h | h
      · exact absurd ⟨q, hq, c, hc, h⟩ (r4 h1 h2)
      · exact h
    exact ⟨hne, Ext.within_or_nan hne⟩

/-- C15 (amended) on the input `pd_zero_weight`, in which a weight sum is zero: the
loop ends after 2 sweeps, before the cap of 10. -/
theorem pd_stopping_rule_witness :
    PdValid pd_zero_weight ∧ (pd_run_ext pd_zero_weight).map PdStateExt.iter = some 2 ∧
    ∃ st, pd_run_ext pd_zero_weight = some st ∧ st.iter ≤ pd_zero_weight.iterMax := by
  refine ⟨by decide!, by decide!, ?_⟩
  obtain ⟨_, _, _, st, _, _, _, h1, _, h2, _⟩ := pd_stopping_rule pd_zero_weight (by decide!)
  exact ⟨st, h1, h2⟩

/-- C16 (counterexample).  On `pd_cross`, after the first sweep, that is immediately
after the update of dimension `1`, the category `0` of dimension `1` has the non-zero
weight sum `1` and the sum of `dx_dother(i) + S(i) * ll_d2(i)` over its observations is
NaN, not zero: the running value of its observation `0` was made infinite by the update
of dimension `0`, whose category has a zero weight sum. -/
theorem pd_block_zeroes_residual_counterexample :
    PdValid pd_cross ∧ pd_cross.weight 1 0 = 1 ∧ pd_cross.obsOf 1 0 = [0] ∧
    ((pd_index pd_cross).bind fun x => (pd_weights pd_cross x).bind fun w =>
      (pd_init pd_cross).bind fun S =>
        (pd_block_ext pd_cross x w (pd_start_ext S) 0).map fun st => st.S 0) =
      some Ext.ninf ∧
    ((pd_index pd_cross).bind fun x => (pd_weights pd_cross x).bind fun w =>
      (pd_init pd_cross).bind fun S =>
        (pd_after_ext pd_cross x w S 1).map fun st =>
          (w (x.start 1 + 0), st.S 0, pd_cross.residualExt st.S 1 0)) =
      some (1, Ext.nan, Ext.nan) ∧
    Ext.nan ≠ Ext.fin 0 := by
  refine ⟨by decide!, by decide!, by decide!, by decide!, by decide!, by decide⟩

/-- C16 (amended: the block update of the fixed-point solver zeroes the block
residual).  On a valid input, over exact arithmetic on the numbers, the update of a
dimension `q` is defined from any state, whatever the weight sums, and for every
category `c` of `q`: the precomputed entry of `sum_lld2` is the sum of `ll_d2` over the
observations of `c`, and the update added to every observation of `c` is minus the
value before the update of the sum of `dx_dother(i) + S(i) * ll_d2(i)` over the
observations of `c`, divided by the weight sum; when the weight sum is non-zero and
the running values of the observations of `c` are numbers before the update, these
values are numbers after the update and that sum is zero for them. -/
theorem pd_block_zeroes_residual (inp : PdInput) (hv : PdValid inp) (q : Nat)
    (hq : q < inp.Q) (st : PdStateExt) :
    ∃ x w st2, pd_index inp = some x ∧ pd_weights inp x = some w ∧
      pd_block_ext inp x w st q = some st2 ∧
      ∀ c < inp.size q, w (x.start q + c) = inp.weight q c ∧
        (∀ i ∈ inp.obsOf q c, st2.S i =
          (st.S i).add ((inp.residualExt st.S q c).neg.div (w (x.start q + c)))) ∧
        (w (x.start q + c) ≠ 0 → (∀ i ∈ inp.obsOf q c, (st.S i).isFin = true) →
          inp.residualExt st.S q c =
            Ext.fin (inp.residual (fun i => (st.S i).toRat) q c) ∧
          (∀ i ∈ inp.obsOf q c, st2.S i = Ext.fin ((st.S i).toRat +
            -(inp.residual (fun i => (st.S i).toRat) q c) / w (x.start q + c))) ∧
          inp.residualExt st2.S q c = Ext.fin 0) := by
  obtain ⟨x, hx, hxok⟩ := pd_index_ok hv
  obtain ⟨w, hw, hwok⟩ := pd_weights_ok hv hxok
  obtain ⟨st2, hs2, _, k2, _, _, _, _⟩ := pd_block_ext_spec hv hxok hwok hq st
  refine ⟨x, w, st2, hx, hw, hs2, ?_⟩
  intro c hc
  have hadd : ∀ i ∈ inp.obsOf q c, st2.S i =
      (st.S i).add ((inp.residualExt st.S q c).neg.div (w (x.start q + c))) := by
    intro i hi
    obtain ⟨hiN, hic⟩ := (inp.mem_obsOf q c i).mp hi
    rw [k2 i hiN, hic, hwok q hq c hc]
    rfl
  refine ⟨hwok q hq c hc, hadd, ?_⟩
  intro hne hfin
  have hres := inp.residualExt_fin st.S q c hfin
  have hval : ∀ i ∈ inp.obsOf q c, st2.S i = Ext.fin ((st.S i).toRat +
      -(inp.residual (fun i => (st.S i).toRat) q c) / w (x.start q + c)) := by
    intro i hi
    rw [hadd i hi, hres]
    conv_lhs => rw [Ext.eq_fin_of_isFin (hfin i hi)]
    show (Ext.fin _).add (Ext.div (Ext.fin _) _) = _
    unfold Ext.div
    simp only [hne, if_false]
    rfl
  refine ⟨hres, hval, ?_⟩
  have hfin2 : ∀ i ∈ inp.obsOf q c, (st2.S i).isFin = true := by
    intro i hi
    rw [hval i hi]
    rfl
  rw [inp.residualExt_fin st2.S q c hfin2]
  apply congrArg
  have hupd := inp.residual_update (fun i => (st.S i).toRat) (fun i => (st2.S i).toRat) q c
    (-(inp.residual (fun i => (st.S i).toRat) q c) / w (x.start q + c))
    (by
      intro i hi
      show (st2.S i).toRat = _
      rw [hval i hi]
      rfl)
  rw [hupd, ← hwok q hq c hc]
  field_simp

/-- C16 (amended) on the input `pd_zero_weight`, for its dimension and the initial
state: the category `0` has a zero weight sum, the category `1` has the weight sum `2`
and its residual is zero after the update. -/
theorem pd_block_zeroes_residual_witness :
    PdValid pd_zero_weight ∧ pd_zero_weight.weight 0 0 = 0 ∧ pd_zero_weight.weight 0 1 = 2 ∧
    ∃ x w st2, pd_index pd_zero_weight = some x ∧ pd_weights pd_zero_weight x = some w ∧
      pd_block_ext pd_zero_weight x w (pd_start_ext (fun _ => 0)) 0 = some st2 ∧
      ∀ c < pd_zero_weight.size 0, w (x.start 0 + c) = pd_zero_weight.weight 0 c ∧
        (∀ i ∈ pd_zero_weight.obsOf 0 c, st2.S i =
          ((pd_start_ext (fun _ => 0)).S i).add
            ((pd_zero_weight.residualExt (pd_start_ext (fun _ => 0)).S 0 c).neg.div
              (w (x.start 0 + c)))) ∧
        (w (x.start 0 + c) ≠ 0 →
          (∀ i ∈ pd_zero_weight.obsOf 0 c, ((pd_start_ext (fun _ => 0)).S i).isFin = true) →
          pd_zero_weight.residualExt (pd_start_ext (fun _ => 0)).S 0 c =
            Ext.fin (pd_zero_weight.residual
              (fun i => ((pd_start_ext (fun _ => 0)).S i).toRat) 0 c) ∧
          (∀ i ∈ pd_zero_weight.obsOf 0 c, st2.S i =
            Ext.fin (((pd_start_ext (fun _ => 0)).S i).toRat +
              -(pd_zero_weight.residual
                (fun i => ((pd_start_ext (fun _ => 0)).S i).toRat) 0 c) /
                w (x.start 0 + c))) ∧
          pd_zero_weight.residualExt st2.S 0 c = Ext.fin 0) :=
  ⟨by decide!, by decide!, by decide!,
    pd_block_zeroes_residual pd_zero_weight (by decide!) 0 (by decide)
      (pd_start_ext (fun _ => 0))⟩

/-- Simulation of a fold by another fold: a related state is reached whenever the first
fold has a result. -/
theorem foldlM_sim {σ τ α : Type} (R : σ → τ → Prop) (f : σ → α → Option σ)
    (g : τ → α → Option τ)
    (hstep : ∀ s t a s', R s t → f s a = some s' → ∃ t', g t a = some t' ∧ R s' t') :
    ∀ (l : List α) (s : σ) (t : τ) (s' : σ), R s t → l.foldlM f s = some s' →
      ∃ t', l.foldlM g t = some t' ∧ R s' t' := by
  intro l
  induction l with
  | nil =>
    intro s t s' hR h
    rw [List.foldlM_nil] at h
    cases h
    exact ⟨t, rfl, hR⟩
  | cons a l ih =>
    intro s t s' hR h
    rw [List.foldlM_cons] at h
    cases hf : f s a with
    | none =>
      rw [hf] at h
      cases h
    | some s1 =>
      rw [hf] at h
      obtain ⟨t1, hg, hR1⟩ := hstep s t a s1 hR hf
      obtain ⟨t', ht', hR'⟩ := ih s1 t1 s' hR1 h
      refine ⟨t', ?_, hR'⟩
      rw [List.foldlM_cons, hg]
      exact ht'

theorem Ext.add_fin_not_isFin {a : Ext} (h : a.isFin = false) (y : ℚ) :
    (a.add (Ext.fin y)).isFin = false := by
  cases a with
  | fin x => exact Bool.noConfusion h
  | pinf => rfl
  | ninf => rfl
  | nan => rfl

theorem pd_zero_sim (x : PdIndex) :
    ∀ (cd : Nat → Option ℚ) (cx : Nat → Ext) (c : Nat) (cd2 : Nat → Option ℚ),
      (∀ k, PdSlotRel (cd k) (cx k)) → pd_zero_step x cd c = some cd2 →
      ∃ cx2, pd_zero_step_ext x cx c = some cx2 ∧ ∀ k, PdSlotRel (cd2 k) (cx2 k) := by
  intro cd cx c cd2 hR h
  unfold pd_zero_step at h
  unfold pd_zero_step_ext
  split at h
  · rename_i hc
    rw [if_pos hc]
    cases h
    refine ⟨_, rfl, ?_⟩
    intro k
    by_cases hk : k = c
    · subst hk
      rw [setAt_same, setAt_same]
      rfl
    · rw [setAt_ne _ _ _ _ hk, setAt_ne _ _ _ _ hk]
      exact hR k
  · cases h

theorem pd_accum_sim (inp : PdInput) (x : PdIndex) (q : Nat) (S : Nat → ℚ) (Sx : Nat → Ext)
    (hS : ∀ i, Sx i = Ext.fin (S i)) :
    ∀ (cd : Nat → Option ℚ) (cx : Nat → Ext) (i : Nat) (cd2 : Nat → Option ℚ),
      (∀ k, PdSlotRel (cd k) (cx k)) → pd_accum_step inp x q S cd i = some cd2 →
      ∃ cx2, pd_accum_step_ext inp x q Sx cx i = some cx2 ∧
        ∀ k, PdSlotRel (cd2 k) (cx2 k) := by
  intro cd cx i cd2 hR h
  unfold pd_accum_step at h
  split at h
  · rename_i k d l e1 e2 e3
    unfold pd_accum_step_ext
    rw [e1, e2, e3]
    dsimp only
    split at h
    · rename_i hc
      rw [if_pos hc]
      cases h
      refine ⟨_, rfl, ?_⟩
      intro m
      by_cases hm : m = x.start q + k
      · subst hm
        rw [setAt_same, setAt_same, hS i]
        have := hR (x.start q + k)
        cases hcd : cd (x.start q + k) with
        | none =>
          rw [hcd] at this
          exact Ext.add_fin_not_isFin this _
        | some v =>
          rw [hcd] at this
          show _ = Ext.fin _
          rw [show cx (x.start q + k) = Ext.fin v from this]
          rfl
      · rw [setAt_ne _ _ _ _ hm, setAt_ne _ _ _ _ hm]
        exact hR m
    · cases h
  · cases h

theorem pd_update_sim (inp : PdInput) (x : PdIndex) (w : Nat → ℚ) :
    ∀ (co : (Nat → Option ℚ) × Bool) (cx : (Nat → Ext) × Bool) (c : Nat)
      (co2 : (Nat → Option ℚ) × Bool),
      ((∀ k, PdSlotRel (co.1 k) (cx.1 k)) ∧ cx.2 = co.2) →
      pd_update_step inp x w co c = some co2 →
      ∃ cx2, pd_update_step_ext inp x w cx c = some cx2 ∧
        ((∀ k, PdSlotRel (co2.1 k) (cx2.1 k)) ∧ cx2.2 = co2.2) := by
  intro co cx c co2 hR h
  unfold pd_update_step at h
  unfold pd_update_step_ext
  split at h
  · rename_i hc
    rw [if_pos hc]
    refine ⟨_, rfl, ?_⟩
    have hslot := hR.1 c
    cases hcd : co.1 c with
    | none =>
      rw [hcd] at h
      cases h
    | some v =>
      rw [hcd] at h hslot
      have hcx : cx.1 c = Ext.fin v := hslot
      dsimp only at h
      rw [hcx, hR.2]
      by_cases hw : w c = 0
      · rw [if_pos hw] at h
        cases h
        have hdiv : (Ext.fin v).neg.div (w c) =
            if v = 0 then Ext.nan else if 0 < -v then Ext.pinf else Ext.ninf := by
          show Ext.div (Ext.fin (-v)) (w c) = _
          unfold Ext.div
          simp only [hw, if_true, neg_eq_zero]
        constructor
        · intro k
          dsimp only
          by_cases hk : k = c
          · subst hk
            rw [setAt_same, setAt_same, hdiv]
            show Ext.isFin _ = false
            split
            · rfl
            · split <;> rfl
          · rw [setAt_ne _ _ _ _ hk, setAt_ne _ _ _ _ hk]
            exact hR.1 k
        · dsimp only
          rw [hdiv]
          congr 1
          by_cases hv : v = 0
          · simp [hv, Ext.exceeds]
          · simp only [hv, if_false]
            split <;> simp [Ext.exceeds, hv]
      · rw [if_neg hw] at h
        cases h
        have hdiv : (Ext.fin v).neg.div (w c) = Ext.fin (-v / w c) := by
          show Ext.div (Ext.fin (-v)) (w c) = _
          unfold Ext.div
          simp only [hw, if_false]
        constructor
        · intro k
          dsimp only
          by_cases hk : k = c
          · subst hk
            rw [setAt_same, setAt_same, hdiv]
            rfl
          · rw [setAt_ne _ _ _ _ hk, setAt_ne _ _ _ _ hk]
            exact hR.1 k
        · dsimp only
          rw [hdiv]
          rfl
  · cases h

theorem pd_add_sim (inp : PdInput) (x : PdIndex) (q : Nat) (cd : Nat → Option ℚ)
    (cx : Nat → Ext) (hcd : ∀ k, PdSlotRel (cd k) (cx k)) :
    ∀ (S : Nat → ℚ) (Sx : Nat → Ext) (i : Nat) (S2 : Nat → ℚ),
      (∀ k, Sx k = Ext.fin (S k)) → pd_add_step inp x q cd S i = some S2 →
      ∃ Sx2, pd_add_step_ext inp x q cx Sx i = some Sx2 ∧ ∀ k, Sx2 k = Ext.fin (S2 k) := by
  intro S Sx i S2 hR h
  unfold pd_add_step at h
  unfold pd_add_step_ext
  cases hk : matGet inp.dumMat i q with
  | none =>
    rw [hk] at h
    cases h
  | some k =>
    rw [hk] at h
    dsimp only at h ⊢
    split at h
    · rename_i hc
      rw [if_pos hc]
      have hslot := hcd (x.start q + k)
      cases hu : cd (x.start q + k) with
      | none =>
        rw [hu] at h
        cases h
      | some u =>
        rw [hu] at h hslot
        cases h
        refine ⟨_, rfl, ?_⟩
        intro m
        by_cases hm : m = i
        · subst hm
          rw [setAt_same, setAt_same, hR m, show cx (x.start q + k) = Ext.fin u from hslot]
          rfl
        · rw [setAt_ne _ _ _ _ hm, setAt_ne _ _ _ _ hm]
          exact hR m
    · cases h

theorem pd_block_sim (inp : PdInput) (x : PdIndex) (w : Nat → ℚ) :
    ∀ (st : PdState) (sx : PdStateExt) (q : Nat) (st2 : PdState), PdStateRel st sx →
      pd_block inp x w st q = some st2 →
      ∃ sx2, pd_block_ext inp x w sx q = some sx2 ∧ PdStateRel st2 sx2 := by
  intro st sx q st2 hR h
  obtain ⟨hcd, hS, hok, hit⟩ := hR
  unfold pd_block at h
  unfold pd_block_ext
  cases h1 : (List.range' (x.start q) (x.end_ q - x.start q)).foldlM (pd_zero_step x)
      st.clusterDeriv with
  | none => rw [h1] at h; cases h
  | some cd1 =>
    rw [h1, Option.some_bind] at h
    obtain ⟨cx1, g1, r1⟩ := foldlM_sim (fun (cd : Nat → Option ℚ) (cx : Nat → Ext) =>
      ∀ k, PdSlotRel (cd k) (cx k)) _ _ (pd_zero_sim x) _ _ sx.clusterDeriv _ hcd h1
    rw [g1, Option.some_bind]
    cases h2 : (List.range inp.N).foldlM (pd_accum_step inp x q st.S) cd1 with
    | none => rw [h2] at h; cases h
    | some cd2 =>
      rw [h2, Option.some_bind] at h
      obtain ⟨cx2, g2, r2⟩ := foldlM_sim (fun (cd : Nat → Option ℚ) (cx : Nat → Ext) =>
        ∀ k, PdSlotRel (cd k) (cx k)) _ _ (pd_accum_sim inp x q st.S sx.S hS) _ _ cx1 _ r1 h2
      rw [g2, Option.some_bind]
      cases h3 : (List.range' (x.start q) (x.end_ q - x.start q)).foldlM
          (pd_update_step inp x w) (cd2, st.ok) with
      | none => rw [h3] at h; cases h
      | some co =>
        rw [h3, Option.some_bind] at h
        obtain ⟨cxo, g3, r3⟩ := foldlM_sim
          (fun (co : (Nat → Option ℚ) × Bool) (cx : (Nat → Ext) × Bool) =>
            (∀ k, PdSlotRel (co.1 k) (cx.1 k)) ∧ cx.2 = co.2) _ _ (pd_update_sim inp x w)
          _ _ (cx2, sx.ok) _ ⟨r2, hok⟩ h3
        rw [g3, Option.some_bind]
        cases h4 : (List.range inp.N).foldlM (pd_add_step inp x q co.1) st.S with
        | none => rw [h4] at h; cases h
        | some S2 =>
          rw [h4] at h
          cases h
          obtain ⟨Sx2, g4, r4⟩ := foldlM_sim (fun (S : Nat → ℚ) (Sx : Nat → Ext) =>
            ∀ k, Sx k = Ext.fin (S k)) _ _ (pd_add_sim inp x q co.1 cxo.1 r3.1) _ _ sx.S _
            hS h4
          rw [g4]
          exact ⟨_, rfl, r3.1, r4, r3.2, hit⟩

theorem pd_sweep_sim (inp : PdInput) (x : PdIndex) (w : Nat → ℚ) (st : PdState)
    (sx : PdStateExt) (st2 : PdState) (hR : PdStateRel st sx)
    (h : pd_sweep inp x w st = some st2) :
    ∃ sx2, pd_sweep_ext inp x w sx = some sx2 ∧ PdStateRel st2 sx2 := by
  unfold pd_sweep at h
  unfold pd_sweep_ext
  refine foldlM_sim PdStateRel _ _ (pd_block_sim inp x w) _ _ _ _ ?_ h
  exact ⟨hR.1, hR.2.1, rfl, by show sx.iter + 1 = st.iter + 1; rw [hR.2.2.2]⟩

theorem pd_loop_sim (inp : PdInput) (x : PdIndex) (w : Nat → ℚ) :
    ∀ (fuel : Nat) (st : PdState) (sx : PdStateExt) (st2 : PdState), PdStateRel st sx →
      pd_loop inp x w fuel st = some st2 →
      ∃ sx2, pd_loop_ext inp x w fuel sx = some sx2 ∧ PdStateRel st2 sx2 := by
  intro fuel
  induction fuel with
  | zero =>
    intro st sx st2 hR h
    unfold pd_loop at h
    unfold pd_loop_ext
    rw [hR.2.2.1, hR.2.2.2]
    split at h
    · cases h
    · rename_i hc
      cases h
      rw [if_neg hc]
      exact ⟨sx, rfl, hR⟩
  | succ fuel ih =>
    intro st sx st2 hR h
    unfold pd_loop at h
    unfold pd_loop_ext
    rw [hR.2.2.1, hR.2.2.2]
    split at h
    · rename_i hc
      rw [if_pos hc]
      cases hs : pd_sweep inp x w st with
      | none => rw [hs] at h; cases h
      | some s1 =>
        rw [hs, Option.some_bind] at h
        obtain ⟨sx1, g1, r1⟩ := pd_sweep_sim inp x w st sx s1 hR hs
        rw [g1, Option.some_bind]
        exact ih s1 sx1 st2 r1 h
    · rename_i hc
      cases h
      rw [if_neg hc]
      exact ⟨sx, rfl, hR⟩

/-- Whenever the solver on numbers has a result, the solver on doubles has the same
one: it makes the same number of sweeps and returns the same numbers. -/
theorem pd_run_ext_of_run (inp : PdInput) (st : PdState) (h : pd_run inp = some st) :
    ∃ sx, pd_run_ext inp = some sx ∧ sx.iter = st.iter ∧ sx.ok = st.ok ∧
      (∀ i, sx.S i = Ext.fin (st.S i)) ∧
      cpp_partialDerivative_other_ext inp =
        (cpp_partialDerivative_other inp).map (fun l => l.map Ext.fin) := by
  unfold pd_run at h
  cases hx : pd_index inp with
  | none => rw [hx] at h; cases h
  | some x =>
    rw [hx, Option.some_bind] at h
    cases hw : pd_weights inp x with
    | none => rw [hw] at h; cases h
    | some w =>
      rw [hw, Option.some_bind] at h
      cases hS : pd_init inp with
      | none => rw [hS] at h; cases h
      | some S =>
        rw [hS, Option.some_bind] at h
        obtain ⟨sx, g, r⟩ := pd_loop_sim inp x w inp.iterMax (pd_start S) (pd_start_ext S) st
          ⟨fun _ => rfl, fun _ => rfl, rfl, rfl⟩ h
        have hrun : pd_run_ext inp = some sx := by
          rw [pd_run_ext_eq hx hw hS]
          exact g
        have hrun0 : pd_run inp = some st := by
          rw [pd_run_eq hx hw hS]
          exact h
        refine ⟨sx, hrun, r.2.2.2, r.2.2.1, r.2.1, ?_⟩
        unfold cpp_partialDerivative_other_ext cpp_partialDerivative_other
        rw [hrun, hrun0]
        simp only [Option.map_some', List.map_map, Option.some.injEq]
        apply List.map_congr_left
        intro i _
        exact r.2.1 i

theorem foldlM_map_snd {σ α ε : Type} (f : σ → α → Option σ)
    (g : ε × σ → α → Option (ε × σ)) (h : ∀ ls a, (g ls a).map Prod.snd = f ls.2 a) :
    ∀ (l : List α) (ls : ε × σ), (l.foldlM g ls).map Prod.snd = l.foldlM f ls.2 := by
  intro l
  induction l with
  | nil => intro ls; rfl
  | cons a l ih =>
    intro ls
    rw [List.foldlM_cons, List.foldlM_cons, ← h ls a]
    cases hg : g ls a with
    | none => rfl
    | some lt =>
      simp only [Option.map_some', Option.bind_eq_bind, Option.some_bind]
      exact ih lt

theorem fe2_logged_snd {σ α : Type} (f : σ → α → Option σ) (ev : σ → α → Fe2Event)
    (ls : List Fe2Event × σ) (a : α) : (fe2_logged f ev ls a).map Prod.snd = f ls.2 a := by
  unfold fe2_logged
  rw [Option.map_map]
  cases f ls.2 a <;> rfl

theorem forBucket_log_snd {σ : Type} (cum : List Nat) (k : Nat) (f : σ → Nat → Option σ)
    (ev : σ → Nat → Fe2Event) (ls : List Fe2Event × σ) :
    (forBucket cum k (fe2_logged f ev) ls).map Prod.snd = forBucket cum k f ls.2 := by
  unfold forBucket
  split
  · exact foldlM_map_snd f (fe2_logged f ev) (fe2_logged_snd f ev) _ ls
  · rfl

theorem propagate_j_to_i_log_snd (inp : Fe2Input) (ls : List Fe2Event × Fe2State) :
    (propagate_j_to_i_log inp ls).map Prod.snd = propagate_j_to_i inp ls.2 := by
  unfold propagate_j_to_i_log propagate_j_to_i
  exact foldlM_map_snd (fun t j => forBucket inp.cumtable_j j (visit_i inp j) t) _
    (fun lt j => forBucket_log_snd inp.cumtable_j j (visit_i inp j) _ lt) _ _

theorem propagate_i_to_j_log_snd (inp : Fe2Input) (ls : List Fe2Event × Fe2State) :
    (propagate_i_to_j_log inp ls).map Prod.snd = propagate_i_to_j inp ls.2 := by
  unfold propagate_i_to_j_log propagate_i_to_j
  exact foldlM_map_snd (fun t i => forBucket inp.cumtable_i i (visit_j inp i) t) _
    (fun lt i => forBucket_log_snd inp.cumtable_i i (visit_j inp i) _ lt) _ _

theorem bind_map_snd {σ ε : Type} (x : Option (ε × σ)) (g : ε × σ → Option (ε × σ))
    (f : σ → Option σ) (h : ∀ ls, (g ls).map Prod.snd = f ls.2) :
    (x.bind g).map Prod.snd = (x.map Prod.snd).bind f := by
  cases x with
  | none => rfl
  | some ls => exact h ls

/-- The pass with its log makes the steps of `fe2_pass`. -/
theorem fe2_pass_log_snd (inp : Fe2Input) (ls : List Fe2Event × Fe2State) :
    (fe2_pass_log inp ls).map Prod.snd = fe2_pass inp ls.2 := by
  unfold fe2_pass_log fe2_pass
  rw [bind_map_snd _ _ (fun s1 => (propagate_j_to_i inp s1).bind (propagate_i_to_j inp))]
  · congr 1
    by_cases h : ls.2.cluster_pending_j.length = 0
    · rw [if_pos h, if_pos h]
      unfold set_reference_log
      rw [Option.map_map]
      cases set_reference inp ls.2 <;> rfl
    · rw [if_neg h, if_neg h]
      rfl
  · intro l1
    rw [bind_map_snd _ _ (propagate_i_to_j inp) (propagate_i_to_j_log_snd inp),
      propagate_j_to_i_log_snd]

/-- The loop with its log makes the steps of `fe2_loop`. -/
theorem fe2_loop_log_snd (inp : Fe2Input) (fuel : Nat) :
    ∀ ls : List Fe2Event × Fe2State,
      (fe2_loop_log inp fuel ls).map Prod.snd = fe2_loop inp fuel ls.2 := by
  induction fuel with
  | zero =>
    intro ls
    unfold fe2_loop_log fe2_loop
    split <;> rfl
  | succ fuel ih =>
    intro ls
    unfold fe2_loop_log fe2_loop
    split
    · rw [bind_map_snd _ _ (fe2_loop inp fuel) ih, fe2_pass_log_snd]
    · rfl

/-- The log of the run ends in the state of the run. -/
theorem fe2_run_log_snd (fuel : Nat) (inp : Fe2Input) :
    (fe2_run_log fuel inp).map Prod.snd = fe2_loop inp fuel fe2_init :=
  fe2_loop_log_snd inp fuel ([], fe2_init)

theorem fe2_writes_snoc (inp : Fe2Input) (L : List Fe2Event) (e : Fe2Event) :
    fe2_writes inp (L ++ [e]) = fe2_writes inp L ++ (e.write inp).toList := by
  unfold fe2_writes
  rw [List.filterMap_append]
  cases h : e.write inp with
  | none => simp [List.filterMap_cons, h]
  | some w => simp [List.filterMap_cons, h]

/-- A step that assigns nothing keeps the invariant. -/
theorem Fe2LogInv.keep {inp : Fe2Input} {L : List Fe2Event} {s : Fe2State}
    (h : Fe2LogInv inp L s) {e : Fe2Event} (he : e.write inp = none) :
    Fe2LogInv inp (L ++ [e]) s := by
  have hw : fe2_writes inp (L ++ [e]) = fe2_writes inp L := by
    rw [fe2_writes_snoc, he]
    simp
  have hr : fe2_resolved inp (L ++ [e]) = fe2_resolved inp L := by
    unfold fe2_resolved
    rw [hw]
  exact ⟨by rw [hr]; exact h.res, by rw [hr]; exact h.range, by rw [hr]; exact h.nodup,
    by rw [hw]; exact h.vals, by rw [hw]; exact h.count⟩

/-- A step that assigns the value `v` to the category `c`, which was to visit, keeps the
invariant. -/
theorem Fe2LogInv.assign {inp : Fe2Input} {L : List Fe2Event} {s t : Fe2State}
    (h : Fe2LogInv inp L s) {e : Fe2Event} {c : Fe2Cat} {v : ℚ}
    (he : e.write inp = some (c, v)) (hc : c.inRange inp) (htodo : fe2_todo s c = true)
    (hflag : ∀ d, fe2_todo t d = if d = c then false else fe2_todo s d)
    (hval : ∀ d, fe2_value t d = if d = c then v else fe2_value s d)
    (hn : t.n_done = s.n_done + 1) :
    Fe2LogInv inp (L ++ [e]) t := by
  have hw : fe2_writes inp (L ++ [e]) = fe2_writes inp L ++ [(c, v)] := by
    rw [fe2_writes_snoc, he]
    rfl
  have hr : fe2_resolved inp (L ++ [e]) = fe2_resolved inp L ++ [c] := by
    unfold fe2_resolved
    rw [hw, List.map_append]
    rfl
  have hnew : c ∉ fe2_resolved inp L := by
    intro hmem
    have := (h.res c hc).2 hmem
    rw [htodo] at this
    exact Bool.noConfusion this
  refine ⟨?_, ?_, ?_, ?_, ?_⟩
  · intro d hd
    rw [hr, hflag d, List.mem_append, List.mem_singleton]
    by_cases hdc : d = c
    · rw [if_pos hdc]
      exact ⟨fun _ => Or.inr hdc, fun _ => rfl⟩
    · rw [if_neg hdc, h.res d hd]
      exact ⟨Or.inl, fun hh => hh.elim id (fun e => absurd e hdc)⟩
  · intro d hd
    rw [hr, List.mem_append, List.mem_singleton] at hd
    rcases hd with hd | hd
    · exact h.range d hd
    · rw [hd]; exact hc
  · rw [hr]
    exact List.Nodup.append h.nodup (List.nodup_singleton c)
      (by
        intro d hd1 hd2
        rw [List.mem_singleton] at hd2
        rw [hd2] at hd1
        exact hnew hd1)
  · intro w hw2
    rw [hw, List.mem_append, List.mem_singleton] at hw2
    rcases hw2 with hw2 | hw2
    · have hne : w.1 ≠ c := by
        intro e1
        apply hnew
        rw [← e1]
        exact List.mem_map_of_mem Prod.fst hw2
      rw [hval, if_neg hne]
      exact h.vals w hw2
    · rw [hw2, hval, if_pos rfl]
  · rw [hw, List.length_append, hn, h.count]
    rfl

theorem visit_i_log_inv {inp : Fe2Input} {j u : Nat} {L : List Fe2Event} {s t : Fe2State}
    (h : visit_i inp j s u = some t) (hJ : Fe2LogInv inp L s) :
    Fe2LogInv inp (L ++ [Fe2Event.visit_i j u s]) t := by
  unfold visit_i at h
  cases hi : inp.j_sorted_index_i[u]? with
  | none => rw [hi] at h; exact Option.noConfusion h
  | some i =>
    rw [hi] at h
    dsimp only at h
    by_cases hin : i < inp.n_i
    · rw [if_pos hin] at h
      by_cases hvis : s.to_visit_i i = true
      · rw [if_pos hvis] at h
        cases hv : inp.j_sorted_sumFE[u]? with
        | none => rw [hv] at h; exact Option.noConfusion h
        | some v =>
          rw [hv] at h
          have e := Option.some.inj h
          subst e
          apply hJ.assign (c := Fe2Cat.dim1 i) (v := v - s.cluster_coef_j j)
          · show (match inp.j_sorted_index_i[u]?, inp.j_sorted_sumFE[u]? with
              | some i, some v =>
                if i < inp.n_i ∧ s.to_visit_i i = true then
                  some (Fe2Cat.dim1 i, v - s.cluster_coef_j j)
                else none
              | _, _ => none) = _
            rw [hi, hv]
            exact if_pos ⟨hin, hvis⟩
          · exact hin
          · exact hvis
          · intro d
            cases d with
            | dim1 k =>
              show setAt s.to_visit_i i false k = _
              by_cases hk : k = i
              · subst hk; rw [setAt_same, if_pos rfl]
              · rw [setAt_ne _ _ _ _ hk, if_neg (by intro e; exact hk (Fe2Cat.dim1.inj e))]
                rfl
            | dim2 k => rw [if_neg (by intro e; exact Fe2Cat.noConfusion e)]; rfl
          · intro d
            cases d with
            | dim1 k =>
              show setAt s.cluster_coef_i i _ k = _
              by_cases hk : k = i
              · subst hk; rw [setAt_same, if_pos rfl]
              · rw [setAt_ne _ _ _ _ hk, if_neg (by intro e; exact hk (Fe2Cat.dim1.inj e))]
                rfl
            | dim2 k => rw [if_neg (by intro e; exact Fe2Cat.noConfusion e)]; rfl
          · rfl
      · rw [if_neg hvis] at h
        have e := Option.some.inj h
        subst e
        apply hJ.keep
        show (match inp.j_sorted_index_i[u]?, inp.j_sorted_sumFE[u]? with
          | some i, some v =>
            if i < inp.n_i ∧ s.to_visit_i i = true then
              some (Fe2Cat.dim1 i, v - s.cluster_coef_j j)
            else none
          | _, _ => none) = _
        rw [hi]
        cases inp.j_sorted_sumFE[u]? with
        | none => rfl
        | some v => exact if_neg (fun hh => hvis hh.2)
    · rw [if_neg hin] at h
      exact Option.noConfusion h

theorem visit_j_log_inv {inp : Fe2Input} {i u : Nat} {L : List Fe2Event} {s t : Fe2State}
    (h : visit_j inp i s u = some t) (hJ : Fe2LogInv inp L s) :
    Fe2LogInv inp (L ++ [Fe2Event.visit_j i u s]) t := by
  unfold visit_j at h
  cases hi : inp.i_sorted_index_j[u]? with
  | none => rw [hi] at h; exact Option.noConfusion h
  | some j =>
    rw [hi] at h
    dsimp only at h
    by_cases hin : j < inp.n_j
    · rw [if_pos hin] at h
      by_cases hvis : s.to_visit_j j = true
      · rw [if_pos hvis] at h
        cases hv : inp.i_sorted_sumFE[u]? with
        | none => rw [hv] at h; exact Option.noConfusion h
        | some v =>
          rw [hv] at h
          have e := Option.some.inj h
          subst e
          apply hJ.assign (c := Fe2Cat.dim2 j) (v := v - s.cluster_coef_i i)
          · show (match inp.i_sorted_index_j[u]?, inp.i_sorted_sumFE[u]? with
              | some j, some v =>
                if j < inp.n_j ∧ s.to_visit_j j = true then
                  some (Fe2Cat.dim2 j, v - s.cluster_coef_i i)
                else none
              | _, _ => none) = _
            rw [hi, hv]
            exact if_pos ⟨hin, hvis⟩
          · exact hin
          · exact hvis
          · intro d
            cases d with
            | dim1 k => rw [if_neg (by intro e; exact Fe2Cat.noConfusion e)]; rfl
            | dim2 k =>
              show setAt s.to_visit_j j false k = _
              by_cases hk : k = j
              · subst hk; rw [setAt_same, if_pos rfl]
              · rw [setAt_ne _ _ _ _ hk, if_neg (by intro e; exact hk (Fe2Cat.dim2.inj e))]
                rfl
          · intro d
            cases d with
            | dim1 k => rw [if_neg (by intro e; exact Fe2Cat.noConfusion e)]; rfl
            | dim2 k =>
              show setAt s.cluster_coef_j j _ k = _
              by_cases hk : k = j
              · subst hk; rw [setAt_same, if_pos rfl]
              · rw [setAt_ne _ _ _ _ hk, if_neg (by intro e; exact hk (Fe2Cat.dim2.inj e))]
                rfl
          · rfl
      · rw [if_neg hvis] at h
        have e := Option.some.inj h
        subst e
        apply hJ.keep
        show (match inp.i_sorted_index_j[u]?, inp.i_sorted_sumFE[u]? with
          | some j, some v =>
            if j < inp.n_j ∧ s.to_visit_j j = true then
              some (Fe2Cat.dim2 j, v - s.cluster_coef_i i)
            else none
          | _, _ => none) = _
        rw [hi]
        cases inp.i_sorted_sumFE[u]? with
        | none => rfl
        | some v => exact if_neg (fun hh => hvis hh.2)
    · rw [if_neg hin] at h
      exact Option.noConfusion h

theorem set_reference_log_inv {inp : Fe2Input} {L : List Fe2Event} {s t : Fe2State}
    (h : set_reference inp s = some t) (hJ : Fe2LogInv inp L s) :
    Fe2LogInv inp (L ++ [Fe2Event.ref s]) t := by
  unfold set_reference at h
  cases hf : (List.range' s.j_start (inp.n_j - s.j_start)).find? (fun j => s.to_visit_j j) with
  | none => rw [hf] at h; exact Option.noConfusion h
  | some j =>
    rw [hf] at h
    have e := Option.some.inj h
    subst e
    have hmem := List.mem_of_find?_eq_some hf
    have hp := List.find?_some hf
    rw [List.mem_range'_1] at hmem
    apply hJ.assign (c := Fe2Cat.dim2 j) (v := 0)
    · show Option.map _ _ = _
      rw [hf]
      rfl
    · show j < inp.n_j
      omega
    · exact hp
    · intro d
      cases d with
      | dim1 k => rw [if_neg (by intro e; exact Fe2Cat.noConfusion e)]; rfl
      | dim2 k =>
        show setAt s.to_visit_j j false k = _
        by_cases hk : k = j
        · subst hk; rw [setAt_same, if_pos rfl]
        · rw [setAt_ne _ _ _ _ hk, if_neg (by intro e; exact hk (Fe2Cat.dim2.inj e))]
          rfl
    · intro d
      cases d with
      | dim1 k => rw [if_neg (by intro e; exact Fe2Cat.noConfusion e)]; rfl
      | dim2 k =>
        show setAt s.cluster_coef_j j 0 k = _
        by_cases hk : k = j
        · subst hk; rw [setAt_same, if_pos rfl]
        · rw [setAt_ne _ _ _ _ hk, if_neg (by intro e; exact hk (Fe2Cat.dim2.inj e))]
          rfl
    · rfl

theorem fe2_logged_inv {inp : Fe2Input} (f : Fe2State → Nat → Option Fe2State)
    (ev : Fe2State → Nat → Fe2Event)
    (hf : ∀ L s u t, f s u = some t → Fe2LogInv inp L s → Fe2LogInv inp (L ++ [ev s u]) t)
    (ls : List Fe2Event × Fe2State) (u : Nat) (lt : List Fe2Event × Fe2State)
    (hJ : Fe2LogInv inp ls.1 ls.2) (h : fe2_logged f ev ls u = some lt) :
    Fe2LogInv inp lt.1 lt.2 := by
  unfold fe2_logged at h
  cases hx : f ls.2 u with
  | none => rw [hx] at h; exact Option.noConfusion h
  | some t =>
    rw [hx] at h
    have e := Option.some.inj h
    subst e
    exact hf ls.1 ls.2 u t hx hJ

theorem propagate_j_to_i_log_inv {inp : Fe2Input} {ls lt : List Fe2Event × Fe2State}
    (h : propagate_j_to_i_log inp ls = some lt) (hJ : Fe2LogInv inp ls.1 ls.2) :
    Fe2LogInv inp lt.1 lt.2 := by
  unfold propagate_j_to_i_log at h
  refine foldlM_some_inv _ (fun l : List Fe2Event × Fe2State => Fe2LogInv inp l.1 l.2) ?_ _ _ _
    ?_ h
  · intro l1 j l2 h1 h2
    exact forBucket_some_inv inp.cumtable_j j _
      (fun l : List Fe2Event × Fe2State => Fe2LogInv inp l.1 l.2)
      (fun l3 u l4 h3 h4 => fe2_logged_inv (visit_i inp j) _
        (fun L s u t hs hI => visit_i_log_inv hs hI) l3 u l4 h3 h4) l1 l2 h1 h2
  · exact ⟨hJ.res, hJ.range, hJ.nodup, hJ.vals, hJ.count⟩

theorem propagate_i_to_j_log_inv {inp : Fe2Input} {ls lt : List Fe2Event × Fe2State}
    (h : propagate_i_to_j_log inp ls = some lt) (hJ : Fe2LogInv inp ls.1 ls.2) :
    Fe2LogInv inp lt.1 lt.2 := by
  unfold propagate_i_to_j_log at h
  refine foldlM_some_inv _ (fun l : List Fe2Event × Fe2State => Fe2LogInv inp l.1 l.2) ?_ _ _ _
    ?_ h
  · intro l1 i l2 h1 h2
    exact forBucket_some_inv inp.cumtable_i i _
      (fun l : List Fe2Event × Fe2State => Fe2LogInv inp l.1 l.2)
      (fun l3 u l4 h3 h4 => fe2_logged_inv (visit_j inp i) _
        (fun L s u t hs hI => visit_j_log_inv hs hI) l3 u l4 h3 h4) l1 l2 h1 h2
  · exact ⟨hJ.res, hJ.range, hJ.nodup, hJ.vals, hJ.count⟩

theorem fe2_pass_log_inv {inp : Fe2Input} {ls lt : List Fe2Event × Fe2State}
    (h : fe2_pass_log inp ls = some lt) (hJ : Fe2LogInv inp ls.1 ls.2) :
    Fe2LogInv inp lt.1 lt.2 := by
  unfold fe2_pass_log at h
  have h1 : ∀ l1, (if ls.2.cluster_pending_j.length = 0 then set_reference_log inp ls
      else some ls) = some l1 → Fe2LogInv inp l1.1 l1.2 := by
    intro l1 e
    by_cases hp : ls.2.cluster_pending_j.length = 0
    · rw [if_pos hp] at e
      unfold set_reference_log at e
      cases hx : set_reference inp ls.2 with
      | none => rw [hx] at e; exact Option.noConfusion e
      | some t =>
        rw [hx] at e
        have e2 := Option.some.inj e
        subst e2
        exact set_reference_log_inv hx hJ
    · rw [if_neg hp] at e
      have e2 := Option.some.inj e
      subst e2
      exact hJ
  cases hx : (if ls.2.cluster_pending_j.length = 0 then set_reference_log inp ls
      else some ls) with
  | none => rw [hx] at h; exact Option.noConfusion h
  | some l1 =>
    rw [hx, Option.some_bind] at h
    cases hy : propagate_j_to_i_log inp l1 with
    | none => rw [hy] at h; exact Option.noConfusion h
    | some l2 =>
      rw [hy, Option.some_bind] at h
      exact propagate_i_to_j_log_inv h (propagate_j_to_i_log_inv hy (h1 l1 hx))

theorem fe2_loop_log_inv {inp : Fe2Input} (fuel : Nat) :
    ∀ ls lt : List Fe2Event × Fe2State, fe2_loop_log inp fuel ls = some lt →
      Fe2LogInv inp ls.1 ls.2 → Fe2LogInv inp lt.1 lt.2 := by
  induction fuel with
  | zero =>
    intro ls lt h hJ
    unfold fe2_loop_log at h
    split at h
    · exact Option.noConfusion h
    · have e := Option.some.inj h
      subst e
      exact hJ
  | succ fuel ih =>
    intro ls lt h hJ
    unfold fe2_loop_log at h
    split at h
    · cases hx : fe2_pass_log inp ls with
      | none => rw [hx] at h; exact Option.noConfusion h
      | some l1 =>
        rw [hx, Option.some_bind] at h
        exact ih l1 lt h (fe2_pass_log_inv hx hJ)
    · have e := Option.some.inj h
      subst e
      exact hJ

theorem fe2_init_log_inv (inp : Fe2Input) : Fe2LogInv inp [] fe2_init := by
  refine ⟨?_, ?_, List.nodup_nil, ?_, rfl⟩
  · intro c _
    cases c with
    | dim1 i => exact ⟨fun h => Bool.noConfusion h, fun h => absurd h (List.not_mem_nil _)⟩
    | dim2 j => exact ⟨fun h => Bool.noConfusion h, fun h => absurd h (List.not_mem_nil _)⟩
  · intro c hc
    exact absurd hc (List.not_mem_nil _)
  · intro w hw
    exact absurd hw (List.not_mem_nil _)

/-- On every valid input the loop with its log ends, in the state in which `fe2_loop`
ends, and the invariant holds there. -/
theorem fe2_log_ok {inp : Fe2Input} (hv : Fe2Views inp) (fuel : Nat)
    (hf : 2 * (inp.n_i + inp.n_j) ≤ fuel) :
    ∃ L t, fe2_run_log fuel inp = some (L, t) ∧ fe2_loop inp fuel fe2_init = some t ∧
      Fe2LogInv inp L t ∧ t.n_done = inp.n_i + inp.n_j ∧
      (∀ i < inp.n_i, t.to_visit_i i = false) ∧ (∀ j < inp.n_j, t.to_visit_j j = false) := by
  obtain ⟨t, ht, _, hn, hi, hj⟩ := fe2_run (fun _ => 0) (fun _ => 0) hv fuel hf
  have hsnd := fe2_run_log_snd fuel inp
  rw [ht] at hsnd
  cases hl : fe2_run_log fuel inp with
  | none => rw [hl] at hsnd; exact Option.noConfusion hsnd
  | some lt =>
    rw [hl] at hsnd
    have e : lt.2 = t := Option.some.inj hsnd
    have hJ := fe2_loop_log_inv fuel ([], fe2_init) lt hl (fe2_init_log_inv inp)
    rw [e] at hJ
    refine ⟨lt.1, t, ?_, ht, hJ, hn, hi, hj⟩
    rw [← e]

/-- C10 (termination of the Bipartite Recoverer with everything resolved).  On every
valid input the `while` loop ends within `2 * (n_i + n_j)` passes.  On exit the
resolved count `n_done` is exactly `n_i + n_j` and is the number of assignments of a
coefficient made by the run; every category of either dimension has been visited and
has been assigned a coefficient exactly once: it occurs once among the assignments of
the run, and the coefficient returned for it is the value assigned there. -/
theorem fe2_terminates_all_resolved (inp : Fe2Input) (hv : Fe2Valid inp) (fuel : Nat)
    (hf : 2 * (inp.n_i + inp.n_j) ≤ fuel) :
    ∃ L t, fe2_run_log fuel inp = some (L, t) ∧ fe2_loop inp fuel fe2_init = some t ∧
      cpp_get_fe_2 fuel inp = some (fe2_table inp t) ∧
      t.n_done = inp.n_i + inp.n_j ∧
      (fe2_writes inp L).length = inp.n_i + inp.n_j ∧
      (∀ i < inp.n_i, t.to_visit_i i = false ∧
        (fe2_resolved inp L).count (Fe2Cat.dim1 i) = 1 ∧
        ∃ v, (Fe2Cat.dim1 i, v) ∈ fe2_writes inp L ∧ t.cluster_coef_i i = v ∧
          fe2_coef (fe2_table inp t) i = v) ∧
      (∀ j < inp.n_j, t.to_visit_j j = false ∧
        (fe2_resolved inp L).count (Fe2Cat.dim2 j) = 1 ∧
        ∃ v, (Fe2Cat.dim2 j, v) ∈ fe2_writes inp L ∧ t.cluster_coef_j j = v ∧
          fe2_coef (fe2_table inp t) (inp.n_i + j) = v) := by
  obtain ⟨L, t, hl, ht, hJ, hn, hi, hj⟩ := fe2_log_ok hv.views fuel hf
  have key : ∀ c : Fe2Cat, c.inRange inp → fe2_todo t c = false →
      (fe2_resolved inp L).count c = 1 ∧
      ∃ v, (c, v) ∈ fe2_writes inp L ∧ fe2_value t c = v := by
    intro c hc htodo
    have hmem := (hJ.res c hc).1 htodo
    refine ⟨List.count_eq_one_of_mem hJ.nodup hmem, ?_⟩
    unfold fe2_resolved at hmem
    rw [List.mem_map] at hmem
    obtain ⟨w, hw, hwc⟩ := hmem
    refine ⟨w.2, ?_, ?_⟩
    · rw [← hwc]
      exact hw
    · rw [← hwc]
      exact hJ.vals w hw
  refine ⟨L, t, hl, ht, cpp_get_fe_2_eq ht, hn, by rw [← hJ.count]; exact hn, ?_, ?_⟩
  · intro i hi2
    obtain ⟨k1, v, k2, k3⟩ := key (Fe2Cat.dim1 i) hi2 (hi i hi2)
    exact ⟨hi i hi2, k1, v, k2, k3, by rw [fe2_coef_i inp t i hi2]; exact k3⟩
  · intro j hj2
    obtain ⟨k1, v, k2, k3⟩ := key (Fe2Cat.dim2 j) hj2 (hj j hj2)
    exact ⟨hj j hj2, k1, v, k2, k3, by rw [fe2_coef_j inp t j hj2]; exact k3⟩

/-- C10 on the scenario of the specification: four categories, four assignments. -/
theorem fe2_terminates_all_resolved_witness :
    Fe2Valid fe2_example ∧
    (fe2_run_log 8 fe2_example).map (fun r => fe2_writes fe2_example r.1) =
      some [(Fe2Cat.dim2 0, 0), (Fe2Cat.dim1 0, 5), (Fe2Cat.dim1 1, 8), (Fe2Cat.dim2 1, 2)] ∧
    ∃ L t, fe2_run_log 8 fe2_example = some (L, t) ∧ t.n_done = 4 ∧
      (fe2_writes fe2_example L).length = 4 := by
  refine ⟨fe2_example_valid, by decide!, ?_⟩
  obtain ⟨L, t, h1, _, _, h2, h3, _⟩ :=
    fe2_terminates_all_resolved fe2_example fe2_example_valid 8 (by decide)
  exact ⟨L, t, h1, h2, h3⟩

end Fixest
